import Mathlib

/-!
# conftest `parse` command: aggregation and serialization of parsed configurations

Shallow embedding of `internal/commands/parse.go` (`parseConfigurations`,
`parseInput`) together with the three standard-library operations it is built
from: `json.Marshal`, `json.Indent` (with the `encoding/json` scanner) and
`strings.Replace(_, "\\r", "", -1)`.

Conventions of the embedding.

* Go strings are byte strings; here a text is a list of Unicode characters
  (`Text`).  Every byte the modelled code inspects is ASCII, and an ASCII byte
  never occurs inside a multi-byte UTF-8 sequence, so the byte-wise functions
  act on valid UTF-8 exactly as their character-wise models below.
* A `map[string]interface{}` is given by an enumeration of its entries, in the
  order in which `range` visits them; the keys of a real map are distinct.
* The global flag read through `viper.GetBool(combineConfigFlagName)` is an
  explicit parameter `combine`.
* A number is given by what decides its rendering.  The number `num n` is
  printed as the decimal integer `n`: it is an integer value `n` (`int`,
  `int64`, `uint64`, ...), or an integral `float64` of magnitude below `1e21`
  other than the negative zero, for which `n` is the integer that `strconv`
  prints (the value itself up to `2^53`, its shortest decimal followed by
  zeros beyond).  Any other `float64` is NaN, an infinity, or is given by its
  sign and the shortest decimal that `strconv` computes for it and then lays
  out with `fmtE` or `fmtF`; two different finite `float64` have different
  shortest decimals, which is what makes the printed number read back as the
  same `float64`.
* The standard library is the one of the Go releases 1.15 to 1.20: `\b` and
  `\f` are written as `\u0008` and `\u000c`, the scanner lets at most
  `maxNestingDepth` arrays and objects be open at once, and `json.Indent`
  copies white space that follows the top-level value.
-/

namespace Conftest

set_option linter.unusedTactic false
set_option linter.unreachableTactic false
set_option linter.unusedVariables false

/-- A Go string, as the list of its characters. -/
abbrev Text := List Char

/-- A Go `error`: a message, or an error wrapped by `fmt.Errorf("...: %w", err)`. -/
inductive GoError where
  | base (msg : String)
  | wrap (context : String) (cause : GoError)
  deriving DecidableEq, Repr

/-- The text of `err.Error()`. -/
def GoError.message : GoError → String
  | .base m => m
  | .wrap c e => c ++ e.message

/-- The result of `errors.Unwrap(err)`. -/
def GoError.unwrap : GoError → Option GoError
  | .base _ => none
  | .wrap _ e => some e

/-- The type `decimalSlice` of `strconv`: the decimal digits `d` (their number
is `nd` in Go) and the position `dp` of the decimal point, for the magnitude
`0.d × 10^dp`. -/
structure decimalSlice where
  d : Text
  dp : Int

/-- Decimal digit test, `'0' <= c && c <= '9'`. -/
def isDigit (c : Char) : Bool := decide (48 ≤ c.toNat) && decide (c.toNat ≤ 57)

/-- Test `'1' <= c && c <= '9'`. -/
def isDigit19 (c : Char) : Bool := decide (49 ≤ c.toNat) && decide (c.toNat ≤ 57)

/-- The shortest decimals of the finite `float64` that are not printed as a
decimal integer.  The negative zero has no digit and `dp = 0`.  Otherwise
there are 1 to 17 digits, the first and the last of them not `0`; `dp` lies
between -323 (for `5e-324`) and 309 (for `1.7976931348623157e+308`); and the
value has a fractional part (more digits than `dp`) or a magnitude of `1e21`
or more (`dp` at least 22). -/
def decimalSlice.shortest (neg : Bool) (digs : decimalSlice) : Bool :=
  match digs.d with
  | [] => neg && decide (digs.dp = 0)
  | c :: cs =>
    isDigit19 c && cs.all isDigit && (c :: cs).getLast?.all (fun x => x != '0') &&
      decide (cs.length + 1 ≤ 17) && decide (-323 ≤ digs.dp) && decide (digs.dp ≤ 309) &&
      (decide (digs.dp < (cs.length + 1 : Nat)) || decide (22 ≤ digs.dp))

/-- A `float64` that `json.Marshal` does not print as a decimal integer: NaN,
an infinity, or a finite value given by its sign bit and its shortest
decimal. -/
inductive Float64 where
  | nan
  | inf (neg : Bool)
  | finite (neg : Bool) (digs : decimalSlice) (h : digs.shortest neg = true)

/-- The `float64` 1.5, with the shortest decimal `0.15 × 10^1`. -/
def Float64.oneAndHalf : Float64 := .finite false ⟨['1', '5'], 1⟩ (by decide)

/-- The `float64` -2.5e-7, with the shortest decimal `0.25 × 10^-6`. -/
def Float64.tiny : Float64 := .finite true ⟨['2', '5'], -6⟩ (by decide)

/-- Whether the `float64` is neither NaN nor an infinity. -/
def Float64.isFinite : Float64 → Bool
  | .finite _ _ _ => true
  | _ => false

/-- A value of type `interface{}` as handed over by the parsers: the generic
document tree, plus `unsupported` for a Go value `json.Marshal` has no encoding
for (for instance a `map[interface{}]interface{}`), tagged by its Go type.
A number is `num n` when it is printed as the decimal integer `n`, and
`float f` otherwise. -/
inductive Doc where
  | null
  | bool (b : Bool)
  | num (n : Int)
  | float (f : Float64)
  | str (s : String)
  | arr (xs : List Doc)
  | obj (ms : List (String × Doc))
  | unsupported (goType : String)

/-! ## `strconv`: decimal integers -/

/-- The decimal digit `d` (for `d < 10`). -/
def digitChar (d : Nat) : Char := Char.ofNat (48 + d)

/-- The digit loop of `strconv.formatBits` in base 10; the first argument bounds
the number of digits. -/
def formatBits : Nat → Nat → Text
  | 0, _ => []
  | fuel + 1, n =>
    if n < 10 then [digitChar n] else formatBits fuel (n / 10) ++ [digitChar (n % 10)]

/-- Decimal rendering of a natural number. -/
def formatNat (n : Nat) : Text := formatBits (n + 1) n

/-- Decimal rendering as done by `strconv.AppendInt(b, n, 10)`. -/
def formatInt : Int → Text
  | .ofNat n => formatNat n
  | .negSucc n => '-' :: formatNat (n + 1)

/-! ## `strconv`: floating-point numbers -/

/-- The function `fmtE` of `strconv` (`%e`: `-d.ddddde±dd`): the first digit,
the `prec` digits after the point, padded with zeros, and the exponent `dp - 1`
with its sign and two digits at least.  A `float64` has an exponent below
1000. -/
def fmtE (neg : Bool) (d : decimalSlice) (prec : Nat) : Text :=
  let nd := d.d.length
  let m := min nd (prec + 1)
  let exp : Int := if nd = 0 then 0 else d.dp - 1
  let e : Nat := exp.natAbs
  (if neg then ['-'] else []) ++
    d.d.headD '0' ::
      ((if 0 < prec then
          '.' :: ((d.d.take m).drop 1 ++ List.replicate (prec + 1 - max 1 m) '0')
        else []) ++
        'e' :: (if exp < 0 then '-' else '+') ::
          (if e < 10 then ['0', digitChar e]
          else if e < 100 then [digitChar (e / 10), digitChar (e % 10)]
          else [digitChar (e / 100), digitChar (e / 10 % 10), digitChar (e % 10)]))

/-- The function `fmtF` of `strconv` (`%f`: `-ddddddd.ddddd`): the integer part,
padded with zeros as needed, and `prec` digits after the point. -/
def fmtF (neg : Bool) (d : decimalSlice) (prec : Nat) : Text :=
  let nd := d.d.length
  (if neg then ['-'] else []) ++
    ((if 0 < d.dp then
        d.d.take (min nd d.dp.toNat) ++ List.replicate (d.dp.toNat - min nd d.dp.toNat) '0'
      else ['0']) ++
      (if 0 < prec then
        '.' :: (List.range prec).map fun (i : Nat) =>
          if 0 ≤ d.dp + (i : Int) ∧ d.dp + (i : Int) < (nd : Int) then
            d.d.getD (d.dp + (i : Int)).toNat '0'
          else '0'
      else []))

/-- The call `strconv.AppendFloat(b, f, fmt, -1, 64)` for a finite `f` with the
sign `neg` and the shortest decimal `digs`, for `fmt` one of `e` and `f`: in
the shortest mode the precision is `max(nd - 1, 0)` for `%e` and
`max(nd - dp, 0)` for `%f`. -/
def AppendFloat (neg : Bool) (digs : decimalSlice) (fmt : Char) : Text :=
  if fmt = 'e' then fmtE neg digs (digs.d.length - 1)
  else fmtF neg digs ((digs.d.length : Int) - digs.dp).toNat

/-! ## `encoding/json`: the encoder (`json.Marshal`) -/

/-- The clean-up of `e-09` to `e-9` in `floatEncoder.encode`: when the last
four bytes are `e`, `-`, `0` and a digit, the `0` is dropped. -/
def cleanExponent (b : Text) : Text :=
  let n := b.length
  if 4 ≤ n ∧ b.getD (n - 4) ' ' = 'e' ∧ b.getD (n - 3) ' ' = '-' ∧ b.getD (n - 2) ' ' = '0' then
    b.take (n - 2) ++ [b.getD (n - 1) ' ']
  else b

/-- The method `floatEncoder.encode` for a `float64`: an error for NaN and the
infinities; otherwise `%e` with the clean-up of the exponent when the
magnitude is not zero and is below `1e-6` or at least `1e21`, and `%f` in all
other cases.  The magnitude `0.d × 10^dp`, with a first digit that is not `0`,
is below `1e-6` exactly when `dp ≤ -6`, and at least `1e21` exactly when
`22 ≤ dp`. -/
def floatEncoder : Float64 → Except GoError Text
  | .nan => .error (.base "json: unsupported value: NaN")
  | .inf neg => .error (.base ("json: unsupported value: " ++ if neg then "-Inf" else "+Inf"))
  | .finite neg digs _ =>
    let fmt : Char := if digs.d ≠ [] ∧ (digs.dp ≤ -6 ∨ 22 ≤ digs.dp) then 'e' else 'f'
    let b := AppendFloat neg digs fmt
    .ok (if fmt = 'e' then cleanExponent b else b)

/-- The table `hex` of `encoding/json`. -/
def hexDigit (n : Nat) : Char := "0123456789abcdef".toList.getD n '0'

/-- Membership in `htmlSafeSet`: the ASCII bytes written as they are. -/
def htmlSafe (c : Char) : Bool :=
  decide (32 ≤ c.toNat) && decide (c.toNat < 128) &&
    !(c == '"' || c == '\\' || c == '<' || c == '>' || c == '&')

/-- What `encodeState.string` (with `escapeHTML = true`) writes for one
character of the string. -/
def encodeChar (c : Char) : Text :=
  if c.toNat < 128 then
    if htmlSafe c then [c]
    else if c = '\\' ∨ c = '"' then ['\\', c]
    else if c = '\n' then ['\\', 'n']
    else if c = '\r' then ['\\', 'r']
    else if c = '\t' then ['\\', 't']
    else ['\\', 'u', '0', '0', hexDigit (c.toNat / 16), hexDigit (c.toNat % 16)]
  else if c.toNat = 8232 ∨ c.toNat = 8233 then
    ['\\', 'u', '2', '0', '2', hexDigit (c.toNat % 16)]
  else [c]

/-- The body of a JSON string literal, between the quotes. -/
def encodeBody : Text → Text
  | [] => []
  | c :: cs => encodeChar c ++ encodeBody cs

/-- The function `encodeState.string`: a quoted, escaped JSON string literal. -/
def encodeString (s : Text) : Text := '"' :: (encodeBody s ++ ['"'])

/-- Byte-wise `<` on strings (on valid UTF-8 it is the code-point order). -/
def keyLess : Text → Text → Bool
  | [], [] => false
  | [], _ :: _ => true
  | _ :: _, [] => false
  | a :: as, b :: bs =>
    if a.toNat < b.toNat then true
    else if b.toNat < a.toNat then false
    else keyLess as bs

/-- Insertion of one keyed item into a list sorted by key. -/
def insertMember {α : Type} (e : String × α) : List (String × α) → List (String × α)
  | [] => [e]
  | f :: fs =>
    if keyLess f.1.toList e.1.toList then f :: insertMember e fs else e :: f :: fs

/-- The `sort.Slice(sv, func(i, j) bool { return sv[i].s < sv[j].s })` of the map
encoder.  The keys of a map are distinct, so the sorted order does not depend
on the sorting algorithm. -/
def sortMembers {α : Type} : List (String × α) → List (String × α)
  | [] => []
  | e :: es => insertMember e (sortMembers es)

/-- Elements of an array, separated by commas. -/
def joinElems : List Text → Text
  | [] => []
  | [t] => t
  | t :: ts => t ++ ',' :: joinElems ts

/-- Encodes the members of an object in the given order, `"key":value` separated
by commas, stopping at the first value that could not be encoded. -/
def joinMembers : List (String × Except GoError Text) → Except GoError Text
  | [] => .ok []
  | [(k, v)] =>
    match v with
    | .error e => .error e
    | .ok t => .ok (encodeString k.toList ++ ':' :: t)
  | (k, v) :: ms =>
    match v with
    | .error e => .error e
    | .ok t =>
      match joinMembers ms with
      | .error e => .error e
      | .ok r => .ok (encodeString k.toList ++ ':' :: t ++ ',' :: r)

mutual
/-- The function `json.Marshal` on a generic document: compact JSON, object
members in ascending key order, or the error of the first value (in output
order) that has no encoding. -/
def Marshal : Doc → Except GoError Text
  | .null => .ok ['n', 'u', 'l', 'l']
  | .bool true => .ok ['t', 'r', 'u', 'e']
  | .bool false => .ok ['f', 'a', 'l', 's', 'e']
  | .num n => .ok (formatInt n)
  | .float f => floatEncoder f
  | .str s => .ok (encodeString s.toList)
  | .arr xs =>
    match marshalElems xs with
    | .error e => .error e
    | .ok ts => .ok ('[' :: (joinElems ts ++ [']']))
  | .obj ms =>
    match joinMembers (sortMembers (marshalMembers ms)) with
    | .error e => .error e
    | .ok t => .ok ('{' :: (t ++ ['}']))
  | .unsupported goType => .error (.base ("json: unsupported type: " ++ goType))
/-- The array encoder: the elements in order, up to the first failure. -/
def marshalElems : List Doc → Except GoError (List Text)
  | [] => .ok []
  | d :: ds =>
    match Marshal d with
    | .error e => .error e
    | .ok t =>
      match marshalElems ds with
      | .error e => .error e
      | .ok ts => .ok (t :: ts)
/-- The encoding (or failure) of each member value, keyed as in the map. -/
def marshalMembers : List (String × Doc) → List (String × Except GoError Text)
  | [] => []
  | (k, d) :: ms => (k, Marshal d) :: marshalMembers ms
end

/-! ## `encoding/json`: the scanner -/

/-- The values returned by the state transition functions of the scanner. -/
inductive ScanCode where
  | scanContinue
  | scanBeginLiteral
  | scanBeginObject
  | scanObjectKey
  | scanObjectValue
  | scanEndObject
  | scanBeginArray
  | scanArrayValue
  | scanEndArray
  | scanSkipSpace
  | scanEnd
  | scanError
  deriving DecidableEq, Repr

/-- The entries of the scanner's `parseState` stack. -/
inductive ParseState where
  | parseObjectKey
  | parseObjectValue
  | parseArrayValue
  deriving DecidableEq, Repr

/-- The state transition functions, as the values the field `step` ranges over. -/
inductive StepFn where
  | stateBeginValueOrEmpty
  | stateBeginValue
  | stateBeginStringOrEmpty
  | stateBeginString
  | stateEndValue
  | stateEndTop
  | stateInString
  | stateInStringEsc
  | stateInStringEscU
  | stateInStringEscU1
  | stateInStringEscU12
  | stateInStringEscU123
  | stateNeg
  | state1
  | state0
  | stateDot
  | stateDot0
  | stateE
  | stateESign
  | stateE0
  | stateT
  | stateTr
  | stateTru
  | stateF
  | stateFa
  | stateFal
  | stateFals
  | stateN
  | stateNu
  | stateNul
  | stateError
  deriving DecidableEq, Repr

/-- The JSON scanning state machine.  The top of `parseState` is the head of the
list; `err` holds the message of the reported `SyntaxError`. -/
structure Scanner where
  step : StepFn
  endTop : Bool
  parseState : List ParseState
  err : Option String
  deriving DecidableEq, Repr

/-- The state after `scanner.reset`. -/
def Scanner.reset : Scanner :=
  { step := .stateBeginValue, endTop := false, parseState := [], err := none }

/-- The function `isSpace`. -/
def isSpace (c : Char) : Bool := c == ' ' || c == '\t' || c == '\r' || c == '\n'

/-- Hexadecimal digit test of the `\u` escape states. -/
def isHexDigit (c : Char) : Bool :=
  isDigit c || (decide (97 ≤ c.toNat) && decide (c.toNat ≤ 102)) ||
    (decide (65 ≤ c.toNat) && decide (c.toNat ≤ 70))

/-- The first byte of the UTF-8 encoding of the character: the byte on which
the scanner stops when it refuses the character. -/
def leadByte (c : Char) : Nat :=
  if c.toNat < 128 then c.toNat
  else if c.toNat < 2048 then 192 + c.toNat / 64
  else if c.toNat < 65536 then 224 + c.toNat / 4096
  else 240 + c.toNat / 262144

/-- The function `quoteChar` on the byte `b`: the byte between single quotes,
written as `strconv.Quote(string(b))` writes the character U+00`b`, except that
a single quote is escaped and a double quote is not.  The byte 0x7f is written
`\x7f`, as from Go 1.19 on (`\u007f` before). -/
def quoteChar (b : Nat) : String :=
  if b = 39 then "'\\''"
  else if b = 34 then "'\"'"
  else
    "'" ++
      (if b = 92 then "\\\\"
      else if (32 ≤ b ∧ b < 127) ∨ (161 ≤ b ∧ b ≠ 173) then String.singleton (Char.ofNat b)
      else if b = 7 then "\\a"
      else if b = 8 then "\\b"
      else if b = 12 then "\\f"
      else if b = 10 then "\\n"
      else if b = 13 then "\\r"
      else if b = 9 then "\\t"
      else if b = 11 then "\\v"
      else if b < 32 ∨ b = 127 then "\\x" ++ String.mk [hexDigit (b / 16), hexDigit (b % 16)]
      else "\\u00" ++ String.mk [hexDigit (b / 16), hexDigit (b % 16)]) ++
      "'"

/-- The method `scanner.error`: records the error `invalid character`, the
quoted byte and the context, and kills the scanner. -/
def Scanner.error (s : Scanner) (c : Char) (context : String) : Scanner × ScanCode :=
  ({ s with
      step := .stateError,
      err := some ("invalid character " ++ quoteChar (leadByte c) ++ " " ++ context) },
    .scanError)

/-- The constant `maxNestingDepth`: the nesting of arrays and objects past
which the scanner reports an error. -/
def maxNestingDepth : Nat := 10000

/-- The method `scanner.pushParseState`: pushes `newParseState` and returns
`successState`, or the error `exceeded max depth` when the stack has grown
past `maxNestingDepth`. -/
def Scanner.pushParseState (s : Scanner) (c : Char) (newParseState : ParseState)
    (successState : ScanCode) : Scanner × ScanCode :=
  let s1 : Scanner := { s with parseState := newParseState :: s.parseState }
  if s1.parseState.length ≤ maxNestingDepth then (s1, successState)
  else s1.error c "exceeded max depth"

/-- The message of the scanner's error for the array or object that the byte
`c` opens past `maxNestingDepth`: `invalid character '[' exceeded max depth`
for an array. -/
def depthMessage (c : Char) : String :=
  "invalid character " ++ quoteChar (leadByte c) ++ " " ++ "exceeded max depth"

/-- The scanner has stopped on an array or object nested too deep. -/
def DepthStop (s : Scanner) : Prop :=
  ∃ c, (c = '[' ∨ c = '{') ∧ s.err = some (depthMessage c)

/-- The method `scanner.popParseState`. -/
def Scanner.popParseState (s : Scanner) : Scanner :=
  match s.parseState.tail with
  | [] => { s with parseState := [], step := .stateEndTop, endTop := true }
  | p :: ps => { s with parseState := p :: ps, step := .stateEndValue }

/-- The state `stateEndTop`: only space may follow the top-level value. -/
def stateEndTop (s : Scanner) (c : Char) : Scanner × ScanCode :=
  if !isSpace c then ((s.error c "after top-level value").1, .scanEnd) else (s, .scanEnd)

/-- The state `stateEndValue`: after a value, such as after a quoted string. -/
def stateEndValue (s : Scanner) (c : Char) : Scanner × ScanCode :=
  match s.parseState with
  | [] => stateEndTop { s with step := .stateEndTop, endTop := true } c
  | ps :: rest =>
    if isSpace c then ({ s with step := .stateEndValue }, .scanSkipSpace)
    else
      match ps with
      | .parseObjectKey =>
        if c = ':' then
          ({ s with parseState := .parseObjectValue :: rest, step := .stateBeginValue },
            .scanObjectKey)
        else s.error c "after object key"
      | .parseObjectValue =>
        if c = ',' then
          ({ s with parseState := .parseObjectKey :: rest, step := .stateBeginString },
            .scanObjectValue)
        else if c = '}' then (s.popParseState, .scanEndObject)
        else s.error c "after object key:value pair"
      | .parseArrayValue =>
        if c = ',' then ({ s with step := .stateBeginValue }, .scanArrayValue)
        else if c = ']' then (s.popParseState, .scanEndArray)
        else s.error c "after array element"

/-- The state `stateBeginValue`: at the beginning of input or of a value. -/
def stateBeginValue (s : Scanner) (c : Char) : Scanner × ScanCode :=
  if isSpace c then (s, .scanSkipSpace)
  else if c = '{' then
    { s with step := .stateBeginStringOrEmpty }.pushParseState c .parseObjectKey .scanBeginObject
  else if c = '[' then
    { s with step := .stateBeginValueOrEmpty }.pushParseState c .parseArrayValue .scanBeginArray
  else if c = '"' then ({ s with step := .stateInString }, .scanBeginLiteral)
  else if c = '-' then ({ s with step := .stateNeg }, .scanBeginLiteral)
  else if c = '0' then ({ s with step := .state0 }, .scanBeginLiteral)
  else if c = 't' then ({ s with step := .stateT }, .scanBeginLiteral)
  else if c = 'f' then ({ s with step := .stateF }, .scanBeginLiteral)
  else if c = 'n' then ({ s with step := .stateN }, .scanBeginLiteral)
  else if isDigit19 c then ({ s with step := .state1 }, .scanBeginLiteral)
  else s.error c "looking for beginning of value"

/-- The state `stateBeginValueOrEmpty`: after reading `[`. -/
def stateBeginValueOrEmpty (s : Scanner) (c : Char) : Scanner × ScanCode :=
  if isSpace c then (s, .scanSkipSpace)
  else if c = ']' then stateEndValue s c
  else stateBeginValue s c

/-- The state `stateBeginString`: after reading `{"key": value,`. -/
def stateBeginString (s : Scanner) (c : Char) : Scanner × ScanCode :=
  if isSpace c then (s, .scanSkipSpace)
  else if c = '"' then ({ s with step := .stateInString }, .scanBeginLiteral)
  else s.error c "looking for beginning of object key string"

/-- The state `stateBeginStringOrEmpty`: after reading `{`. -/
def stateBeginStringOrEmpty (s : Scanner) (c : Char) : Scanner × ScanCode :=
  if isSpace c then (s, .scanSkipSpace)
  else if c = '}' then
    stateEndValue { s with parseState := .parseObjectValue :: s.parseState.tail } c
  else stateBeginString s c

/-- The state `stateInString`: inside a quoted string. -/
def stateInString (s : Scanner) (c : Char) : Scanner × ScanCode :=
  if c = '"' then ({ s with step := .stateEndValue }, .scanContinue)
  else if c = '\\' then ({ s with step := .stateInStringEsc }, .scanContinue)
  else if c.toNat < 32 then s.error c "in string literal"
  else (s, .scanContinue)

/-- The state `stateInStringEsc`: after a backslash inside a quoted string. -/
def stateInStringEsc (s : Scanner) (c : Char) : Scanner × ScanCode :=
  if c = 'b' ∨ c = 'f' ∨ c = 'n' ∨ c = 'r' ∨ c = 't' ∨ c = '\\' ∨ c = '/' ∨ c = '"' then
    ({ s with step := .stateInString }, .scanContinue)
  else if c = 'u' then ({ s with step := .stateInStringEscU }, .scanContinue)
  else s.error c "in string escape code"

/-- The four states `stateInStringEscU`, `...U1`, `...U12`, `...U123`, which
expect a hexadecimal digit and move on to `next`. -/
def stateHex (next : StepFn) (s : Scanner) (c : Char) : Scanner × ScanCode :=
  if isHexDigit c then ({ s with step := next }, .scanContinue)
  else s.error c "in \\u hexadecimal character escape"

/-- The state `state0`: after reading `0` during a number. -/
def state0 (s : Scanner) (c : Char) : Scanner × ScanCode :=
  if c = '.' then ({ s with step := .stateDot }, .scanContinue)
  else if c = 'e' ∨ c = 'E' then ({ s with step := .stateE }, .scanContinue)
  else stateEndValue s c

/-- The state `state1`: after reading a non-zero integer during a number. -/
def state1 (s : Scanner) (c : Char) : Scanner × ScanCode :=
  if isDigit c then ({ s with step := .state1 }, .scanContinue) else state0 s c

/-- The state `stateNeg`: after reading `-` during a number. -/
def stateNeg (s : Scanner) (c : Char) : Scanner × ScanCode :=
  if c = '0' then ({ s with step := .state0 }, .scanContinue)
  else if isDigit19 c then ({ s with step := .state1 }, .scanContinue)
  else s.error c "in numeric literal"

/-- The state `stateDot`: after reading the integer and decimal point. -/
def stateDot (s : Scanner) (c : Char) : Scanner × ScanCode :=
  if isDigit c then ({ s with step := .stateDot0 }, .scanContinue)
  else s.error c "after decimal point in numeric literal"

/-- The state `stateDot0`: after reading the integer, decimal point and digits. -/
def stateDot0 (s : Scanner) (c : Char) : Scanner × ScanCode :=
  if isDigit c then (s, .scanContinue)
  else if c = 'e' ∨ c = 'E' then ({ s with step := .stateE }, .scanContinue)
  else stateEndValue s c

/-- The state `stateESign`: after reading the mantissa, `e` and a sign. -/
def stateESign (s : Scanner) (c : Char) : Scanner × ScanCode :=
  if isDigit c then ({ s with step := .stateE0 }, .scanContinue)
  else s.error c "in exponent of numeric literal"

/-- The state `stateE`: after reading the mantissa and `e`. -/
def stateE (s : Scanner) (c : Char) : Scanner × ScanCode :=
  if c = '+' ∨ c = '-' then ({ s with step := .stateESign }, .scanContinue)
  else stateESign s c

/-- The state `stateE0`: after reading the mantissa, `e`, a sign and digits. -/
def stateE0 (s : Scanner) (c : Char) : Scanner × ScanCode :=
  if isDigit c then (s, .scanContinue) else stateEndValue s c

/-- The states inside `true`, `false` and `null` other than the last: expect
the character `want` and move on to `next`. -/
def stateLit (want : Char) (next : StepFn) (context : String) (s : Scanner) (c : Char) :
    Scanner × ScanCode :=
  if c = want then ({ s with step := next }, .scanContinue) else s.error c context

/-- One call `s.step(s, c)`: dispatch on the current state function. -/
def Scanner.run (s : Scanner) (c : Char) : Scanner × ScanCode :=
  match s.step with
  | .stateBeginValueOrEmpty => stateBeginValueOrEmpty s c
  | .stateBeginValue => stateBeginValue s c
  | .stateBeginStringOrEmpty => stateBeginStringOrEmpty s c
  | .stateBeginString => stateBeginString s c
  | .stateEndValue => stateEndValue s c
  | .stateEndTop => stateEndTop s c
  | .stateInString => stateInString s c
  | .stateInStringEsc => stateInStringEsc s c
  | .stateInStringEscU => stateHex .stateInStringEscU1 s c
  | .stateInStringEscU1 => stateHex .stateInStringEscU12 s c
  | .stateInStringEscU12 => stateHex .stateInStringEscU123 s c
  | .stateInStringEscU123 => stateHex .stateInString s c
  | .stateNeg => stateNeg s c
  | .state1 => state1 s c
  | .state0 => state0 s c
  | .stateDot => stateDot s c
  | .stateDot0 => stateDot0 s c
  | .stateE => stateE s c
  | .stateESign => stateESign s c
  | .stateE0 => stateE0 s c
  | .stateT => stateLit 'r' .stateTr "in literal true (expecting 'r')" s c
  | .stateTr => stateLit 'u' .stateTru "in literal true (expecting 'u')" s c
  | .stateTru => stateLit 'e' .stateEndValue "in literal true (expecting 'e')" s c
  | .stateF => stateLit 'a' .stateFa "in literal false (expecting 'a')" s c
  | .stateFa => stateLit 'l' .stateFal "in literal false (expecting 'l')" s c
  | .stateFal => stateLit 's' .stateFals "in literal false (expecting 's')" s c
  | .stateFals => stateLit 'e' .stateEndValue "in literal false (expecting 'e')" s c
  | .stateN => stateLit 'u' .stateNu "in literal null (expecting 'u')" s c
  | .stateNu => stateLit 'l' .stateNul "in literal null (expecting 'l')" s c
  | .stateNul => stateLit 'l' .stateEndValue "in literal null (expecting 'l')" s c
  | .stateError => (s, .scanError)

/-- The method `scanner.eof`: the input is over; `scanError` unless it ended
right after a complete top-level value. -/
def Scanner.eof (s : Scanner) : Scanner × ScanCode :=
  if s.err.isSome then (s, .scanError)
  else if s.endTop then (s, .scanEnd)
  else
    let s1 := (s.run ' ').1
    if s1.endTop then (s1, .scanEnd)
    else if s1.err.isNone then
      ({ s1 with err := some "unexpected end of JSON input" }, .scanError)
    else (s1, .scanError)

/-- The loop of `checkValid`: feeds the text to the scanner, up to an error. -/
def checkValidLoop : Scanner → Text → Scanner × Bool
  | s, [] => (s, true)
  | s, c :: cs =>
    match s.run c with
    | (s1, .scanError) => (s1, false)
    | (s1, _) => checkValidLoop s1 cs

/-- The function `json.Valid`: the text is one well-formed JSON value. -/
def Valid (data : Text) : Bool :=
  match checkValidLoop Scanner.reset data with
  | (_, false) => false
  | (s, true) => decide ((s.eof).2 ≠ .scanError)

/-! ## `encoding/json`: `json.Indent` -/

/-- The function `newline` of `indent.go`: a line break, the line prefix and
`depth` copies of the indentation. -/
def newline (dst pfx indent : Text) (depth : Int) : Text :=
  dst ++ '\n' :: (pfx ++ (List.replicate depth.toNat indent).flatten)

/-- The loop of `json.Indent` over the bytes of `src`, from the scanner state
`scan`, the flag `needIndent`, the nesting `depth` and the output `dst` written
so far.  It stops at the end of the input or at the first scanner error. -/
def indentLoop (pfx indent : Text) : Scanner → Bool → Int → Text → Text → Scanner × Text
  | scan, _, _, dst, [] => (scan, dst)
  | scan, needIndent, depth, dst, c :: src =>
    match scan.run c with
    | (scan1, v) =>
      if v = .scanSkipSpace then indentLoop pfx indent scan1 needIndent depth dst src
      else if v = .scanError then (scan1, dst)
      else
        let fire : Bool := needIndent && (v != .scanEndObject && v != .scanEndArray)
        let needIndent1 : Bool := if fire then false else needIndent
        let depth1 : Int := if fire then depth + 1 else depth
        let dst1 : Text := if fire then newline dst pfx indent depth1 else dst
        if v = .scanContinue then
          indentLoop pfx indent scan1 needIndent1 depth1 (dst1 ++ [c]) src
        else if c = '{' ∨ c = '[' then
          indentLoop pfx indent scan1 true depth1 (dst1 ++ [c]) src
        else if c = ',' then
          indentLoop pfx indent scan1 needIndent1 depth1
            (newline (dst1 ++ [c]) pfx indent depth1) src
        else if c = ':' then
          indentLoop pfx indent scan1 needIndent1 depth1 (dst1 ++ [c, ' ']) src
        else if c = '}' ∨ c = ']' then
          if needIndent1 then indentLoop pfx indent scan1 false depth1 (dst1 ++ [c]) src
          else
            indentLoop pfx indent scan1 false (depth1 - 1)
              (newline dst1 pfx indent (depth1 - 1) ++ [c]) src
        else indentLoop pfx indent scan1 needIndent1 depth1 (dst1 ++ [c]) src

/-- The function `json.Indent(dst, src, prefix, indent)`: appends to `dst` an
indented form of the JSON text `src`; on malformed input `dst` is left as it
was and the scanner's error is returned. -/
def Indent (dst src pfx indent : Text) : Text × Option GoError :=
  match indentLoop pfx indent Scanner.reset false 0 dst src with
  | (scan, out) =>
    match scan.eof with
    | (scan1, .scanError) => (dst, some (.base (scan1.err.getD "")))
    | _ => (out, none)

/-! ## `strings.Replace` -/

/-- The call `strings.Replace(s, "\\r", "", -1)`: one pass from left to right
that deletes every non-overlapping occurrence of a backslash followed by `r`. -/
def replaceBackslashR : Text → Text
  | [] => []
  | [c] => [c]
  | c :: d :: cs =>
    if c = '\\' ∧ d = 'r' then replaceBackslashR cs else c :: replaceBackslashR (d :: cs)

/-! ## `internal/commands/parse.go` -/

/-- The body of the loop `for filename, config := range configurations` of
`parseConfigurations`, run over the entries in iteration order from the
`output` accumulated so far. -/
def parseConfigurationsLoop : List (String × Doc) → Text → Text × Option GoError
  | [], output => (output, none)
  | (filename, config) :: rest, output =>
    match Marshal config with
    | .error err => ([], some (.wrap "marshal output to json: " err))
    | .ok out =>
      match Indent [] out [] ['\t'] with
      | (_, some err) => ([], some (.wrap "indentation: " err))
      | (prettyJSON, none) =>
        let prettyJSON := prettyJSON ++ ['\n']
        let output := output ++ filename.toList ++ ['\n']
        let output := output ++ prettyJSON
        let output := replaceBackslashR output
        parseConfigurationsLoop rest output

/-- The function `parseConfigurations`, with the combine flag as a parameter:
the report and the returned error (`none` for `nil`). -/
def parseConfigurations (combine : Bool) (configurations : List (String × Doc)) :
    Text × Option GoError :=
  if combine then
    match Marshal (.obj configurations) with
    | .error err => ([], some (.wrap "marshal output to json: " err))
    | .ok out =>
      match Indent [] out [] ['\t'] with
      | (_, some err) => ([], some (.wrap "indentation: " err))
      | (prettyJSON, none) =>
        let prettyJSON := prettyJSON ++ ['\n']
        let output : Text := [] ++ "Combined".toList ++ ['\n']
        let output := output ++ prettyJSON
        let output := replaceBackslashR output
        (output, none)
  else parseConfigurationsLoop configurations []

/-- The function `parseInput`; the external `parser.GetConfigurations` is the
parameter `getConfigurations`. -/
def parseInput
    (getConfigurations : String → List String → Except GoError (List (String × Doc)))
    (combine : Bool) (input : String) (fileList : List String) : Text × Option GoError :=
  match getConfigurations input fileList with
  | .error err => ([], some (.wrap "calling the parser method: " err))
  | .ok configurations =>
    match parseConfigurations combine configurations with
    | (_, some err) => ([], some (.wrap "parsing configs: " err))
    | (parsedConfigurations, none) => (parsedConfigurations, none)

/-! ## Auxiliary notions used in the statements -/

/-- The pretty-printed JSON block of one document: the `prettyJSON` buffer of
`parseConfigurations` after `json.Marshal` and `json.Indent`, before the line
break is added; `none` when one of the two fails. -/
def prettyJSON? (config : Doc) : Option Text :=
  match Marshal config with
  | .error _ => none
  | .ok out =>
    match Indent [] out [] ['\t'] with
    | (_, some _) => none
    | (p, none) => some p

/-- A text that is empty or ends with a line break. -/
def EndsNL (a : Text) : Prop := a = [] ∨ ∃ o, a = o ++ ['\n']

/-- The unsanitized section of an entry: label line, block, line break. -/
def rawSection (filename : String) (p : Text) : Text := filename.toList ++ '\n' :: (p ++ ['\n'])

/-- Whether the two-character sequence backslash, `r` occurs in the text. -/
def hasBackslashR : Text → Bool
  | [] => false
  | [_] => false
  | c :: d :: cs => (c == '\\' && d == 'r') || hasBackslashR (d :: cs)

/-! ## The textual output format

The output format contract reads: JSON, one tab per nesting level, object
members as `"key": value`.  `layout` writes a document in that format
(`some k`: indented, at nesting depth `k`) and, for comparison with the
encoder, in the compact format without any white space (`none`). -/

/-- A line break followed by `k` tabs. -/
def nl (k : Nat) : Text := '\n' :: List.replicate k '\t'

/-- The white space that starts a new line in the given style. -/
def brk : Option Nat → Text
  | none => []
  | some k => nl k

/-- The style one nesting level further in. -/
def deeper : Option Nat → Option Nat
  | none => none
  | some k => some (k + 1)

/-- The white space after the colon of an object member. -/
def gap : Option Nat → Text
  | none => []
  | some _ => [' ']

/-- The JSON text of a finite `float64`, as written by `floatEncoder`. -/
def Float64.text (f : Float64) : Text :=
  match floatEncoder f with
  | .ok t => t
  | .error _ => []

/-- Texts joined by a separator. -/
def joinWith (sep : Text) : List Text → Text
  | [] => []
  | [t] => t
  | t :: ts => t ++ sep ++ joinWith sep ts

/-- One object member: the quoted key, a colon, the gap and the value. -/
def layoutMember (sp : Option Nat) (e : String × Text) : Text :=
  encodeString e.1.toList ++ ':' :: (gap sp ++ e.2)

mutual
/-- The document written in the given style; members in ascending key order. -/
def layout (sp : Option Nat) : Doc → Text
  | .null => ['n', 'u', 'l', 'l']
  | .bool true => ['t', 'r', 'u', 'e']
  | .bool false => ['f', 'a', 'l', 's', 'e']
  | .num n => formatInt n
  | .float f => f.text
  | .str s => encodeString s.toList
  | .arr xs =>
    match layoutElems (deeper sp) xs with
    | [] => ['[', ']']
    | t :: ts =>
      '[' :: (brk (deeper sp) ++ joinWith (',' :: brk (deeper sp)) (t :: ts) ++ brk sp ++ [']'])
  | .obj ms =>
    match sortMembers (layoutMembers (deeper sp) ms) with
    | [] => ['{', '}']
    | e :: es =>
      '{' :: (brk (deeper sp) ++
        joinWith (',' :: brk (deeper sp)) ((e :: es).map (layoutMember (deeper sp))) ++
        brk sp ++ ['}'])
  | .unsupported _ => []
/-- The elements of an array, each written in the given style. -/
def layoutElems (sp : Option Nat) : List Doc → List Text
  | [] => []
  | d :: ds => layout sp d :: layoutElems sp ds
/-- The member values of an object, each written in the given style. -/
def layoutMembers (sp : Option Nat) : List (String × Doc) → List (String × Text)
  | [] => []
  | (k, d) :: ms => (k, layout sp d) :: layoutMembers sp ms
end

mutual
/-- The document is built from null, booleans, finite numbers, strings,
sequences and string-keyed mappings only. -/
def supported : Doc → Bool
  | .float f => f.isFinite
  | .arr xs => supportedElems xs
  | .obj ms => supportedMembers ms
  | .unsupported _ => false
  | _ => true
/-- All documents of the list are supported. -/
def supportedElems : List Doc → Bool
  | [] => true
  | d :: ds => supported d && supportedElems ds
/-- All member values are supported. -/
def supportedMembers : List (String × Doc) → Bool
  | [] => true
  | (_, d) :: ms => supported d && supportedMembers ms
end

mutual
/-- How deep arrays and objects are nested in the document: 0 for a scalar, one
more than the deepest element or member value for an array or object (1 when
it is empty). -/
def nesting : Doc → Nat
  | .arr xs => nestingElems xs + 1
  | .obj ms => nestingMembers ms + 1
  | _ => 0
/-- The deepest nesting among the documents of the list. -/
def nestingElems : List Doc → Nat
  | [] => 0
  | d :: ds => max (nesting d) (nestingElems ds)
/-- The deepest nesting among the member values. -/
def nestingMembers : List (String × Doc) → Nat
  | [] => 0
  | (_, d) :: ms => max (nesting d) (nestingMembers ms)
end

/-- The document can be rendered: it is supported by the encoder and its
arrays and objects nest no deeper than `maxNestingDepth`. -/
def renderable (d : Doc) : Bool := supported d && decide (nesting d ≤ maxNestingDepth)

/-- The nesting depth after the pending indentation, if any, has been written. -/
def depthAfter (needIndent : Bool) (k : Nat) : Nat := if needIndent then k + 1 else k

/-- The pending indentation, if any: what `json.Indent` writes before the first
byte of a value that follows an opening bracket. -/
def lead (needIndent : Bool) (k : Nat) : Text := if needIndent then nl (k + 1) else []

/-- The states in which a string literal may begin. -/
def StringReady (st : StepFn) : Prop :=
  st = .stateBeginValue ∨ st = .stateBeginValueOrEmpty ∨ st = .stateBeginString ∨
    st = .stateBeginStringOrEmpty

/-- The states in which a value may begin. -/
def ValueReady (st : StepFn) : Prop :=
  st = .stateBeginValue ∨ st = .stateBeginValueOrEmpty

/-- The states the scanner may be in right after the last byte of a value that
is nested in an array or object. -/
def ValueDone (st : StepFn) : Prop :=
  st = .stateEndValue ∨ st = .state0 ∨ st = .state1 ∨ st = .stateDot0 ∨ st = .stateE0

/-- The scanner right after the last byte of a value read with the stack `ps`
and the flag `et`: `ValueDone`, or, for a top-level array or object, the final
state `stateEndTop`. -/
def AfterValue (ps : List ParseState) (et : Bool) (st1 : StepFn) (et1 : Bool) : Prop :=
  (ValueDone st1 ∧ et1 = et) ∨ (ps = [] ∧ st1 = .stateEndTop ∧ et1 = true)

/-- The scanner after the closing bracket of an array or object that was
opened with the stack `ps`: the result of `popParseState`. -/
def popped (et : Bool) (ps : List ParseState) (er : Option String) : Scanner :=
  match ps with
  | [] => ⟨.stateEndTop, true, [], er⟩
  | p :: ps1 => ⟨.stateEndValue, et, p :: ps1, er⟩

/-- A text of white space only. -/
def AllSpace (w : Text) : Prop := ∀ c ∈ w, isSpace c = true

/-- What `json.Indent` does with one document that is written in any style,
starts where a value may start and nests no deeper than the scanner allows
above the arrays and objects already open: it writes the pending indentation
and then the document, indented for the depth reached, and the scanner is left
right after the value. -/
def IndentsTo (d : Doc) : Prop :=
  ∀ (sp : Option Nat) (st : StepFn) (et : Bool) (ps : List ParseState) (er : Option String)
    (ni : Bool) (k : Nat) (dst rest : Text), ValueReady st →
    ps.length + nesting d ≤ maxNestingDepth →
    ∃ st1 et1, AfterValue ps et st1 et1 ∧
      indentLoop [] ['\t'] ⟨st, et, ps, er⟩ ni (k : Int) dst (layout sp d ++ rest) =
        indentLoop [] ['\t'] ⟨st1, et1, ps, er⟩ false (depthAfter ni k : Nat)
          (dst ++ lead ni k ++ layout (some (depthAfter ni k)) d) rest

/-- What `json.Indent` does with a document that nests deeper than the scanner
allows above the arrays and objects already open: the scanner stops with the
error `exceeded max depth`. -/
def StopsDeep (d : Doc) : Prop :=
  ∀ (sp : Option Nat) (st : StepFn) (et : Bool) (ps : List ParseState) (er : Option String)
    (ni : Bool) (k : Nat) (dst rest : Text), ValueReady st →
    ps.length ≤ maxNestingDepth → maxNestingDepth < ps.length + nesting d →
    DepthStop (indentLoop [] ['\t'] ⟨st, et, ps, er⟩ ni (k : Int) dst (layout sp d ++ rest)).1

/-- The errors `parseConfigurations` can return: the one of `json.Marshal`, or
the one of `json.Indent` for a document nested too deep. -/
def IsRenderError (err : GoError) : Prop :=
  (∃ e, err = .wrap "marshal output to json: " e) ∨
    ∃ c, (c = '[' ∨ c = '{') ∧ err = .wrap "indentation: " (.base (depthMessage c))

/-- The empty array inside `n` arrays of one element each: `n + 1` arrays
nested in one another. -/
def nestedArrays : Nat → Doc
  | 0 => .arr []
  | n + 1 => .arr [nestedArrays n]

/-! ## Conditions on the strings of a document -/

mutual
/-- Every string value and every key of the document satisfies `r`. -/
def allStrings (r : Text → Bool) : Doc → Bool
  | .str s => r s.toList
  | .arr xs => allStringsElems r xs
  | .obj ms => allStringsMembers r ms
  | _ => true
/-- Every string and key in the documents of the list satisfies `r`. -/
def allStringsElems (r : Text → Bool) : List Doc → Bool
  | [] => true
  | d :: ds => allStrings r d && allStringsElems r ds
/-- Every key, and every string and key in the member values, satisfies `r`. -/
def allStringsMembers (r : Text → Bool) : List (String × Doc) → Bool
  | [] => true
  | (k, d) :: ms => r k.toList && allStrings r d && allStringsMembers r ms
end

/-- The text contains no backslash. -/
def backslashFree (s : Text) : Bool := s.all fun c => c != '\\'

/-- Every backslash of the text starts a two-character escape whose second
character is not a backslash. -/
def escaped : Text → Bool
  | [] => true
  | [c] => c != '\\'
  | c :: d :: cs => if c = '\\' then d != '\\' && escaped cs else escaped (d :: cs)

/-- The scanner is in the state `stateError` only after an error was recorded. -/
def Scanner.Good (s : Scanner) : Prop := s.step = .stateError → s.err.isSome = true

/-- The outcome of a scanner step keeps `Scanner.Good` and reports `scanError`
only with an error recorded. -/
def GoodStep (r : Scanner × ScanCode) : Prop :=
  r.1.Good ∧ (r.2 = .scanError → r.1.err.isSome = true)

/-- The sections of the per-source report, as label and block: the source
identifier and the pretty-printed document, each sanitized once for its own
entry and once more for every later entry. -/
def perSourceSections : List (String × Doc) → List (Text × Text)
  | [] => []
  | (f, d) :: rest =>
    (replaceBackslashR^[rest.length + 1] f.toList,
      replaceBackslashR^[rest.length + 1] ((prettyJSON? d).getD [])) :: perSourceSections rest

/-- A report made of sections: label, line break, block, line break. -/
def renderSections : List (Text × Text) → Text
  | [] => []
  | s :: rest => s.1 ++ '\n' :: (s.2 ++ '\n' :: renderSections rest)

/-- One more tab inserted after every line break of the text. -/
def indentLines : Text → Text
  | [] => []
  | c :: cs => if c = '\n' then '\n' :: '\t' :: indentLines cs else c :: indentLines cs

/-- The value of a member of the combined report's object: the pretty-printed
document, sanitized once, one level further in. -/
def combinedValue (d : Doc) : Text :=
  indentLines (replaceBackslashR ((prettyJSON? d).getD []))

/-- A member of the combined report's object: a new line at depth 1, the quoted
source identifier (sanitized), a colon, a space and the value. -/
def combinedMember (e : String × Doc) : Text :=
  '\n' :: '\t' :: (replaceBackslashR (encodeString e.1.toList) ++ ':' :: ' ' :: combinedValue e.2)

/-! ## Reading the output back -/

/-- The value of a text of decimal digits. -/
def digitsValue (t : Text) : Nat := t.foldl (fun acc c => 10 * acc + (c.toNat - 48)) 0

/-- The value of a hexadecimal digit as written by the encoder. -/
def hexValue (c : Char) : Nat := if isDigit c then c.toNat - 48 else c.toNat - 87

/-- Reads back, from the body of a string literal, the character that the
encoder wrote first, and the rest of the text. -/
def decodeChar : Text → Option (Char × Text)
  | [] => none
  | c :: r =>
    if c = '\\' then
      match r with
      | [] => none
      | e :: r1 =>
        if e = 'u' then
          match r1 with
          | a :: b :: x :: y :: r2 =>
            some (Char.ofNat (4096 * hexValue a + 256 * hexValue b + 16 * hexValue x + hexValue y),
              r2)
          | _ => none
        else if e = 'n' then some ('\n', r1)
        else if e = 'r' then some ('\r', r1)
        else if e = 't' then some ('\t', r1)
        else some (e, r1)
    else some (c, r)

/-- Keys in strictly ascending order. -/
def ascending : List Text → Bool
  | [] => true
  | [_] => true
  | a :: b :: rest => keyLess a b && ascending (b :: rest)

mutual
/-- Every object of the document enumerates its members in ascending key order:
the one enumeration of a map with distinct keys that the encoder itself uses. -/
def canonical : Doc → Bool
  | .arr xs => canonicalElems xs
  | .obj ms => ascending (ms.map fun e => e.1.toList) && canonicalMembers ms
  | _ => true
/-- All documents of the list are canonical. -/
def canonicalElems : List Doc → Bool
  | [] => true
  | d :: ds => canonical d && canonicalElems ds
/-- All member values are canonical. -/
def canonicalMembers : List (String × Doc) → Bool
  | [] => true
  | (_, d) :: ms => canonical d && canonicalMembers ms
end

/-- The kind of a document, as a number. -/
def docKind : Doc → Nat
  | .null => 0
  | .bool true => 1
  | .bool false => 2
  | .num _ => 3
  | .float _ => 3
  | .str _ => 4
  | .arr _ => 5
  | .obj _ => 6
  | .unsupported _ => 7

/-- The kind of document whose JSON text starts with the character. -/
def charKind (c : Char) : Nat :=
  if c = 'n' then 0
  else if c = 't' then 1
  else if c = 'f' then 2
  else if c = '-' ∨ isDigit c = true then 3
  else if c = '"' then 4
  else if c = '[' then 5
  else if c = '{' then 6
  else 7

/-- What may follow a value in indented JSON: nothing, a comma or a line break. -/
def Term (x : Text) : Prop := ∀ c t, x = c :: t → c = ',' ∨ c = '\n'

/-- The indented text of the document, followed by the end of the text, a comma
or a line break, determines the document and what follows it. -/
def Unique (d1 : Doc) : Prop :=
  ∀ (d2 : Doc) (k : Nat) (x y : Text), supported d1 = true → supported d2 = true →
    canonical d1 = true → canonical d2 = true → Term x → Term y →
    layout (some k) d1 ++ x = layout (some k) d2 ++ y → d1 = d2 ∧ x = y

/-- The text after an element of an array or member of an object: the line
break before the closing bracket, or a comma, a new line and the remaining
items. -/
def afterItem (k : Nat) (items : List Text) (u : Text) : Text :=
  match items with
  | [] => '\n' :: u
  | _ :: _ => ',' :: (nl k ++ (joinWith (',' :: nl k) items ++ '\n' :: u))

/-- No string value or key contains a backslash or a carriage return. -/
def cleanString (s : Text) : Bool := s.all fun c => c != '\\' && c != '\r'

/-! ## Notions used for the flat-object scenario, the frame of the sanitation
pass, the indentation check and the order of members -/

/-- A character that needs no escaping according to the list of the format
contract: no quote, no backslash, no control character (below U+0020), none of
`<`, `>`, `&`. -/
def needsNoEscape (c : Char) : Bool :=
  decide (32 ≤ c.toNat) && !(c == '"' || c == '\\' || c == '<' || c == '>' || c == '&')

/-- The line separator U+2028 and the paragraph separator U+2029, which the
encoder writes as the six-character escapes `\u2028` and `\u2029`. -/
def isLineSeparator (c : Char) : Bool := c.toNat == 8232 || c.toNat == 8233

/-- The expected report of the one-entry set `id: (k: v)` without combine: the
identifier, a line break, and the object on three lines, `k` and `v` quoted
as they are. -/
def flatObjectReport (id k v : Text) : Text :=
  id ++ "\n\x7b\n\t\"".toList ++ k ++ "\": \"".toList ++ v ++ "\"\n\x7d\n".toList

/-- The characters other than the backslash and the letter `r`. -/
def survives (c : Char) : Bool := c != '\\' && c != 'r'

/-- The unsanitized text of the report: in combined mode the label `Combined`,
a line break, the pretty-printed encoding of the whole mapping and a line
break; otherwise, for every entry in turn, the source identifier, a line break,
the pretty-printed encoding of the document and a line break. -/
def rawReport (combine : Bool) (cfg : List (String × Doc)) : Text :=
  if combine then "Combined\n".toList ++ ((prettyJSON? (.obj cfg)).getD [] ++ ['\n'])
  else (cfg.map fun e => rawSection e.1 ((prettyJSON? e.2).getD [])).flatten

/-- Where a left-to-right reading of a JSON text stands: between tokens or
inside a number or literal, inside a string literal, or right after a backslash
inside a string literal. -/
inductive LexMode where
  | outside
  | inString
  | inEscape
  deriving DecidableEq, Repr

/-- The line that begins with the text `t`, at nesting depth `depth`, starts
with tabs and then a character that is not white space, and the number of tabs
is the nesting depth of the token that character starts: `depth`, or one less
for the closing bracket of the enclosing array or object. -/
def lineStart (depth : Nat) (t : Text) : Bool :=
  match t.dropWhile (fun c => c == '\t') with
  | [] => false
  | c :: _ =>
    !isSpace c &&
      ((t.takeWhile fun c => c == '\t').length == if c = '}' ∨ c = ']' then depth - 1 else depth)

/-- Reads the JSON text from left to right, counting the arrays and objects
that are open, and checks `lineStart` after every line break; a line break
inside a string literal fails the check. -/
def tabIndented : Nat → LexMode → Text → Bool
  | _, _, [] => true
  | depth, .inString, c :: cs =>
    if c = '\\' then tabIndented depth .inEscape cs
    else if c = '"' then tabIndented depth .outside cs
    else if c = '\n' then false
    else tabIndented depth .inString cs
  | depth, .inEscape, c :: cs =>
    if c = '\n' then false else tabIndented depth .inString cs
  | depth, .outside, c :: cs =>
    if c = '"' then tabIndented depth .inString cs
    else if c = '{' ∨ c = '[' then tabIndented (depth + 1) .outside cs
    else if c = '}' ∨ c = ']' then tabIndented (depth - 1) .outside cs
    else if c = '\n' then lineStart depth cs && tabIndented depth .outside cs
    else tabIndented depth .outside cs

/-- A character that neither opens nor closes anything outside a string. -/
def inert (c : Char) : Bool :=
  !(c == '"' || c == '{' || c == '[' || c == '}' || c == ']' || c == '\n')

/-- The indentation check passes over the indented text of the document and
comes back to the nesting depth it started from. -/
def PassesCheck (d : Doc) : Prop :=
  ∀ (k : Nat) (rest : Text),
    tabIndented k .outside (layout (some k) d ++ rest) = tabIndented k .outside rest

/-- The text of an object whose members are written in the order of the list. -/
def objectText (sp : Option Nat) (members : List (String × Doc)) : Text :=
  match members with
  | [] => ['{', '}']
  | e :: es =>
    '{' :: (brk (deeper sp) ++
      joinWith (',' :: brk (deeper sp))
        ((e :: es).map fun x => layoutMember (deeper sp) (x.1, layout (deeper sp) x.2)) ++
      brk sp ++ ['}'])

/-! ## Deleting carriage returns from a document -/

/-- The string without its carriage returns (U+000D). -/
def stripCR (s : String) : String := String.mk (s.toList.filter fun c => c != '\r')

mutual
/-- The document in which every carriage return has been deleted from every
string value and every key. -/
def deleteCR : Doc → Doc
  | .null => .null
  | .bool b => .bool b
  | .num n => .num n
  | .float f => .float f
  | .str s => .str (stripCR s)
  | .arr xs => .arr (deleteCRElems xs)
  | .obj ms => .obj (deleteCRMembers ms)
  | .unsupported t => .unsupported t
/-- The documents of the list without carriage returns. -/
def deleteCRElems : List Doc → List Doc
  | [] => []
  | d :: ds => deleteCR d :: deleteCRElems ds
/-- The members without carriage returns in keys and values. -/
def deleteCRMembers : List (String × Doc) → List (String × Doc)
  | [] => []
  | (k, d) :: ms => (stripCR k, deleteCR d) :: deleteCRMembers ms
end

/-- Deleting the carriage returns keeps the byte-wise order of any two of the
keys (and so keeps distinct keys distinct). -/
def keysKeepOrder (ms : List (String × Doc)) : Bool :=
  ms.all fun a => ms.all fun b =>
    keyLess (stripCR a.1).toList (stripCR b.1).toList == keyLess a.1.toList b.1.toList

mutual
/-- In every mapping of the document, deleting the carriage returns keeps the
order of the keys. -/
def keyOrderKept : Doc → Bool
  | .arr xs => keyOrderKeptElems xs
  | .obj ms => keysKeepOrder ms && keyOrderKeptMembers ms
  | _ => true
/-- All documents of the list satisfy `keyOrderKept`. -/
def keyOrderKeptElems : List Doc → Bool
  | [] => true
  | d :: ds => keyOrderKept d && keyOrderKeptElems ds
/-- All member values satisfy `keyOrderKept`. -/
def keyOrderKeptMembers : List (String × Doc) → Bool
  | [] => true
  | (_, d) :: ms => keyOrderKept d && keyOrderKeptMembers ms
end


/-! ## Numbers -/

/-- The characters of a JSON number as the encoder writes it. -/
def numberChar (c : Char) : Bool := isDigit c || c == '-' || c == '+' || c == '.' || c == 'e'
/-! ## Properties of the sanitation pass -/

theorem replaceBackslashR_cons_of_ne (c : Char) (t : Text) (h : c ≠ '\\') :
    replaceBackslashR (c :: t) = c :: replaceBackslashR t := by
  cases t with
  | nil => simp [replaceBackslashR]
  | cons d cs => simp [replaceBackslashR, h]

theorem replaceBackslashR_append_cons (a : Text) (c : Char) (b : Text) (h : c ≠ 'r') :
    replaceBackslashR (a ++ c :: b) = replaceBackslashR a ++ replaceBackslashR (c :: b) := by
  induction a using replaceBackslashR.induct with
  | case1 => simp [replaceBackslashR]
  | case2 x =>
    show replaceBackslashR (x :: c :: b) = [x] ++ replaceBackslashR (c :: b)
    simp [replaceBackslashR, h]
  | case3 x y cs hxy ih =>
    show replaceBackslashR (x :: y :: (cs ++ c :: b)) = _
    rw [replaceBackslashR, if_pos hxy, ih, replaceBackslashR, if_pos hxy]
  | case4 x y cs hxy ih =>
    show replaceBackslashR (x :: y :: (cs ++ c :: b)) = _
    rw [replaceBackslashR, if_neg hxy]
    have : y :: (cs ++ c :: b) = (y :: cs) ++ c :: b := rfl
    rw [this, ih]
    conv_rhs => rw [replaceBackslashR, if_neg hxy]
    rfl

theorem replaceBackslashR_nil : replaceBackslashR [] = [] := by simp [replaceBackslashR]

theorem replaceBackslashR_append_newline (a b : Text) :
    replaceBackslashR (a ++ '\n' :: b) = replaceBackslashR a ++ '\n' :: replaceBackslashR b := by
  rw [replaceBackslashR_append_cons a '\n' b (by decide),
    replaceBackslashR_cons_of_ne _ _ (by decide)]

theorem replaceBackslashR_snoc_newline (a : Text) :
    replaceBackslashR (a ++ ['\n']) = replaceBackslashR a ++ ['\n'] := by
  rw [replaceBackslashR_append_newline, replaceBackslashR_nil]

theorem EndsNL.replace {a : Text} (h : EndsNL a) : EndsNL (replaceBackslashR a) := by
  rcases h with rfl | ⟨o, rfl⟩
  · left; rfl
  · right; exact ⟨replaceBackslashR o, replaceBackslashR_snoc_newline o⟩

theorem EndsNL.replace_append {a : Text} (h : EndsNL a) (b : Text) :
    replaceBackslashR (a ++ b) = replaceBackslashR a ++ replaceBackslashR b := by
  rcases h with rfl | ⟨o, rfl⟩
  · simp [replaceBackslashR_nil]
  · rw [List.append_assoc, List.singleton_append, replaceBackslashR_append_newline,
      replaceBackslashR_snoc_newline]
    simp

theorem EndsNL.append {a b : Text} (ha : EndsNL a) (hb : EndsNL b) : EndsNL (a ++ b) := by
  rcases hb with rfl | ⟨o, rfl⟩
  · simpa using ha
  · right; exact ⟨a ++ o, by simp⟩

theorem EndsNL.iterate {a : Text} (h : EndsNL a) (n : Nat) : EndsNL (replaceBackslashR^[n] a) := by
  induction n generalizing a with
  | zero => exact h
  | succ n ih => rw [Function.iterate_succ_apply]; exact ih h.replace

theorem EndsNL.iterate_append {a : Text} (h : EndsNL a) (b : Text) (n : Nat) :
    replaceBackslashR^[n] (a ++ b) = replaceBackslashR^[n] a ++ replaceBackslashR^[n] b := by
  induction n generalizing a b with
  | zero => rfl
  | succ n ih =>
    rw [Function.iterate_succ_apply, Function.iterate_succ_apply, Function.iterate_succ_apply,
      h.replace_append, ih h.replace]

theorem iterate_replace_nil (n : Nat) : replaceBackslashR^[n] [] = [] := by
  induction n with
  | zero => rfl
  | succ n ih => rw [Function.iterate_succ_apply, replaceBackslashR_nil, ih]

theorem rawSection_endsNL (f : String) (p : Text) : EndsNL (rawSection f p) :=
  Or.inr ⟨f.toList ++ '\n' :: p, by simp [rawSection]⟩

theorem loop_cons (f : String) (d : Doc) (rest : List (String × Doc)) (out p : Text)
    (hp : prettyJSON? d = some p) :
    parseConfigurationsLoop ((f, d) :: rest) out =
      parseConfigurationsLoop rest (replaceBackslashR (out ++ rawSection f p)) := by
  unfold prettyJSON? at hp
  rw [parseConfigurationsLoop]
  cases hm : Marshal d with
  | error e => simp [hm] at hp
  | ok m =>
    simp only [hm] at hp ⊢
    rcases hi : Indent [] m [] ['\t'] with ⟨q, _ | e⟩
    · simp only [hi] at hp ⊢
      cases hp
      simp [rawSection]
    · simp [hi] at hp

theorem loop_cons_none (f : String) (d : Doc) (rest : List (String × Doc)) (out : Text)
    (hp : prettyJSON? d = none) :
    ∃ e, parseConfigurationsLoop ((f, d) :: rest) out = ([], some e) := by
  unfold prettyJSON? at hp
  rw [parseConfigurationsLoop]
  cases hm : Marshal d with
  | error e => exact ⟨_, rfl⟩
  | ok m =>
    simp only [hm] at hp ⊢
    rcases hi : Indent [] m [] ['\t'] with ⟨q, _ | e⟩
    · simp [hi] at hp
    · exact ⟨_, rfl⟩

theorem loop_ok_iff (es : List (String × Doc)) (out : Text) :
    (parseConfigurationsLoop es out).2 = none ↔ ∀ e ∈ es, ∃ p, prettyJSON? e.2 = some p := by
  induction es generalizing out with
  | nil => simp [parseConfigurationsLoop]
  | cons e rest ih =>
    obtain ⟨f, d⟩ := e
    cases hp : prettyJSON? d with
    | none =>
      obtain ⟨e, he⟩ := loop_cons_none f d rest out hp
      simp [he, hp]
    | some p =>
      rw [loop_cons f d rest out p hp, ih]
      simp [hp]

theorem loop_eq (es : List (String × Doc)) (out : Text)
    (hall : ∀ e ∈ es, ∃ p, prettyJSON? e.2 = some p) (hout : EndsNL out) :
    parseConfigurationsLoop es out =
      (replaceBackslashR^[es.length] out ++ (parseConfigurationsLoop es []).1, none) := by
  induction es generalizing out with
  | nil => simp [parseConfigurationsLoop]
  | cons e rest ih =>
    obtain ⟨f, d⟩ := e
    obtain ⟨p, hp⟩ := hall (f, d) (List.mem_cons_self _ _)
    have hrest : ∀ e ∈ rest, ∃ p, prettyJSON? e.2 = some p :=
      fun e he => hall e (List.mem_cons_of_mem _ he)
    have hsec := rawSection_endsNL f p
    rw [loop_cons f d rest out p hp, loop_cons f d rest [] p hp, List.nil_append,
      hout.replace_append, ih _ hrest (hout.replace.append hsec.replace),
      ih (replaceBackslashR (rawSection f p)) hrest hsec.replace,
      hout.replace.iterate_append]
    simp [Function.iterate_succ_apply, List.append_assoc]

theorem report_cons (f : String) (d : Doc) (rest : List (String × Doc)) (p : Text)
    (hp : prettyJSON? d = some p) (hrest : ∀ e ∈ rest, ∃ p, prettyJSON? e.2 = some p) :
    (parseConfigurations false ((f, d) :: rest)).1 =
      replaceBackslashR^[rest.length + 1] (rawSection f p) ++
        (parseConfigurations false rest).1 := by
  simp only [parseConfigurations, Bool.false_eq_true, if_false]
  rw [loop_cons f d rest [] p hp, List.nil_append,
    loop_eq rest _ hrest (rawSection_endsNL f p).replace]
  simp [Function.iterate_succ_apply]

/-! ## Per-source and combined reports: shape -/

theorem hasBackslashR_iff_infix (t : Text) :
    hasBackslashR t = true ↔ ['\\', 'r'] <:+: t := by
  induction t using hasBackslashR.induct with
  | case1 => simp [hasBackslashR]
  | case2 c =>
    simp only [hasBackslashR, Bool.false_eq_true, false_iff]
    rintro ⟨a, b, h⟩
    have := congrArg List.length h
    simp at this
    omega
  | case3 c d cs ih =>
    rw [hasBackslashR, Bool.or_eq_true, ih]
    constructor
    · rintro (h | ⟨a, b, h⟩)
      · simp only [Bool.and_eq_true, beq_iff_eq] at h
        exact ⟨[], cs, by simp [h.1, h.2]⟩
      · exact ⟨c :: a, b, by simp [← h]⟩
    · rintro ⟨a, b, h⟩
      cases a with
      | nil =>
        left
        simp only [List.nil_append, List.cons_append, List.cons.injEq] at h
        simp [← h.1, ← h.2.1]
      | cons x a =>
        right
        simp only [List.cons_append, List.append_assoc, List.cons.injEq] at h
        exact ⟨a, b, by simpa using h.2⟩

theorem replaceBackslashR_of_not_has (t : Text) (h : hasBackslashR t = false) :
    replaceBackslashR t = t := by
  induction t using hasBackslashR.induct with
  | case1 => rfl
  | case2 c => rfl
  | case3 c d cs ih =>
    rw [hasBackslashR, Bool.or_eq_false_iff] at h
    have h1 : ¬ (c = '\\' ∧ d = 'r') := by
      intro hc
      simp [hc.1, hc.2] at h
    rw [replaceBackslashR, if_neg h1, ih h.2]

theorem iterate_replace_of_not_has (t : Text) (h : hasBackslashR t = false) (n : Nat) :
    replaceBackslashR^[n] t = t :=
  Function.iterate_fixed (replaceBackslashR_of_not_has t h) n

theorem iterate_replace_append_newline (a b : Text) (n : Nat) :
    replaceBackslashR^[n] (a ++ '\n' :: b) =
      replaceBackslashR^[n] a ++ '\n' :: replaceBackslashR^[n] b := by
  induction n generalizing a b with
  | zero => rfl
  | succ n ih =>
    rw [Function.iterate_succ_apply, Function.iterate_succ_apply, Function.iterate_succ_apply,
      replaceBackslashR_append_newline, ih]

theorem report_ok_iff (es : List (String × Doc)) :
    (parseConfigurations false es).2 = none ↔ ∀ e ∈ es, ∃ p, prettyJSON? e.2 = some p := by
  simp only [parseConfigurations, Bool.false_eq_true, if_false]
  exact loop_ok_iff es []

theorem report_endsNL (es : List (String × Doc))
    (h : ∀ e ∈ es, ∃ p, prettyJSON? e.2 = some p) : EndsNL (parseConfigurations false es).1 := by
  induction es with
  | nil => left; simp [parseConfigurations, parseConfigurationsLoop]
  | cons e rest ih =>
    obtain ⟨f, d⟩ := e
    obtain ⟨p, hp⟩ := h (f, d) (List.mem_cons_self _ _)
    have hrest : ∀ e ∈ rest, ∃ p, prettyJSON? e.2 = some p :=
      fun e he => h e (List.mem_cons_of_mem _ he)
    rw [report_cons f d rest p hp hrest]
    exact ((rawSection_endsNL f p).iterate _).append (ih hrest)

theorem report_append (xs ys : List (String × Doc))
    (h : ∀ e ∈ xs ++ ys, ∃ p, prettyJSON? e.2 = some p) :
    (parseConfigurations false (xs ++ ys)).1 =
      replaceBackslashR^[ys.length] (parseConfigurations false xs).1 ++
        (parseConfigurations false ys).1 := by
  induction xs with
  | nil =>
    simp [parseConfigurations, parseConfigurationsLoop, iterate_replace_nil]
  | cons e rest ih =>
    obtain ⟨f, d⟩ := e
    obtain ⟨p, hp⟩ := h (f, d) (by simp)
    have hrest : ∀ e ∈ rest ++ ys, ∃ p, prettyJSON? e.2 = some p :=
      fun e he => h e (by simp at he ⊢; tauto)
    have hrest1 : ∀ e ∈ rest, ∃ p, prettyJSON? e.2 = some p :=
      fun e he => hrest e (by simp [he])
    rw [List.cons_append, report_cons f d (rest ++ ys) p hp hrest, ih hrest,
      report_cons f d rest p hp hrest1,
      ((rawSection_endsNL f p).iterate _).iterate_append, ← Function.iterate_add_apply,
      List.length_append, List.append_assoc]
    congr 2
    omega

/-! ## Induction on documents, sorting by key, and the encoder -/

theorem Doc.induct' (P : Doc → Prop)
    (hnull : P .null) (hbool : ∀ b, P (.bool b)) (hnum : ∀ n, P (.num n))
    (hfloat : ∀ f, P (.float f)) (hstr : ∀ s, P (.str s))
    (harr : ∀ xs, (∀ d ∈ xs, P d) → P (.arr xs))
    (hobj : ∀ ms, (∀ e ∈ ms, P e.2) → P (.obj ms))
    (huns : ∀ t, P (.unsupported t)) : ∀ d, P d := by
  intro d
  refine Doc.rec (motive_1 := P) (motive_2 := fun xs => ∀ d ∈ xs, P d)
    (motive_3 := fun ms => ∀ e ∈ ms, P e.2) (motive_4 := fun e => P e.2)
    hnull hbool hnum hfloat hstr harr hobj huns ?_ ?_ ?_ ?_ ?_ d
  · simp
  · intro hd tl h1 h2 d hd'
    rcases List.mem_cons.1 hd' with rfl | h
    · exact h1
    · exact h2 d h
  · simp
  · intro hd tl h1 h2 e he
    rcases List.mem_cons.1 he with rfl | h
    · exact h1
    · exact h2 e h
  · intro k d h; exact h

/-! ## Sorting by key -/

theorem insertMember_map {α β : Type} (g : α → β) (e : String × α) (l : List (String × α)) :
    insertMember (e.1, g e.2) (l.map fun x => (x.1, g x.2)) =
      (insertMember e l).map fun x => (x.1, g x.2) := by
  induction l with
  | nil => rfl
  | cons f fs ih =>
    simp only [List.map_cons, insertMember]
    split
    · rw [ih]; rfl
    · rfl

theorem sortMembers_map {α β : Type} (g : α → β) (l : List (String × α)) :
    sortMembers (l.map fun x => (x.1, g x.2)) = (sortMembers l).map fun x => (x.1, g x.2) := by
  induction l with
  | nil => rfl
  | cons e es ih =>
    simp only [List.map_cons, sortMembers]
    rw [ih, insertMember_map]

theorem insertMember_perm {α : Type} (e : String × α) (l : List (String × α)) :
    (insertMember e l).Perm (e :: l) := by
  induction l with
  | nil => exact List.Perm.refl _
  | cons f fs ih =>
    simp only [insertMember]
    split
    · exact (List.Perm.cons f ih).trans (List.Perm.swap e f fs)
    · exact List.Perm.refl _

theorem sortMembers_perm {α : Type} (l : List (String × α)) : (sortMembers l).Perm l := by
  induction l with
  | nil => exact List.Perm.refl _
  | cons e es ih => exact (insertMember_perm e _).trans (List.Perm.cons e ih)

theorem marshalMembers_eq_map (ms : List (String × Doc)) :
    marshalMembers ms = ms.map fun x => (x.1, Marshal x.2) := by
  induction ms with
  | nil => rfl
  | cons e es ih => obtain ⟨k, d⟩ := e; simp [marshalMembers, ih]

theorem layoutMembers_eq_map (sp : Option Nat) (ms : List (String × Doc)) :
    layoutMembers sp ms = ms.map fun x => (x.1, layout sp x.2) := by
  induction ms with
  | nil => rfl
  | cons e es ih => obtain ⟨k, d⟩ := e; simp [layoutMembers, ih]

theorem layoutElems_eq_map (sp : Option Nat) (xs : List Doc) :
    layoutElems sp xs = xs.map (layout sp) := by
  induction xs with
  | nil => rfl
  | cons d ds ih => simp [layoutElems, ih]

theorem supportedElems_iff (xs : List Doc) :
    supportedElems xs = true ↔ ∀ d ∈ xs, supported d = true := by
  induction xs with
  | nil => simp [supportedElems]
  | cons d ds ih => simp [supportedElems, ih]

theorem supportedMembers_iff (ms : List (String × Doc)) :
    supportedMembers ms = true ↔ ∀ e ∈ ms, supported e.2 = true := by
  induction ms with
  | nil => simp [supportedMembers]
  | cons e es ih => obtain ⟨k, d⟩ := e; simp [supportedMembers, ih]

/-- The sorted members of an object, as documents. -/
theorem layout_obj (sp : Option Nat) (ms : List (String × Doc)) :
    layout sp (.obj ms) =
      match (sortMembers ms).map (fun x => (x.1, layout (deeper sp) x.2)) with
      | [] => ['{', '}']
      | e :: es =>
        '{' :: (brk (deeper sp) ++
          joinWith (',' :: brk (deeper sp)) ((e :: es).map (layoutMember (deeper sp))) ++
          brk sp ++ ['}']) := by
  rw [layout, layoutMembers_eq_map, sortMembers_map]

theorem layout_arr (sp : Option Nat) (xs : List Doc) :
    layout sp (.arr xs) =
      match xs.map (layout (deeper sp)) with
      | [] => ['[', ']']
      | t :: ts =>
        '[' :: (brk (deeper sp) ++ joinWith (',' :: brk (deeper sp)) (t :: ts) ++ brk sp ++ [']']) := by
  rw [layout, layoutElems_eq_map]

theorem joinElems_eq (ts : List Text) : joinElems ts = joinWith [','] ts := by
  induction ts with
  | nil => rfl
  | cons t ts ih =>
    cases ts with
    | nil => rfl
    | cons u us => simp only [joinElems, joinWith, ih]; simp

theorem marshalElems_ok (xs : List Doc)
    (h : ∀ d ∈ xs, Marshal d = .ok (layout none d)) :
    marshalElems xs = .ok (xs.map (layout none)) := by
  induction xs with
  | nil => rfl
  | cons d ds ih =>
    rw [marshalElems, h d (List.mem_cons_self _ _)]
    simp only
    rw [ih fun d hd => h d (List.mem_cons_of_mem _ hd)]
    rfl

theorem joinMembers_ok (l : List (String × Doc))
    (h : ∀ e ∈ l, Marshal e.2 = .ok (layout none e.2)) :
    joinMembers (l.map fun x => (x.1, Marshal x.2)) =
      .ok (joinWith [','] ((l.map fun x => (x.1, layout none x.2)).map (layoutMember none))) := by
  induction l with
  | nil => rfl
  | cons e es ih =>
    have ih' := ih fun e he => h e (List.mem_cons_of_mem _ he)
    have he := h e (List.mem_cons_self _ _)
    cases es with
    | nil => simp [joinMembers, joinWith, layoutMember, gap, he]
    | cons f fs =>
      simp only [List.map_cons] at ih' ⊢
      simp only [joinMembers, he]
      rw [ih']
      simp [joinWith, layoutMember, gap]

theorem Marshal_ok (d : Doc) : supported d = true → Marshal d = .ok (layout none d) := by
  induction d using Doc.induct' with
  | hnull => intro _; rfl
  | hbool b => intro _; cases b <;> rfl
  | hnum n => intro _; rfl
  | hfloat f =>
    intro hs
    cases f with
    | nan => simp [supported, Float64.isFinite] at hs
    | inf neg => simp [supported, Float64.isFinite] at hs
    | finite neg digs h => rfl
  | hstr s => intro _; rfl
  | harr xs ih =>
    intro hs
    rw [supported, supportedElems_iff] at hs
    rw [Marshal, marshalElems_ok xs fun d hd => ih d hd (hs d hd), layout_arr]
    simp only [deeper, brk]
    cases xs with
    | nil => rfl
    | cons d ds => simp [joinElems_eq]
  | hobj ms ih =>
    intro hs
    rw [supported, supportedMembers_iff] at hs
    have hmem : ∀ e ∈ sortMembers ms, Marshal e.2 = .ok (layout none e.2) := fun e he =>
      ih e ((sortMembers_perm ms).mem_iff.1 he) (hs e ((sortMembers_perm ms).mem_iff.1 he))
    rw [Marshal, marshalMembers_eq_map, sortMembers_map, joinMembers_ok _ hmem, layout_obj]
    simp only [deeper, brk]
    cases sortMembers ms with
    | nil => rfl
    | cons e es => simp
  | huns t => intro hs; simp [supported] at hs

/-! ## Single steps of `json.Indent` -/

theorem replicate_flatten_tab (k : Nat) :
    (List.replicate k ['\t']).flatten = List.replicate k '\t' := by
  induction k with
  | zero => rfl
  | succ k ih => simp [List.replicate_succ, ih]

theorem newline_tab (dst : Text) (k : Nat) : newline dst [] ['\t'] (k : Int) = dst ++ nl k := by
  simp [newline, nl, replicate_flatten_tab]

theorem indentLoop_skip {sc sc1 : Scanner} {c : Char} (h : sc.run c = (sc1, .scanSkipSpace))
    (ni : Bool) (d : Int) (dst src : Text) :
    indentLoop [] ['\t'] sc ni d dst (c :: src) = indentLoop [] ['\t'] sc1 ni d dst src := by
  rw [indentLoop, h]; simp

theorem indentLoop_continue {sc sc1 : Scanner} {c : Char} (h : sc.run c = (sc1, .scanContinue))
    (d : Int) (dst src : Text) :
    indentLoop [] ['\t'] sc false d dst (c :: src) =
      indentLoop [] ['\t'] sc1 false d (dst ++ [c]) src := by
  rw [indentLoop, h]; simp

theorem indentLoop_literal {sc sc1 : Scanner} {c : Char} (h : sc.run c = (sc1, .scanBeginLiteral))
    (hc : c ≠ '{' ∧ c ≠ '[' ∧ c ≠ ',' ∧ c ≠ ':' ∧ c ≠ '}' ∧ c ≠ ']')
    (ni : Bool) (k : Nat) (dst src : Text) :
    indentLoop [] ['\t'] sc ni (k : Int) dst (c :: src) =
      indentLoop [] ['\t'] sc1 false (depthAfter ni k : Nat) (dst ++ lead ni k ++ [c]) src := by
  rw [indentLoop, h]
  cases ni <;> simp [hc, depthAfter, lead, ← newline_tab]

theorem indentLoop_open {sc sc1 : Scanner} {c : Char} {v : ScanCode} (h : sc.run c = (sc1, v))
    (hv : v = .scanBeginObject ∨ v = .scanBeginArray) (hc : c = '{' ∨ c = '[')
    (ni : Bool) (k : Nat) (dst src : Text) :
    indentLoop [] ['\t'] sc ni (k : Int) dst (c :: src) =
      indentLoop [] ['\t'] sc1 true (depthAfter ni k : Nat) (dst ++ lead ni k ++ [c]) src := by
  rw [indentLoop, h]
  rcases hv with rfl | rfl <;> cases ni <;> simp [hc, depthAfter, lead, ← newline_tab]

theorem indentLoop_comma {sc sc1 : Scanner} {v : ScanCode} (h : sc.run ',' = (sc1, v))
    (hv : v = .scanObjectValue ∨ v = .scanArrayValue) (k : Nat) (dst src : Text) :
    indentLoop [] ['\t'] sc false (k : Int) dst (',' :: src) =
      indentLoop [] ['\t'] sc1 false (k : Int) (dst ++ ',' :: nl k) src := by
  rw [indentLoop, h]
  rcases hv with rfl | rfl <;> simp [newline_tab]

theorem indentLoop_colon {sc sc1 : Scanner} (h : sc.run ':' = (sc1, .scanObjectKey))
    (k : Nat) (dst src : Text) :
    indentLoop [] ['\t'] sc false (k : Int) dst (':' :: src) =
      indentLoop [] ['\t'] sc1 false (k : Int) (dst ++ [':', ' ']) src := by
  rw [indentLoop, h]
  simp

theorem indentLoop_close_empty {sc sc1 : Scanner} {c : Char} {v : ScanCode}
    (h : sc.run c = (sc1, v)) (hv : v = .scanEndObject ∨ v = .scanEndArray)
    (hc : c = '}' ∨ c = ']') (k : Nat) (dst src : Text) :
    indentLoop [] ['\t'] sc true (k : Int) dst (c :: src) =
      indentLoop [] ['\t'] sc1 false (k : Int) (dst ++ [c]) src := by
  rw [indentLoop, h]
  rcases hv with rfl | rfl <;> rcases hc with rfl | rfl <;> simp

theorem indentLoop_close {sc sc1 : Scanner} {c : Char} {v : ScanCode}
    (h : sc.run c = (sc1, v)) (hv : v = .scanEndObject ∨ v = .scanEndArray)
    (hc : c = '}' ∨ c = ']') (k : Nat) (dst src : Text) :
    indentLoop [] ['\t'] sc false ((k + 1 : Nat) : Int) dst (c :: src) =
      indentLoop [] ['\t'] sc1 false (k : Int) (dst ++ nl k ++ [c]) src := by
  rw [indentLoop, h]
  rcases hv with rfl | rfl <;> rcases hc with rfl | rfl <;> simp [← newline_tab]

/-! ## The scanner on string literals -/

theorem run_inString_plain (c : Char) (et : Bool) (ps : List ParseState) (er : Option String)
    (h1 : c ≠ '"') (h2 : c ≠ '\\') (h3 : 32 ≤ c.toNat) :
    Scanner.run ⟨.stateInString, et, ps, er⟩ c = (⟨.stateInString, et, ps, er⟩, .scanContinue) := by
  simp [Scanner.run, stateInString, h1, h2, Nat.not_lt.2 h3]

theorem run_inString_backslash (et : Bool) (ps : List ParseState) (er : Option String) :
    Scanner.run ⟨.stateInString, et, ps, er⟩ '\\' =
      (⟨.stateInStringEsc, et, ps, er⟩, .scanContinue) := rfl

theorem run_inString_quote (et : Bool) (ps : List ParseState) (er : Option String) :
    Scanner.run ⟨.stateInString, et, ps, er⟩ '"' =
      (⟨.stateEndValue, et, ps, er⟩, .scanContinue) := rfl

theorem run_esc_simple (c : Char) (et : Bool) (ps : List ParseState) (er : Option String)
    (h : c = 'b' ∨ c = 'f' ∨ c = 'n' ∨ c = 'r' ∨ c = 't' ∨ c = '\\' ∨ c = '/' ∨ c = '"') :
    Scanner.run ⟨.stateInStringEsc, et, ps, er⟩ c =
      (⟨.stateInString, et, ps, er⟩, .scanContinue) := by
  simp [Scanner.run, stateInStringEsc, h]

theorem run_esc_u (et : Bool) (ps : List ParseState) (er : Option String) :
    Scanner.run ⟨.stateInStringEsc, et, ps, er⟩ 'u' =
      (⟨.stateInStringEscU, et, ps, er⟩, .scanContinue) := rfl

theorem run_hex0 (c : Char) (et : Bool) (ps : List ParseState) (er : Option String)
    (h : isHexDigit c = true) :
    Scanner.run ⟨.stateInStringEscU, et, ps, er⟩ c =
      (⟨.stateInStringEscU1, et, ps, er⟩, .scanContinue) := by
  simp [Scanner.run, stateHex, h]

theorem run_hex1 (c : Char) (et : Bool) (ps : List ParseState) (er : Option String)
    (h : isHexDigit c = true) :
    Scanner.run ⟨.stateInStringEscU1, et, ps, er⟩ c =
      (⟨.stateInStringEscU12, et, ps, er⟩, .scanContinue) := by
  simp [Scanner.run, stateHex, h]

theorem run_hex2 (c : Char) (et : Bool) (ps : List ParseState) (er : Option String)
    (h : isHexDigit c = true) :
    Scanner.run ⟨.stateInStringEscU12, et, ps, er⟩ c =
      (⟨.stateInStringEscU123, et, ps, er⟩, .scanContinue) := by
  simp [Scanner.run, stateHex, h]

theorem run_hex3 (c : Char) (et : Bool) (ps : List ParseState) (er : Option String)
    (h : isHexDigit c = true) :
    Scanner.run ⟨.stateInStringEscU123, et, ps, er⟩ c =
      (⟨.stateInString, et, ps, er⟩, .scanContinue) := by
  simp [Scanner.run, stateHex, h]

theorem isHexDigit_hexDigit (n : Nat) (h : n < 16) : isHexDigit (hexDigit n) = true := by
  interval_cases n <;> rfl

theorem htmlSafe_spec {c : Char} (h : htmlSafe c = true) :
    c ≠ '"' ∧ c ≠ '\\' ∧ 32 ≤ c.toNat := by
  simp only [htmlSafe, Bool.and_eq_true, decide_eq_true_eq, Bool.not_eq_true',
    Bool.or_eq_false_iff, beq_eq_false_iff_ne, ne_eq] at h
  exact ⟨h.2.1.1.1.1, h.2.1.1.1.2, h.1.1⟩

/-- Every escape of the encoder is accepted inside a string literal, and
`json.Indent` copies it unchanged. -/
theorem indentLoop_encodeChar (c : Char) (et : Bool) (ps : List ParseState)
    (er : Option String) (d : Int) (dst rest : Text) :
    indentLoop [] ['\t'] ⟨.stateInString, et, ps, er⟩ false d dst (encodeChar c ++ rest) =
      indentLoop [] ['\t'] ⟨.stateInString, et, ps, er⟩ false d (dst ++ encodeChar c) rest := by
  unfold encodeChar
  split_ifs with h1 h2 h3 h4 h5 h6 h7
  · obtain ⟨a, b, e⟩ := htmlSafe_spec h2
    rw [List.singleton_append, indentLoop_continue (run_inString_plain c et ps er a b e)]
  · rw [List.cons_append, List.cons_append, List.nil_append,
      indentLoop_continue (run_inString_backslash et ps er),
      indentLoop_continue (run_esc_simple c et ps er (by rcases h3 with h | h <;> simp [h]))]
    simp
  · rw [List.cons_append, List.cons_append, List.nil_append,
      indentLoop_continue (run_inString_backslash et ps er),
      indentLoop_continue (run_esc_simple _ et ps er (by simp))]
    simp
  · rw [List.cons_append, List.cons_append, List.nil_append,
      indentLoop_continue (run_inString_backslash et ps er),
      indentLoop_continue (run_esc_simple _ et ps er (by simp))]
    simp
  · rw [List.cons_append, List.cons_append, List.nil_append,
      indentLoop_continue (run_inString_backslash et ps er),
      indentLoop_continue (run_esc_simple _ et ps er (by simp))]
    simp
  · have ha : isHexDigit (hexDigit (c.toNat / 16)) = true :=
      isHexDigit_hexDigit _ (by omega)
    have hb : isHexDigit (hexDigit (c.toNat % 16)) = true :=
      isHexDigit_hexDigit _ (Nat.mod_lt _ (by decide))
    simp only [List.cons_append, List.nil_append]
    rw [indentLoop_continue (run_inString_backslash et ps er),
      indentLoop_continue (run_esc_u et ps er),
      indentLoop_continue (run_hex0 '0' et ps er rfl),
      indentLoop_continue (run_hex1 '0' et ps er rfl),
      indentLoop_continue (run_hex2 _ et ps er ha),
      indentLoop_continue (run_hex3 _ et ps er hb)]
    simp
  · have hb : isHexDigit (hexDigit (c.toNat % 16)) = true :=
      isHexDigit_hexDigit _ (Nat.mod_lt _ (by decide))
    simp only [List.cons_append, List.nil_append]
    rw [indentLoop_continue (run_inString_backslash et ps er),
      indentLoop_continue (run_esc_u et ps er),
      indentLoop_continue (run_hex0 '2' et ps er rfl),
      indentLoop_continue (run_hex1 '0' et ps er rfl),
      indentLoop_continue (run_hex2 '2' et ps er rfl),
      indentLoop_continue (run_hex3 _ et ps er hb)]
    simp
  · have a : c ≠ '"' := by rintro rfl; exact h1 (by decide)
    have b : c ≠ '\\' := by rintro rfl; exact h1 (by decide)
    rw [List.singleton_append,
      indentLoop_continue (run_inString_plain c et ps er a b (by omega))]

theorem indentLoop_encodeBody (s : Text) (et : Bool) (ps : List ParseState)
    (er : Option String) (d : Int) (dst rest : Text) :
    indentLoop [] ['\t'] ⟨.stateInString, et, ps, er⟩ false d dst (encodeBody s ++ rest) =
      indentLoop [] ['\t'] ⟨.stateInString, et, ps, er⟩ false d (dst ++ encodeBody s) rest := by
  induction s generalizing dst with
  | nil => simp [encodeBody]
  | cons c cs ih =>
    rw [encodeBody, List.append_assoc, indentLoop_encodeChar, ih, List.append_assoc]

theorem run_quote {st : StepFn} (h : StringReady st) (et : Bool) (ps : List ParseState)
    (er : Option String) :
    Scanner.run ⟨st, et, ps, er⟩ '"' = (⟨.stateInString, et, ps, er⟩, .scanBeginLiteral) := by
  rcases h with rfl | rfl | rfl | rfl <;> rfl

theorem indentLoop_encodeString {st : StepFn} (h : StringReady st) (s : Text) (et : Bool)
    (ps : List ParseState) (er : Option String) (ni : Bool) (k : Nat) (dst rest : Text) :
    indentLoop [] ['\t'] ⟨st, et, ps, er⟩ ni (k : Int) dst (encodeString s ++ rest) =
      indentLoop [] ['\t'] ⟨.stateEndValue, et, ps, er⟩ false (depthAfter ni k : Nat)
        (dst ++ lead ni k ++ encodeString s) rest := by
  have e : encodeBody s ++ ['"'] ++ rest = encodeBody s ++ '"' :: rest := by simp
  rw [encodeString, List.cons_append,
    indentLoop_literal (run_quote h et ps er) (by decide), e,
    indentLoop_encodeBody, indentLoop_continue (run_inString_quote et ps er)]
  simp

/-! ## The scanner on numbers and on the literals `null`, `true`, `false` -/

theorem digitChar_cases (c : Char) (h : isDigit c = true) :
    c = '0' ∨ c = '1' ∨ c = '2' ∨ c = '3' ∨ c = '4' ∨ c = '5' ∨ c = '6' ∨ c = '7' ∨ c = '8' ∨
      c = '9' := by
  simp only [isDigit, Bool.and_eq_true, decide_eq_true_eq] at h
  have hc : Char.ofNat c.toNat = c := Char.ofNat_toNat c
  obtain ⟨h1, h2⟩ := h
  generalize c.toNat = n at hc h1 h2
  subst hc
  interval_cases n <;> simp

theorem isDigit_of_isDigit19 {c : Char} (h : isDigit19 c = true) : isDigit c = true := by
  simp only [isDigit19, isDigit, Bool.and_eq_true, decide_eq_true_eq] at h ⊢
  omega

theorem isDigit19_ne_zero {c : Char} (h : isDigit19 c = true) : c ≠ '0' := by
  rintro rfl; exact absurd h (by decide)

theorem run_state1_digit (c : Char) (et : Bool) (ps : List ParseState) (er : Option String)
    (h : isDigit c = true) :
    Scanner.run ⟨.state1, et, ps, er⟩ c = (⟨.state1, et, ps, er⟩, .scanContinue) := by
  simp [Scanner.run, state1, h]

theorem run_value_digit19 {st : StepFn} (hst : ValueReady st) (c : Char) (et : Bool)
    (ps : List ParseState) (er : Option String) (h : isDigit19 c = true) :
    Scanner.run ⟨st, et, ps, er⟩ c = (⟨.state1, et, ps, er⟩, .scanBeginLiteral) := by
  have h0 := isDigit19_ne_zero h
  rcases digitChar_cases c (isDigit_of_isDigit19 h) with
    rfl | rfl | rfl | rfl | rfl | rfl | rfl | rfl | rfl | rfl <;>
  rcases hst with rfl | rfl <;> first | rfl | exact absurd rfl h0

theorem run_neg_digit19 (c : Char) (et : Bool)
    (ps : List ParseState) (er : Option String) (h : isDigit19 c = true) :
    Scanner.run ⟨.stateNeg, et, ps, er⟩ c = (⟨.state1, et, ps, er⟩, .scanContinue) := by
  simp [Scanner.run, stateNeg, h, isDigit19_ne_zero h]

theorem digit_not_structural {c : Char} (h : isDigit c = true) :
    c ≠ '{' ∧ c ≠ '[' ∧ c ≠ ',' ∧ c ≠ ':' ∧ c ≠ '}' ∧ c ≠ ']' := by
  rcases digitChar_cases c h with
    rfl | rfl | rfl | rfl | rfl | rfl | rfl | rfl | rfl | rfl <;> decide

theorem isDigit_digitChar (n : Nat) (h : n < 10) : isDigit (digitChar n) = true := by
  interval_cases n <;> rfl

theorem isDigit19_digitChar (n : Nat) (h0 : 1 ≤ n) (h : n < 10) :
    isDigit19 (digitChar n) = true := by
  interval_cases n <;> rfl

theorem formatBits_spec (fuel n : Nat) (hf : n < fuel) (hn : 1 ≤ n) :
    ∃ c cs, formatBits fuel n = c :: cs ∧ isDigit19 c = true ∧ ∀ x ∈ cs, isDigit x = true := by
  induction fuel generalizing n with
  | zero => omega
  | succ fuel ih =>
    rw [formatBits]
    split_ifs with h10
    · exact ⟨digitChar n, [], rfl, isDigit19_digitChar n hn h10, by simp⟩
    · obtain ⟨c, cs, e, hc, hcs⟩ := ih (n / 10) (by omega) (by omega)
      refine ⟨c, cs ++ [digitChar (n % 10)], by rw [e]; rfl, hc, ?_⟩
      intro x hx
      rcases List.mem_append.1 hx with h | h
      · exact hcs x h
      · rw [List.mem_singleton.1 h]
        exact isDigit_digitChar _ (Nat.mod_lt _ (by decide))

theorem formatNat_spec (n : Nat) (hn : 1 ≤ n) :
    ∃ c cs, formatNat n = c :: cs ∧ isDigit19 c = true ∧ ∀ x ∈ cs, isDigit x = true :=
  formatBits_spec (n + 1) n (by omega) hn

theorem indentLoop_digits (cs : Text) (h : ∀ x ∈ cs, isDigit x = true) (et : Bool)
    (ps : List ParseState) (er : Option String) (d : Int) (dst rest : Text) :
    indentLoop [] ['\t'] ⟨.state1, et, ps, er⟩ false d dst (cs ++ rest) =
      indentLoop [] ['\t'] ⟨.state1, et, ps, er⟩ false d (dst ++ cs) rest := by
  induction cs generalizing dst with
  | nil => simp
  | cons c cs ih =>
    rw [List.cons_append,
      indentLoop_continue (run_state1_digit c et ps er (h c (List.mem_cons_self _ _))),
      ih fun x hx => h x (List.mem_cons_of_mem _ hx)]
    simp

theorem indentLoop_formatInt {st : StepFn} (hst : ValueReady st) (n : Int) (et : Bool)
    (ps : List ParseState) (er : Option String) (ni : Bool) (k : Nat) (dst rest : Text) :
    ∃ st1, ValueDone st1 ∧
      indentLoop [] ['\t'] ⟨st, et, ps, er⟩ ni (k : Int) dst (formatInt n ++ rest) =
        indentLoop [] ['\t'] ⟨st1, et, ps, er⟩ false (depthAfter ni k : Nat)
          (dst ++ lead ni k ++ formatInt n) rest := by
  cases n with
  | ofNat n =>
    rw [formatInt]
    rcases Nat.eq_zero_or_pos n with rfl | hn
    · refine ⟨.state0, Or.inr (Or.inl rfl), ?_⟩
      have h0 : Scanner.run ⟨st, et, ps, er⟩ '0' = (⟨.state0, et, ps, er⟩, .scanBeginLiteral) := by
        rcases hst with rfl | rfl <;> rfl
      have e : formatNat 0 = ['0'] := rfl
      rw [e, List.singleton_append, indentLoop_literal h0 (by decide)]
    · obtain ⟨c, cs, e, hc, hcs⟩ := formatNat_spec n hn
      refine ⟨.state1, Or.inr (Or.inr (Or.inl rfl)), ?_⟩
      rw [e, List.cons_append,
        indentLoop_literal (run_value_digit19 hst c et ps er hc)
          (digit_not_structural (isDigit_of_isDigit19 hc)),
        indentLoop_digits cs hcs]
      simp
  | negSucc n =>
    rw [formatInt]
    obtain ⟨c, cs, e, hc, hcs⟩ := formatNat_spec (n + 1) (by omega)
    refine ⟨.state1, Or.inr (Or.inr (Or.inl rfl)), ?_⟩
    have hm : Scanner.run ⟨st, et, ps, er⟩ '-' = (⟨.stateNeg, et, ps, er⟩, .scanBeginLiteral) := by
      rcases hst with rfl | rfl <;> rfl
    rw [e, List.cons_append, indentLoop_literal hm (by decide), List.cons_append,
      indentLoop_continue (run_neg_digit19 c et ps er hc), indentLoop_digits cs hcs]
    simp

theorem indentLoop_null {st : StepFn} (hst : ValueReady st) (et : Bool)
    (ps : List ParseState) (er : Option String) (ni : Bool) (k : Nat) (dst rest : Text) :
    indentLoop [] ['\t'] ⟨st, et, ps, er⟩ ni (k : Int) dst ('n' :: 'u' :: 'l' :: 'l' :: rest) =
      indentLoop [] ['\t'] ⟨.stateEndValue, et, ps, er⟩ false (depthAfter ni k : Nat)
        (dst ++ lead ni k ++ ['n', 'u', 'l', 'l']) rest := by
  have h0 : Scanner.run ⟨st, et, ps, er⟩ 'n' = (⟨.stateN, et, ps, er⟩, .scanBeginLiteral) := by
    rcases hst with rfl | rfl <;> rfl
  rw [indentLoop_literal h0 (by decide),
    indentLoop_continue (show Scanner.run ⟨.stateN, et, ps, er⟩ 'u' =
      (⟨.stateNu, et, ps, er⟩, .scanContinue) from rfl),
    indentLoop_continue (show Scanner.run ⟨.stateNu, et, ps, er⟩ 'l' =
      (⟨.stateNul, et, ps, er⟩, .scanContinue) from rfl),
    indentLoop_continue (show Scanner.run ⟨.stateNul, et, ps, er⟩ 'l' =
      (⟨.stateEndValue, et, ps, er⟩, .scanContinue) from rfl)]
  simp

theorem indentLoop_true {st : StepFn} (hst : ValueReady st) (et : Bool)
    (ps : List ParseState) (er : Option String) (ni : Bool) (k : Nat) (dst rest : Text) :
    indentLoop [] ['\t'] ⟨st, et, ps, er⟩ ni (k : Int) dst ('t' :: 'r' :: 'u' :: 'e' :: rest) =
      indentLoop [] ['\t'] ⟨.stateEndValue, et, ps, er⟩ false (depthAfter ni k : Nat)
        (dst ++ lead ni k ++ ['t', 'r', 'u', 'e']) rest := by
  have h0 : Scanner.run ⟨st, et, ps, er⟩ 't' = (⟨.stateT, et, ps, er⟩, .scanBeginLiteral) := by
    rcases hst with rfl | rfl <;> rfl
  rw [indentLoop_literal h0 (by decide),
    indentLoop_continue (show Scanner.run ⟨.stateT, et, ps, er⟩ 'r' =
      (⟨.stateTr, et, ps, er⟩, .scanContinue) from rfl),
    indentLoop_continue (show Scanner.run ⟨.stateTr, et, ps, er⟩ 'u' =
      (⟨.stateTru, et, ps, er⟩, .scanContinue) from rfl),
    indentLoop_continue (show Scanner.run ⟨.stateTru, et, ps, er⟩ 'e' =
      (⟨.stateEndValue, et, ps, er⟩, .scanContinue) from rfl)]
  simp

theorem indentLoop_false {st : StepFn} (hst : ValueReady st) (et : Bool)
    (ps : List ParseState) (er : Option String) (ni : Bool) (k : Nat) (dst rest : Text) :
    indentLoop [] ['\t'] ⟨st, et, ps, er⟩ ni (k : Int) dst
        ('f' :: 'a' :: 'l' :: 's' :: 'e' :: rest) =
      indentLoop [] ['\t'] ⟨.stateEndValue, et, ps, er⟩ false (depthAfter ni k : Nat)
        (dst ++ lead ni k ++ ['f', 'a', 'l', 's', 'e']) rest := by
  have h0 : Scanner.run ⟨st, et, ps, er⟩ 'f' = (⟨.stateF, et, ps, er⟩, .scanBeginLiteral) := by
    rcases hst with rfl | rfl <;> rfl
  rw [indentLoop_literal h0 (by decide),
    indentLoop_continue (show Scanner.run ⟨.stateF, et, ps, er⟩ 'a' =
      (⟨.stateFa, et, ps, er⟩, .scanContinue) from rfl),
    indentLoop_continue (show Scanner.run ⟨.stateFa, et, ps, er⟩ 'l' =
      (⟨.stateFal, et, ps, er⟩, .scanContinue) from rfl),
    indentLoop_continue (show Scanner.run ⟨.stateFal, et, ps, er⟩ 's' =
      (⟨.stateFals, et, ps, er⟩, .scanContinue) from rfl),
    indentLoop_continue (show Scanner.run ⟨.stateFals, et, ps, er⟩ 'e' =
      (⟨.stateEndValue, et, ps, er⟩, .scanContinue) from rfl)]
  simp

/-! ## The scanner between values -/

theorem run_open_arr {st : StepFn} (hst : ValueReady st) (et : Bool) (ps : List ParseState)
    (er : Option String) (hfit : ps.length < maxNestingDepth) :
    Scanner.run ⟨st, et, ps, er⟩ '[' =
      (⟨.stateBeginValueOrEmpty, et, .parseArrayValue :: ps, er⟩, .scanBeginArray) := by
  have h : ps.length + 1 ≤ maxNestingDepth := hfit
  rcases hst with rfl | rfl <;>
    simp [Scanner.run, stateBeginValue, stateBeginValueOrEmpty, Scanner.pushParseState, isSpace, h]

theorem run_open_obj {st : StepFn} (hst : ValueReady st) (et : Bool) (ps : List ParseState)
    (er : Option String) (hfit : ps.length < maxNestingDepth) :
    Scanner.run ⟨st, et, ps, er⟩ '{' =
      (⟨.stateBeginStringOrEmpty, et, .parseObjectKey :: ps, er⟩, .scanBeginObject) := by
  have h : ps.length + 1 ≤ maxNestingDepth := hfit
  rcases hst with rfl | rfl <;>
    simp [Scanner.run, stateBeginValue, stateBeginValueOrEmpty, Scanner.pushParseState, isSpace, h]

/-- An array or object that would be nested past `maxNestingDepth` stops the
scanner with an error. -/
theorem run_open_deep {st : StepFn} (hst : ValueReady st) (et : Bool) (ps : List ParseState)
    (er : Option String) (hdeep : maxNestingDepth ≤ ps.length) {c : Char}
    (hc : c = '{' ∨ c = '[') :
    ∃ s1 : Scanner, s1.step = .stateError ∧ s1.err = some (depthMessage c) ∧
      Scanner.run ⟨st, et, ps, er⟩ c = (s1, .scanError) := by
  have h : ¬ ps.length + 1 ≤ maxNestingDepth := by omega
  rcases hc with rfl | rfl <;> rcases hst with rfl | rfl <;>
    simp [Scanner.run, stateBeginValue, stateBeginValueOrEmpty, Scanner.pushParseState, isSpace,
      h, Scanner.error, depthMessage]

theorem run_done_comma_arr {st : StepFn} (hst : ValueDone st) (et : Bool)
    (ps : List ParseState) (er : Option String) :
    Scanner.run ⟨st, et, .parseArrayValue :: ps, er⟩ ',' =
      (⟨.stateBeginValue, et, .parseArrayValue :: ps, er⟩, .scanArrayValue) := by
  rcases hst with rfl | rfl | rfl | rfl | rfl <;> rfl

theorem run_done_comma_obj {st : StepFn} (hst : ValueDone st) (et : Bool)
    (ps : List ParseState) (er : Option String) :
    Scanner.run ⟨st, et, .parseObjectValue :: ps, er⟩ ',' =
      (⟨.stateBeginString, et, .parseObjectKey :: ps, er⟩, .scanObjectValue) := by
  rcases hst with rfl | rfl | rfl | rfl | rfl <;> rfl

theorem run_done_close_arr {st : StepFn} (hst : ValueDone st) (et : Bool)
    (ps : List ParseState) (er : Option String) :
    Scanner.run ⟨st, et, .parseArrayValue :: ps, er⟩ ']' = (popped et ps er, .scanEndArray) := by
  rcases hst with rfl | rfl | rfl | rfl | rfl <;> cases ps <;> rfl

theorem run_done_close_obj {st : StepFn} (hst : ValueDone st) (et : Bool)
    (ps : List ParseState) (er : Option String) :
    Scanner.run ⟨st, et, .parseObjectValue :: ps, er⟩ '}' = (popped et ps er, .scanEndObject) := by
  rcases hst with rfl | rfl | rfl | rfl | rfl <;> cases ps <;> rfl

theorem run_empty_arr (et : Bool) (ps : List ParseState) (er : Option String) :
    Scanner.run ⟨.stateBeginValueOrEmpty, et, .parseArrayValue :: ps, er⟩ ']' =
      (popped et ps er, .scanEndArray) := by
  cases ps <;> rfl

theorem run_empty_obj (et : Bool) (ps : List ParseState) (er : Option String) :
    Scanner.run ⟨.stateBeginStringOrEmpty, et, .parseObjectKey :: ps, er⟩ '}' =
      (popped et ps er, .scanEndObject) := by
  cases ps <;> rfl

theorem run_key_colon (et : Bool) (ps : List ParseState) (er : Option String) :
    Scanner.run ⟨.stateEndValue, et, .parseObjectKey :: ps, er⟩ ':' =
      (⟨.stateBeginValue, et, .parseObjectValue :: ps, er⟩, .scanObjectKey) := rfl

theorem popped_after (et : Bool) (ps : List ParseState) (er : Option String) :
    ∃ st1 et1, AfterValue ps et st1 et1 ∧ popped et ps er = ⟨st1, et1, ps, er⟩ := by
  cases ps with
  | nil => exact ⟨.stateEndTop, true, Or.inr ⟨rfl, rfl, rfl⟩, rfl⟩
  | cons p ps => exact ⟨.stateEndValue, et, Or.inl ⟨Or.inl rfl, rfl⟩, rfl⟩

theorem AfterValue.done {p : ParseState} {ps : List ParseState} {et et1 : Bool} {st1 : StepFn}
    (h : AfterValue (p :: ps) et st1 et1) : ValueDone st1 ∧ et1 = et := by
  rcases h with h | ⟨h, _⟩
  · exact h
  · cases h

/-! ## White space between tokens -/

theorem isSpace_cases {c : Char} (h : isSpace c = true) :
    c = ' ' ∨ c = '\t' ∨ c = '\r' ∨ c = '\n' := by
  simp only [isSpace, Bool.or_eq_true, beq_iff_eq] at h
  tauto

theorem run_begin_space {st : StepFn} (hst : StringReady st) {c : Char} (h : isSpace c = true)
    (et : Bool) (ps : List ParseState) (er : Option String) :
    Scanner.run ⟨st, et, ps, er⟩ c = (⟨st, et, ps, er⟩, .scanSkipSpace) := by
  rcases isSpace_cases h with rfl | rfl | rfl | rfl <;>
    rcases hst with rfl | rfl | rfl | rfl <;> rfl

theorem run_done_space {st : StepFn} (hst : ValueDone st) {c : Char} (h : isSpace c = true)
    (et : Bool) (p : ParseState) (ps : List ParseState) (er : Option String) :
    Scanner.run ⟨st, et, p :: ps, er⟩ c = (⟨.stateEndValue, et, p :: ps, er⟩, .scanSkipSpace) := by
  rcases isSpace_cases h with rfl | rfl | rfl | rfl <;>
    rcases hst with rfl | rfl | rfl | rfl | rfl <;> rfl

theorem indentLoop_begin_space {st : StepFn} (hst : StringReady st) (w : Text) (hw : AllSpace w)
    (et : Bool) (ps : List ParseState) (er : Option String) (ni : Bool) (d : Int)
    (dst rest : Text) :
    indentLoop [] ['\t'] ⟨st, et, ps, er⟩ ni d dst (w ++ rest) =
      indentLoop [] ['\t'] ⟨st, et, ps, er⟩ ni d dst rest := by
  induction w with
  | nil => rfl
  | cons c w ih =>
    rw [List.cons_append, indentLoop_skip (run_begin_space hst (hw c (List.mem_cons_self _ _)) ..),
      ih fun x hx => hw x (List.mem_cons_of_mem _ hx)]

theorem indentLoop_done_space {st : StepFn} (hst : ValueDone st) (w : Text) (hw : AllSpace w)
    (et : Bool) (p : ParseState) (ps : List ParseState) (er : Option String) :
    ∃ st1, ValueDone st1 ∧ ∀ (ni : Bool) (d : Int) (dst rest : Text),
      indentLoop [] ['\t'] ⟨st, et, p :: ps, er⟩ ni d dst (w ++ rest) =
        indentLoop [] ['\t'] ⟨st1, et, p :: ps, er⟩ ni d dst rest := by
  induction w generalizing st with
  | nil => exact ⟨st, hst, fun _ _ _ _ => rfl⟩
  | cons c w ih =>
    obtain ⟨st1, h1, e⟩ := ih (Or.inl rfl) fun x hx => hw x (List.mem_cons_of_mem _ hx)
    refine ⟨st1, h1, fun ni d dst rest => ?_⟩
    rw [List.cons_append, indentLoop_skip (run_done_space hst (hw c (List.mem_cons_self _ _)) ..),
      e]

theorem allSpace_nl (k : Nat) : AllSpace (nl k) := by
  intro c hc
  rcases List.mem_cons.1 hc with rfl | h
  · rfl
  · rw [List.eq_of_mem_replicate h]; rfl

theorem allSpace_brk (sp : Option Nat) : AllSpace (brk sp) := by
  cases sp with
  | none => intro c hc; cases hc
  | some k => exact allSpace_nl k

theorem allSpace_gap (sp : Option Nat) : AllSpace (gap sp) := by
  cases sp with
  | none => intro c hc; cases hc
  | some k => intro c hc; rw [List.mem_singleton.1 hc]; rfl


/-- The function `quoteChar` on some bytes: an opening bracket, the quotes, a
line feed, the byte 0, a backslash, and the first byte of a two-byte
character. -/
theorem quoteChar_samples :
    quoteChar (leadByte '[') = "'['" ∧ quoteChar 39 = "'\\''" ∧ quoteChar 34 = "'\"'" ∧
    quoteChar 10 = "'\\n'" ∧ quoteChar 0 = "'\\x00'" ∧ quoteChar 92 = "'\\\\'" ∧
    leadByte (Char.ofNat 233) = 195 ∧ quoteChar 195 = String.mk ['\'', Char.ofNat 195, '\''] ∧
    depthMessage '[' = "invalid character '[' exceeded max depth" := by
  decide
/-! ## Floating-point numbers: the text written by the encoder -/

theorem shortest_nil {neg : Bool} {dp : Int}
    (h : decimalSlice.shortest neg ⟨[], dp⟩ = true) : neg = true ∧ dp = 0 := by
  simpa [decimalSlice.shortest] using h

theorem shortest_cons {neg : Bool} {c : Char} {cs : Text} {dp : Int}
    (h : decimalSlice.shortest neg ⟨c :: cs, dp⟩ = true) :
    isDigit19 c = true ∧ (∀ x ∈ cs, isDigit x = true) ∧ -323 ≤ dp ∧ dp ≤ 309 ∧
      (dp < ((cs.length + 1 : Nat) : Int) ∨ 22 ≤ dp) := by
  simp only [decimalSlice.shortest, Bool.and_eq_true, Bool.or_eq_true, decide_eq_true_eq,
    List.all_eq_true] at h
  obtain ⟨⟨⟨⟨⟨⟨h1, h2⟩, _⟩, _⟩, h5⟩, h6⟩, h7⟩ := h
  exact ⟨h1, h2, h5, h6, h7⟩

theorem range_map_drop (d : Text) (k : Nat) (hk : k ≤ d.length) :
    ((List.range (d.length - k)).map fun (i : Nat) =>
      if 0 ≤ (k : Int) + (i : Int) ∧ (k : Int) + (i : Int) < (d.length : Int) then
        d.getD ((k : Int) + (i : Int)).toNat '0'
      else '0') = d.drop k := by
  apply List.ext_getElem
  · simp
  · intro i h1 h2
    simp only [List.length_map, List.length_range] at h1
    have e : ((k : Int) + (i : Int)).toNat = k + i := by omega
    have c : 0 ≤ (k : Int) + (i : Int) ∧ (k : Int) + (i : Int) < (d.length : Int) := by omega
    simp only [List.getElem_map, List.getElem_range, c, and_self, if_true, e, List.getElem_drop]
    rw [List.getD_eq_getElem _ _ (by omega)]

theorem range_map_zeros (d : Text) (j : Nat) :
    ((List.range (d.length + j)).map fun (i : Nat) =>
      if 0 ≤ -(j : Int) + (i : Int) ∧ -(j : Int) + (i : Int) < (d.length : Int) then
        d.getD (-(j : Int) + (i : Int)).toNat '0'
      else '0') = List.replicate j '0' ++ d := by
  apply List.ext_getElem
  · simp; omega
  · intro i h1 h2
    simp only [List.length_map, List.length_range] at h1
    simp only [List.getElem_map, List.getElem_range]
    by_cases hij : i < j
    · have c : ¬ (0 ≤ -(j : Int) + (i : Int) ∧ -(j : Int) + (i : Int) < (d.length : Int)) := by
        omega
      rw [if_neg c, List.getElem_append_left (by simpa using hij)]
      simp
    · have c : 0 ≤ -(j : Int) + (i : Int) ∧ -(j : Int) + (i : Int) < (d.length : Int) := by omega
      have e : (-(j : Int) + (i : Int)).toNat = i - j := by omega
      rw [if_pos c, e, List.getElem_append_right (by simpa using hij)]
      simp only [List.length_replicate]
      rw [List.getD_eq_getElem _ _ (by omega)]

/-- The encoder on some `float64`: 1.5, 0.000001, 1e-7, 1e21, the negative zero,
123456789.125, the largest and the smallest positive `float64`, and NaN. -/
theorem floatEncoder_samples :
    Float64.oneAndHalf.text = "1.5".toList ∧
    Float64.tiny.text = "-2.5e-7".toList ∧
    (Float64.finite false ⟨['1'], -5⟩ (by decide)).text = "0.000001".toList ∧
    (Float64.finite false ⟨['1'], -6⟩ (by decide)).text = "1e-7".toList ∧
    (Float64.finite false ⟨['1'], 22⟩ (by decide)).text = "1e+21".toList ∧
    (Float64.finite true ⟨[], 0⟩ (by decide)).text = "-0".toList ∧
    (Float64.finite false ⟨"123456789125".toList, 9⟩ (by decide)).text = "123456789.125".toList ∧
    (Float64.finite false ⟨"17976931348623157".toList, 309⟩ (by decide)).text =
      "1.7976931348623157e+308".toList ∧
    (Float64.finite false ⟨['5'], -323⟩ (by decide)).text = "5e-324".toList ∧
    Marshal (.float .nan) = .error (.base "json: unsupported value: NaN") ∧
    Marshal (.float (.inf true)) = .error (.base "json: unsupported value: -Inf") :=
  ⟨by decide, by decide, by decide, by decide, by decide, by decide, by decide, by decide,
    by decide, rfl, rfl⟩

theorem text_of_e {neg : Bool} {digs : decimalSlice} (h : digs.shortest neg = true)
    (he : digs.d ≠ [] ∧ (digs.dp ≤ -6 ∨ 22 ≤ digs.dp)) :
    (Float64.finite neg digs h).text = cleanExponent (AppendFloat neg digs 'e') := by
  simp [Float64.text, floatEncoder, he]

theorem text_of_f {neg : Bool} {digs : decimalSlice} (h : digs.shortest neg = true)
    (he : ¬ (digs.d ≠ [] ∧ (digs.dp ≤ -6 ∨ 22 ≤ digs.dp))) :
    (Float64.finite neg digs h).text = AppendFloat neg digs 'f' := by
  simp only [Float64.text, floatEncoder, if_neg he]
  rw [if_neg (by decide)]

theorem cleanExponent_four (pre : Text) (x1 x2 x3 x4 : Char) :
    cleanExponent (pre ++ [x1, x2, x3, x4]) =
      if x1 = 'e' ∧ x2 = '-' ∧ x3 = '0' then pre ++ [x1, x2, x4] else pre ++ [x1, x2, x3, x4] := by
  have e4 : (pre ++ [x1, x2, x3, x4]).length - 4 = pre.length := by simp
  have e3 : (pre ++ [x1, x2, x3, x4]).length - 3 = pre.length + 1 := by simp
  have e2 : (pre ++ [x1, x2, x3, x4]).length - 2 = pre.length + 2 := by simp
  have e1 : (pre ++ [x1, x2, x3, x4]).length - 1 = pre.length + 3 := by simp
  have l4 : 4 ≤ (pre ++ [x1, x2, x3, x4]).length := by simp
  simp only [cleanExponent, e4, e3, e2, e1, l4, true_and]
  rw [List.getD_append_right _ _ _ _ (le_refl _), List.getD_append_right _ _ _ _ (by omega),
    List.getD_append_right _ _ _ _ (by omega), List.getD_append_right _ _ _ _ (by omega)]
  simp only [Nat.sub_self, Nat.add_sub_cancel_left]
  have g0 : [x1, x2, x3, x4].getD 0 ' ' = x1 := rfl
  have g1 : [x1, x2, x3, x4].getD 1 ' ' = x2 := rfl
  have g2 : [x1, x2, x3, x4].getD 2 ' ' = x3 := rfl
  have g3 : [x1, x2, x3, x4].getD 3 ' ' = x4 := rfl
  rw [g0, g1, g2, g3]
  split_ifs with h
  · rw [List.take_append]
    simp
  · rfl

theorem appendFloat_e (neg : Bool) (c : Char) (cs : Text) (dp : Int) :
    AppendFloat neg ⟨c :: cs, dp⟩ 'e' =
      (if neg then ['-'] else []) ++ c :: ((if cs = [] then [] else '.' :: cs) ++
        'e' :: (if dp - 1 < 0 then '-' else '+') ::
          (if (dp - 1).natAbs < 10 then ['0', digitChar (dp - 1).natAbs]
          else if (dp - 1).natAbs < 100 then
            [digitChar ((dp - 1).natAbs / 10), digitChar ((dp - 1).natAbs % 10)]
          else [digitChar ((dp - 1).natAbs / 100), digitChar ((dp - 1).natAbs / 10 % 10),
            digitChar ((dp - 1).natAbs % 10)])) := by
  cases cs with
  | nil => simp [AppendFloat, fmtE]
  | cons x xs =>
    have e1 : max 1 (xs.length + 1 + 1) = xs.length + 1 + 1 := by omega
    simp [AppendFloat, fmtE, e1]

theorem digitChar_toNat (m : Nat) (h : m < 10) : (digitChar m).toNat - 48 = m := by
  interval_cases m <;> rfl

theorem digitsValue_one (a : Char) : digitsValue [a] = a.toNat - 48 := by
  simp [digitsValue]

theorem digitsValue_two (a b : Char) :
    digitsValue [a, b] = 10 * (a.toNat - 48) + (b.toNat - 48) := by
  simp [digitsValue]

theorem digitsValue_three (a b c : Char) :
    digitsValue [a, b, c] = 10 * (10 * (a.toNat - 48) + (b.toNat - 48)) + (c.toNat - 48) := by
  simp [digitsValue]

theorem text_e (neg : Bool) (c : Char) (cs : Text) (dp : Int)
    (h : decimalSlice.shortest neg ⟨c :: cs, dp⟩ = true) (he : dp ≤ -6 ∨ 22 ≤ dp) :
    ∃ L, L ≠ [] ∧ (∀ x ∈ L, isDigit x = true) ∧ digitsValue L = (dp - 1).natAbs ∧
      (Float64.finite neg ⟨c :: cs, dp⟩ h).text =
        (if neg then ['-'] else []) ++ c :: ((if cs = [] then [] else '.' :: cs) ++
          'e' :: (if dp - 1 < 0 then '-' else '+') :: L) := by
  obtain ⟨_, _, hlo, hhi, _⟩ := shortest_cons h
  rw [text_of_e h ⟨by simp, he⟩, appendFloat_e]
  generalize hpre : (if neg then ['-'] else []) ++ c :: (if cs = [] then [] else '.' :: cs) = pre
  have hpre' : ∀ t, (if neg then ['-'] else []) ++ c :: ((if cs = [] then [] else '.' :: cs) ++ t) =
      pre ++ t := by
    intro t; rw [← hpre]; simp
  simp only [hpre']
  generalize hs : (if dp - 1 < 0 then '-' else '+') = s
  have hs' : s = '-' ∨ s = '+' := by rw [← hs]; split_ifs <;> simp
  have hE : (dp - 1).natAbs < 1000 := by omega
  generalize (dp - 1).natAbs = e at hE ⊢
  by_cases h10 : e < 10
  · rw [if_pos h10]
    have e1 : pre ++ 'e' :: s :: ['0', digitChar e] = pre ++ ['e', s, '0', digitChar e] := rfl
    rw [e1, cleanExponent_four]
    by_cases hm : s = '-'
    · refine ⟨[digitChar e], by simp, ?_, ?_, ?_⟩
      · intro x hx; rw [List.mem_singleton.1 hx]; exact isDigit_digitChar e h10
      · rw [digitsValue_one, digitChar_toNat e h10]
      · rw [if_pos ⟨rfl, hm, rfl⟩]
    · refine ⟨['0', digitChar e], by simp, ?_, ?_, ?_⟩
      · intro x hx
        rcases List.mem_cons.1 hx with rfl | hx
        · rfl
        · rw [List.mem_singleton.1 hx]; exact isDigit_digitChar e h10
      · rw [digitsValue_two, digitChar_toNat e h10]
        have z : '0'.toNat - 48 = 0 := rfl
        rw [z]; omega
      · rw [if_neg (fun hc => hm hc.2.1)]
  · rw [if_neg h10]
    by_cases h100 : e < 100
    · rw [if_pos h100]
      have hd1 : isDigit19 (digitChar (e / 10)) = true :=
        isDigit19_digitChar _ (by omega) (by omega)
      have hd2 : isDigit (digitChar (e % 10)) = true := isDigit_digitChar _ (by omega)
      refine ⟨[digitChar (e / 10), digitChar (e % 10)], by simp, ?_, ?_, ?_⟩
      · intro x hx
        rcases List.mem_cons.1 hx with rfl | hx
        · exact isDigit_of_isDigit19 hd1
        · rw [List.mem_singleton.1 hx]; exact hd2
      · rw [digitsValue_two, digitChar_toNat _ (by omega), digitChar_toNat _ (by omega)]; omega
      · have e1 : pre ++ 'e' :: s :: [digitChar (e / 10), digitChar (e % 10)] =
            pre ++ ['e', s, digitChar (e / 10), digitChar (e % 10)] := rfl
        rw [e1, cleanExponent_four, if_neg (fun hc => isDigit19_ne_zero hd1 hc.2.2)]
    · rw [if_neg h100]
      have hd1 : isDigit (digitChar (e / 100)) = true := isDigit_digitChar _ (by omega)
      have hd2 : isDigit (digitChar (e / 10 % 10)) = true := isDigit_digitChar _ (by omega)
      have hd3 : isDigit (digitChar (e % 10)) = true := isDigit_digitChar _ (by omega)
      refine ⟨[digitChar (e / 100), digitChar (e / 10 % 10), digitChar (e % 10)], by simp,
        ?_, ?_, ?_⟩
      · intro x hx
        rcases List.mem_cons.1 hx with rfl | hx
        · exact hd1
        · rcases List.mem_cons.1 hx with rfl | hx
          · exact hd2
          · rw [List.mem_singleton.1 hx]; exact hd3
      · rw [digitsValue_three, digitChar_toNat _ (by omega), digitChar_toNat _ (by omega),
          digitChar_toNat _ (by omega)]
        omega
      · have e1 : pre ++ 'e' :: s ::
              [digitChar (e / 100), digitChar (e / 10 % 10), digitChar (e % 10)] =
            (pre ++ ['e']) ++
              [s, digitChar (e / 100), digitChar (e / 10 % 10), digitChar (e % 10)] := by simp
        have hse : s ≠ 'e' := by rcases hs' with rfl | rfl <;> decide
        rw [e1, cleanExponent_four, if_neg (fun hc => hse hc.1)]

theorem text_negzero (neg : Bool) (dp : Int) (h : decimalSlice.shortest neg ⟨[], dp⟩ = true) :
    (Float64.finite neg ⟨[], dp⟩ h).text = ['-', '0'] := by
  obtain ⟨rfl, rfl⟩ := shortest_nil h
  rfl

theorem text_f_pos (neg : Bool) (c : Char) (cs : Text) (k : Nat)
    (h : decimalSlice.shortest neg ⟨c :: cs, (k : Int)⟩ = true) (h1 : 0 < k) (h2 : k ≤ 21) :
    k < cs.length + 1 ∧
      (Float64.finite neg ⟨c :: cs, (k : Int)⟩ h).text =
        (if neg then ['-'] else []) ++ ((c :: cs).take k ++ '.' :: (c :: cs).drop k) := by
  obtain ⟨_, _, _, _, hfr⟩ := shortest_cons h
  have hk : k < cs.length + 1 := by omega
  refine ⟨hk, ?_⟩
  rw [text_of_f h (by simp; omega)]
  have e1 : (((c :: cs).length : Int) - (k : Int)).toNat = (c :: cs).length - k := by
    simp only [List.length_cons]; omega
  have e2 : min (c :: cs).length k = k := by simp only [List.length_cons]; omega
  have e3 : 0 < (c :: cs).length - k := by simp only [List.length_cons]; omega
  have e4 : (0 : Int) < (k : Int) := by omega
  simp only [AppendFloat, fmtF, if_neg (show ¬ ('f' = 'e') by decide), Int.toNat_ofNat, e1, e2,
    e3, e4, if_true, Nat.sub_self, List.replicate_zero, List.append_nil]
  rw [range_map_drop (c :: cs) k (by simp only [List.length_cons]; omega)]

theorem text_f_neg (neg : Bool) (c : Char) (cs : Text) (j : Nat)
    (h : decimalSlice.shortest neg ⟨c :: cs, -(j : Int)⟩ = true) (h2 : j ≤ 5) :
    (Float64.finite neg ⟨c :: cs, -(j : Int)⟩ h).text =
      (if neg then ['-'] else []) ++ '0' :: '.' :: (List.replicate j '0' ++ c :: cs) := by
  rw [text_of_f h (by simp; omega)]
  have e1 : (((c :: cs).length : Int) - -(j : Int)).toNat = (c :: cs).length + j := by
    simp only [List.length_cons]; omega
  have e3 : 0 < (c :: cs).length + j := by simp only [List.length_cons]; omega
  have e4 : ¬ ((0 : Int) < -(j : Int)) := by omega
  simp only [AppendFloat, fmtF, if_neg (show ¬ ('f' = 'e') by decide), e1, e3, e4, if_true,
    if_false]
  rw [range_map_zeros (c :: cs) j]
  simp

/-- The shape of the text of a finite number that is not printed as an integer:
a sign, an integer part, a fraction and an exponent. -/
theorem text_grammar (neg : Bool) (digs : decimalSlice) (h : digs.shortest neg = true) :
    ∃ int frac exp : Text,
      (Float64.finite neg digs h).text = (if neg then ['-'] else []) ++ int ++ frac ++ exp ∧
      (int = ['0'] ∨ ∃ c cs, int = c :: cs ∧ isDigit19 c = true ∧ ∀ x ∈ cs, isDigit x = true) ∧
      (frac = [] ∨ ∃ f, frac = '.' :: f ∧ f ≠ [] ∧ ∀ x ∈ f, isDigit x = true) ∧
      (exp = [] ∨ ∃ s L, exp = 'e' :: s :: L ∧ (s = '+' ∨ s = '-') ∧ L ≠ [] ∧
        ∀ x ∈ L, isDigit x = true) ∧
      ((neg = true ∧ int = ['0']) ∨ frac ≠ [] ∨ exp ≠ []) := by
  obtain ⟨d, dp⟩ := digs
  cases d with
  | nil =>
    refine ⟨['0'], [], [], ?_, Or.inl rfl, Or.inl rfl, Or.inl rfl, Or.inl ⟨(shortest_nil h).1, rfl⟩⟩
    rw [text_negzero, (shortest_nil h).1]; rfl
  | cons c cs =>
    obtain ⟨hc, hcs, hlo, hhi, hfr⟩ := shortest_cons h
    have hd : ∀ x ∈ c :: cs, isDigit x = true := by
      intro x hx
      rcases List.mem_cons.1 hx with rfl | hx
      · exact isDigit_of_isDigit19 hc
      · exact hcs x hx
    by_cases he : dp ≤ -6 ∨ 22 ≤ dp
    · obtain ⟨L, hL, hLd, _, e⟩ := text_e neg c cs dp h he
      refine ⟨[c], if cs = [] then [] else '.' :: cs, 'e' :: (if dp - 1 < 0 then '-' else '+') :: L,
        ?_, Or.inr ⟨c, [], rfl, hc, by simp⟩, ?_, Or.inr ⟨_, L, rfl, ?_, hL, hLd⟩,
        Or.inr (Or.inr (by simp))⟩
      · rw [e]; simp
      · by_cases hn : cs = []
        · exact Or.inl (by rw [if_pos hn])
        · exact Or.inr ⟨cs, by rw [if_neg hn], hn, hcs⟩
      · split_ifs <;> simp
    · by_cases hp : 0 < dp
      · obtain ⟨k, rfl⟩ := Int.eq_ofNat_of_zero_le (le_of_lt hp)
        obtain ⟨hk, e⟩ := text_f_pos neg c cs k h (by omega) (by omega)
        have hk0 : 0 < k := by omega
        obtain ⟨k', rfl⟩ : ∃ k', k = k' + 1 := ⟨k - 1, by omega⟩
        refine ⟨c :: cs.take k', '.' :: (c :: cs).drop (k' + 1), [], ?_,
          Or.inr ⟨c, cs.take k', rfl, hc, fun x hx => hcs x (List.mem_of_mem_take hx)⟩,
          Or.inr ⟨_, rfl, ?_, fun x hx => hd x (List.mem_of_mem_drop hx)⟩, Or.inl rfl,
          Or.inr (Or.inl (by simp))⟩
        · rw [e]; simp
        · intro hn
          have := congrArg List.length hn
          simp at this
          omega
      · obtain ⟨j, rfl⟩ := Int.exists_eq_neg_ofNat (by omega : dp ≤ 0)
        have e := text_f_neg neg c cs j h (by omega)
        refine ⟨['0'], '.' :: (List.replicate j '0' ++ c :: cs), [], ?_, Or.inl rfl,
          Or.inr ⟨_, rfl, by simp, ?_⟩, Or.inl rfl, Or.inr (Or.inl (by simp))⟩
        · rw [e]; simp
        · intro x hx
          rcases List.mem_append.1 hx with hx | hx
          · rw [List.eq_of_mem_replicate hx]; rfl
          · exact hd x hx

/-! ## The scanner on a number with a fraction or an exponent -/

theorem indentLoop_digits_in {sc : Scanner}
    (hrun : ∀ c, isDigit c = true → sc.run c = (sc, .scanContinue))
    (cs : Text) (h : ∀ x ∈ cs, isDigit x = true) (d : Int) (dst rest : Text) :
    indentLoop [] ['\t'] sc false d dst (cs ++ rest) =
      indentLoop [] ['\t'] sc false d (dst ++ cs) rest := by
  induction cs generalizing dst with
  | nil => simp
  | cons c cs ih =>
    rw [List.cons_append, indentLoop_continue (hrun c (h c (List.mem_cons_self _ _))),
      ih fun x hx => h x (List.mem_cons_of_mem _ hx)]
    simp

theorem run_dot_digit {st : StepFn} (hst : st = .stateDot ∨ st = .stateDot0) (c : Char)
    (et : Bool) (ps : List ParseState) (er : Option String) (h : isDigit c = true) :
    Scanner.run ⟨st, et, ps, er⟩ c = (⟨.stateDot0, et, ps, er⟩, .scanContinue) := by
  rcases hst with rfl | rfl <;> simp [Scanner.run, stateDot, stateDot0, h]

theorem run_exp_digit {st : StepFn} (hst : st = .stateE ∨ st = .stateESign ∨ st = .stateE0)
    (c : Char) (et : Bool) (ps : List ParseState) (er : Option String) (h : isDigit c = true) :
    Scanner.run ⟨st, et, ps, er⟩ c = (⟨.stateE0, et, ps, er⟩, .scanContinue) := by
  have h1 : c ≠ '+' := by rintro rfl; exact absurd h (by decide)
  have h2 : c ≠ '-' := by rintro rfl; exact absurd h (by decide)
  rcases hst with rfl | rfl | rfl <;> simp [Scanner.run, stateE, stateESign, stateE0, h, h1, h2]

theorem indentLoop_intPart {st : StepFn} (hst : ValueReady st) (neg : Bool) (int : Text)
    (hint : int = ['0'] ∨ ∃ c cs, int = c :: cs ∧ isDigit19 c = true ∧
      ∀ x ∈ cs, isDigit x = true)
    (et : Bool) (ps : List ParseState) (er : Option String) (ni : Bool) (k : Nat)
    (dst rest : Text) :
    ∃ st1, (st1 = .state0 ∨ st1 = .state1) ∧
      indentLoop [] ['\t'] ⟨st, et, ps, er⟩ ni (k : Int) dst
          ((if neg then ['-'] else []) ++ int ++ rest) =
        indentLoop [] ['\t'] ⟨st1, et, ps, er⟩ false (depthAfter ni k : Nat)
          (dst ++ lead ni k ++ ((if neg then ['-'] else []) ++ int)) rest := by
  have hm : Scanner.run ⟨st, et, ps, er⟩ '-' = (⟨.stateNeg, et, ps, er⟩, .scanBeginLiteral) := by
    rcases hst with rfl | rfl <;> rfl
  have h0 : Scanner.run ⟨st, et, ps, er⟩ '0' = (⟨.state0, et, ps, er⟩, .scanBeginLiteral) := by
    rcases hst with rfl | rfl <;> rfl
  cases neg with
  | false =>
    rcases hint with rfl | ⟨c, cs, rfl, hc, hcs⟩
    · refine ⟨.state0, Or.inl rfl, ?_⟩
      simp only [Bool.false_eq_true, if_false, List.nil_append, List.singleton_append]
      rw [indentLoop_literal h0 (by decide)]
    · refine ⟨.state1, Or.inr rfl, ?_⟩
      simp only [Bool.false_eq_true, if_false, List.nil_append, List.cons_append]
      rw [indentLoop_literal (run_value_digit19 hst c et ps er hc)
          (digit_not_structural (isDigit_of_isDigit19 hc)),
        indentLoop_digits cs hcs]
      simp
  | true =>
    rcases hint with rfl | ⟨c, cs, rfl, hc, hcs⟩
    · refine ⟨.state0, Or.inl rfl, ?_⟩
      simp only [if_true, List.singleton_append, List.cons_append, List.nil_append]
      rw [indentLoop_literal hm (by decide),
        indentLoop_continue (show Scanner.run ⟨.stateNeg, et, ps, er⟩ '0' =
          (⟨.state0, et, ps, er⟩, .scanContinue) from rfl)]
      simp
    · refine ⟨.state1, Or.inr rfl, ?_⟩
      simp only [if_true, List.singleton_append, List.cons_append, List.nil_append]
      rw [indentLoop_literal hm (by decide),
        indentLoop_continue (run_neg_digit19 c et ps er hc), indentLoop_digits cs hcs]
      simp

theorem indentLoop_fracPart {st : StepFn} (hst : st = .state0 ∨ st = .state1) (frac : Text)
    (hfrac : frac = [] ∨ ∃ f, frac = '.' :: f ∧ f ≠ [] ∧ ∀ x ∈ f, isDigit x = true)
    (et : Bool) (ps : List ParseState) (er : Option String) (d : Int) (dst rest : Text) :
    ∃ st1, (st1 = .state0 ∨ st1 = .state1 ∨ st1 = .stateDot0) ∧
      indentLoop [] ['\t'] ⟨st, et, ps, er⟩ false d dst (frac ++ rest) =
        indentLoop [] ['\t'] ⟨st1, et, ps, er⟩ false d (dst ++ frac) rest := by
  rcases hfrac with rfl | ⟨f, rfl, hne, hf⟩
  · exact ⟨st, by tauto, by simp⟩
  · refine ⟨.stateDot0, by tauto, ?_⟩
    have hdot : Scanner.run ⟨st, et, ps, er⟩ '.' = (⟨.stateDot, et, ps, er⟩, .scanContinue) := by
      rcases hst with rfl | rfl <;> rfl
    cases f with
    | nil => exact absurd rfl hne
    | cons x xs =>
      rw [List.cons_append, List.cons_append, indentLoop_continue hdot,
        indentLoop_continue (run_dot_digit (Or.inl rfl) x et ps er (hf x (List.mem_cons_self _ _))),
        indentLoop_digits_in (fun c hc => run_dot_digit (Or.inr rfl) c et ps er hc) xs
          fun y hy => hf y (List.mem_cons_of_mem _ hy)]
      simp

theorem indentLoop_expPart {st : StepFn}
    (hst : st = .state0 ∨ st = .state1 ∨ st = .stateDot0) (exp : Text)
    (hexp : exp = [] ∨ ∃ s L, exp = 'e' :: s :: L ∧ (s = '+' ∨ s = '-') ∧ L ≠ [] ∧
      ∀ x ∈ L, isDigit x = true)
    (et : Bool) (ps : List ParseState) (er : Option String) (d : Int) (dst rest : Text) :
    ∃ st1, ValueDone st1 ∧
      indentLoop [] ['\t'] ⟨st, et, ps, er⟩ false d dst (exp ++ rest) =
        indentLoop [] ['\t'] ⟨st1, et, ps, er⟩ false d (dst ++ exp) rest := by
  rcases hexp with rfl | ⟨s, L, rfl, hs, hne, hL⟩
  · refine ⟨st, ?_, by simp⟩
    rcases hst with rfl | rfl | rfl
    · exact Or.inr (Or.inl rfl)
    · exact Or.inr (Or.inr (Or.inl rfl))
    · exact Or.inr (Or.inr (Or.inr (Or.inl rfl)))
  · refine ⟨.stateE0, Or.inr (Or.inr (Or.inr (Or.inr rfl))), ?_⟩
    have he : Scanner.run ⟨st, et, ps, er⟩ 'e' = (⟨.stateE, et, ps, er⟩, .scanContinue) := by
      rcases hst with rfl | rfl | rfl <;> rfl
    have hsg : Scanner.run ⟨.stateE, et, ps, er⟩ s = (⟨.stateESign, et, ps, er⟩, .scanContinue) := by
      rcases hs with rfl | rfl <;> rfl
    cases L with
    | nil => exact absurd rfl hne
    | cons x xs =>
      rw [List.cons_append, List.cons_append, List.cons_append, indentLoop_continue he,
        indentLoop_continue hsg,
        indentLoop_continue (run_exp_digit (Or.inr (Or.inl rfl)) x et ps er
          (hL x (List.mem_cons_self _ _))),
        indentLoop_digits_in (fun c hc => run_exp_digit (Or.inr (Or.inr rfl)) c et ps er hc) xs
          fun y hy => hL y (List.mem_cons_of_mem _ hy)]
      simp

theorem indentLoop_float {st : StepFn} (hst : ValueReady st) (neg : Bool) (digs : decimalSlice)
    (h : digs.shortest neg = true) (et : Bool) (ps : List ParseState) (er : Option String)
    (ni : Bool) (k : Nat) (dst rest : Text) :
    ∃ st1, ValueDone st1 ∧
      indentLoop [] ['\t'] ⟨st, et, ps, er⟩ ni (k : Int) dst
          ((Float64.finite neg digs h).text ++ rest) =
        indentLoop [] ['\t'] ⟨st1, et, ps, er⟩ false (depthAfter ni k : Nat)
          (dst ++ lead ni k ++ (Float64.finite neg digs h).text) rest := by
  obtain ⟨int, frac, exp, e, hint, hfrac, hexp, _⟩ := text_grammar neg digs h
  obtain ⟨s0, h0, e0⟩ := indentLoop_intPart hst neg int hint et ps er ni k dst
    (frac ++ (exp ++ rest))
  obtain ⟨s1, h1, e1⟩ := indentLoop_fracPart h0 frac hfrac et ps er (depthAfter ni k : Nat)
    (dst ++ lead ni k ++ ((if neg then ['-'] else []) ++ int)) (exp ++ rest)
  obtain ⟨s2, h2, e2⟩ := indentLoop_expPart h1 exp hexp et ps er (depthAfter ni k : Nat)
    (dst ++ lead ni k ++ ((if neg then ['-'] else []) ++ int) ++ frac) rest
  refine ⟨s2, h2, ?_⟩
  have ea : (Float64.finite neg digs h).text ++ rest =
      (if neg then ['-'] else []) ++ int ++ (frac ++ (exp ++ rest)) := by
    rw [e]; simp
  rw [ea, e0, e1, e2, e]
  simp

/-! ## The characters of a number -/

theorem float_chars (neg : Bool) (digs : decimalSlice) (h : digs.shortest neg = true) :
    ∀ c ∈ (Float64.finite neg digs h).text, numberChar c = true := by
  obtain ⟨int, frac, exp, e, hint, hfrac, hexp, _⟩ := text_grammar neg digs h
  have dg : ∀ c, isDigit c = true → numberChar c = true := fun c hc => by simp [numberChar, hc]
  intro c hc
  rw [e] at hc
  simp only [List.mem_append] at hc
  rcases hc with ((hc | hc) | hc) | hc
  · cases neg
    · simp at hc
    · simp at hc; subst hc; rfl
  · rcases hint with rfl | ⟨x, xs, rfl, hx, hxs⟩
    · rw [List.mem_singleton.1 hc]; rfl
    · rcases List.mem_cons.1 hc with rfl | hc
      · exact dg _ (isDigit_of_isDigit19 hx)
      · exact dg _ (hxs c hc)
  · rcases hfrac with rfl | ⟨f, rfl, _, hf⟩
    · cases hc
    · rcases List.mem_cons.1 hc with rfl | hc
      · rfl
      · exact dg _ (hf c hc)
  · rcases hexp with rfl | ⟨s, L, rfl, hs, _, hL⟩
    · cases hc
    · rcases List.mem_cons.1 hc with rfl | hc
      · rfl
      · rcases List.mem_cons.1 hc with rfl | hc
        · rcases hs with rfl | rfl <;> rfl
        · exact dg _ (hL c hc)

theorem float_head (neg : Bool) (digs : decimalSlice) (h : digs.shortest neg = true) :
    ∃ c t, (Float64.finite neg digs h).text = c :: t ∧ (c = '-' ∨ isDigit c = true) := by
  obtain ⟨int, frac, exp, e, hint, _, _, _⟩ := text_grammar neg digs h
  cases neg with
  | true => exact ⟨'-', int ++ frac ++ exp, by rw [e]; simp, Or.inl rfl⟩
  | false =>
    rcases hint with rfl | ⟨x, xs, rfl, hx, _⟩
    · exact ⟨'0', frac ++ exp, by rw [e]; simp, Or.inr rfl⟩
    · exact ⟨x, xs ++ frac ++ exp, by rw [e]; simp, Or.inr (isDigit_of_isDigit19 hx)⟩

theorem numberChar_cases {c : Char} (h : numberChar c = true) :
    isDigit c = true ∨ c = '-' ∨ c = '+' ∨ c = '.' ∨ c = 'e' := by
  simpa [numberChar, or_assoc] using h

theorem formatInt_chars (n : Int) : ∀ c ∈ formatInt n, isDigit c = true ∨ c = '-' := by
  have hnat : ∀ m : Nat, ∀ c ∈ formatNat m, isDigit c = true := by
    intro m c hc
    rcases Nat.eq_zero_or_pos m with rfl | hm
    · have e : formatNat 0 = ['0'] := rfl
      rw [e, List.mem_singleton] at hc
      subst hc; rfl
    · obtain ⟨x, xs, e, hx, hxs⟩ := formatNat_spec m hm
      rw [e] at hc
      rcases List.mem_cons.1 hc with rfl | h
      · exact isDigit_of_isDigit19 hx
      · exact hxs c h
  cases n with
  | ofNat m => intro c hc; exact Or.inl (hnat m c hc)
  | negSucc m =>
    intro c hc
    rw [formatInt] at hc
    rcases List.mem_cons.1 hc with rfl | h
    · exact Or.inr rfl
    · exact Or.inl (hnat _ c h)

theorem formatInt_numberChar (n : Int) : ∀ c ∈ formatInt n, numberChar c = true := by
  intro c hc
  rcases formatInt_chars n c hc with h | rfl
  · simp [numberChar, h]
  · rfl

theorem text_numberChar (f : Float64) : ∀ c ∈ f.text, numberChar c = true := by
  cases f with
  | nan => intro c hc; cases hc
  | inf neg => intro c hc; cases hc
  | finite neg digs h => exact float_chars neg digs h

theorem numberChar_ne_backslash {c : Char} (h : numberChar c = true) : c ≠ '\\' := by
  rintro rfl; exact absurd h (by decide)

theorem numberChar_ne_newline {c : Char} (h : numberChar c = true) : c ≠ '\n' := by
  rintro rfl; exact absurd h (by decide)
/-! ## `json.Indent` on a whole document -/

theorem nesting_le_elems {d : Doc} {xs : List Doc} (h : d ∈ xs) :
    nesting d ≤ nestingElems xs := by
  induction xs with
  | nil => cases h
  | cons x xs ih =>
    rw [nestingElems]
    rcases List.mem_cons.1 h with rfl | h
    · exact le_max_left _ _
    · exact le_trans (ih h) (le_max_right _ _)

theorem nesting_le_members {e : String × Doc} {ms : List (String × Doc)} (h : e ∈ ms) :
    nesting e.2 ≤ nestingMembers ms := by
  induction ms with
  | nil => cases h
  | cons x ms ih =>
    obtain ⟨k, v⟩ := x
    rw [nestingMembers]
    rcases List.mem_cons.1 h with rfl | h
    · exact le_max_left _ _
    · exact le_trans (ih h) (le_max_right _ _)

theorem indentLoop_elems (xs : List Doc) (hP : ∀ d ∈ xs, IndentsTo d) (hne : xs ≠ [])
    (sp : Option Nat) {st : StepFn} (hst : ValueReady st) (et : Bool) (ps : List ParseState)
    (hfit : ∀ d ∈ xs, ps.length + 1 + nesting d ≤ maxNestingDepth)
    (er : Option String) (ni : Bool) (k : Nat) (dst rest : Text) :
    ∃ st1, ValueDone st1 ∧
      indentLoop [] ['\t'] ⟨st, et, .parseArrayValue :: ps, er⟩ ni (k : Int) dst
          (joinWith (',' :: brk sp) (xs.map (layout sp)) ++ rest) =
        indentLoop [] ['\t'] ⟨st1, et, .parseArrayValue :: ps, er⟩ false (depthAfter ni k : Nat)
          (dst ++ lead ni k ++
            joinWith (',' :: nl (depthAfter ni k)) (xs.map (layout (some (depthAfter ni k)))))
          rest := by
  induction xs generalizing st ni k dst with
  | nil => exact absurd rfl hne
  | cons d ds ih =>
    cases ds with
    | nil =>
      obtain ⟨st1, et1, ha, e1⟩ := hP d (List.mem_cons_self _ _) sp st et
        (.parseArrayValue :: ps) er ni k dst rest hst (hfit d (List.mem_cons_self _ _))
      obtain ⟨hd, rfl⟩ := ha.done
      exact ⟨st1, hd, by simpa [joinWith] using e1⟩
    | cons e es =>
      obtain ⟨st1, et1, ha, e1⟩ := hP d (List.mem_cons_self _ _) sp st et
        (.parseArrayValue :: ps) er ni k dst
        (',' :: (brk sp ++ (joinWith (',' :: brk sp) ((e :: es).map (layout sp)) ++ rest))) hst
        (hfit d (List.mem_cons_self _ _))
      obtain ⟨hd, rfl⟩ := ha.done
      obtain ⟨st2, hd2, e2⟩ := ih (fun d hd => hP d (List.mem_cons_of_mem _ hd)) (by simp)
        (Or.inl rfl) (fun d hd => hfit d (List.mem_cons_of_mem _ hd)) false (depthAfter ni k)
        (dst ++ lead ni k ++ layout (some (depthAfter ni k)) d ++ ',' :: nl (depthAfter ni k))
      refine ⟨st2, hd2, ?_⟩
      have src : joinWith (',' :: brk sp) ((d :: e :: es).map (layout sp)) ++ rest =
          layout sp d ++ (',' :: (brk sp ++
            (joinWith (',' :: brk sp) ((e :: es).map (layout sp)) ++ rest))) := by
        simp [joinWith]
      rw [src, e1, indentLoop_comma (run_done_comma_arr hd ..) (Or.inr rfl),
        indentLoop_begin_space (Or.inl rfl) _ (allSpace_brk sp), e2]
      simp [joinWith, depthAfter, lead]

theorem indentLoop_members (l : List (String × Doc)) (hP : ∀ e ∈ l, IndentsTo e.2)
    (hne : l ≠ []) (sp : Option Nat) {st : StepFn} (hst : StringReady st) (et : Bool)
    (ps : List ParseState) (hfit : ∀ e ∈ l, ps.length + 1 + nesting e.2 ≤ maxNestingDepth)
    (er : Option String) (ni : Bool) (k : Nat) (dst rest : Text) :
    ∃ st1, ValueDone st1 ∧
      indentLoop [] ['\t'] ⟨st, et, .parseObjectKey :: ps, er⟩ ni (k : Int) dst
          (joinWith (',' :: brk sp)
            ((l.map fun x => (x.1, layout sp x.2)).map (layoutMember sp)) ++ rest) =
        indentLoop [] ['\t'] ⟨st1, et, .parseObjectValue :: ps, er⟩ false (depthAfter ni k : Nat)
          (dst ++ lead ni k ++
            joinWith (',' :: nl (depthAfter ni k))
              ((l.map fun x => (x.1, layout (some (depthAfter ni k)) x.2)).map
                (layoutMember (some (depthAfter ni k)))))
          rest := by
  induction l generalizing st ni k dst with
  | nil => exact absurd rfl hne
  | cons m ms ih =>
    cases ms with
    | nil =>
      obtain ⟨st1, et1, ha, e1⟩ := hP m (List.mem_cons_self _ _) sp .stateBeginValue et
        (.parseObjectValue :: ps) er false (depthAfter ni k)
        (dst ++ lead ni k ++ encodeString m.1.toList ++ [':', ' ']) rest (Or.inl rfl)
        (hfit m (List.mem_cons_self _ _))
      obtain ⟨hd, rfl⟩ := ha.done
      refine ⟨st1, hd, ?_⟩
      have src : joinWith (',' :: brk sp)
            (([m].map fun x => (x.1, layout sp x.2)).map (layoutMember sp)) ++ rest =
          encodeString m.1.toList ++ (':' :: (gap sp ++ (layout sp m.2 ++ rest))) := by
        simp [joinWith, layoutMember]
      rw [src, indentLoop_encodeString hst, indentLoop_colon (run_key_colon ..),
        indentLoop_begin_space (Or.inl rfl) _ (allSpace_gap sp), e1]
      simp [joinWith, layoutMember, depthAfter, lead, gap]
    | cons e es =>
      obtain ⟨st1, et1, ha, e1⟩ := hP m (List.mem_cons_self _ _) sp .stateBeginValue et
        (.parseObjectValue :: ps) er false (depthAfter ni k)
        (dst ++ lead ni k ++ encodeString m.1.toList ++ [':', ' '])
        (',' :: (brk sp ++ (joinWith (',' :: brk sp)
          (((e :: es).map fun x => (x.1, layout sp x.2)).map (layoutMember sp)) ++ rest)))
        (Or.inl rfl) (hfit m (List.mem_cons_self _ _))
      obtain ⟨hd, rfl⟩ := ha.done
      obtain ⟨st2, hd2, e2⟩ := ih (fun d hd => hP d (List.mem_cons_of_mem _ hd)) (by simp)
        (Or.inr (Or.inr (Or.inl rfl))) (fun d hd => hfit d (List.mem_cons_of_mem _ hd)) false
        (depthAfter ni k)
        (dst ++ lead ni k ++ encodeString m.1.toList ++ [':', ' '] ++
          layout (some (depthAfter ni k)) m.2 ++ ',' :: nl (depthAfter ni k))
      refine ⟨st2, hd2, ?_⟩
      have src : joinWith (',' :: brk sp)
            (((m :: e :: es).map fun x => (x.1, layout sp x.2)).map (layoutMember sp)) ++ rest =
          encodeString m.1.toList ++ (':' :: (gap sp ++ (layout sp m.2 ++
            (',' :: (brk sp ++ (joinWith (',' :: brk sp)
              (((e :: es).map fun x => (x.1, layout sp x.2)).map (layoutMember sp)) ++
                rest)))))) := by
        simp [joinWith, layoutMember]
      rw [src, indentLoop_encodeString hst, indentLoop_colon (run_key_colon ..),
        indentLoop_begin_space (Or.inl rfl) _ (allSpace_gap sp), e1,
        indentLoop_comma (run_done_comma_obj hd ..) (Or.inl rfl),
        indentLoop_begin_space (Or.inr (Or.inr (Or.inl rfl))) _ (allSpace_brk sp)]
      have hk : depthAfter false (depthAfter ni k) = depthAfter ni k := rfl
      simp only [hk, lead, List.append_nil, Bool.false_eq_true, if_false] at e2 ⊢
      rw [e2]
      simp [joinWith, layoutMember, gap]

theorem indentsTo_of_supported (d : Doc) : supported d = true → IndentsTo d := by
  induction d using Doc.induct' with
  | hnull =>
    intro _ sp st et ps er ni k dst rest hst _
    exact ⟨.stateEndValue, et, Or.inl ⟨Or.inl rfl, rfl⟩, indentLoop_null hst ..⟩
  | hbool b =>
    intro _ sp st et ps er ni k dst rest hst _
    cases b
    · exact ⟨.stateEndValue, et, Or.inl ⟨Or.inl rfl, rfl⟩, indentLoop_false hst ..⟩
    · exact ⟨.stateEndValue, et, Or.inl ⟨Or.inl rfl, rfl⟩, indentLoop_true hst ..⟩
  | hnum n =>
    intro _ sp st et ps er ni k dst rest hst _
    obtain ⟨st1, h1, e⟩ := indentLoop_formatInt hst n et ps er ni k dst rest
    exact ⟨st1, et, Or.inl ⟨h1, rfl⟩, e⟩
  | hfloat f =>
    intro hs sp st et ps er ni k dst rest hst _
    cases f with
    | nan => simp [supported, Float64.isFinite] at hs
    | inf neg => simp [supported, Float64.isFinite] at hs
    | finite neg digs h =>
      obtain ⟨st1, h1, e⟩ := indentLoop_float hst neg digs h et ps er ni k dst rest
      exact ⟨st1, et, Or.inl ⟨h1, rfl⟩, e⟩
  | hstr s =>
    intro _ sp st et ps er ni k dst rest hst _
    exact ⟨.stateEndValue, et, Or.inl ⟨Or.inl rfl, rfl⟩,
      indentLoop_encodeString (hst.elim Or.inl fun h => Or.inr (Or.inl h)) ..⟩
  | harr xs ih =>
    intro hs sp st et ps er ni k dst rest hst hfit
    rw [supported, supportedElems_iff] at hs
    rw [nesting] at hfit
    have hlt : ps.length < maxNestingDepth := by omega
    have hfx : ∀ d ∈ xs, ps.length + 1 + nesting d ≤ maxNestingDepth := fun d hd => by
      have := nesting_le_elems hd
      omega
    have hP : ∀ d ∈ xs, IndentsTo d := fun d hd => ih d hd (hs d hd)
    obtain ⟨st3, et3, ha, e3⟩ := popped_after et ps er
    refine ⟨st3, et3, ha, ?_⟩
    rw [layout_arr, layout_arr]
    cases xs with
    | nil =>
      simp only [List.map_nil]
      rw [List.cons_append, indentLoop_open (run_open_arr hst _ _ _ hlt) (Or.inr rfl) (Or.inr rfl),
        List.cons_append, List.nil_append,
        indentLoop_close_empty (run_empty_arr ..) (Or.inr rfl) (Or.inr rfl), e3]
      simp
    | cons d ds =>
      obtain ⟨st1, hd1, e1⟩ := indentLoop_elems (d :: ds) hP (by simp) (deeper sp)
        (Or.inr rfl : ValueReady .stateBeginValueOrEmpty) et ps hfx er true (depthAfter ni k)
        (dst ++ lead ni k ++ ['[']) (brk sp ++ ']' :: rest)
      obtain ⟨st2, hd2, e2⟩ := indentLoop_done_space hd1 (brk sp) (allSpace_brk sp) et
        .parseArrayValue ps er
      have hK : depthAfter true (depthAfter ni k) = depthAfter ni k + 1 := rfl
      simp only [List.map_cons, hK] at e1 ⊢
      have src : ∀ (a b c : Text), ('[' :: (a ++ b ++ c ++ [']'])) ++ rest =
          '[' :: (a ++ (b ++ (c ++ ']' :: rest))) := by
        intro a b c; simp
      rw [src, indentLoop_open (run_open_arr hst _ _ _ hlt) (Or.inr rfl) (Or.inr rfl),
        indentLoop_begin_space (Or.inr (Or.inl rfl)) _ (allSpace_brk _), e1, e2,
        indentLoop_close (run_done_close_arr hd2 ..) (Or.inr rfl) (Or.inr rfl), e3]
      simp [brk, deeper, lead]
  | hobj ms ih =>
    intro hs sp st et ps er ni k dst rest hst hfit
    rw [supported, supportedMembers_iff] at hs
    rw [nesting] at hfit
    have hlt : ps.length < maxNestingDepth := by omega
    have hfx : ∀ e ∈ sortMembers ms, ps.length + 1 + nesting e.2 ≤ maxNestingDepth :=
      fun e he => by
        have := nesting_le_members ((sortMembers_perm ms).mem_iff.1 he)
        omega
    have hP : ∀ e ∈ sortMembers ms, IndentsTo e.2 := fun e he =>
      ih e ((sortMembers_perm ms).mem_iff.1 he) (hs e ((sortMembers_perm ms).mem_iff.1 he))
    obtain ⟨st3, et3, ha, e3⟩ := popped_after et ps er
    refine ⟨st3, et3, ha, ?_⟩
    rw [layout_obj, layout_obj]
    generalize sortMembers ms = l at hP hfx
    cases l with
    | nil =>
      simp only [List.map_nil]
      rw [List.cons_append, indentLoop_open (run_open_obj hst _ _ _ hlt) (Or.inl rfl) (Or.inl rfl),
        List.cons_append, List.nil_append,
        indentLoop_close_empty (run_empty_obj ..) (Or.inl rfl) (Or.inl rfl), e3]
      simp
    | cons m l =>
      obtain ⟨st1, hd1, e1⟩ := indentLoop_members (m :: l) hP (by simp) (deeper sp)
        (Or.inr (Or.inr (Or.inr rfl)) : StringReady .stateBeginStringOrEmpty) et ps hfx er true
        (depthAfter ni k) (dst ++ lead ni k ++ ['{']) (brk sp ++ '}' :: rest)
      obtain ⟨st2, hd2, e2⟩ := indentLoop_done_space hd1 (brk sp) (allSpace_brk sp) et
        .parseObjectValue ps er
      have hK : depthAfter true (depthAfter ni k) = depthAfter ni k + 1 := rfl
      simp only [List.map_cons, hK] at e1 ⊢
      have src : ∀ (a b c : Text), ('{' :: (a ++ b ++ c ++ ['}'])) ++ rest =
          '{' :: (a ++ (b ++ (c ++ '}' :: rest))) := by
        intro a b c; simp
      rw [src, indentLoop_open (run_open_obj hst _ _ _ hlt) (Or.inl rfl) (Or.inl rfl),
        indentLoop_begin_space (Or.inr (Or.inr (Or.inr rfl))) _ (allSpace_brk _), e1, e2,
        indentLoop_close (run_done_close_obj hd2 ..) (Or.inl rfl) (Or.inl rfl), e3]
      simp [brk, deeper, lead]
  | huns t => intro hs; simp [supported] at hs

theorem renderable_iff (d : Doc) :
    renderable d = true ↔ supported d = true ∧ nesting d ≤ maxNestingDepth := by
  simp [renderable]

theorem renderable_supported {d : Doc} (h : renderable d = true) : supported d = true :=
  ((renderable_iff d).1 h).1

/-- `json.Indent` with an empty prefix and a tab as indentation accepts a
renderable document written in any style (compact by `json.Marshal`, or already
indented) and writes it indented from depth 0. -/
theorem Indent_layout (d : Doc) (hr : renderable d = true) (sp : Option Nat) :
    Indent [] (layout sp d) [] ['\t'] = (layout (some 0) d, none) := by
  obtain ⟨hs, hn⟩ := (renderable_iff d).1 hr
  obtain ⟨st1, et1, ha, e⟩ := indentsTo_of_supported d hs sp .stateBeginValue false [] none
    false 0 [] [] (Or.inl rfl) (by simpa using hn)
  simp only [List.append_nil, Nat.cast_zero] at e
  have e' : indentLoop [] ['\t'] Scanner.reset false 0 [] (layout sp d) =
      (⟨st1, et1, [], none⟩, layout (some 0) d) := by
    rw [Scanner.reset, e]
    simp [depthAfter, lead, indentLoop]
  rw [Indent, e']
  rcases ha with ⟨h | h | h | h | h, rfl⟩ | ⟨_, rfl, rfl⟩
  · subst h; rfl
  · subst h; rfl
  · subst h; rfl
  · subst h; rfl
  · subst h; rfl
  · rfl

theorem prettyJSON?_of_renderable (d : Doc) (hr : renderable d = true) :
    prettyJSON? d = some (layout (some 0) d) := by
  rw [prettyJSON?, Marshal_ok d (renderable_supported hr)]
  simp only
  rw [Indent_layout d hr none]

/-! ## Nesting past the limit of the scanner -/

theorem indentLoop_error {sc sc1 : Scanner} {c : Char} (h : sc.run c = (sc1, .scanError))
    (ni : Bool) (d : Int) (dst src : Text) :
    indentLoop [] ['\t'] sc ni d dst (c :: src) = (sc1, dst) := by
  rw [indentLoop, h]
  simp

theorem stopsDeep_elems (xs : List Doc) (hs : ∀ d ∈ xs, supported d = true)
    (hF : ∀ d ∈ xs, StopsDeep d) (sp : Option Nat) {st : StepFn} (hst : ValueReady st)
    (et : Bool) (ps : List ParseState) (hps : ps.length + 1 ≤ maxNestingDepth)
    (hdeep : ∃ d ∈ xs, maxNestingDepth < ps.length + 1 + nesting d)
    (er : Option String) (ni : Bool) (k : Nat) (dst rest : Text) :
    DepthStop (indentLoop [] ['\t'] ⟨st, et, .parseArrayValue :: ps, er⟩ ni (k : Int) dst
      (joinWith (',' :: brk sp) (xs.map (layout sp)) ++ rest)).1 := by
  induction xs generalizing st ni k dst with
  | nil => obtain ⟨d, hd, _⟩ := hdeep; cases hd
  | cons d ds ih =>
    by_cases hd : maxNestingDepth < ps.length + 1 + nesting d
    · have src : joinWith (',' :: brk sp) ((d :: ds).map (layout sp)) ++ rest =
          layout sp d ++ (match ds with
            | [] => rest
            | e :: es => ',' :: (brk sp ++
              (joinWith (',' :: brk sp) ((e :: es).map (layout sp)) ++ rest))) := by
        cases ds <;> simp [joinWith]
      rw [src]
      exact hF d (List.mem_cons_self _ _) sp st et (.parseArrayValue :: ps) er ni k dst _ hst
        hps hd
    · have hrest : ∃ x ∈ ds, maxNestingDepth < ps.length + 1 + nesting x := by
        obtain ⟨x, hx, hx'⟩ := hdeep
        rcases List.mem_cons.1 hx with rfl | hx
        · exact absurd hx' hd
        · exact ⟨x, hx, hx'⟩
      cases ds with
      | nil => obtain ⟨x, hx, _⟩ := hrest; cases hx
      | cons e es =>
        obtain ⟨st1, et1, ha, e1⟩ := indentsTo_of_supported d (hs d (List.mem_cons_self _ _))
          sp st et (.parseArrayValue :: ps) er ni k dst
          (',' :: (brk sp ++ (joinWith (',' :: brk sp) ((e :: es).map (layout sp)) ++ rest)))
          hst (by simp only [List.length_cons]; omega)
        obtain ⟨hd1, rfl⟩ := ha.done
        have src : joinWith (',' :: brk sp) ((d :: e :: es).map (layout sp)) ++ rest =
            layout sp d ++ (',' :: (brk sp ++
              (joinWith (',' :: brk sp) ((e :: es).map (layout sp)) ++ rest))) := by
          simp [joinWith]
        rw [src, e1, indentLoop_comma (run_done_comma_arr hd1 ..) (Or.inr rfl),
          indentLoop_begin_space (Or.inl rfl) _ (allSpace_brk sp)]
        exact ih (fun x hx => hs x (List.mem_cons_of_mem _ hx))
          (fun x hx => hF x (List.mem_cons_of_mem _ hx)) (Or.inl rfl) hrest false _ _

theorem stopsDeep_members (l : List (String × Doc)) (hs : ∀ e ∈ l, supported e.2 = true)
    (hF : ∀ e ∈ l, StopsDeep e.2) (sp : Option Nat) {st : StepFn} (hst : StringReady st)
    (et : Bool) (ps : List ParseState) (hps : ps.length + 1 ≤ maxNestingDepth)
    (hdeep : ∃ e ∈ l, maxNestingDepth < ps.length + 1 + nesting e.2)
    (er : Option String) (ni : Bool) (k : Nat) (dst rest : Text) :
    DepthStop (indentLoop [] ['\t'] ⟨st, et, .parseObjectKey :: ps, er⟩ ni (k : Int) dst
      (joinWith (',' :: brk sp) ((l.map fun x => (x.1, layout sp x.2)).map (layoutMember sp)) ++
        rest)).1 := by
  induction l generalizing st ni k dst with
  | nil => obtain ⟨d, hd, _⟩ := hdeep; cases hd
  | cons m ms ih =>
    have src : joinWith (',' :: brk sp)
          (((m :: ms).map fun x => (x.1, layout sp x.2)).map (layoutMember sp)) ++ rest =
        encodeString m.1.toList ++ (':' :: (gap sp ++ (layout sp m.2 ++ (match ms with
          | [] => rest
          | e :: es => ',' :: (brk sp ++ (joinWith (',' :: brk sp)
              (((e :: es).map fun x => (x.1, layout sp x.2)).map (layoutMember sp)) ++
                rest)))))) := by
      cases ms <;> simp [joinWith, layoutMember]
    rw [src, indentLoop_encodeString hst, indentLoop_colon (run_key_colon ..),
      indentLoop_begin_space (Or.inl rfl) _ (allSpace_gap sp)]
    by_cases hd : maxNestingDepth < ps.length + 1 + nesting m.2
    · exact hF m (List.mem_cons_self _ _) sp .stateBeginValue et (.parseObjectValue :: ps) er
        false _ _ _ (Or.inl rfl) hps hd
    · have hrest : ∃ x ∈ ms, maxNestingDepth < ps.length + 1 + nesting x.2 := by
        obtain ⟨x, hx, hx'⟩ := hdeep
        rcases List.mem_cons.1 hx with rfl | hx
        · exact absurd hx' hd
        · exact ⟨x, hx, hx'⟩
      cases ms with
      | nil => obtain ⟨x, hx, _⟩ := hrest; cases hx
      | cons e es =>
        obtain ⟨st1, et1, ha, e1⟩ := indentsTo_of_supported m.2 (hs m (List.mem_cons_self _ _))
          sp .stateBeginValue et (.parseObjectValue :: ps) er false (depthAfter ni k)
          (dst ++ lead ni k ++ encodeString m.1.toList ++ [':', ' '])
          (',' :: (brk sp ++ (joinWith (',' :: brk sp)
            (((e :: es).map fun x => (x.1, layout sp x.2)).map (layoutMember sp)) ++ rest)))
          (Or.inl rfl) (by simp only [List.length_cons]; omega)
        obtain ⟨hd1, rfl⟩ := ha.done
        simp only at e1 ⊢
        rw [e1, indentLoop_comma (run_done_comma_obj hd1 ..) (Or.inl rfl),
          indentLoop_begin_space (Or.inr (Or.inr (Or.inl rfl))) _ (allSpace_brk sp)]
        exact ih (fun x hx => hs x (List.mem_cons_of_mem _ hx))
          (fun x hx => hF x (List.mem_cons_of_mem _ hx)) (Or.inr (Or.inr (Or.inl rfl))) hrest
          false _ _

theorem exists_deep_elem (xs : List Doc) (n : Nat) (h : n < nestingElems xs) :
    ∃ d ∈ xs, n < nesting d := by
  induction xs with
  | nil => simp [nestingElems] at h
  | cons x xs ih =>
    rw [nestingElems] at h
    by_cases hx : n < nesting x
    · exact ⟨x, List.mem_cons_self _ _, hx⟩
    · obtain ⟨d, hd, hd'⟩ := ih (by
        rcases lt_max_iff.1 h with h | h
        · exact absurd h hx
        · exact h)
      exact ⟨d, List.mem_cons_of_mem _ hd, hd'⟩

theorem exists_deep_member (ms : List (String × Doc)) (n : Nat) (h : n < nestingMembers ms) :
    ∃ e ∈ ms, n < nesting e.2 := by
  induction ms with
  | nil => simp [nestingMembers] at h
  | cons x ms ih =>
    obtain ⟨k, v⟩ := x
    rw [nestingMembers] at h
    by_cases hx : n < nesting v
    · exact ⟨(k, v), List.mem_cons_self _ _, hx⟩
    · obtain ⟨d, hd, hd'⟩ := ih (by
        rcases lt_max_iff.1 h with h | h
        · exact absurd h hx
        · exact h)
      exact ⟨d, List.mem_cons_of_mem _ hd, hd'⟩

theorem stopsDeep_of_supported (d : Doc) : supported d = true → StopsDeep d := by
  induction d using Doc.induct' with
  | hnull => intro _ sp st et ps er ni k dst rest _ h1 h2; simp [nesting] at h2; omega
  | hbool b => intro _ sp st et ps er ni k dst rest _ h1 h2; simp [nesting] at h2; omega
  | hnum n => intro _ sp st et ps er ni k dst rest _ h1 h2; simp [nesting] at h2; omega
  | hfloat f => intro _ sp st et ps er ni k dst rest _ h1 h2; simp [nesting] at h2; omega
  | hstr s => intro _ sp st et ps er ni k dst rest _ h1 h2; simp [nesting] at h2; omega
  | harr xs ih =>
    intro hs sp st et ps er ni k dst rest hst hps hdeep
    rw [supported, supportedElems_iff] at hs
    rw [nesting] at hdeep
    rw [layout_arr]
    by_cases hfull : maxNestingDepth ≤ ps.length
    · obtain ⟨s1, _, herr, hrun⟩ := run_open_deep hst et ps er hfull (Or.inr rfl)
      have : ∀ t : Text, DepthStop (indentLoop [] ['\t'] ⟨st, et, ps, er⟩ ni (k : Int) dst
          ('[' :: t)).1 := fun t => by
        rw [indentLoop_error hrun]
        exact ⟨'[', Or.inl rfl, herr⟩
      cases xs with
      | nil => exact this _
      | cons d ds => exact this _
    · have hlt : ps.length < maxNestingDepth := by omega
      obtain ⟨x, hx, hx'⟩ := exists_deep_elem xs (maxNestingDepth - (ps.length + 1)) (by omega)
      cases xs with
      | nil => cases hx
      | cons d ds =>
        have src : ∀ (a b c : Text), ('[' :: (a ++ b ++ c ++ [']'])) ++ rest =
            '[' :: (a ++ (b ++ (c ++ ']' :: rest))) := by
          intro a b c; simp
        simp only [List.map_cons]
        rw [src, indentLoop_open (run_open_arr hst _ _ _ hlt) (Or.inr rfl) (Or.inr rfl),
          indentLoop_begin_space (Or.inr (Or.inl rfl)) _ (allSpace_brk _)]
        exact stopsDeep_elems (d :: ds) hs (fun y hy => ih y hy (hs y hy)) (deeper sp)
          (Or.inr rfl) et ps (by omega) ⟨x, hx, by omega⟩ er true _ _ _
  | hobj ms ih =>
    intro hs sp st et ps er ni k dst rest hst hps hdeep
    rw [supported, supportedMembers_iff] at hs
    rw [nesting] at hdeep
    rw [layout_obj]
    by_cases hfull : maxNestingDepth ≤ ps.length
    · obtain ⟨s1, _, herr, hrun⟩ := run_open_deep hst et ps er hfull (Or.inl rfl)
      have : ∀ t : Text, DepthStop (indentLoop [] ['\t'] ⟨st, et, ps, er⟩ ni (k : Int) dst
          ('{' :: t)).1 := fun t => by
        rw [indentLoop_error hrun]
        exact ⟨'{', Or.inr rfl, herr⟩
      cases sortMembers ms with
      | nil => exact this _
      | cons d ds => exact this _
    · have hlt : ps.length < maxNestingDepth := by omega
      obtain ⟨x, hx, hx'⟩ :=
        exists_deep_member ms (maxNestingDepth - (ps.length + 1)) (by omega)
      have hx2 := (sortMembers_perm ms).mem_iff.2 hx
      have hs2 : ∀ e ∈ sortMembers ms, supported e.2 = true := fun e he =>
        hs e ((sortMembers_perm ms).mem_iff.1 he)
      have hF : ∀ e ∈ sortMembers ms, StopsDeep e.2 := fun e he =>
        ih e ((sortMembers_perm ms).mem_iff.1 he) (hs2 e he)
      generalize sortMembers ms = l at hx2 hs2 hF
      cases l with
      | nil => cases hx2
      | cons m l =>
        have src : ∀ (a b c : Text), ('{' :: (a ++ b ++ c ++ ['}'])) ++ rest =
            '{' :: (a ++ (b ++ (c ++ '}' :: rest))) := by
          intro a b c; simp
        simp only [List.map_cons]
        rw [src, indentLoop_open (run_open_obj hst _ _ _ hlt) (Or.inl rfl) (Or.inl rfl),
          indentLoop_begin_space (Or.inr (Or.inr (Or.inr rfl))) _ (allSpace_brk _)]
        exact stopsDeep_members (m :: l) hs2 hF (deeper sp) (Or.inr (Or.inr (Or.inr rfl))) et ps
          (by omega) ⟨x, hx2, by omega⟩ er true _ _ _
  | huns t => intro hs; simp [supported] at hs

/-- `json.Indent` rejects a supported document that nests deeper than
`maxNestingDepth`, in any style, with the scanner's error. -/
theorem Indent_of_depthStop (src : Text) (c : Char)
    (h : (indentLoop [] ['\t'] Scanner.reset false 0 [] src).1.err = some (depthMessage c)) :
    Indent [] src [] ['\t'] = ([], some (.base (depthMessage c))) := by
  rw [Indent]
  rcases hi : indentLoop [] ['\t'] Scanner.reset false 0 [] src with ⟨scan, out⟩
  have herr : scan.err = some (depthMessage c) := by
    rw [hi] at h
    exact h
  simp only [Scanner.eof, herr, Option.isSome_some, if_true, Option.getD_some]

theorem Indent_deep (d : Doc) (hs : supported d = true) (hdeep : maxNestingDepth < nesting d)
    (sp : Option Nat) :
    ∃ c, (c = '[' ∨ c = '{') ∧
      Indent [] (layout sp d) [] ['\t'] = ([], some (.base (depthMessage c))) := by
  have h := stopsDeep_of_supported d hs sp .stateBeginValue false [] none false 0 [] []
    (Or.inl rfl) (Nat.zero_le _) (by simpa using hdeep)
  simp only [List.append_nil, Nat.cast_zero] at h
  obtain ⟨c, hc, herr⟩ := h
  exact ⟨c, hc, Indent_of_depthStop _ c herr⟩

/-! ## Failure of the encoder -/

theorem marshalElems_error (xs : List Doc) (h : ∃ d ∈ xs, ∃ e, Marshal d = .error e) :
    ∃ e, marshalElems xs = .error e := by
  induction xs with
  | nil => obtain ⟨d, hd, _⟩ := h; cases hd
  | cons x xs ih =>
    rw [marshalElems]
    cases hx : Marshal x with
    | error e => exact ⟨e, rfl⟩
    | ok t =>
      obtain ⟨d, hd, e, he⟩ := h
      rcases List.mem_cons.1 hd with rfl | hd'
      · rw [hx] at he; cases he
      · obtain ⟨e', he'⟩ := ih ⟨d, hd', e, he⟩
        simp only [he']
        exact ⟨e', rfl⟩

theorem joinMembers_error (l : List (String × Except GoError Text))
    (h : ∃ m ∈ l, ∃ e, m.2 = .error e) : ∃ e, joinMembers l = .error e := by
  induction l with
  | nil => obtain ⟨d, hd, _⟩ := h; cases hd
  | cons x xs ih =>
    obtain ⟨k, v⟩ := x
    cases v with
    | error e => cases xs <;> exact ⟨e, by simp [joinMembers]⟩
    | ok t =>
      obtain ⟨m, hm, e, he⟩ := h
      rcases List.mem_cons.1 hm with rfl | hm'
      · cases he
      · obtain ⟨e', he'⟩ := ih ⟨m, hm', e, he⟩
        cases xs with
        | nil => cases hm'
        | cons y ys => exact ⟨e', by simp only [joinMembers, he']⟩

theorem Marshal_error (d : Doc) : supported d = false → ∃ e, Marshal d = .error e := by
  induction d using Doc.induct' with
  | hnull => intro h; simp [supported] at h
  | hbool b => intro h; simp [supported] at h
  | hnum n => intro h; simp [supported] at h
  | hfloat f =>
    intro h
    cases f with
    | nan => exact ⟨_, rfl⟩
    | inf neg => exact ⟨_, rfl⟩
    | finite neg digs hd => simp [supported, Float64.isFinite] at h
  | hstr s => intro h; simp [supported] at h
  | harr xs ih =>
    intro hs
    rw [supported] at hs
    have : ∃ d ∈ xs, supported d = false := by
      by_contra hc
      push_neg at hc
      have := (supportedElems_iff xs).2 fun d hd => by simpa using hc d hd
      rw [this] at hs; cases hs
    obtain ⟨d, hd, hd'⟩ := this
    obtain ⟨e, he⟩ := marshalElems_error xs ⟨d, hd, ih d hd hd'⟩
    exact ⟨e, by rw [Marshal, he]⟩
  | hobj ms ih =>
    intro hs
    rw [supported] at hs
    have : ∃ m ∈ ms, supported m.2 = false := by
      by_contra hc
      push_neg at hc
      have := (supportedMembers_iff ms).2 fun d hd => by simpa using hc d hd
      rw [this] at hs; cases hs
    obtain ⟨m, hm, hm'⟩ := this
    obtain ⟨e, he⟩ := ih m hm hm'
    have hmem : (m.1, Marshal m.2) ∈ sortMembers (marshalMembers ms) := by
      rw [marshalMembers_eq_map, sortMembers_map]
      exact List.mem_map.2 ⟨m, (sortMembers_perm ms).mem_iff.2 hm, rfl⟩
    obtain ⟨e', he'⟩ := joinMembers_error _ ⟨_, hmem, e, he⟩
    exact ⟨e', by rw [Marshal, he']⟩
  | huns t => intro _; exact ⟨_, rfl⟩

theorem prettyJSON?_none_of_deep (d : Doc) (hs : supported d = true)
    (hdeep : maxNestingDepth < nesting d) : prettyJSON? d = none := by
  obtain ⟨c, _, e⟩ := Indent_deep d hs hdeep none
  rw [prettyJSON?, Marshal_ok d hs]
  simp only
  rw [e]

theorem prettyJSON?_eq_some_iff (d : Doc) (p : Text) :
    prettyJSON? d = some p ↔ renderable d = true ∧ p = layout (some 0) d := by
  constructor
  · intro h
    cases hs : supported d with
    | true =>
      by_cases hn : nesting d ≤ maxNestingDepth
      · have hr : renderable d = true := (renderable_iff d).2 ⟨hs, hn⟩
        rw [prettyJSON?_of_renderable d hr] at h
        exact ⟨hr, (Option.some.inj h).symm⟩
      · rw [prettyJSON?_none_of_deep d hs (by omega)] at h
        cases h
    | false =>
      obtain ⟨e, he⟩ := Marshal_error d hs
      rw [prettyJSON?, he] at h
      cases h
  · rintro ⟨hs, rfl⟩
    exact prettyJSON?_of_renderable d hs

theorem report_ok_iff_renderable (es : List (String × Doc)) :
    (parseConfigurations false es).2 = none ↔ ∀ e ∈ es, renderable e.2 = true := by
  rw [report_ok_iff]
  constructor
  · intro h e he
    obtain ⟨p, hp⟩ := h e he
    exact ((prettyJSON?_eq_some_iff _ _).1 hp).1
  · intro h e he
    exact ⟨_, prettyJSON?_of_renderable _ (h e he)⟩

theorem combined_of_renderable (cfg : List (String × Doc))
    (hr : renderable (.obj cfg) = true) :
    parseConfigurations true cfg =
      ("Combined\n".toList ++ (replaceBackslashR (layout (some 0) (.obj cfg)) ++ ['\n']), none) := by
  simp only [parseConfigurations, if_true]
  rw [Marshal_ok _ (renderable_supported hr)]
  simp only
  rw [Indent_layout _ hr none]
  simp only
  have e1 : ([] : Text) ++ "Combined".toList ++ ['\n'] ++ (layout (some 0) (.obj cfg) ++ ['\n'])
      = "Combined".toList ++ '\n' :: (layout (some 0) (.obj cfg) ++ ['\n']) := by simp
  rw [e1, replaceBackslashR_append_newline, replaceBackslashR_snoc_newline]
  rfl

theorem combined_ok_iff_renderable (cfg : List (String × Doc)) :
    (parseConfigurations true cfg).2 = none ↔ renderable (.obj cfg) = true := by
  constructor
  · intro h
    cases hs : supported (.obj cfg) with
    | true =>
      by_cases hn : nesting (.obj cfg) ≤ maxNestingDepth
      · exact (renderable_iff _).2 ⟨hs, hn⟩
      · obtain ⟨c, _, e⟩ := Indent_deep _ hs (by omega : maxNestingDepth < nesting (.obj cfg)) none
        simp [parseConfigurations, Marshal_ok _ hs, e] at h
    | false =>
      obtain ⟨e, he⟩ := Marshal_error _ hs
      simp [parseConfigurations, he] at h
  · intro hs
    rw [combined_of_renderable cfg hs]

/-- The entries of a set whose combined object is renderable are supported. -/
theorem supported_of_combined {cfg : List (String × Doc)} (hr : renderable (.obj cfg) = true) :
    ∀ e ∈ cfg, supported e.2 = true := by
  have := renderable_supported hr
  rw [supported] at this
  exact (supportedMembers_iff cfg).1 this

/-- The entries of a set whose combined object is renderable are renderable. -/
theorem renderable_of_combined {cfg : List (String × Doc)} (hr : renderable (.obj cfg) = true) :
    ∀ e ∈ cfg, renderable e.2 = true := by
  intro e he
  have hn := ((renderable_iff _).1 hr).2
  rw [nesting] at hn
  have := nesting_le_members he
  exact (renderable_iff _).2 ⟨supported_of_combined hr e he, by omega⟩

/-! ## The key order and the uniqueness of the sorted order -/

theorem char_eq_of_toNat_eq {a b : Char} (h : a.toNat = b.toNat) : a = b := by
  rw [← Char.ofNat_toNat a, ← Char.ofNat_toNat b, h]

theorem keyLess_irrefl (a : Text) : keyLess a a = false := by
  induction a with
  | nil => rfl
  | cons x xs ih => simp [keyLess, ih]

theorem keyLess_trans {a b c : Text} (h1 : keyLess a b = true) (h2 : keyLess b c = true) :
    keyLess a c = true := by
  induction a generalizing b c with
  | nil =>
    cases b with
    | nil => simp [keyLess] at h1
    | cons y ys =>
      cases c with
      | nil => simp [keyLess] at h2
      | cons z zs => rfl
  | cons x xs ih =>
    cases b with
    | nil => simp [keyLess] at h1
    | cons y ys =>
      cases c with
      | nil => simp [keyLess] at h2
      | cons z zs =>
        simp only [keyLess] at h1 h2 ⊢
        split_ifs at h1 h2 ⊢ with p1 p2 p3 p4 p5 p6 <;> first
          | rfl
          | omega
          | exact ih h1 h2

theorem keyLess_total {a b : Text} (h1 : keyLess a b = false) (h2 : keyLess b a = false) :
    a = b := by
  induction a generalizing b with
  | nil =>
    cases b with
    | nil => rfl
    | cons y ys => simp [keyLess] at h1
  | cons x xs ih =>
    cases b with
    | nil => simp [keyLess] at h2
    | cons y ys =>
      simp only [keyLess] at h1 h2
      split_ifs at h1 h2 with p1 p2
      have hxy : x = y := char_eq_of_toNat_eq (by omega)
      rw [hxy, ih h1 h2]

theorem keyLess_asymm {a b : Text} (h : keyLess a b = true) : keyLess b a = false := by
  cases h2 : keyLess b a with
  | false => rfl
  | true => have := keyLess_trans h h2; rw [keyLess_irrefl] at this; cases this

theorem keyLess_of_not {a b : String} (h : keyLess a.toList b.toList = false) (hne : a ≠ b) :
    keyLess b.toList a.toList = true := by
  cases h2 : keyLess b.toList a.toList with
  | true => rfl
  | false => exact absurd (String.toList_inj.1 (keyLess_total h h2)) hne

theorem insertMember_comm {α : Type} (a b : String × α) (hne : a.1 ≠ b.1)
    (l : List (String × α)) :
    insertMember a (insertMember b l) = insertMember b (insertMember a l) := by
  have key : (keyLess a.1.toList b.1.toList = true ∧ keyLess b.1.toList a.1.toList = false) ∨
      (keyLess b.1.toList a.1.toList = true ∧ keyLess a.1.toList b.1.toList = false) := by
    cases hab : keyLess a.1.toList b.1.toList with
    | true => exact Or.inl ⟨rfl, keyLess_asymm hab⟩
    | false => exact Or.inr ⟨keyLess_of_not hab hne, rfl⟩
  induction l with
  | nil =>
    rcases key with ⟨h1, h2⟩ | ⟨h1, h2⟩ <;> simp only [insertMember, h1, h2] <;> simp
  | cons f fs ih =>
    cases hfa : keyLess f.1.toList a.1.toList <;> cases hfb : keyLess f.1.toList b.1.toList
    · rcases key with ⟨h1, h2⟩ | ⟨h1, h2⟩ <;>
        simp only [insertMember, hfa, hfb, h1, h2] <;> simp
    · have hab : keyLess a.1.toList b.1.toList = true := by
        rcases key with ⟨h1, _⟩ | ⟨h1, _⟩
        · exact h1
        · have := keyLess_trans hfb h1
          rw [hfa] at this; cases this
      simp only [insertMember, hfa, hfb, hab, keyLess_asymm hab]
      simp
    · have hba : keyLess b.1.toList a.1.toList = true := by
        rcases key with ⟨h1, _⟩ | ⟨h1, _⟩
        · have := keyLess_trans hfa h1
          rw [hfb] at this; cases this
        · exact h1
      simp only [insertMember, hfa, hfb, hba, keyLess_asymm hba]
      simp
    · simp only [insertMember, hfa, hfb, ih]
      simp

theorem sortMembers_eq_of_perm {α : Type} {l1 l2 : List (String × α)} (h : l1.Perm l2)
    (hnd : (l1.map Prod.fst).Nodup) : sortMembers l1 = sortMembers l2 := by
  induction h with
  | nil => rfl
  | cons x _ ih =>
    simp only [sortMembers]
    rw [ih (List.nodup_cons.1 (by simpa using hnd)).2]
  | swap x y l =>
    simp only [sortMembers]
    have hne : y.1 ≠ x.1 := by
      simp only [List.map_cons, List.nodup_cons, List.mem_cons, not_or] at hnd
      exact hnd.1.1
    exact insertMember_comm y x hne _
  | trans h1 _ ih1 ih2 =>
    rw [ih1 hnd, ih2 ((h1.map Prod.fst).nodup_iff.1 hnd)]

/-! ## Properties that pass from the pieces of the output format to the whole -/

theorem allStringsElems_iff (r : Text → Bool) (xs : List Doc) :
    allStringsElems r xs = true ↔ ∀ d ∈ xs, allStrings r d = true := by
  induction xs with
  | nil => simp [allStringsElems]
  | cons d ds ih => simp [allStringsElems, ih]

theorem allStringsMembers_iff (r : Text → Bool) (ms : List (String × Doc)) :
    allStringsMembers r ms = true ↔
      ∀ e ∈ ms, r e.1.toList = true ∧ allStrings r e.2 = true := by
  induction ms with
  | nil => simp [allStringsMembers]
  | cons e es ih => obtain ⟨k, d⟩ := e; simp [allStringsMembers, ih, and_assoc]

theorem joinWith_closure (Q : Text → Prop) (hnil : Q [])
    (happ : ∀ a b, Q a → Q b → Q (a ++ b)) (sep : Text) (hsep : Q sep) (ts : List Text)
    (hts : ∀ t ∈ ts, Q t) : Q (joinWith sep ts) := by
  induction ts with
  | nil => exact hnil
  | cons t ts ih =>
    cases ts with
    | nil => exact hts t (List.mem_cons_self _ _)
    | cons u us =>
      simp only [joinWith]
      exact happ _ _ (happ _ _ (hts t (List.mem_cons_self _ _)) hsep)
        (ih fun x hx => hts x (List.mem_cons_of_mem _ hx))

/-- A property of texts that holds of the empty text, of the punctuation and
white space of the format, of the literals, of every number and of every quoted
string satisfying `r`, and that is preserved by concatenation, holds of the
layout of every document whose strings and keys satisfy `r`. -/
theorem layout_closure (Q : Text → Prop) (r : Text → Bool) (hnil : Q [])
    (happ : ∀ a b, Q a → Q b → Q (a ++ b))
    (hchar : ∀ c ∈ ['[', ']', '{', '}', ',', ':', ' ', '\n', '\t'], Q [c])
    (hnull : Q ['n', 'u', 'l', 'l']) (htrue : Q ['t', 'r', 'u', 'e'])
    (hfalse : Q ['f', 'a', 'l', 's', 'e'])
    (hnum : ∀ t : Text, (∀ c ∈ t, numberChar c = true) → Q t)
    (hstr : ∀ s, r s = true → Q (encodeString s)) (d : Doc) :
    allStrings r d = true → ∀ sp, Q (layout sp d) := by
  have hcons : ∀ c ∈ ['[', ']', '{', '}', ',', ':', ' ', '\n', '\t'], ∀ t, Q t → Q (c :: t) :=
    fun c hc t ht => happ [c] t (hchar c hc) ht
  have hnl : ∀ k, Q (nl k) := by
    intro k
    refine hcons _ (by simp) _ ?_
    induction k with
    | zero => exact hnil
    | succ k ih => exact hcons _ (by simp) _ ih
  have hbrk : ∀ sp, Q (brk sp) := by
    intro sp
    cases sp with
    | none => exact hnil
    | some k => exact hnl k
  have hgap : ∀ sp, Q (gap sp) := by
    intro sp
    cases sp with
    | none => exact hnil
    | some k => exact hchar _ (by simp [gap])
  induction d using Doc.induct' with
  | hnull => intro _ _; exact hnull
  | hbool b => intro _ _; cases b; exact hfalse; exact htrue
  | hnum n => intro _ _; exact hnum _ (formatInt_numberChar n)
  | hfloat f => intro _ _; exact hnum _ (text_numberChar f)
  | hstr s => intro h _; exact hstr _ (by simpa [allStrings] using h)
  | harr xs ih =>
    intro h sp
    rw [allStrings, allStringsElems_iff] at h
    rw [layout_arr]
    cases xs with
    | nil => exact hcons _ (by simp) _ (hchar _ (by simp))
    | cons d ds =>
      refine hcons _ (by simp) _ (happ _ _ (happ _ _ (happ _ _ (hbrk _) ?_) (hbrk _))
        (hchar _ (by simp)))
      refine joinWith_closure Q hnil happ _ (hcons _ (by simp) _ (hbrk _)) _ ?_
      intro t ht
      obtain ⟨x, hx, rfl⟩ := List.mem_map.1
        (show t ∈ (d :: ds).map (layout (deeper sp)) from ht)
      exact ih x hx (h x hx) _
  | hobj ms ih =>
    intro h sp
    rw [allStrings, allStringsMembers_iff] at h
    rw [layout_obj]
    have hmem : ∀ e ∈ sortMembers ms, e ∈ ms := fun e he => (sortMembers_perm ms).mem_iff.1 he
    generalize sortMembers ms = l at hmem
    cases l with
    | nil => exact hcons _ (by simp) _ (hchar _ (by simp))
    | cons m l =>
      refine hcons _ (by simp) _ (happ _ _ (happ _ _ (happ _ _ (hbrk _) ?_) (hbrk _))
        (hchar _ (by simp)))
      refine joinWith_closure Q hnil happ _ (hcons _ (by simp) _ (hbrk _)) _ ?_
      intro t ht
      obtain ⟨x, hx, rfl⟩ := List.mem_map.1 ht
      obtain ⟨e, he, rfl⟩ := List.mem_map.1
        (show x ∈ (m :: l).map (fun x => (x.1, layout (deeper sp) x.2)) from hx)
      exact happ _ _ (hstr _ (h e (hmem e he)).1)
        (hcons _ (by simp) _ (happ _ _ (hgap _) (ih e (hmem e he) (h e (hmem e he)).2 _)))
  | huns t => intro _ _; exact hnil

/-! ## Texts whose backslashes all start a two-character escape -/

theorem escaped_cons_of_ne (c : Char) (t : Text) (h : c ≠ '\\') :
    escaped (c :: t) = escaped t := by
  cases t with
  | nil => simp [escaped, h]
  | cons d cs => simp [escaped, h]

theorem escaped_append (a b : Text) (ha : escaped a = true) (hb : escaped b = true) :
    escaped (a ++ b) = true := by
  induction a using escaped.induct with
  | case1 => simpa using hb
  | case2 c =>
    have hc : c ≠ '\\' := by simpa [escaped] using ha
    rw [List.singleton_append, escaped_cons_of_ne _ _ hc]; exact hb
  | case3 d cs ih =>
    simp only [escaped, if_true, Bool.and_eq_true] at ha
    show escaped ('\\' :: d :: (cs ++ b)) = true
    simp only [escaped, if_true, Bool.and_eq_true]
    exact ⟨ha.1, ih ha.2⟩
  | case4 c d cs hc ih =>
    rw [escaped, if_neg hc] at ha
    show escaped (c :: ((d :: cs) ++ b)) = true
    rw [escaped_cons_of_ne _ _ hc]
    exact ih ha

theorem escaped_of_forall_ne (t : Text) (h : ∀ c ∈ t, c ≠ '\\') : escaped t = true := by
  induction t with
  | nil => rfl
  | cons c cs ih =>
    rw [escaped_cons_of_ne _ _ (h c (List.mem_cons_self _ _))]
    exact ih fun x hx => h x (List.mem_cons_of_mem _ hx)

theorem backslashFree_iff (t : Text) : backslashFree t = true ↔ ∀ c ∈ t, c ≠ '\\' := by
  simp [backslashFree, List.all_eq_true]

theorem hasBackslashR_cons_of_ne (c : Char) (t : Text) (h : c ≠ '\\') :
    hasBackslashR (c :: t) = hasBackslashR t := by
  cases t with
  | nil => simp [hasBackslashR]
  | cons d cs => simp [hasBackslashR, h]

theorem replace_append_of_escaped (a b : Text) (ha : escaped a = true) :
    replaceBackslashR (a ++ b) = replaceBackslashR a ++ replaceBackslashR b := by
  induction a using escaped.induct with
  | case1 => simp [replaceBackslashR]
  | case2 c =>
    have hc : c ≠ '\\' := by simpa [escaped] using ha
    rw [List.singleton_append, replaceBackslashR_cons_of_ne _ _ hc]
    simp [replaceBackslashR]
  | case3 d cs ih =>
    simp only [escaped, if_true, Bool.and_eq_true, bne_iff_ne, ne_eq] at ha
    show replaceBackslashR ('\\' :: d :: (cs ++ b)) = _
    by_cases hd : d = 'r'
    · subst hd
      simp only [replaceBackslashR, and_self, if_true]
      exact ih ha.2
    · have hn : ¬ ('\\' = '\\' ∧ d = 'r') := fun h => hd h.2
      rw [replaceBackslashR, if_neg hn, replaceBackslashR_cons_of_ne _ _ ha.1, ih ha.2,
        replaceBackslashR, if_neg hn, replaceBackslashR_cons_of_ne _ _ ha.1]
      rfl
  | case4 c d cs hc ih =>
    rw [escaped, if_neg hc] at ha
    show replaceBackslashR (c :: ((d :: cs) ++ b)) = _
    rw [replaceBackslashR_cons_of_ne _ _ hc, ih ha, replaceBackslashR_cons_of_ne _ _ hc]
    rfl

theorem replace_clean (t : Text) (ht : escaped t = true) :
    escaped (replaceBackslashR t) = true ∧ hasBackslashR (replaceBackslashR t) = false := by
  induction t using escaped.induct with
  | case1 => exact ⟨rfl, rfl⟩
  | case2 c => exact ⟨ht, rfl⟩
  | case3 d cs ih =>
    simp only [escaped, if_true, Bool.and_eq_true, bne_iff_ne, ne_eq] at ht
    by_cases hd : d = 'r'
    · subst hd
      simp only [replaceBackslashR, and_self, if_true]
      exact ih ht.2
    · have hn : ¬ ('\\' = '\\' ∧ d = 'r') := fun h => hd h.2
      rw [replaceBackslashR, if_neg hn, replaceBackslashR_cons_of_ne _ _ ht.1]
      constructor
      · simp only [escaped, if_true, Bool.and_eq_true, bne_iff_ne, ne_eq]
        exact ⟨ht.1, (ih ht.2).1⟩
      · rw [hasBackslashR]
        simp only [beq_self_eq_true, Bool.true_and, Bool.or_eq_false_iff, beq_eq_false_iff_ne,
          ne_eq]
        exact ⟨hd, by rw [hasBackslashR_cons_of_ne _ _ ht.1]; exact (ih ht.2).2⟩
  | case4 c d cs hc ih =>
    rw [escaped, if_neg hc] at ht
    rw [replaceBackslashR_cons_of_ne _ _ hc, escaped_cons_of_ne _ _ hc,
      hasBackslashR_cons_of_ne _ _ hc]
    exact ih ht

theorem hasBackslashR_append (a b : Text) (ha : escaped a = true)
    (h1 : hasBackslashR a = false) (h2 : hasBackslashR b = false) :
    hasBackslashR (a ++ b) = false := by
  induction a using escaped.induct with
  | case1 => simpa using h2
  | case2 c =>
    have hc : c ≠ '\\' := by simpa [escaped] using ha
    rw [List.singleton_append, hasBackslashR_cons_of_ne _ _ hc]; exact h2
  | case3 d cs ih =>
    simp only [escaped, if_true, Bool.and_eq_true, bne_iff_ne, ne_eq] at ha
    rw [hasBackslashR] at h1
    simp only [beq_self_eq_true, Bool.true_and, Bool.or_eq_false_iff, beq_eq_false_iff_ne,
      ne_eq] at h1
    rw [hasBackslashR_cons_of_ne _ _ ha.1] at h1
    show hasBackslashR ('\\' :: d :: (cs ++ b)) = false
    rw [hasBackslashR]
    simp only [beq_self_eq_true, Bool.true_and, Bool.or_eq_false_iff, beq_eq_false_iff_ne,
      ne_eq]
    exact ⟨h1.1, by rw [hasBackslashR_cons_of_ne _ _ ha.1]; exact ih ha.2 h1.2⟩
  | case4 c d cs hc ih =>
    rw [escaped, if_neg hc] at ha
    rw [hasBackslashR_cons_of_ne _ _ hc] at h1
    show hasBackslashR (c :: ((d :: cs) ++ b)) = false
    rw [hasBackslashR_cons_of_ne _ _ hc]
    exact ih ha h1

theorem isHexDigit_ne_backslash {c : Char} (h : isHexDigit c = true) : c ≠ '\\' := by
  rintro rfl; exact absurd h (by decide)

theorem escaped_encodeChar (c : Char) (hc : c ≠ '\\') : escaped (encodeChar c) = true := by
  unfold encodeChar
  have hx : ∀ n, n < 16 → hexDigit n ≠ '\\' := fun n hn =>
    isHexDigit_ne_backslash (isHexDigit_hexDigit n hn)
  split_ifs with h1 h2 h3 h4 h5 h6 h7
  · simp [escaped, hc]
  · rcases h3 with h | h
    · exact absurd h hc
    · subst h; rfl
  · rfl
  · rfl
  · rfl
  · simp [escaped, hx _ (show c.toNat / 16 < 16 by omega), hx _ (Nat.mod_lt _ (by decide))]
  · simp [escaped, hx _ (Nat.mod_lt c.toNat (show 0 < 16 by decide))]
  · simp [escaped, hc]

theorem escaped_encodeBody (s : Text) (hs : ∀ c ∈ s, c ≠ '\\') :
    escaped (encodeBody s) = true := by
  induction s with
  | nil => rfl
  | cons c cs ih =>
    rw [encodeBody]
    exact escaped_append _ _ (escaped_encodeChar c (hs c (List.mem_cons_self _ _)))
      (ih fun x hx => hs x (List.mem_cons_of_mem _ hx))

theorem escaped_encodeString (s : Text) (hs : backslashFree s = true) :
    escaped (encodeString s) = true := by
  rw [encodeString, escaped_cons_of_ne _ _ (by decide)]
  exact escaped_append _ _ (escaped_encodeBody s ((backslashFree_iff s).1 hs)) rfl

theorem escaped_number (t : Text) (h : ∀ c ∈ t, numberChar c = true) : escaped t = true :=
  escaped_of_forall_ne _ fun c hc => numberChar_ne_backslash (h c hc)

theorem escaped_layout (d : Doc) (hd : allStrings backslashFree d = true) (sp : Option Nat) :
    escaped (layout sp d) = true :=
  layout_closure (fun t => escaped t = true) backslashFree rfl escaped_append
    (by decide) rfl rfl rfl escaped_number escaped_encodeString d hd sp

theorem rawSection_escaped (f : String) (p : Text) (hf : backslashFree f.toList = true)
    (hp : escaped p = true) : escaped (rawSection f p) = true := by
  rw [rawSection]
  refine escaped_append _ _ (escaped_of_forall_ne _ ((backslashFree_iff _).1 hf)) ?_
  rw [escaped_cons_of_ne _ _ (by decide)]
  exact escaped_append _ _ hp rfl

theorem iterate_replace_succ_of_escaped (t : Text) (ht : escaped t = true) (n : Nat) :
    replaceBackslashR^[n + 1] t = replaceBackslashR t := by
  rw [Function.iterate_succ_apply, iterate_replace_of_not_has _ (replace_clean t ht).2]

theorem report_clean (es : List (String × Doc)) (hs : ∀ e ∈ es, renderable e.2 = true)
    (hid : ∀ e ∈ es, backslashFree e.1.toList = true)
    (hdoc : ∀ e ∈ es, allStrings backslashFree e.2 = true) :
    escaped (parseConfigurations false es).1 = true ∧
      hasBackslashR (parseConfigurations false es).1 = false := by
  induction es with
  | nil => exact ⟨rfl, rfl⟩
  | cons e rest ih =>
    obtain ⟨f, d⟩ := e
    have hrest := ih (fun e he => hs e (List.mem_cons_of_mem _ he))
      (fun e he => hid e (List.mem_cons_of_mem _ he))
      (fun e he => hdoc e (List.mem_cons_of_mem _ he))
    have hraw := rawSection_escaped f (layout (some 0) d) (hid _ (List.mem_cons_self _ _))
      (escaped_layout d (hdoc _ (List.mem_cons_self _ _)) _)
    rw [report_cons f d rest _ (prettyJSON?_of_renderable d (hs _ (List.mem_cons_self _ _)))
      (fun e he => ⟨_, prettyJSON?_of_renderable _ (hs e (List.mem_cons_of_mem _ he))⟩),
      iterate_replace_succ_of_escaped _ hraw]
    exact ⟨escaped_append _ _ (replace_clean _ hraw).1 hrest.1,
      hasBackslashR_append _ _ (replace_clean _ hraw).1 (replace_clean _ hraw).2 hrest.2⟩

theorem allStrings_obj_of_entries (r : Text → Bool) (cfg : List (String × Doc))
    (hid : ∀ e ∈ cfg, r e.1.toList = true) (hdoc : ∀ e ∈ cfg, allStrings r e.2 = true) :
    allStrings r (.obj cfg) = true := by
  rw [allStrings, allStringsMembers_iff]
  exact fun e he => ⟨hid e he, hdoc e he⟩

/-! ## Acceptance by `json.Indent` and by `json.Valid` -/

theorem checkValidLoop_cons (s : Scanner) (c : Char) (cs : Text) :
    checkValidLoop s (c :: cs) =
      if (s.run c).2 = .scanError then ((s.run c).1, false)
      else checkValidLoop (s.run c).1 cs := by
  rw [checkValidLoop]
  rcases h : s.run c with ⟨s1, v⟩
  cases v <;> simp

theorem indentLoop_scanner (t : Text) (sc : Scanner) (ni : Bool) (d : Int) (dst : Text) :
    (indentLoop [] ['\t'] sc ni d dst t).1 = (checkValidLoop sc t).1 := by
  induction t generalizing sc ni d dst with
  | nil => rfl
  | cons c cs ih =>
    rw [checkValidLoop_cons, indentLoop]
    rcases h : sc.run c with ⟨s1, v⟩
    by_cases hv : v = .scanError
    · subst hv; simp
    · simp only [hv, if_false]
      generalize (ni && (v != ScanCode.scanEndObject && v != ScanCode.scanEndArray)) = b
      cases b <;> simp only [Bool.false_eq_true, if_false, if_true] <;>
        split_ifs <;> exact ih ..

theorem goodStep_error (s : Scanner) (c : Char) (ctx : String) : GoodStep (s.error c ctx) :=
  ⟨fun _ => rfl, fun _ => rfl⟩

theorem goodStep_of_step (r : Scanner × ScanCode) (h1 : r.1.step ≠ .stateError)
    (h2 : r.2 ≠ .scanError) : GoodStep r :=
  ⟨fun h => absurd h h1, fun h => absurd h h2⟩

theorem goodStep_same (s : Scanner) (v : ScanCode) (h : s.Good) (h2 : v ≠ .scanError) :
    GoodStep (s, v) :=
  ⟨h, fun h => absurd h h2⟩

theorem goodStep_stateEndTop (s : Scanner) (c : Char) (h : s.Good) :
    GoodStep (stateEndTop s c) := by
  unfold stateEndTop
  split_ifs
  · exact ⟨fun _ => rfl, fun h => by cases h⟩
  · exact goodStep_same _ _ h (by decide)

theorem goodStep_with (s : Scanner) (next : StepFn) (hn : next ≠ .stateError) (v : ScanCode)
    (hv : v ≠ .scanError) : GoodStep ({ s with step := next }, v) :=
  ⟨fun h => absurd h hn, fun h => absurd h hv⟩

theorem goodStep_push (s : Scanner) (next : StepFn) (hn : next ≠ .stateError)
    (c : Char) (p : ParseState) (v : ScanCode) (hv : v ≠ .scanError) :
    GoodStep ({ s with step := next }.pushParseState c p v) := by
  unfold Scanner.pushParseState
  dsimp only
  split
  · exact ⟨fun h => absurd h hn, fun h => absurd h hv⟩
  · exact goodStep_error ..

theorem popParseState_step (s : Scanner) : s.popParseState.step ≠ .stateError := by
  unfold Scanner.popParseState
  split <;> simp

theorem goodStep_stateEndValue (s : Scanner) (c : Char) (_ : s.Good) :
    GoodStep (stateEndValue s c) := by
  unfold stateEndValue
  repeat' split
  all_goals first
    | exact goodStep_stateEndTop _ _ (fun h => by cases h)
    | exact goodStep_error ..
    | exact goodStep_of_step _ (popParseState_step _) (by simp)
    | exact goodStep_with _ _ (by decide) _ (by decide)

theorem goodStep_stateBeginValue (s : Scanner) (c : Char) (h : s.Good) :
    GoodStep (stateBeginValue s c) := by
  unfold stateBeginValue
  repeat' split
  all_goals first
    | exact goodStep_error ..
    | exact goodStep_with _ _ (by decide) _ (by decide)
    | exact goodStep_push _ _ (by decide) _ _ _ (by decide)
    | exact goodStep_same _ _ h (by decide)

theorem goodStep_stateBeginString (s : Scanner) (c : Char) (h : s.Good) :
    GoodStep (stateBeginString s c) := by
  unfold stateBeginString
  repeat' split
  all_goals first
    | exact goodStep_error ..
    | exact goodStep_with _ _ (by decide) _ (by decide)
    | exact goodStep_same _ _ h (by decide)

theorem goodStep_stateHex (next : StepFn) (hn : next ≠ .stateError) (s : Scanner) (c : Char) :
    GoodStep (stateHex next s c) := by
  unfold stateHex
  split_ifs
  · exact goodStep_with _ _ hn _ (by decide)
  · exact goodStep_error ..

theorem goodStep_stateLit (want : Char) (next : StepFn) (hn : next ≠ .stateError)
    (ctx : String) (s : Scanner) (c : Char) : GoodStep (stateLit want next ctx s c) := by
  unfold stateLit
  split_ifs
  · exact goodStep_with _ _ hn _ (by decide)
  · exact goodStep_error ..

theorem goodStep_state0 (s : Scanner) (c : Char) (h : s.Good) : GoodStep (state0 s c) := by
  unfold state0
  split_ifs <;> first
    | exact goodStep_stateEndValue _ _ h
    | exact goodStep_with _ _ (by decide) _ (by decide)

theorem goodStep_stateESign (s : Scanner) (c : Char) : GoodStep (stateESign s c) := by
  unfold stateESign
  split_ifs
  · exact goodStep_with _ _ (by decide) _ (by decide)
  · exact goodStep_error ..

theorem run_good (sc : Scanner) (c : Char) (h : sc.Good) : GoodStep (sc.run c) := by
  unfold Scanner.run
  split
  · unfold stateBeginValueOrEmpty
    split_ifs
    · exact goodStep_same _ _ h (by decide)
    · exact goodStep_stateEndValue _ _ h
    · exact goodStep_stateBeginValue _ _ h
  · exact goodStep_stateBeginValue _ _ h
  · unfold stateBeginStringOrEmpty
    split_ifs
    · exact goodStep_same _ _ h (by decide)
    · exact goodStep_stateEndValue _ _ (fun h' => h h')
    · exact goodStep_stateBeginString _ _ h
  · exact goodStep_stateBeginString _ _ h
  · exact goodStep_stateEndValue _ _ h
  · exact goodStep_stateEndTop _ _ h
  · unfold stateInString
    split_ifs <;> first
      | exact goodStep_same _ _ h (by decide)
      | exact goodStep_error ..
      | exact goodStep_with _ _ (by decide) _ (by decide)
  · unfold stateInStringEsc
    split_ifs <;> first
      | exact goodStep_error ..
      | exact goodStep_with _ _ (by decide) _ (by decide)
  · exact goodStep_stateHex _ (by decide) ..
  · exact goodStep_stateHex _ (by decide) ..
  · exact goodStep_stateHex _ (by decide) ..
  · exact goodStep_stateHex _ (by decide) ..
  · unfold stateNeg
    split_ifs <;> first
      | exact goodStep_error ..
      | exact goodStep_with _ _ (by decide) _ (by decide)
  · unfold state1
    split_ifs
    · exact goodStep_with _ _ (by decide) _ (by decide)
    · exact goodStep_state0 _ _ h
  · exact goodStep_state0 _ _ h
  · unfold stateDot
    split_ifs <;> first
      | exact goodStep_error ..
      | exact goodStep_with _ _ (by decide) _ (by decide)
  · unfold stateDot0
    split_ifs <;> first
      | exact goodStep_same _ _ h (by decide)
      | exact goodStep_stateEndValue _ _ h
      | exact goodStep_with _ _ (by decide) _ (by decide)
  · unfold stateE
    split_ifs
    · exact goodStep_with _ _ (by decide) _ (by decide)
    · exact goodStep_stateESign ..
  · exact goodStep_stateESign ..
  · unfold stateE0
    split_ifs
    · exact goodStep_same _ _ h (by decide)
    · exact goodStep_stateEndValue _ _ h
  all_goals first
    | exact goodStep_stateLit _ _ (by decide) ..
    | exact ⟨h, fun _ => h (by assumption)⟩

theorem checkValidLoop_good (t : Text) (sc : Scanner) (h : sc.Good) :
    (checkValidLoop sc t).1.Good ∧
      ((checkValidLoop sc t).2 = false → (checkValidLoop sc t).1.err.isSome = true) := by
  induction t generalizing sc with
  | nil => exact ⟨h, fun h => by cases h⟩
  | cons c cs ih =>
    rw [checkValidLoop_cons]
    have hr := run_good sc c h
    split_ifs with hv
    · exact ⟨hr.1, fun _ => hr.2 hv⟩
    · exact ih _ hr.1

theorem reset_good : Scanner.reset.Good := fun h => by cases h

theorem eof_ok_err (s : Scanner) (h : (s.eof).2 ≠ .scanError) : s.err.isSome = false := by
  unfold Scanner.eof at h
  split_ifs at h with h1
  · exact absurd rfl h
  all_goals simpa using h1

/-- A text that `json.Indent` accepts is valid JSON. -/
theorem Valid_of_Indent (dst t : Text) (h : (Indent dst t [] ['\t']).2 = none) :
    Valid t = true := by
  have hsc := indentLoop_scanner t Scanner.reset false 0 dst
  unfold Indent at h
  rcases hl : indentLoop [] ['\t'] Scanner.reset false 0 dst t with ⟨scan, out⟩
  rw [hl] at h hsc
  simp only at h hsc
  have heof : (scan.eof).2 ≠ .scanError := by
    intro he
    rcases hq : scan.eof with ⟨s1, v⟩
    rw [hq] at h he
    simp only at he
    subst he
    simp at h
  have herr := eof_ok_err scan heof
  have hg := checkValidLoop_good t Scanner.reset reset_good
  unfold Valid
  rcases hc : checkValidLoop Scanner.reset t with ⟨s2, b⟩
  rw [hc] at hsc hg
  simp only at hsc hg
  subst hsc
  cases b with
  | false => rw [hg.2 rfl] at herr; cases herr
  | true => simpa using heof

theorem Valid_layout (d : Doc) (hs : renderable d = true) (sp : Option Nat) :
    Valid (layout sp d) = true :=
  Valid_of_Indent [] _ (by rw [Indent_layout d hs sp])

/-! ## The sanitation pass keeps valid JSON valid when every backslash starts an escape -/

theorem popParseState_notEsc (s : Scanner) : s.popParseState.step ≠ .stateInStringEsc := by
  unfold Scanner.popParseState
  split <;> simp

theorem notEsc_stateEndValue (s : Scanner) (c : Char) (h : s.step ≠ .stateInStringEsc) :
    (stateEndValue s c).1.step ≠ .stateInStringEsc := by
  unfold stateEndValue stateEndTop
  repeat' split
  all_goals first
    | exact h
    | (simp [Scanner.error]; done)
    | exact popParseState_notEsc _
    | (simp; done)

theorem notEsc_stateBeginValue (s : Scanner) (c : Char) (h : s.step ≠ .stateInStringEsc) :
    (stateBeginValue s c).1.step ≠ .stateInStringEsc := by
  unfold stateBeginValue
  repeat' split
  all_goals first
    | exact h
    | (simp [Scanner.error]; done)
    | (simp only [Scanner.pushParseState]; split <;> simp [Scanner.error]; done)

theorem notEsc_stateBeginString (s : Scanner) (c : Char) (h : s.step ≠ .stateInStringEsc) :
    (stateBeginString s c).1.step ≠ .stateInStringEsc := by
  unfold stateBeginString
  repeat' split
  all_goals first
    | exact h
    | (simp [Scanner.error]; done)

theorem notEsc_state0 (s : Scanner) (c : Char) (h : s.step ≠ .stateInStringEsc) :
    (state0 s c).1.step ≠ .stateInStringEsc := by
  unfold state0
  repeat' split
  all_goals first
    | exact notEsc_stateEndValue _ _ h
    | (simp; done)

/-- Only a backslash takes the scanner into the state after a backslash. -/
theorem run_notEsc (sc : Scanner) (c : Char) (hc : c ≠ '\\') :
    (sc.run c).1.step ≠ .stateInStringEsc := by
  unfold Scanner.run
  split
  · rename_i heq
    have h : sc.step ≠ .stateInStringEsc := by rw [heq]; decide
    unfold stateBeginValueOrEmpty
    repeat' split
    all_goals first
      | exact h
      | exact notEsc_stateEndValue _ _ h
      | exact notEsc_stateBeginValue _ _ h
  · rename_i heq
    exact notEsc_stateBeginValue _ _ (by rw [heq]; simp)
  · rename_i heq
    have h : sc.step ≠ .stateInStringEsc := by rw [heq]; decide
    unfold stateBeginStringOrEmpty
    repeat' split
    all_goals first
      | exact h
      | exact notEsc_stateEndValue _ _ h
      | exact notEsc_stateBeginString _ _ h
  · rename_i heq
    exact notEsc_stateBeginString _ _ (by rw [heq]; simp)
  · rename_i heq
    exact notEsc_stateEndValue _ _ (by rw [heq]; simp)
  · rename_i heq
    unfold stateEndTop
    split
    · simp only [Scanner.error]; decide
    · rw [heq]; simp
  · rename_i heq
    unfold stateInString
    repeat' split
    all_goals first
      | (rw [heq]; simp; done)
      | (simp [Scanner.error]; done)
      | (simp; done)
      | (rename_i h1 h2; exact absurd h2 hc)
  · unfold stateInStringEsc
    repeat' split
    all_goals first
      | (simp [Scanner.error]; done)
      | (simp; done)
  · unfold stateHex; split <;> first | (simp [Scanner.error]; done) | (simp; done)
  · unfold stateHex; split <;> first | (simp [Scanner.error]; done) | (simp; done)
  · unfold stateHex; split <;> first | (simp [Scanner.error]; done) | (simp; done)
  · unfold stateHex; split <;> first | (simp [Scanner.error]; done) | (simp; done)
  · unfold stateNeg
    repeat' split
    all_goals first
      | (simp [Scanner.error]; done)
      | (simp; done)
  · rename_i heq
    unfold state1
    split
    · simp
    · exact notEsc_state0 _ _ (by rw [heq]; simp)
  · rename_i heq
    exact notEsc_state0 _ _ (by rw [heq]; simp)
  · unfold stateDot
    split <;> first | (simp [Scanner.error]; done) | (simp; done)
  · rename_i heq
    unfold stateDot0
    repeat' split
    all_goals first
      | (rw [heq]; simp; done)
      | exact notEsc_stateEndValue _ _ (by rw [heq]; simp)
      | (simp; done)
  · unfold stateE stateESign
    repeat' split
    all_goals first
      | (simp [Scanner.error]; done)
      | (simp; done)
  · unfold stateESign
    split <;> first | (simp [Scanner.error]; done) | (simp; done)
  · rename_i heq
    unfold stateE0
    split
    · rw [heq]; simp
    · exact notEsc_stateEndValue _ _ (by rw [heq]; simp)
  all_goals first
    | (unfold stateLit; split <;> first | (simp [Scanner.error]; done) | (simp; done))
    | (rename_i heq; rw [heq]; decide)

theorem run_backslash_r (sc : Scanner) (hne : sc.step ≠ .stateInStringEsc)
    (h1 : (sc.run '\\').2 ≠ .scanError) (h2 : ((sc.run '\\').1.run 'r').2 ≠ .scanError) :
    ((sc.run '\\').1.run 'r').1 = sc := by
  obtain ⟨st, et, ps, er⟩ := sc
  cases st <;> first
    | rfl
    | exact absurd rfl hne
    | exact absurd rfl h1
    | exact absurd rfl h2
    | (rcases ps with _ | ⟨p, ps⟩ <;> first
        | exact absurd rfl h1
        | exact absurd rfl h2
        | (cases p <;> first | exact absurd rfl h1 | exact absurd rfl h2))

theorem checkValidLoop_replace (t : Text) (ht : escaped t = true) (sc sc1 : Scanner)
    (hne : sc.step ≠ .stateInStringEsc) (h : checkValidLoop sc t = (sc1, true)) :
    checkValidLoop sc (replaceBackslashR t) = (sc1, true) := by
  induction t using escaped.induct generalizing sc with
  | case1 => exact h
  | case2 c => exact h
  | case3 d cs ih =>
    simp only [escaped, if_true, Bool.and_eq_true, bne_iff_ne, ne_eq] at ht
    rw [checkValidLoop_cons] at h
    split_ifs at h with h1
    · cases h
    rw [checkValidLoop_cons] at h
    split_ifs at h with h2
    · cases h
    by_cases hd : d = 'r'
    · subst hd
      simp only [replaceBackslashR, and_self, if_true]
      rw [run_backslash_r sc hne h1 h2] at h
      exact ih ht.2 sc hne h
    · have hn : ¬ ('\\' = '\\' ∧ d = 'r') := fun h => hd h.2
      rw [replaceBackslashR, if_neg hn, replaceBackslashR_cons_of_ne _ _ ht.1,
        checkValidLoop_cons, if_neg h1, checkValidLoop_cons, if_neg h2]
      exact ih ht.2 _ (run_notEsc _ _ ht.1) h
  | case4 c d cs hc ih =>
    rw [escaped, if_neg hc] at ht
    rw [checkValidLoop_cons] at h
    split_ifs at h with h1
    · cases h
    rw [replaceBackslashR_cons_of_ne _ _ hc, checkValidLoop_cons, if_neg h1]
    exact ih ht _ (run_notEsc _ _ hc) h

theorem Valid_replace (t : Text) (ht : escaped t = true) (hv : Valid t = true) :
    Valid (replaceBackslashR t) = true := by
  unfold Valid at hv ⊢
  rcases hc : checkValidLoop Scanner.reset t with ⟨s, b⟩
  rw [hc] at hv
  cases b with
  | false => simp at hv
  | true =>
    rw [checkValidLoop_replace t ht _ _ (by decide) hc]
    exact hv

theorem report_eq_sections (cfg : List (String × Doc))
    (hs : ∀ e ∈ cfg, renderable e.2 = true) :
    (parseConfigurations false cfg).1 = renderSections (perSourceSections cfg) := by
  induction cfg with
  | nil => rfl
  | cons e rest ih =>
    obtain ⟨f, d⟩ := e
    have hp := prettyJSON?_of_renderable d (hs _ (List.mem_cons_self _ _))
    rw [report_cons f d rest _ hp
      (fun e he => ⟨_, prettyJSON?_of_renderable _ (hs e (List.mem_cons_of_mem _ he))⟩),
      ih fun e he => hs e (List.mem_cons_of_mem _ he), perSourceSections, renderSections, hp,
      rawSection, iterate_replace_append_newline, iterate_replace_append_newline,
      iterate_replace_nil]
    simp

theorem sections_valid (cfg : List (String × Doc)) (hs : ∀ e ∈ cfg, renderable e.2 = true)
    (hdoc : ∀ e ∈ cfg, allStrings backslashFree e.2 = true) :
    ∀ s ∈ perSourceSections cfg, Valid s.2 = true := by
  induction cfg with
  | nil => intro s h; cases h
  | cons e rest ih =>
    obtain ⟨f, d⟩ := e
    intro s h
    rw [perSourceSections] at h
    rcases List.mem_cons.1 h with rfl | h'
    · have hd := hs _ (List.mem_cons_self _ _)
      have he := escaped_layout d (hdoc _ (List.mem_cons_self _ _)) (some 0)
      simp only [prettyJSON?_of_renderable d hd, Option.getD_some]
      rw [iterate_replace_succ_of_escaped _ he]
      exact Valid_replace _ he (Valid_layout d hd _)
    · exact ih (fun e he => hs e (List.mem_cons_of_mem _ he))
        (fun e he => hdoc e (List.mem_cons_of_mem _ he)) s h'

/-! ## One nesting level further in -/

theorem indentLines_append (a b : Text) :
    indentLines (a ++ b) = indentLines a ++ indentLines b := by
  induction a with
  | nil => rfl
  | cons c cs ih =>
    simp only [List.cons_append, indentLines]
    split_ifs <;> simp [ih]

theorem indentLines_of_forall_ne (t : Text) (h : ∀ c ∈ t, c ≠ '\n') : indentLines t = t := by
  induction t with
  | nil => rfl
  | cons c cs ih =>
    rw [indentLines, if_neg (h c (List.mem_cons_self _ _)),
      ih fun x hx => h x (List.mem_cons_of_mem _ hx)]

theorem indentLines_nl (k : Nat) : indentLines (nl k) = nl (k + 1) := by
  have : indentLines (List.replicate k '\t') = List.replicate k '\t' :=
    indentLines_of_forall_ne _ fun c hc => by
      rw [List.eq_of_mem_replicate hc]; decide
  rw [nl, indentLines, if_pos rfl, this, nl, List.replicate_succ]

theorem indentLines_joinWith (sep : Text) (ts : List Text) :
    indentLines (joinWith sep ts) = joinWith (indentLines sep) (ts.map indentLines) := by
  induction ts with
  | nil => rfl
  | cons t ts ih =>
    cases ts with
    | nil => rfl
    | cons u us =>
      simp only [joinWith, List.map_cons, indentLines_append] at ih ⊢
      rw [ih]

theorem isHexDigit_ne_newline {c : Char} (h : isHexDigit c = true) : c ≠ '\n' := by
  rintro rfl; exact absurd h (by decide)

theorem encodeChar_no_newline (c : Char) : ∀ x ∈ encodeChar c, x ≠ '\n' := by
  have hx : ∀ n, n < 16 → hexDigit n ≠ '\n' := fun n hn =>
    isHexDigit_ne_newline (isHexDigit_hexDigit n hn)
  unfold encodeChar
  split_ifs with h1 h2 h3 h4 h5 h6 h7
  · intro x hx'
    rw [List.mem_singleton.1 hx']
    rintro rfl
    exact absurd (htmlSafe_spec h2).2.2 (by decide)
  · rcases h3 with rfl | rfl <;> decide
  · decide
  · decide
  · decide
  · intro x hx'
    simp only [List.mem_cons, List.mem_singleton, List.not_mem_nil, or_false] at hx'
    rcases hx' with rfl | rfl | rfl | rfl | rfl | rfl
    · decide
    · decide
    · decide
    · decide
    · exact hx _ (by omega)
    · exact hx _ (Nat.mod_lt _ (by decide))
  · intro x hx'
    simp only [List.mem_cons, List.mem_singleton, List.not_mem_nil, or_false] at hx'
    rcases hx' with rfl | rfl | rfl | rfl | rfl | rfl
    · decide
    · decide
    · decide
    · decide
    · decide
    · exact hx _ (Nat.mod_lt _ (by decide))
  · intro x hx'
    rw [List.mem_singleton.1 hx']
    rintro rfl
    exact h1 (by decide)

theorem encodeString_no_newline (s : Text) : ∀ x ∈ encodeString s, x ≠ '\n' := by
  have hb : ∀ x ∈ encodeBody s, x ≠ '\n' := by
    induction s with
    | nil => intro x hx; cases hx
    | cons c cs ih =>
      intro x hx
      rw [encodeBody] at hx
      rcases List.mem_append.1 hx with h | h
      · exact encodeChar_no_newline c x h
      · exact ih x h
  intro x hx
  rw [encodeString] at hx
  rcases List.mem_cons.1 hx with rfl | h
  · decide
  · rcases List.mem_append.1 h with h | h
    · exact hb x h
    · rw [List.mem_singleton.1 h]; decide

theorem formatInt_no_newline (n : Int) : ∀ x ∈ formatInt n, x ≠ '\n' := by
  intro x hx
  rcases formatInt_chars n x hx with h | rfl
  · rintro rfl; exact absurd h (by decide)
  · decide

theorem indentLines_cons_newline (t : Text) :
    indentLines ('\n' :: t) = '\n' :: '\t' :: indentLines t := by
  rw [indentLines, if_pos rfl]

theorem indentLines_cons_of_ne (c : Char) (t : Text) (h : c ≠ '\n') :
    indentLines (c :: t) = c :: indentLines t := by
  rw [indentLines, if_neg h]

theorem indentLines_bracket (o c : Char) (ho : o ≠ '\n') (hc : c ≠ '\n') (k : Nat)
    (ts : List Text) :
    indentLines (o :: (nl (k + 1) ++ joinWith (',' :: nl (k + 1)) ts ++ nl k ++ [c])) =
      o :: (nl (k + 1 + 1) ++ joinWith (',' :: nl (k + 1 + 1)) (ts.map indentLines) ++
        nl (k + 1) ++ [c]) := by
  rw [indentLines_cons_of_ne _ _ ho, indentLines_append, indentLines_append,
    indentLines_append, indentLines_joinWith, indentLines_cons_of_ne _ _ (by decide),
    indentLines_nl, indentLines_nl, indentLines_cons_of_ne _ _ hc]
  rfl

/-- The layout at depth `k + 1` is the layout at depth `k` with one more tab
after every line break. -/
theorem layout_shift (d : Doc) : ∀ k, layout (some (k + 1)) d = indentLines (layout (some k) d) := by
  induction d using Doc.induct' with
  | hnull => intro k; rfl
  | hbool b => intro k; cases b <;> rfl
  | hnum n => intro k; exact (indentLines_of_forall_ne _ (formatInt_no_newline n)).symm
  | hfloat f =>
    intro k
    exact (indentLines_of_forall_ne _ fun c hc => numberChar_ne_newline (text_numberChar f c hc)).symm
  | hstr s => intro k; exact (indentLines_of_forall_ne _ (encodeString_no_newline _)).symm
  | harr xs ih =>
    intro k
    rw [layout_arr, layout_arr]
    cases xs with
    | nil => rfl
    | cons d ds =>
      have hm : (d :: ds).map (layout (some (k + 1 + 1))) =
          ((d :: ds).map (layout (some (k + 1)))).map indentLines := by
        rw [List.map_map]
        exact List.map_congr_left fun x hx => ih x hx (k + 1)
      simp only [deeper, brk, List.map_cons] at hm ⊢
      rw [indentLines_bracket _ _ (by decide) (by decide), hm]
      rfl
  | hobj ms ih =>
    intro k
    rw [layout_obj, layout_obj]
    have hmem : ∀ e ∈ sortMembers ms, e ∈ ms := fun e he => (sortMembers_perm ms).mem_iff.1 he
    generalize sortMembers ms = l at hmem
    cases l with
    | nil => rfl
    | cons m l =>
      have hm : ((m :: l).map fun x => (x.1, layout (some (k + 1 + 1)) x.2)).map
            (layoutMember (some (k + 1 + 1))) =
          (((m :: l).map fun x => (x.1, layout (some (k + 1)) x.2)).map
            (layoutMember (some (k + 1)))).map indentLines := by
        rw [List.map_map, List.map_map, List.map_map]
        refine List.map_congr_left fun x hx => ?_
        simp only [Function.comp, layoutMember, gap, indentLines_append]
        rw [indentLines_of_forall_ne _ (encodeString_no_newline _), ih x (hmem x hx) (k + 1)]
        simp [indentLines]
      simp only [deeper, brk, List.map_cons] at hm ⊢
      rw [indentLines_bracket _ _ (by decide) (by decide), hm]
      rfl
  | huns t => intro k; rfl

theorem replace_indentLines (t : Text) :
    replaceBackslashR (indentLines t) = indentLines (replaceBackslashR t) := by
  induction t using replaceBackslashR.induct with
  | case1 => rfl
  | case2 c =>
    by_cases h : c = '\n'
    · subst h; rfl
    · simp [indentLines, replaceBackslashR, h]
  | case3 c d cs h ih =>
    obtain ⟨rfl, rfl⟩ := h
    rw [indentLines_cons_of_ne _ _ (by decide), indentLines_cons_of_ne _ _ (by decide)]
    simp only [replaceBackslashR, and_self, if_true]
    exact ih
  | case4 c d cs h ih =>
    rw [replaceBackslashR, if_neg h]
    by_cases hn : c = '\n'
    · subst hn
      rw [indentLines_cons_newline, indentLines_cons_newline,
        replaceBackslashR_cons_of_ne _ _ (by decide),
        replaceBackslashR_cons_of_ne _ _ (by decide), ih]
    · rw [indentLines_cons_of_ne _ _ hn, indentLines_cons_of_ne _ _ hn, ← ih]
      by_cases hb : c = '\\'
      · subst hb
        have hd : d ≠ 'r' := fun hd => h ⟨rfl, hd⟩
        by_cases h2 : d = '\n'
        · subst h2
          rw [indentLines_cons_newline, replaceBackslashR,
            if_neg (by rintro ⟨_, h⟩; cases h)]
        · rw [indentLines_cons_of_ne _ _ h2, replaceBackslashR,
            if_neg (by rintro ⟨_, h⟩; exact hd h)]
      · exact replaceBackslashR_cons_of_ne _ _ hb

theorem member_eq (e : String × Doc) (hs : renderable e.2 = true) :
    '\n' :: '\t' :: replaceBackslashR (layoutMember (some 1) (e.1, layout (some 1) e.2)) =
      combinedMember e := by
  rw [combinedMember, combinedValue, prettyJSON?_of_renderable _ hs, Option.getD_some,
    layoutMember, gap, replaceBackslashR_append_cons _ _ _ (by decide),
    replaceBackslashR_cons_of_ne _ _ (by decide)]
  show _ :: _ :: (_ ++ ':' :: replaceBackslashR (' ' :: layout (some (0 + 1)) e.2)) = _
  rw [replaceBackslashR_cons_of_ne _ _ (by decide), layout_shift, replace_indentLines]

theorem replace_members (l : List (String × Doc)) (hne : l ≠ [])
    (hs : ∀ e ∈ l, renderable e.2 = true) (rest : Text) :
    replaceBackslashR ('\n' :: '\t' :: (joinWith (',' :: nl 1)
        ((l.map fun x => (x.1, layout (some 1) x.2)).map (layoutMember (some 1))) ++
          '\n' :: rest)) =
      joinWith [','] (l.map combinedMember) ++ '\n' :: replaceBackslashR rest := by
  induction l with
  | nil => exact absurd rfl hne
  | cons e es ih =>
    have he := member_eq e (hs e (List.mem_cons_self _ _))
    rw [replaceBackslashR_cons_of_ne _ _ (by decide),
      replaceBackslashR_cons_of_ne _ _ (by decide)]
    cases es with
    | nil =>
      simp only [List.map_cons, List.map_nil, joinWith]
      rw [replaceBackslashR_append_newline, ← he]
      rfl
    | cons f fs =>
      have ih' := ih (by simp) fun x hx => hs x (List.mem_cons_of_mem _ hx)
      simp only [List.map_cons, joinWith] at ih' ⊢
      have src : ∀ (a b c : Text), a ++ (',' :: nl 1) ++ b ++ '\n' :: c =
          a ++ ',' :: ('\n' :: '\t' :: (b ++ '\n' :: c)) := by
        intro a b c; simp [nl]
      rw [src, replaceBackslashR_append_cons _ _ _ (by decide),
        replaceBackslashR_cons_of_ne _ _ (by decide), ih', ← he]
      simp

theorem sortMembers_ne_nil {α : Type} (l : List (String × α)) (h : l ≠ []) :
    sortMembers l ≠ [] := by
  intro hn
  have := (sortMembers_perm l).length_eq
  rw [hn] at this
  exact h (List.length_eq_zero.1 this.symm)

theorem combined_eq_members (cfg : List (String × Doc)) (hne : cfg ≠ [])
    (hr : renderable (.obj cfg) = true) :
    (parseConfigurations true cfg).1 =
      "Combined\n\x7b".toList ++ joinWith [','] ((sortMembers cfg).map combinedMember) ++
        "\n\x7d\n".toList := by
  rw [combined_of_renderable cfg hr, layout_obj]
  have hmem : ∀ e ∈ sortMembers cfg, renderable e.2 = true := fun e he =>
    renderable_of_combined hr e ((sortMembers_perm cfg).mem_iff.1 he)
  have hne' := sortMembers_ne_nil cfg hne
  generalize sortMembers cfg = l at hmem hne'
  cases l with
  | nil => exact absurd rfl hne'
  | cons m l =>
    have h := replace_members (m :: l) (by simp) hmem ['}']
    simp only [List.map_cons, deeper, brk] at h ⊢
    have src : ∀ (b : Text), '{' :: (nl (0 + 1) ++ b ++ nl 0 ++ ['}']) =
        '{' :: '\n' :: '\t' :: (b ++ '\n' :: ['}']) := by
      intro b; simp [nl]
    rw [src, replaceBackslashR_cons_of_ne _ _ (by decide), h]
    simp [replaceBackslashR]

/-! ## The encoder is injective: numbers -/

theorem span_unique (p : Char → Prop) (a b x y : Text) (ha : ∀ c ∈ a, p c) (hb : ∀ c ∈ b, p c)
    (hx : ∀ c t, x = c :: t → ¬ p c) (hy : ∀ c t, y = c :: t → ¬ p c)
    (h : a ++ x = b ++ y) : a = b ∧ x = y := by
  induction a generalizing b with
  | nil =>
    cases b with
    | nil => exact ⟨rfl, h⟩
    | cons c cs =>
      rw [List.nil_append, List.cons_append] at h
      exact absurd (hb c (List.mem_cons_self _ _)) (hx c _ h)
  | cons c cs ih =>
    cases b with
    | nil =>
      rw [List.nil_append, List.cons_append] at h
      exact absurd (ha c (List.mem_cons_self _ _)) (hy c _ h.symm)
    | cons e es =>
      rw [List.cons_append, List.cons_append, List.cons.injEq] at h
      obtain ⟨h1, h2⟩ := ih es (fun c hc => ha c (List.mem_cons_of_mem _ hc))
        (fun c hc => hb c (List.mem_cons_of_mem _ hc)) h.2
      exact ⟨by rw [h.1, h1], h2⟩

theorem digitsValue_snoc (t : Text) (c : Char) :
    digitsValue (t ++ [c]) = 10 * digitsValue t + (c.toNat - 48) := by
  simp [digitsValue, List.foldl_append]

theorem digitsValue_formatBits (fuel n : Nat) (hf : n < fuel) :
    digitsValue (formatBits fuel n) = n := by
  induction fuel generalizing n with
  | zero => omega
  | succ fuel ih =>
    rw [formatBits]
    split_ifs with h10
    · simp [digitsValue, digitChar_toNat n h10]
    · rw [digitsValue_snoc, ih (n / 10) (by omega),
        digitChar_toNat _ (Nat.mod_lt _ (by decide))]
      omega

theorem formatNat_injective {m n : Nat} (h : formatNat m = formatNat n) : m = n := by
  have h1 : digitsValue (formatNat m) = m := digitsValue_formatBits (m + 1) m (by omega)
  have h2 : digitsValue (formatNat n) = n := digitsValue_formatBits (n + 1) n (by omega)
  rw [← h1, h, h2]

theorem formatNat_digits (n : Nat) : ∀ c ∈ formatNat n, isDigit c = true := by
  intro c hc
  rcases Nat.eq_zero_or_pos n with rfl | hn
  · have e : formatNat 0 = ['0'] := rfl
    rw [e, List.mem_singleton] at hc
    subst hc; rfl
  · obtain ⟨x, xs, e, hx, hxs⟩ := formatNat_spec n hn
    rw [e] at hc
    rcases List.mem_cons.1 hc with rfl | h
    · exact isDigit_of_isDigit19 hx
    · exact hxs c h

theorem formatNat_head_ne_minus (n : Nat) : ∀ t, formatNat n ≠ '-' :: t := by
  intro t h
  have := formatNat_digits n '-' (by rw [h]; exact List.mem_cons_self _ _)
  exact absurd this (by decide)

theorem formatInt_injective {m n : Int} (h : formatInt m = formatInt n) : m = n := by
  cases m with
  | ofNat a =>
    cases n with
    | ofNat b =>
      have h' : formatNat a = formatNat b := h
      rw [formatNat_injective h']
    | negSucc b =>
      have h' : formatNat a = '-' :: formatNat (b + 1) := h
      exact absurd h' (formatNat_head_ne_minus a _)
  | negSucc a =>
    cases n with
    | ofNat b =>
      have h' : '-' :: formatNat (a + 1) = formatNat b := h
      exact absurd h'.symm (formatNat_head_ne_minus b _)
    | negSucc b =>
      have h' : '-' :: formatNat (a + 1) = '-' :: formatNat (b + 1) := h
      rw [List.cons.injEq] at h'
      have := formatNat_injective h'.2
      have : a = b := by omega
      rw [this]

/-! ## The encoder is injective: numbers with a fraction or an exponent -/

/-- The text of a finite number that is not printed as an integer, form by
form: the negative zero, the exponent form, and the fixed-point form with and
without an integer part. -/
theorem text_forms (neg : Bool) (digs : decimalSlice) (h : digs.shortest neg = true) :
    ∃ body, (Float64.finite neg digs h).text = (if neg then ['-'] else []) ++ body ∧
      ((digs.d = [] ∧ digs.dp = 0 ∧ body = ['0']) ∨
       (∃ c cs L, digs.d = c :: cs ∧ isDigit19 c = true ∧ (∀ x ∈ cs, isDigit x = true) ∧
          L ≠ [] ∧ (∀ x ∈ L, isDigit x = true) ∧ digitsValue L = (digs.dp - 1).natAbs ∧
          body = c :: ((if cs = [] then [] else '.' :: cs) ++
            'e' :: (if digs.dp - 1 < 0 then '-' else '+') :: L)) ∨
       (∃ c cs k, digs.d = c :: cs ∧ isDigit19 c = true ∧ (∀ x ∈ cs, isDigit x = true) ∧
          digs.dp = ((k + 1 : Nat) : Int) ∧ k < cs.length ∧
          body = c :: (cs.take k ++ '.' :: cs.drop k)) ∨
       (∃ c cs j, digs.d = c :: cs ∧ isDigit19 c = true ∧ (∀ x ∈ cs, isDigit x = true) ∧
          digs.dp = -((j : Nat) : Int) ∧
          body = '0' :: '.' :: (List.replicate j '0' ++ c :: cs))) := by
  obtain ⟨d, dp⟩ := digs
  cases d with
  | nil =>
    refine ⟨['0'], ?_, Or.inl ⟨rfl, (shortest_nil h).2, rfl⟩⟩
    rw [text_negzero, (shortest_nil h).1]; rfl
  | cons c cs =>
    obtain ⟨hc, hcs, hlo, hhi, hfr⟩ := shortest_cons h
    by_cases he : dp ≤ -6 ∨ 22 ≤ dp
    · obtain ⟨L, hL, hLd, hv, e⟩ := text_e neg c cs dp h he
      exact ⟨_, e, Or.inr (Or.inl ⟨c, cs, L, rfl, hc, hcs, hL, hLd, hv, rfl⟩)⟩
    · by_cases hp : 0 < dp
      · obtain ⟨k, rfl⟩ := Int.eq_ofNat_of_zero_le (le_of_lt hp)
        obtain ⟨hk, e⟩ := text_f_pos neg c cs k h (by omega) (by omega)
        obtain ⟨k', rfl⟩ : ∃ k', k = k' + 1 := ⟨k - 1, by omega⟩
        exact ⟨_, e, Or.inr (Or.inr (Or.inl ⟨c, cs, k', rfl, hc, hcs, rfl, by omega, by simp⟩))⟩
      · obtain ⟨j, rfl⟩ := Int.exists_eq_neg_ofNat (by omega : dp ≤ 0)
        exact ⟨_, text_f_neg neg c cs j h (by omega),
          Or.inr (Or.inr (Or.inr ⟨c, cs, j, rfl, hc, hcs, rfl, rfl⟩))⟩

theorem digit_ne_e {c : Char} (h : isDigit c = true) : c ≠ 'e' := by
  rintro rfl; exact absurd h (by decide)

theorem digit_ne_dot {c : Char} (h : isDigit c = true) : c ≠ '.' := by
  rintro rfl; exact absurd h (by decide)

theorem digit_ne_minus {c : Char} (h : isDigit c = true) : c ≠ '-' := by
  rintro rfl; exact absurd h (by decide)

theorem replicate_zero_inj (j1 j2 : Nat) (c1 c2 : Char) (t1 t2 : Text) (h1 : c1 ≠ '0')
    (h2 : c2 ≠ '0')
    (h : List.replicate j1 '0' ++ c1 :: t1 = List.replicate j2 '0' ++ c2 :: t2) :
    j1 = j2 ∧ c1 = c2 ∧ t1 = t2 := by
  induction j1 generalizing j2 with
  | zero =>
    cases j2 with
    | zero => simpa using h
    | succ j2 =>
      simp only [List.replicate_zero, List.nil_append, List.replicate_succ, List.cons_append,
        List.cons.injEq] at h
      exact absurd h.1 h1
  | succ j1 ih =>
    cases j2 with
    | zero =>
      simp only [List.replicate_zero, List.nil_append, List.replicate_succ, List.cons_append,
        List.cons.injEq] at h
      exact absurd h.1.symm h2
    | succ j2 =>
      simp only [List.replicate_succ, List.cons_append, List.cons.injEq, true_and] at h
      obtain ⟨e1, e2⟩ := ih j2 h
      exact ⟨by rw [e1], e2⟩

theorem frac_no_e (cs : Text) (hcs : ∀ x ∈ cs, isDigit x = true) :
    ∀ x ∈ (if cs = [] then [] else '.' :: cs), x ≠ 'e' := by
  intro x hx
  split_ifs at hx with hn
  · cases hx
  · rcases List.mem_cons.1 hx with rfl | hx
    · decide
    · exact digit_ne_e (hcs x hx)

theorem frac_inj (cs1 cs2 : Text)
    (h : (if cs1 = [] then [] else '.' :: cs1) = (if cs2 = [] then [] else '.' :: cs2)) :
    cs1 = cs2 := by
  by_cases h1 : cs1 = [] <;> by_cases h2 : cs2 = []
  · rw [h1, h2]
  · rw [if_pos h1, if_neg h2] at h; cases h
  · rw [if_neg h1, if_pos h2] at h; cases h
  · rw [if_neg h1, if_neg h2] at h; exact (List.cons.inj h).2

/-- The text of a finite number determines its sign and its decimal. -/
theorem floatText_injective (n1 n2 : Bool) (g1 g2 : decimalSlice)
    (h1 : g1.shortest n1 = true) (h2 : g2.shortest n2 = true)
    (h : (Float64.finite n1 g1 h1).text = (Float64.finite n2 g2 h2).text) :
    n1 = n2 ∧ g1 = g2 := by
  obtain ⟨b1, e1, f1⟩ := text_forms n1 g1 h1
  obtain ⟨b2, e2, f2⟩ := text_forms n2 g2 h2
  obtain ⟨d1, dp1⟩ := g1
  obtain ⟨d2, dp2⟩ := g2
  simp only at f1 f2
  -- the body starts with a digit
  have hd1 : ∃ x t, b1 = x :: t ∧ isDigit x = true := by
    rcases f1 with ⟨_, _, rfl⟩ | ⟨c, cs, L, _, hc, _, _, _, _, rfl⟩ |
      ⟨c, cs, k, _, hc, _, _, _, rfl⟩ | ⟨c, cs, j, _, hc, _, _, rfl⟩
    · exact ⟨_, _, rfl, rfl⟩
    · exact ⟨_, _, rfl, isDigit_of_isDigit19 hc⟩
    · exact ⟨_, _, rfl, isDigit_of_isDigit19 hc⟩
    · exact ⟨_, _, rfl, rfl⟩
  have hd2 : ∃ x t, b2 = x :: t ∧ isDigit x = true := by
    rcases f2 with ⟨_, _, rfl⟩ | ⟨c, cs, L, _, hc, _, _, _, _, rfl⟩ |
      ⟨c, cs, k, _, hc, _, _, _, rfl⟩ | ⟨c, cs, j, _, hc, _, _, rfl⟩
    · exact ⟨_, _, rfl, rfl⟩
    · exact ⟨_, _, rfl, isDigit_of_isDigit19 hc⟩
    · exact ⟨_, _, rfl, isDigit_of_isDigit19 hc⟩
    · exact ⟨_, _, rfl, rfl⟩
  rw [e1, e2] at h
  have hn : n1 = n2 := by
    obtain ⟨x1, t1, rfl, hx1⟩ := hd1
    obtain ⟨x2, t2, rfl, hx2⟩ := hd2
    cases n1 <;> cases n2
    · rfl
    · simp only [Bool.false_eq_true, if_false, if_true, List.nil_append, List.singleton_append,
        List.cons.injEq] at h
      exact absurd h.1 (digit_ne_minus hx1)
    · simp only [Bool.false_eq_true, if_false, if_true, List.nil_append, List.singleton_append,
        List.cons.injEq] at h
      exact absurd h.1.symm (digit_ne_minus hx2)
    · rfl
  subst hn
  refine ⟨rfl, ?_⟩
  have hb : b1 = b2 := List.append_cancel_left h
  subst hb
  clear h e1 e2 hd1 hd2
  -- the three marks of the form: an `e`, a point, a leading zero
  have dotP : ∀ (c : Char) (cs : Text) (k : Nat), (∀ x ∈ cs, isDigit x = true) →
      isDigit19 c = true → 'e' ∉ c :: (cs.take k ++ '.' :: cs.drop k) := by
    intro c cs k hcs hc hm
    rcases List.mem_cons.1 hm with hm | hm
    · exact digit_ne_e (isDigit_of_isDigit19 hc) hm.symm
    · rcases List.mem_append.1 hm with hm | hm
      · exact digit_ne_e (hcs _ (List.mem_of_mem_take hm)) rfl
      · rcases List.mem_cons.1 hm with hm | hm
        · exact absurd hm (by decide)
        · exact digit_ne_e (hcs _ (List.mem_of_mem_drop hm)) rfl
  have dotN : ∀ (c : Char) (cs : Text) (j : Nat), (∀ x ∈ cs, isDigit x = true) →
      isDigit19 c = true → 'e' ∉ '0' :: '.' :: (List.replicate j '0' ++ c :: cs) := by
    intro c cs j hcs hc hm
    rcases List.mem_cons.1 hm with hm | hm
    · exact absurd hm (by decide)
    · rcases List.mem_cons.1 hm with hm | hm
      · exact absurd hm (by decide)
      · rcases List.mem_append.1 hm with hm | hm
        · exact absurd (List.eq_of_mem_replicate hm) (by decide)
        · rcases List.mem_cons.1 hm with hm | hm
          · exact digit_ne_e (isDigit_of_isDigit19 hc) hm.symm
          · exact digit_ne_e (hcs _ hm) rfl
  have memE : ∀ (c s : Char) (cs L : Text),
      'e' ∈ c :: ((if cs = [] then [] else '.' :: cs) ++ 'e' :: s :: L) := by
    intro c s cs L
    exact List.mem_cons_of_mem _ (List.mem_append_right _ (List.mem_cons_self _ _))
  rcases f1 with ⟨hz1, hp1, rfl⟩ | ⟨c1, cs1, L1, rfl, hc1, hcs1, hL1, hLd1, hv1, rfl⟩ |
      ⟨c1, cs1, k1, rfl, hc1, hcs1, rfl, hk1, rfl⟩ | ⟨c1, cs1, j1, rfl, hc1, hcs1, rfl, rfl⟩
  · -- the negative zero
    rcases f2 with ⟨hz2, hp2, _⟩ | ⟨c2, cs2, L2, rfl, hc2, hcs2, hL2, hLd2, hv2, e⟩ |
      ⟨c2, cs2, k2, rfl, hc2, hcs2, rfl, hk2, e⟩ | ⟨c2, cs2, j2, rfl, hc2, hcs2, rfl, e⟩
    · rw [hz1, hz2, hp1, hp2]
    · have := memE c2 (if dp2 - 1 < 0 then '-' else '+') cs2 L2
      rw [← e] at this
      exact absurd this (by decide)
    · have := congrArg List.length e
      simp at this
    · have := congrArg List.length e
      simp at this
  · -- the exponent form
    rcases f2 with ⟨hz2, hp2, e⟩ | ⟨c2, cs2, L2, rfl, hc2, hcs2, hL2, hLd2, hv2, e⟩ |
      ⟨c2, cs2, k2, rfl, hc2, hcs2, rfl, hk2, e⟩ | ⟨c2, cs2, j2, rfl, hc2, hcs2, rfl, e⟩
    · have := memE c1 (if dp1 - 1 < 0 then '-' else '+') cs1 L1
      rw [e] at this
      exact absurd this (by decide)
    · rw [List.cons.injEq] at e
      obtain ⟨rfl, e⟩ := e
      obtain ⟨ef, er⟩ := span_unique (fun x => x ≠ 'e') _ _ _ _ (frac_no_e cs1 hcs1)
        (frac_no_e cs2 hcs2) (fun c t hc => by rw [(List.cons.inj hc).1]; simp)
        (fun c t hc => by rw [(List.cons.inj hc).1]; simp) e
      have := frac_inj _ _ ef
      subst this
      simp only [List.cons.injEq, true_and] at er
      obtain ⟨es, rfl⟩ := er
      have hv : (dp1 - 1).natAbs = (dp2 - 1).natAbs := by rw [← hv1, ← hv2]
      have : dp1 = dp2 := by
        by_cases a1 : dp1 - 1 < 0 <;> by_cases a2 : dp2 - 1 < 0
        · omega
        · rw [if_pos a1, if_neg a2] at es; exact absurd es (by decide)
        · rw [if_neg a1, if_pos a2] at es; exact absurd es (by decide)
        · omega
      rw [this]
    · exact absurd (e ▸ memE c1 _ cs1 L1) (dotP c2 cs2 k2 hcs2 hc2)
    · exact absurd (e ▸ memE c1 _ cs1 L1) (dotN c2 cs2 j2 hcs2 hc2)
  · -- the fixed-point form with an integer part
    rcases f2 with ⟨hz2, hp2, e⟩ | ⟨c2, cs2, L2, rfl, hc2, hcs2, hL2, hLd2, hv2, e⟩ |
      ⟨c2, cs2, k2, rfl, hc2, hcs2, rfl, hk2, e⟩ | ⟨c2, cs2, j2, rfl, hc2, hcs2, rfl, e⟩
    · have := congrArg List.length e
      simp at this
    · exact absurd (e ▸ memE c2 _ cs2 L2) (dotP c1 cs1 k1 hcs1 hc1)
    · rw [List.cons.injEq] at e
      obtain ⟨rfl, e⟩ := e
      obtain ⟨et, ed⟩ := span_unique (fun x => x ≠ '.') _ _ _ _
        (fun x hx => digit_ne_dot (hcs1 x (List.mem_of_mem_take hx)))
        (fun x hx => digit_ne_dot (hcs2 x (List.mem_of_mem_take hx)))
        (fun c t hc => by rw [(List.cons.inj hc).1]; simp)
        (fun c t hc => by rw [(List.cons.inj hc).1]; simp) e
      have ed' : cs1.drop k1 = cs2.drop k2 := (List.cons.inj ed).2
      have hcs : cs1 = cs2 := by
        rw [← List.take_append_drop k1 cs1, ← List.take_append_drop k2 cs2, et, ed']
      have hk : k1 = k2 := by
        have := congrArg List.length et
        rw [List.length_take, List.length_take] at this
        subst hcs
        omega
      rw [hcs, hk]
    · rw [List.cons.injEq] at e
      exact absurd e.1 (isDigit19_ne_zero hc1)
  · -- the fixed-point form below one
    rcases f2 with ⟨hz2, hp2, e⟩ | ⟨c2, cs2, L2, rfl, hc2, hcs2, hL2, hLd2, hv2, e⟩ |
      ⟨c2, cs2, k2, rfl, hc2, hcs2, rfl, hk2, e⟩ | ⟨c2, cs2, j2, rfl, hc2, hcs2, rfl, e⟩
    · have := congrArg List.length e
      simp at this
    · exact absurd (e ▸ memE c2 _ cs2 L2) (dotN c1 cs1 j1 hcs1 hc1)
    · rw [List.cons.injEq] at e
      exact absurd e.1.symm (isDigit19_ne_zero hc2)
    · simp only [List.cons.injEq, true_and] at e
      obtain ⟨ej, ec, ecs⟩ := replicate_zero_inj _ _ _ _ _ _ (isDigit19_ne_zero hc1)
        (isDigit19_ne_zero hc2) e
      rw [ej, ec, ecs]

/-- A number with a fraction or an exponent is not printed like an integer. -/
theorem formatInt_ne_float (n : Int) (neg : Bool) (digs : decimalSlice)
    (h : digs.shortest neg = true) : formatInt n ≠ (Float64.finite neg digs h).text := by
  intro e
  obtain ⟨b, eb, f⟩ := text_forms neg digs h
  have hch := formatInt_chars n
  rw [e, eb] at hch
  have hb : ∀ c ∈ b, isDigit c = true ∨ c = '-' := fun c hc => hch c (List.mem_append_right _ hc)
  rcases f with ⟨hz, hp, rfl⟩ | ⟨c, cs, L, _, hc, hcs, hL, hLd, hv, rfl⟩ |
      ⟨c, cs, k, _, hc, hcs, _, hk, rfl⟩ | ⟨c, cs, j, _, hc, hcs, _, rfl⟩
  · obtain ⟨d, dp⟩ := digs
    simp only at hz
    subst hz
    have hneg := (shortest_nil h).1
    subst hneg
    rw [eb] at e
    cases n with
    | ofNat m => exact formatNat_head_ne_minus m _ e
    | negSucc m =>
      obtain ⟨x, xs, ex, hx, _⟩ := formatNat_spec (m + 1) (by omega)
      rw [formatInt, ex] at e
      simp only [if_true, List.singleton_append, List.cons.injEq, true_and] at e
      exact isDigit19_ne_zero hx e.1
  · rcases hb 'e' (List.mem_cons_of_mem _ (List.mem_append_right _ (List.mem_cons_self _ _)))
      with h' | h' <;> exact absurd h' (by decide)
  · rcases hb '.' (List.mem_cons_of_mem _ (List.mem_append_right _ (List.mem_cons_self _ _)))
      with h' | h' <;> exact absurd h' (by decide)
  · rcases hb '.' (List.mem_cons_of_mem _ (List.mem_cons_self _ _)) with h' | h' <;>
      exact absurd h' (by decide)

theorem term_not_numberChar {x : Text} (hx : Term x) :
    ∀ c t, x = c :: t → ¬ (numberChar c = true) := by
  intro c t h hp
  rcases hx c t h with rfl | rfl <;> revert hp <;> decide

/-! ## The encoder is injective: strings -/

theorem hexValue_hexDigit (n : Nat) (h : n < 16) : hexValue (hexDigit n) = n := by
  interval_cases n <;> rfl

theorem decodeChar_encodeChar (c : Char) (r : Text) :
    decodeChar (encodeChar c ++ r) = some (c, r) := by
  unfold encodeChar
  split_ifs with h1 h2 h3 h4 h5 h6 h7
  · have hc := (htmlSafe_spec h2).2.1
    simp [decodeChar, hc]
  · rcases h3 with rfl | rfl <;> rfl
  · subst h4; rfl
  · subst h5; rfl
  · subst h6; rfl
  · have e : 4096 * hexValue '0' + 256 * hexValue '0' + 16 * hexValue (hexDigit (c.toNat / 16)) +
        hexValue (hexDigit (c.toNat % 16)) = c.toNat := by
      rw [hexValue_hexDigit _ (show c.toNat / 16 < 16 by omega),
        hexValue_hexDigit _ (Nat.mod_lt _ (by decide))]
      have : hexValue '0' = 0 := rfl
      rw [this]
      omega
    simp only [List.cons_append, List.nil_append, decodeChar, if_true]
    rw [e, Char.ofNat_toNat]
  · have e : 4096 * hexValue '2' + 256 * hexValue '0' + 16 * hexValue '2' +
        hexValue (hexDigit (c.toNat % 16)) = c.toNat := by
      rw [hexValue_hexDigit _ (Nat.mod_lt _ (by decide))]
      have h0 : hexValue '0' = 0 := rfl
      have h2 : hexValue '2' = 2 := rfl
      rw [h0, h2]
      omega
    simp only [List.cons_append, List.nil_append, decodeChar, if_true]
    rw [e, Char.ofNat_toNat]
  · have hc : c ≠ '\\' := by rintro rfl; exact h1 (by decide)
    simp [decodeChar, hc]

theorem encodeChar_head (c : Char) : ∃ h t, encodeChar c = h :: t ∧ h ≠ '"' := by
  unfold encodeChar
  split_ifs with h1 h2 h3 h4 h5 h6 h7
  · exact ⟨c, [], rfl, (htmlSafe_spec h2).1⟩
  · exact ⟨_, _, rfl, by decide⟩
  · exact ⟨_, _, rfl, by decide⟩
  · exact ⟨_, _, rfl, by decide⟩
  · exact ⟨_, _, rfl, by decide⟩
  · exact ⟨_, _, rfl, by decide⟩
  · exact ⟨_, _, rfl, by decide⟩
  · exact ⟨c, [], rfl, by rintro rfl; exact h1 (by decide)⟩

theorem encodeBody_inj (s1 s2 x y : Text)
    (h : encodeBody s1 ++ '"' :: x = encodeBody s2 ++ '"' :: y) : s1 = s2 ∧ x = y := by
  induction s1 generalizing s2 with
  | nil =>
    cases s2 with
    | nil => simpa [encodeBody] using h
    | cons c cs =>
      rw [encodeBody, encodeBody, List.nil_append] at h
      obtain ⟨a, t, e, ha⟩ := encodeChar_head c
      rw [e, List.cons_append, List.cons_append, List.cons.injEq] at h
      exact absurd h.1.symm ha
  | cons c cs ih =>
    cases s2 with
    | nil =>
      rw [encodeBody, encodeBody, List.nil_append] at h
      obtain ⟨a, t, e, ha⟩ := encodeChar_head c
      rw [e, List.cons_append, List.cons_append, List.cons.injEq] at h
      exact absurd h.1 ha
    | cons e es =>
      rw [encodeBody, encodeBody, List.append_assoc, List.append_assoc] at h
      have hd := congrArg decodeChar h
      rw [decodeChar_encodeChar, decodeChar_encodeChar, Option.some.injEq, Prod.mk.injEq] at hd
      obtain ⟨h1, h2⟩ := ih es hd.2
      exact ⟨by rw [hd.1, h1], h2⟩

theorem encodeString_inj (s1 s2 x y : Text) (h : encodeString s1 ++ x = encodeString s2 ++ y) :
    s1 = s2 ∧ x = y := by
  rw [encodeString, encodeString] at h
  simp only [List.cons_append, List.append_assoc, List.singleton_append, List.cons.injEq,
    true_and] at h
  exact encodeBody_inj s1 s2 x y h

/-! ## The output format is injective: documents -/

theorem sortMembers_of_ascending {α : Type} (ms : List (String × α))
    (h : ascending (ms.map fun e => e.1.toList) = true) : sortMembers ms = ms := by
  induction ms with
  | nil => rfl
  | cons e es ih =>
    cases es with
    | nil => rfl
    | cons f fs =>
      simp only [List.map_cons, ascending, Bool.and_eq_true] at h
      rw [sortMembers, ih (by simpa using h.2), insertMember, if_neg]
      rw [keyLess_asymm h.1]
      simp

theorem canonicalElems_iff (xs : List Doc) :
    canonicalElems xs = true ↔ ∀ d ∈ xs, canonical d = true := by
  induction xs with
  | nil => simp [canonicalElems]
  | cons d ds ih => simp [canonicalElems, ih]

theorem canonicalMembers_iff (ms : List (String × Doc)) :
    canonicalMembers ms = true ↔ ∀ e ∈ ms, canonical e.2 = true := by
  induction ms with
  | nil => simp [canonicalMembers]
  | cons e es ih => obtain ⟨k, d⟩ := e; simp [canonicalMembers, ih]

theorem charKind_digit {c : Char} (h : isDigit c = true) : charKind c = 3 := by
  rcases digitChar_cases c h with
    rfl | rfl | rfl | rfl | rfl | rfl | rfl | rfl | rfl | rfl <;> rfl

theorem formatInt_head (n : Int) : ∃ c t, formatInt n = c :: t ∧ charKind c = 3 := by
  cases n with
  | ofNat m =>
    rcases Nat.eq_zero_or_pos m with rfl | hm
    · exact ⟨'0', [], rfl, rfl⟩
    · obtain ⟨c, cs, e, hc, _⟩ := formatNat_spec m hm
      exact ⟨c, cs, e, charKind_digit (isDigit_of_isDigit19 hc)⟩
  | negSucc m => exact ⟨'-', _, rfl, rfl⟩

theorem layout_head (d : Doc) (hs : supported d = true) (sp : Option Nat) :
    ∃ c t, layout sp d = c :: t ∧ charKind c = docKind d := by
  cases d with
  | null => exact ⟨_, _, rfl, rfl⟩
  | bool b => cases b <;> exact ⟨_, _, rfl, rfl⟩
  | num n => exact formatInt_head n
  | float f =>
    cases f with
    | nan => simp [supported, Float64.isFinite] at hs
    | inf neg => simp [supported, Float64.isFinite] at hs
    | finite neg digs h =>
      obtain ⟨c, t, e, hc⟩ := float_head neg digs h
      refine ⟨c, t, e, ?_⟩
      rcases hc with rfl | hc
      · rfl
      · exact charKind_digit hc
  | str s => exact ⟨_, _, rfl, rfl⟩
  | arr xs =>
    rw [layout_arr]
    cases xs with
    | nil => exact ⟨_, _, rfl, rfl⟩
    | cons d ds => exact ⟨_, _, rfl, rfl⟩
  | obj ms =>
    rw [layout_obj]
    cases sortMembers ms with
    | nil => exact ⟨_, _, rfl, rfl⟩
    | cons d ds => exact ⟨_, _, rfl, rfl⟩
  | unsupported t => simp [supported] at hs

theorem docKind_eq_of_layout (d1 d2 : Doc) (h1 : supported d1 = true) (h2 : supported d2 = true)
    (sp : Option Nat) (x y : Text) (h : layout sp d1 ++ x = layout sp d2 ++ y) :
    docKind d1 = docKind d2 := by
  obtain ⟨c1, t1, e1, k1⟩ := layout_head d1 h1 sp
  obtain ⟨c2, t2, e2, k2⟩ := layout_head d2 h2 sp
  rw [e1, e2, List.cons_append, List.cons_append, List.cons.injEq] at h
  rw [← k1, ← k2, h.1]

theorem term_afterItem (k : Nat) (items : List Text) (u : Text) : Term (afterItem k items u) := by
  intro c t h
  cases items with
  | nil => exact Or.inr (List.cons.inj h).1.symm
  | cons a as => exact Or.inl (List.cons.inj h).1.symm

theorem joinWith_afterItem (k : Nat) (t : Text) (ts : List Text) (u : Text) :
    joinWith (',' :: nl k) (t :: ts) ++ '\n' :: u = t ++ afterItem k ts u := by
  cases ts with
  | nil => rfl
  | cons a as => simp [joinWith, afterItem]

theorem afterItem_inj_step (k : Nat) (ts1 ts2 : List Text) (u v : Text)
    (h : afterItem k ts1 u = afterItem k ts2 v) :
    (ts1 = [] ∧ ts2 = [] ∧ u = v) ∨
      (ts1 ≠ [] ∧ ts2 ≠ [] ∧
        joinWith (',' :: nl k) ts1 ++ '\n' :: u = joinWith (',' :: nl k) ts2 ++ '\n' :: v) := by
  cases ts1 with
  | nil =>
    cases ts2 with
    | nil => exact Or.inl ⟨rfl, rfl, (List.cons.inj h).2⟩
    | cons b bs => exact absurd (List.cons.inj h).1 (by decide)
  | cons a as =>
    cases ts2 with
    | nil => exact absurd (List.cons.inj h).1 (by decide)
    | cons b bs =>
      refine Or.inr ⟨by simp, by simp, ?_⟩
      simp only [afterItem, List.cons.injEq, true_and] at h
      exact List.append_cancel_left h

theorem elems_inj (k : Nat) (xs1 : List Doc) (hU : ∀ d ∈ xs1, Unique d)
    (hs1 : ∀ d ∈ xs1, supported d = true) (hc1 : ∀ d ∈ xs1, canonical d = true)
    (xs2 : List Doc) (hs2 : ∀ d ∈ xs2, supported d = true)
    (hc2 : ∀ d ∈ xs2, canonical d = true) (hn1 : xs1 ≠ []) (hn2 : xs2 ≠ []) (u v : Text)
    (h : joinWith (',' :: nl k) (xs1.map (layout (some k))) ++ '\n' :: u =
      joinWith (',' :: nl k) (xs2.map (layout (some k))) ++ '\n' :: v) :
    xs1 = xs2 ∧ u = v := by
  induction xs1 generalizing xs2 with
  | nil => exact absurd rfl hn1
  | cons d1 r1 ih =>
    cases xs2 with
    | nil => exact absurd rfl hn2
    | cons d2 r2 =>
      rw [List.map_cons, List.map_cons, joinWith_afterItem, joinWith_afterItem] at h
      obtain ⟨hd, hr⟩ := hU d1 (List.mem_cons_self _ _) d2 k _ _
        (hs1 _ (List.mem_cons_self _ _)) (hs2 _ (List.mem_cons_self _ _))
        (hc1 _ (List.mem_cons_self _ _)) (hc2 _ (List.mem_cons_self _ _))
        (term_afterItem _ _ _) (term_afterItem _ _ _) h
      rcases afterItem_inj_step _ _ _ _ _ hr with ⟨e1, e2, e3⟩ | ⟨n1, n2, e⟩
      · rw [List.map_eq_nil_iff] at e1 e2
        exact ⟨by rw [hd, e1, e2], e3⟩
      · have n1' : r1 ≠ [] := fun h => n1 (by rw [h]; rfl)
        have n2' : r2 ≠ [] := fun h => n2 (by rw [h]; rfl)
        obtain ⟨hr', huv⟩ := ih (fun d hd => hU d (List.mem_cons_of_mem _ hd))
          (fun d hd => hs1 d (List.mem_cons_of_mem _ hd))
          (fun d hd => hc1 d (List.mem_cons_of_mem _ hd)) r2
          (fun d hd => hs2 d (List.mem_cons_of_mem _ hd))
          (fun d hd => hc2 d (List.mem_cons_of_mem _ hd)) n1' n2' e
        exact ⟨by rw [hd, hr'], huv⟩

theorem members_inj (k : Nat) (l1 : List (String × Doc)) (hU : ∀ e ∈ l1, Unique e.2)
    (hs1 : ∀ e ∈ l1, supported e.2 = true) (hc1 : ∀ e ∈ l1, canonical e.2 = true)
    (l2 : List (String × Doc)) (hs2 : ∀ e ∈ l2, supported e.2 = true)
    (hc2 : ∀ e ∈ l2, canonical e.2 = true) (hn1 : l1 ≠ []) (hn2 : l2 ≠ []) (u v : Text)
    (h : joinWith (',' :: nl k)
          ((l1.map fun x => (x.1, layout (some k) x.2)).map (layoutMember (some k))) ++
          '\n' :: u =
        joinWith (',' :: nl k)
          ((l2.map fun x => (x.1, layout (some k) x.2)).map (layoutMember (some k))) ++
          '\n' :: v) :
    l1 = l2 ∧ u = v := by
  induction l1 generalizing l2 with
  | nil => exact absurd rfl hn1
  | cons e1 r1 ih =>
    cases l2 with
    | nil => exact absurd rfl hn2
    | cons e2 r2 =>
      simp only [List.map_cons] at h
      rw [joinWith_afterItem, joinWith_afterItem, layoutMember, layoutMember,
        List.append_assoc, List.append_assoc] at h
      obtain ⟨hk, hrest⟩ := encodeString_inj _ _ _ _ h
      simp only [gap, List.cons_append, List.singleton_append, List.nil_append,
        List.cons.injEq, true_and] at hrest
      obtain ⟨hd, hr⟩ := hU e1 (List.mem_cons_self _ _) e2.2 k _ _
        (hs1 _ (List.mem_cons_self _ _)) (hs2 _ (List.mem_cons_self _ _))
        (hc1 _ (List.mem_cons_self _ _)) (hc2 _ (List.mem_cons_self _ _))
        (term_afterItem _ _ _) (term_afterItem _ _ _) hrest
      have he : e1 = e2 := Prod.ext (String.toList_inj.1 hk) hd
      rcases afterItem_inj_step _ _ _ _ _ hr with ⟨a1, a2, a3⟩ | ⟨n1, n2, e⟩
      · rw [List.map_eq_nil_iff, List.map_eq_nil_iff] at a1 a2
        exact ⟨by rw [he, a1, a2], a3⟩
      · have n1' : r1 ≠ [] := fun h => n1 (by rw [h]; rfl)
        have n2' : r2 ≠ [] := fun h => n2 (by rw [h]; rfl)
        obtain ⟨hr', huv⟩ := ih (fun d hd => hU d (List.mem_cons_of_mem _ hd))
          (fun d hd => hs1 d (List.mem_cons_of_mem _ hd))
          (fun d hd => hc1 d (List.mem_cons_of_mem _ hd)) r2
          (fun d hd => hs2 d (List.mem_cons_of_mem _ hd))
          (fun d hd => hc2 d (List.mem_cons_of_mem _ hd)) n1' n2' e
        exact ⟨by rw [he, hr'], huv⟩

theorem term_not_number {x : Text} (hx : Term x) :
    ∀ c t, x = c :: t → ¬ (isDigit c = true ∨ c = '-') := by
  intro c t h hp
  rcases hx c t h with rfl | rfl <;> rcases hp with hp | hp <;> revert hp <;> decide

theorem bracket_inj (o c : Char) (k : Nat) (J1 J2 x y : Text)
    (h : o :: (nl (k + 1) ++ J1 ++ nl k ++ [c]) ++ x = o :: (nl (k + 1) ++ J2 ++ nl k ++ [c]) ++ y) :
    J1 ++ '\n' :: (List.replicate k '\t' ++ c :: x) =
      J2 ++ '\n' :: (List.replicate k '\t' ++ c :: y) := by
  simp only [List.cons_append, List.append_assoc, List.cons.injEq, true_and,
    List.singleton_append] at h
  have h' := List.append_cancel_left h
  simpa [nl] using h'

theorem bracket_tail_inj (c : Char) (k : Nat) (x y : Text)
    (h : List.replicate k '\t' ++ c :: x = List.replicate k '\t' ++ c :: y) : x = y :=
  (List.cons.inj (List.append_cancel_left h)).2

/-- The indented text of a supported document whose objects are enumerated in
ascending key order determines the document. -/
theorem unique_layout (d1 : Doc) : Unique d1 := by
  induction d1 using Doc.induct' with
  | hnull =>
    intro d2 k x y hs1 hs2 hc1 hc2 hx hy h
    have hk := docKind_eq_of_layout _ _ hs1 hs2 _ _ _ h
    cases d2 with
    | null => exact ⟨rfl, List.append_cancel_left h⟩
    | bool b => cases b <;> simp [docKind] at hk
    | _ => simp [docKind] at hk
  | hbool b =>
    intro d2 k x y hs1 hs2 hc1 hc2 hx hy h
    have hk := docKind_eq_of_layout _ _ hs1 hs2 _ _ _ h
    cases d2 with
    | bool b2 =>
      cases b <;> cases b2 <;> first
        | exact ⟨rfl, List.append_cancel_left h⟩
        | simp [docKind] at hk
    | _ => cases b <;> simp [docKind] at hk
  | hnum n =>
    intro d2 k x y hs1 hs2 hc1 hc2 hx hy h
    have hk := docKind_eq_of_layout _ _ hs1 hs2 _ _ _ h
    cases d2 with
    | num n2 =>
      have h' : formatInt n ++ x = formatInt n2 ++ y := h
      obtain ⟨e1, e2⟩ := span_unique (fun c => isDigit c = true ∨ c = '-') _ _ _ _
        (formatInt_chars n) (formatInt_chars n2) (term_not_number hx) (term_not_number hy) h'
      exact ⟨by rw [formatInt_injective e1], e2⟩
    | float f2 =>
      cases f2 with
      | nan => simp [supported, Float64.isFinite] at hs2
      | inf neg => simp [supported, Float64.isFinite] at hs2
      | finite neg digs hf =>
        have h' : formatInt n ++ x = (Float64.finite neg digs hf).text ++ y := h
        obtain ⟨e1, _⟩ := span_unique (fun c => numberChar c = true) _ _ _ _
          (formatInt_numberChar n) (float_chars neg digs hf) (term_not_numberChar hx)
          (term_not_numberChar hy) h'
        exact absurd e1 (formatInt_ne_float n neg digs hf)
    | bool b => cases b <;> simp [docKind] at hk
    | _ => simp [docKind] at hk
  | hfloat f =>
    intro d2 k x y hs1 hs2 hc1 hc2 hx hy h
    have hk := docKind_eq_of_layout _ _ hs1 hs2 _ _ _ h
    cases f with
    | nan => simp [supported, Float64.isFinite] at hs1
    | inf neg => simp [supported, Float64.isFinite] at hs1
    | finite neg digs hf =>
      cases d2 with
      | num n2 =>
        have h' : (Float64.finite neg digs hf).text ++ x = formatInt n2 ++ y := h
        obtain ⟨e1, _⟩ := span_unique (fun c => numberChar c = true) _ _ _ _
          (float_chars neg digs hf) (formatInt_numberChar n2) (term_not_numberChar hx)
          (term_not_numberChar hy) h'
        exact absurd e1.symm (formatInt_ne_float n2 neg digs hf)
      | float f2 =>
        cases f2 with
        | nan => simp [supported, Float64.isFinite] at hs2
        | inf neg2 => simp [supported, Float64.isFinite] at hs2
        | finite neg2 digs2 hf2 =>
          have h' : (Float64.finite neg digs hf).text ++ x =
              (Float64.finite neg2 digs2 hf2).text ++ y := h
          obtain ⟨e1, e2⟩ := span_unique (fun c => numberChar c = true) _ _ _ _
            (float_chars neg digs hf) (float_chars neg2 digs2 hf2) (term_not_numberChar hx)
            (term_not_numberChar hy) h'
          obtain ⟨en, eg⟩ := floatText_injective _ _ _ _ hf hf2 e1
          subst en
          subst eg
          exact ⟨rfl, e2⟩
      | bool b => cases b <;> simp [docKind] at hk
      | _ => simp [docKind] at hk
  | hstr s =>
    intro d2 k x y hs1 hs2 hc1 hc2 hx hy h
    have hk := docKind_eq_of_layout _ _ hs1 hs2 _ _ _ h
    cases d2 with
    | str s2 =>
      have h' : encodeString s.toList ++ x = encodeString s2.toList ++ y := h
      obtain ⟨e1, e2⟩ := encodeString_inj _ _ _ _ h'
      exact ⟨by rw [String.toList_inj.1 e1], e2⟩
    | bool b => cases b <;> simp [docKind] at hk
    | _ => simp [docKind] at hk
  | harr xs ih =>
    intro d2 k x y hs1 hs2 hc1 hc2 hx hy h
    have hk := docKind_eq_of_layout _ _ hs1 hs2 _ _ _ h
    cases d2 with
    | arr xs2 =>
      rw [supported, supportedElems_iff] at hs1 hs2
      rw [canonical, canonicalElems_iff] at hc1 hc2
      rw [layout_arr, layout_arr] at h
      cases xs with
      | nil =>
        cases xs2 with
        | nil => exact ⟨rfl, List.append_cancel_left h⟩
        | cons b bs => simp [deeper, brk, nl] at h
      | cons a as =>
        cases xs2 with
        | nil => simp [deeper, brk, nl] at h
        | cons b bs =>
          simp only [deeper, brk, ← List.map_cons] at h
          have h2 := bracket_inj _ _ _ _ _ _ _ h
          obtain ⟨e1, e2⟩ := elems_inj (k + 1) (a :: as) ih hs1 hc1 (b :: bs) hs2 hc2
            (by simp) (by simp) _ _ h2
          exact ⟨by rw [e1], bracket_tail_inj _ _ _ _ e2⟩
    | bool b => cases b <;> simp [docKind] at hk
    | _ => simp [docKind] at hk
  | hobj ms ih =>
    intro d2 k x y hs1 hs2 hc1 hc2 hx hy h
    have hk := docKind_eq_of_layout _ _ hs1 hs2 _ _ _ h
    cases d2 with
    | obj ms2 =>
      rw [supported, supportedMembers_iff] at hs1 hs2
      rw [canonical, Bool.and_eq_true, canonicalMembers_iff] at hc1 hc2
      rw [layout_obj, layout_obj, sortMembers_of_ascending ms hc1.1,
        sortMembers_of_ascending ms2 hc2.1] at h
      cases ms with
      | nil =>
        cases ms2 with
        | nil => exact ⟨rfl, List.append_cancel_left h⟩
        | cons b bs => simp [deeper, brk, nl] at h
      | cons a as =>
        cases ms2 with
        | nil => simp [deeper, brk, nl] at h
        | cons b bs =>
          simp only [deeper, brk, ← List.map_cons] at h
          have h2 := bracket_inj _ _ _ _ _ _ _ h
          obtain ⟨e1, e2⟩ := members_inj (k + 1) (a :: as) ih hs1 hc1.2 (b :: bs) hs2 hc2.2
            (by simp) (by simp) _ _ h2
          exact ⟨by rw [e1], bracket_tail_inj _ _ _ _ e2⟩
    | bool b => cases b <;> simp [docKind] at hk
    | _ => simp [docKind] at hk
  | huns t =>
    intro d2 k x y hs1
    simp [supported] at hs1

/-! ## Documents the sanitation pass leaves alone -/

theorem cleanString_iff (t : Text) : cleanString t = true ↔ ∀ c ∈ t, c ≠ '\\' ∧ c ≠ '\r' := by
  simp [cleanString, List.all_eq_true]

theorem hasBackslashR_of_forall_ne (t : Text) (h : ∀ c ∈ t, c ≠ '\\') :
    hasBackslashR t = false := by
  induction t with
  | nil => rfl
  | cons c cs ih =>
    rw [hasBackslashR_cons_of_ne _ _ (h c (List.mem_cons_self _ _))]
    exact ih fun x hx => h x (List.mem_cons_of_mem _ hx)

theorem untouched_append (a b : Text)
    (ha : escaped a = true ∧ hasBackslashR a = false)
    (hb : escaped b = true ∧ hasBackslashR b = false) :
    escaped (a ++ b) = true ∧ hasBackslashR (a ++ b) = false :=
  ⟨escaped_append a b ha.1 hb.1, hasBackslashR_append a b ha.1 ha.2 hb.2⟩

theorem untouched_encodeChar (c : Char) (h1 : c ≠ '\\') (h2 : c ≠ '\r') :
    escaped (encodeChar c) = true ∧ hasBackslashR (encodeChar c) = false := by
  refine ⟨escaped_encodeChar c h1, ?_⟩
  have hx : ∀ n, n < 16 → hexDigit n ≠ '\\' := fun n hn =>
    isHexDigit_ne_backslash (isHexDigit_hexDigit n hn)
  unfold encodeChar
  split_ifs with g1 g2 g3 g4 g5 g6
  · rfl
  · rcases g3 with h | h
    · exact absurd h h1
    · subst h; rfl
  · rfl
  · rfl
  · simp [hasBackslashR, hx _ (show c.toNat / 16 < 16 by omega)]
  · simp [hasBackslashR]
  · rfl

theorem untouched_encodeString (s : Text) (hs : cleanString s = true) :
    escaped (encodeString s) = true ∧ hasBackslashR (encodeString s) = false := by
  rw [cleanString_iff] at hs
  have hb : escaped (encodeBody s) = true ∧ hasBackslashR (encodeBody s) = false := by
    induction s with
    | nil => exact ⟨rfl, rfl⟩
    | cons c cs ih =>
      rw [encodeBody]
      exact untouched_append _ _
        (untouched_encodeChar c (hs c (List.mem_cons_self _ _)).1
          (hs c (List.mem_cons_self _ _)).2)
        (ih fun x hx => hs x (List.mem_cons_of_mem _ hx))
  have e : encodeString s = ['"'] ++ (encodeBody s ++ ['"']) := rfl
  rw [e]
  exact untouched_append _ _ ⟨rfl, rfl⟩ (untouched_append _ _ hb ⟨rfl, rfl⟩)

theorem untouched_layout (d : Doc) (hd : allStrings cleanString d = true) (sp : Option Nat) :
    escaped (layout sp d) = true ∧ hasBackslashR (layout sp d) = false :=
  layout_closure (fun t => escaped t = true ∧ hasBackslashR t = false) cleanString
    ⟨rfl, rfl⟩ untouched_append (by decide) ⟨rfl, rfl⟩ ⟨rfl, rfl⟩ ⟨rfl, rfl⟩
    (fun t ht => ⟨escaped_number t ht, hasBackslashR_of_forall_ne _ fun c hc =>
      numberChar_ne_backslash (ht c hc)⟩)
    untouched_encodeString d hd sp

theorem eq_of_perm_of_keys (l1 l2 : List (String × Doc)) (hp : l1.Perm l2)
    (hk : l1.map Prod.fst = l2.map Prod.fst) (hnd : (l1.map Prod.fst).Nodup) : l1 = l2 := by
  induction l1 generalizing l2 with
  | nil => exact (List.Perm.nil_eq hp)
  | cons a t1 ih =>
    cases l2 with
    | nil => exact absurd hp.length_eq (by simp)
    | cons b t2 =>
      simp only [List.map_cons, List.cons.injEq] at hk
      rw [List.map_cons, List.nodup_cons] at hnd
      have hab : a = b := by
        rcases List.mem_cons.1 (hp.mem_iff.1 (List.mem_cons_self a t1)) with h | h
        · exact h
        · exact absurd (hk.2 ▸ List.mem_map_of_mem Prod.fst h) hnd.1
      subst hab
      rw [ih t2 (List.Perm.cons_inv hp) hk.2 hnd.2]

theorem perSource_injective (l1 l2 : List (String × Doc))
    (hkeys : l1.map Prod.fst = l2.map Prod.fst)
    (hs1 : ∀ e ∈ l1, renderable e.2 = true) (hs2 : ∀ e ∈ l2, renderable e.2 = true)
    (h1 : ∀ e ∈ l1, allStrings cleanString e.2 = true ∧ canonical e.2 = true)
    (h2 : ∀ e ∈ l2, allStrings cleanString e.2 = true ∧ canonical e.2 = true)
    (heq : (parseConfigurations false l1).1 = (parseConfigurations false l2).1) : l1 = l2 := by
  induction l1 generalizing l2 with
  | nil =>
    cases l2 with
    | nil => rfl
    | cons b t2 => simp at hkeys
  | cons a t1 ih =>
    cases l2 with
    | nil => simp at hkeys
    | cons b t2 =>
      obtain ⟨f, d⟩ := a
      obtain ⟨g, d'⟩ := b
      simp only [List.map_cons, List.cons.injEq] at hkeys
      obtain ⟨rfl, hk⟩ := hkeys
      have hlen : t1.length = t2.length := by
        have := congrArg List.length hk
        simpa using this
      have sec : ∀ (d : Doc) (t : List (String × Doc)), renderable d = true →
          allStrings cleanString d = true → (∀ e ∈ t, renderable e.2 = true) →
          (parseConfigurations false ((f, d) :: t)).1 =
            replaceBackslashR^[t.length + 1] f.toList ++
              '\n' :: (layout (some 0) d ++ '\n' :: (parseConfigurations false t).1) := by
        intro d t hsd hcd hst
        rw [report_cons f d t _ (prettyJSON?_of_renderable d hsd)
          (fun e he => ⟨_, prettyJSON?_of_renderable _ (hst e he)⟩), rawSection,
          iterate_replace_append_newline, iterate_replace_append_newline, iterate_replace_nil,
          iterate_replace_of_not_has _ (untouched_layout d hcd _).2]
        simp
      rw [sec d t1 (hs1 _ (List.mem_cons_self _ _)) (h1 _ (List.mem_cons_self _ _)).1
          (fun e he => hs1 e (List.mem_cons_of_mem _ he)),
        sec d' t2 (hs2 _ (List.mem_cons_self _ _)) (h2 _ (List.mem_cons_self _ _)).1
          (fun e he => hs2 e (List.mem_cons_of_mem _ he)), hlen] at heq
      have heq' := List.cons.inj (List.append_cancel_left heq)
      obtain ⟨hd, hr⟩ := unique_layout d d' 0 _ _
        (renderable_supported (hs1 _ (List.mem_cons_self _ _)))
        (renderable_supported (hs2 _ (List.mem_cons_self _ _)))
        (h1 _ (List.mem_cons_self _ _)).2
        (h2 _ (List.mem_cons_self _ _)).2
        (fun c t h => Or.inr (List.cons.inj h).1.symm)
        (fun c t h => Or.inr (List.cons.inj h).1.symm) heq'.2
      rw [hd, ih t2 hk (fun e he => hs1 e (List.mem_cons_of_mem _ he))
        (fun e he => hs2 e (List.mem_cons_of_mem _ he))
        (fun e he => h1 e (List.mem_cons_of_mem _ he))
        (fun e he => h2 e (List.mem_cons_of_mem _ he)) (List.cons.inj hr).2]

theorem sortMembers_keys {α β : Type} (l1 : List (String × α)) (l2 : List (String × β))
    (h : l1.map Prod.fst = l2.map Prod.fst) :
    (sortMembers l1).map Prod.fst = (sortMembers l2).map Prod.fst := by
  have e : ∀ {γ : Type} (l : List (String × γ)),
      (sortMembers l).map (fun x => (x.1, ())) = sortMembers (l.map fun x => (x.1, ())) :=
    fun l => (sortMembers_map (fun _ => ()) l).symm
  have k : ∀ {γ : Type} (l : List (String × γ)),
      l.map Prod.fst = (l.map fun x => (x.1, ())).map Prod.fst := by
    intro γ l; rw [List.map_map]; rfl
  have hu : (l1.map fun x => (x.1, ())) = (l2.map fun x => (x.1, ())) := by
    have := congrArg (List.map fun s : String => (s, ())) h
    simpa [List.map_map] using this
  rw [k (sortMembers l1), k (sortMembers l2), e l1, e l2, hu]

/-- The value of a member of the combined object, for a document the
sanitation pass leaves alone: the document written one level in. -/
theorem combinedValue_clean (d : Doc) (hr : renderable d = true)
    (hc : allStrings cleanString d = true) : combinedValue d = layout (some 1) d := by
  rw [combinedValue, prettyJSON?_of_renderable d hr, Option.getD_some,
    replaceBackslashR_of_not_has _ (untouched_layout d hc _).2, layout_shift]

theorem joinWith_comma_cons (t : Text) (ts : List Text) (u : Text) :
    joinWith [','] (t :: ts) ++ '\n' :: u =
      t ++ (match ts with
        | [] => '\n' :: u
        | _ :: _ => ',' :: (joinWith [','] ts ++ '\n' :: u)) := by
  cases ts with
  | nil => rfl
  | cons a as => simp [joinWith]

/-- Members of two combined objects with the same keys in the same order:
equal texts come from equal members. -/
theorem combinedMembers_inj (s1 s2 : List (String × Doc))
    (hkeys : s1.map Prod.fst = s2.map Prod.fst)
    (h1 : ∀ e ∈ s1, renderable e.2 = true ∧ allStrings cleanString e.2 = true ∧
      canonical e.2 = true)
    (h2 : ∀ e ∈ s2, renderable e.2 = true ∧ allStrings cleanString e.2 = true ∧
      canonical e.2 = true)
    (u v : Text)
    (h : joinWith [','] (s1.map combinedMember) ++ '\n' :: u =
      joinWith [','] (s2.map combinedMember) ++ '\n' :: v) : s1 = s2 ∧ u = v := by
  induction s1 generalizing s2 with
  | nil =>
    cases s2 with
    | nil => exact ⟨rfl, (List.cons.inj h).2⟩
    | cons b t2 => simp at hkeys
  | cons a t1 ih =>
    cases s2 with
    | nil => simp at hkeys
    | cons b t2 =>
      obtain ⟨f, d⟩ := a
      obtain ⟨g, d'⟩ := b
      simp only [List.map_cons, List.cons.injEq] at hkeys
      obtain ⟨rfl, hk⟩ := hkeys
      obtain ⟨hr1, hc1, hn1⟩ := h1 _ (List.mem_cons_self _ _)
      obtain ⟨hr2, hc2, hn2⟩ := h2 _ (List.mem_cons_self _ _)
      rw [List.map_cons, List.map_cons, joinWith_comma_cons, joinWith_comma_cons, combinedMember,
        combinedMember, combinedValue_clean d hr1 hc1, combinedValue_clean d' hr2 hc2] at h
      simp only [List.cons_append, List.append_assoc, List.cons.injEq, true_and] at h
      have h' := List.cons.inj (List.cons.inj (List.append_cancel_left h)).2
      have hX : ∀ (ts : List Text) (w : Text), Term (match ts with
          | [] => '\n' :: w
          | _ :: _ => ',' :: (joinWith [','] ts ++ '\n' :: w)) := by
        intro ts w c t hct
        cases ts with
        | nil => exact Or.inr (List.cons.inj hct).1.symm
        | cons x xs => exact Or.inl (List.cons.inj hct).1.symm
      obtain ⟨hd, hrest⟩ := unique_layout d d' 1 _ _ (renderable_supported hr1)
        (renderable_supported hr2) hn1 hn2 (hX _ _) (hX _ _) h'.2
      subst hd
      cases t1 with
      | nil =>
        cases t2 with
        | nil => exact ⟨rfl, (List.cons.inj hrest).2⟩
        | cons y ys => simp at hk
      | cons x xs =>
        cases t2 with
        | nil => simp at hk
        | cons y ys =>
          simp only [List.map_cons] at hrest
          obtain ⟨ht, huv⟩ := ih (y :: ys) hk (fun e he => h1 e (List.mem_cons_of_mem _ he))
            (fun e he => h2 e (List.mem_cons_of_mem _ he)) (List.cons.inj hrest).2
          exact ⟨by rw [ht], huv⟩

theorem combined_injective (l1 l2 : List (String × Doc))
    (hkeys : l1.map Prod.fst = l2.map Prod.fst) (hnd : (l1.map Prod.fst).Nodup)
    (hr1 : renderable (.obj l1) = true) (hr2 : renderable (.obj l2) = true)
    (h1 : ∀ e ∈ l1, allStrings cleanString e.2 = true ∧ canonical e.2 = true)
    (h2 : ∀ e ∈ l2, allStrings cleanString e.2 = true ∧ canonical e.2 = true)
    (heq : (parseConfigurations true l1).1 = (parseConfigurations true l2).1) : l1 = l2 := by
  cases l1 with
  | nil =>
    cases l2 with
    | nil => rfl
    | cons b t2 => simp at hkeys
  | cons a t1 =>
    cases l2 with
    | nil => simp at hkeys
    | cons b t2 =>
      rw [combined_eq_members _ (List.cons_ne_nil _ _) hr1,
        combined_eq_members _ (List.cons_ne_nil _ _) hr2] at heq
      have p1 := sortMembers_perm (a :: t1)
      have p2 := sortMembers_perm (b :: t2)
      have hsk := sortMembers_keys (a :: t1) (b :: t2) hkeys
      have heq' : joinWith [','] ((sortMembers (a :: t1)).map combinedMember) ++
            '\n' :: "\x7d\n".toList =
          joinWith [','] ((sortMembers (b :: t2)).map combinedMember) ++
            '\n' :: "\x7d\n".toList := by
        have := List.append_cancel_left
          (by simpa only [List.append_assoc] using heq :
            "Combined\n\x7b".toList ++ (joinWith [','] ((sortMembers (a :: t1)).map
              combinedMember) ++ "\n\x7d\n".toList) =
            "Combined\n\x7b".toList ++ (joinWith [','] ((sortMembers (b :: t2)).map
              combinedMember) ++ "\n\x7d\n".toList))
        exact this
      have hsort := (combinedMembers_inj _ _ hsk
        (fun e he => ⟨renderable_of_combined hr1 e (p1.mem_iff.1 he), h1 e (p1.mem_iff.1 he)⟩)
        (fun e he => ⟨renderable_of_combined hr2 e (p2.mem_iff.1 he), h2 e (p2.mem_iff.1 he)⟩)
        _ _ heq').1
      exact eq_of_perm_of_keys _ _ ((p1.symm.trans (hsort ▸ List.Perm.refl _)).trans p2)
        hkeys hnd

/-! ## The claims -/

/-- C1: whenever the combined-mode run succeeds, the report is `"Combined\n"`
followed by the sanitation pass applied to the tab-indented JSON encoding of
the whole mapping with a line break appended; the label line is untouched and
the report ends with a line break. -/
theorem combined_report_format (configurations : List (String × Doc))
    (h : (parseConfigurations true configurations).2 = none) :
    ∃ m p, Marshal (.obj configurations) = .ok m ∧ Indent [] m [] ['\t'] = (p, none) ∧
      (parseConfigurations true configurations).1 =
        "Combined\n".toList ++ replaceBackslashR (p ++ ['\n']) ∧
      (parseConfigurations true configurations).1 =
        "Combined\n".toList ++ (replaceBackslashR p ++ ['\n']) := by
  simp only [parseConfigurations, if_true] at h ⊢
  cases hm : Marshal (.obj configurations) with
  | error e => simp [hm] at h
  | ok m =>
    simp only [hm] at h ⊢
    rcases hi : Indent [] m [] ['\t'] with ⟨q, _ | e⟩
    · have e1 : ([] : Text) ++ "Combined".toList ++ ['\n'] ++ (q ++ ['\n'])
          = "Combined".toList ++ '\n' :: (q ++ ['\n']) := by simp
      refine ⟨m, q, rfl, hi, ?_, ?_⟩
      · dsimp only
        rw [e1, replaceBackslashR_append_newline]
        rfl
      · dsimp only
        rw [e1, replaceBackslashR_append_newline, replaceBackslashR_snoc_newline]
        rfl
    · rw [hi] at h
      simp at h

theorem combined_report_format_witness :
    (parseConfigurations true [("a.yaml", .num 1)]).2 = none ∧
    ∃ m p, Marshal (.obj [("a.yaml", .num 1)]) = .ok m ∧ Indent [] m [] ['\t'] = (p, none) ∧
      (parseConfigurations true [("a.yaml", .num 1)]).1 =
        "Combined\n".toList ++ replaceBackslashR (p ++ ['\n']) ∧
      (parseConfigurations true [("a.yaml", .num 1)]).1 =
        "Combined\n".toList ++ (replaceBackslashR p ++ ['\n']) :=
  ⟨by decide, combined_report_format [("a.yaml", .num 1)] (by decide)⟩

/-- C2 (as stated, refuted): the report of two entries, the first holding the
string of the three characters backslash, `r`, `r`, is not the concatenation of
the two one-entry reports, although every run succeeds: the earlier section is
sanitized a second time. -/
theorem per_source_concat_counterexample :
    (parseConfigurations false ([("a", .str "\\rr")] ++ [("b", .null)])).2 = none ∧
    (parseConfigurations false [("a", .str "\\rr")]).2 = none ∧
    (parseConfigurations false [("b", .null)]).2 = none ∧
    (parseConfigurations false ([("a", .str "\\rr")] ++ [("b", .null)])).1 ≠
      (parseConfigurations false [("a", .str "\\rr")]).1 ++
        (parseConfigurations false [("b", .null)]).1 := by
  decide

/-- C2 (amended): when the per-source run on `xs ++ ys` succeeds, so do the
runs on `xs` and on `ys`, and the report of `xs ++ ys` is the report of `xs`,
sanitized once more for every entry of `ys`, followed by the report of `ys`;
it is the plain concatenation whenever the report of `xs` is left unchanged by
the sanitation pass. -/
theorem per_source_concat (xs ys : List (String × Doc))
    (h : (parseConfigurations false (xs ++ ys)).2 = none) :
    (parseConfigurations false xs).2 = none ∧ (parseConfigurations false ys).2 = none ∧
    (parseConfigurations false (xs ++ ys)).1 =
      replaceBackslashR^[ys.length] (parseConfigurations false xs).1 ++
        (parseConfigurations false ys).1 ∧
    (replaceBackslashR (parseConfigurations false xs).1 = (parseConfigurations false xs).1 →
      (parseConfigurations false (xs ++ ys)).1 =
        (parseConfigurations false xs).1 ++ (parseConfigurations false ys).1) := by
  rw [report_ok_iff] at h
  have hx : ∀ e ∈ xs, ∃ p, prettyJSON? e.2 = some p := fun e he => h e (by simp [he])
  have hy : ∀ e ∈ ys, ∃ p, prettyJSON? e.2 = some p := fun e he => h e (by simp [he])
  refine ⟨(report_ok_iff xs).2 hx, (report_ok_iff ys).2 hy, report_append xs ys h, ?_⟩
  intro hfix
  rw [report_append xs ys h, Function.iterate_fixed hfix]

theorem per_source_concat_witness :
    (parseConfigurations false ([("a", .str "\\rr")] ++ [("b", .null)])).2 = none ∧
    ((parseConfigurations false [("a", .str "\\rr")]).2 = none ∧
    (parseConfigurations false [("b", .null)]).2 = none ∧
    (parseConfigurations false ([("a", .str "\\rr")] ++ [("b", .null)])).1 =
      replaceBackslashR^[[("b", Doc.null)].length]
          (parseConfigurations false [("a", .str "\\rr")]).1 ++
        (parseConfigurations false [("b", .null)]).1 ∧
    (replaceBackslashR (parseConfigurations false [("a", .str "\\rr")]).1 =
        (parseConfigurations false [("a", .str "\\rr")]).1 →
      (parseConfigurations false ([("a", .str "\\rr")] ++ [("b", .null)])).1 =
        (parseConfigurations false [("a", .str "\\rr")]).1 ++
          (parseConfigurations false [("b", .null)]).1)) :=
  ⟨by decide, per_source_concat [("a", .str "\\rr")] [("b", .null)] (by decide)⟩

/-- C3 (as stated, refuted): for the one-entry set whose source identifier is
the Windows-style path `C:\repo\a.yaml`, the run succeeds and the report does
not begin with that identifier followed by a line break (it begins with
`C:epo\a.yaml`). -/
theorem label_counterexample :
    (parseConfigurations false [("C:\\repo\\a.yaml", .null)]).2 = none ∧
    ("C:\\repo\\a.yaml".toList ++ ['\n']).isPrefixOf
      (parseConfigurations false [("C:\\repo\\a.yaml", .null)]).1 = false ∧
    (parseConfigurations false [("C:\\repo\\a.yaml", .null)]).1 =
      "C:epo\\a.yaml\nnull\n".toList := by
  decide

/-- C3 (amended): in a per-source run that succeeds, the section of an entry
whose source identifier contains no backslash immediately followed by `r`
begins with a label line that is exactly the identifier followed by a line
break: the report is the (re-sanitized) report of the preceding entries, then
the identifier, a line break, the entry's (sanitized) block, a line break, and
the report of the following entries. -/
theorem label_exact (xs ys : List (String × Doc)) (filename : String) (config : Doc)
    (h : (parseConfigurations false (xs ++ (filename, config) :: ys)).2 = none)
    (hid : hasBackslashR filename.toList = false) :
    ∃ p, prettyJSON? config = some p ∧
      (parseConfigurations false (xs ++ (filename, config) :: ys)).1 =
        replaceBackslashR^[ys.length + 1] (parseConfigurations false xs).1 ++
          (filename.toList ++ '\n' :: (replaceBackslashR^[ys.length + 1] p ++
            '\n' :: (parseConfigurations false ys).1)) := by
  rw [report_ok_iff] at h
  obtain ⟨p, hp⟩ := h (filename, config) (by simp)
  have hy : ∀ e ∈ ys, ∃ p, prettyJSON? e.2 = some p := fun e he => h e (by simp [he])
  refine ⟨p, hp, ?_⟩
  rw [report_append xs _ h, report_cons filename config ys p hp hy, rawSection,
    iterate_replace_append_newline, iterate_replace_of_not_has _ hid]
  have e1 : replaceBackslashR^[ys.length + 1] (p ++ ['\n'])
      = replaceBackslashR^[ys.length + 1] p ++ ['\n'] := by
    rw [iterate_replace_append_newline, iterate_replace_nil]
  rw [e1]
  simp [List.append_assoc]

theorem label_exact_witness :
    (parseConfigurations false ([("a", .null)] ++ ("dir\\b.yaml", .num 1) :: [("c", .null)])).2
      = none ∧
    hasBackslashR "dir\\b.yaml".toList = false ∧
    ∃ p, prettyJSON? (.num 1) = some p ∧
      (parseConfigurations false ([("a", .null)] ++ ("dir\\b.yaml", .num 1) :: [("c", .null)])).1 =
        replaceBackslashR^[[("c", Doc.null)].length + 1]
            (parseConfigurations false [("a", .null)]).1 ++
          ("dir\\b.yaml".toList ++ '\n' :: (replaceBackslashR^[[("c", Doc.null)].length + 1] p ++
            '\n' :: (parseConfigurations false [("c", .null)]).1)) :=
  ⟨by decide, by decide,
    label_exact [("a", .null)] [("c", .null)] "dir\\b.yaml" (.num 1) (by decide) (by decide)⟩

/-- C8: on the empty configuration set the run succeeds in both modes; with
combine it returns `Combined`, a line break, `{}` and a line break, and without
combine the empty string. -/
theorem empty_input :
    parseConfigurations true [] = ("Combined\n\x7b\x7d\n".toList, none) ∧
    parseConfigurations false [] = ([], none) := by
  decide

/-- C10: for the set with `a.yaml` holding the object `name: x` and `b.yaml`
holding the object `name: y`, the combined report is the expected text whichever
of the two entries is enumerated first. -/
theorem combined_two_sources :
    parseConfigurations true
        [("a.yaml", .obj [("name", .str "x")]), ("b.yaml", .obj [("name", .str "y")])] =
      ("Combined\n\x7b\n\t\"a.yaml\": \x7b\n\t\t\"name\": \"x\"\n\t\x7d,\n\t\"b.yaml\": \x7b\n\t\t\"name\": \"y\"\n\t\x7d\n\x7d\n".toList,
        none) ∧
    parseConfigurations true
        [("b.yaml", .obj [("name", .str "y")]), ("a.yaml", .obj [("name", .str "x")])] =
      ("Combined\n\x7b\n\t\"a.yaml\": \x7b\n\t\t\"name\": \"x\"\n\t\x7d,\n\t\"b.yaml\": \x7b\n\t\t\"name\": \"y\"\n\t\x7d\n\x7d\n".toList,
        none) := by
  decide

theorem Marshal_obj_perm {l1 l2 : List (String × Doc)} (h : l1.Perm l2)
    (hnd : (l1.map Prod.fst).Nodup) : Marshal (.obj l1) = Marshal (.obj l2) := by
  have hs : sortMembers (marshalMembers l1) = sortMembers (marshalMembers l2) := by
    rw [marshalMembers_eq_map, marshalMembers_eq_map]
    refine sortMembers_eq_of_perm (h.map _) ?_
    rw [List.map_map]
    exact hnd
  rw [Marshal, Marshal, hs]

/-- C7 (as stated, refuted): without combine, two enumerations of the same two
entries give different reports. -/
theorem determinism_counterexample :
    ([("a", Doc.null), ("b", Doc.null)] : List (String × Doc)).Perm
      [("b", Doc.null), ("a", Doc.null)] ∧
    (parseConfigurations false [("a", .null), ("b", .null)]).2 = none ∧
    (parseConfigurations false [("b", .null), ("a", .null)]).2 = none ∧
    (parseConfigurations false [("a", .null), ("b", .null)]).1 ≠
      (parseConfigurations false [("b", .null), ("a", .null)]).1 :=
  ⟨List.Perm.swap _ _ _, by decide, by decide, by decide⟩

/-- C7 (amended): with combine, any two enumerations of the same entries, the
source identifiers being distinct, give the same result (report and error);
without combine, the two runs succeed or fail together (the report itself
depends on the order of enumeration). -/
theorem determinism_combined (l1 l2 : List (String × Doc)) (h : l1.Perm l2)
    (hnd : (l1.map Prod.fst).Nodup) :
    parseConfigurations true l1 = parseConfigurations true l2 ∧
    ((parseConfigurations false l1).2 = none ↔ (parseConfigurations false l2).2 = none) := by
  constructor
  · simp only [parseConfigurations, if_true]
    rw [Marshal_obj_perm h hnd]
  · rw [report_ok_iff_renderable, report_ok_iff_renderable]
    exact ⟨fun h1 e he => h1 e (h.mem_iff.2 he), fun h1 e he => h1 e (h.mem_iff.1 he)⟩

theorem determinism_combined_witness :
    ([("b", Doc.num 2), ("a", Doc.str "x")] : List (String × Doc)).Perm
      [("a", Doc.str "x"), ("b", Doc.num 2)] ∧
    (([("b", Doc.num 2), ("a", Doc.str "x")] : List (String × Doc)).map Prod.fst).Nodup ∧
    (parseConfigurations true [("b", .num 2), ("a", .str "x")] =
      parseConfigurations true [("a", .str "x"), ("b", .num 2)] ∧
    ((parseConfigurations false [("b", .num 2), ("a", .str "x")]).2 = none ↔
      (parseConfigurations false [("a", .str "x"), ("b", .num 2)]).2 = none)) :=
  ⟨List.Perm.swap _ _ _, by decide,
    determinism_combined _ _ (List.Perm.swap _ _ _) (by decide)⟩

/-- C4 (as stated, refuted): for the one-entry set whose document is the string
of the three characters backslash, `r`, `r`, both runs succeed and both
reports still contain a backslash followed by `r`. -/
theorem sanitation_counterexample :
    (parseConfigurations false [("a", .str "\\rr")]).2 = none ∧
    hasBackslashR (parseConfigurations false [("a", .str "\\rr")]).1 = true ∧
    (parseConfigurations true [("a", .str "\\rr")]).2 = none ∧
    hasBackslashR (parseConfigurations true [("a", .str "\\rr")]).1 = true := by
  decide

/-- C4 (amended): in either mode, when the run succeeds on a set in which no
source identifier, string value or key contains a backslash, the report
contains no backslash followed by `r`. -/
theorem sanitation_complete (combine : Bool) (cfg : List (String × Doc))
    (hok : (parseConfigurations combine cfg).2 = none)
    (hid : ∀ e ∈ cfg, backslashFree e.1.toList = true)
    (hdoc : ∀ e ∈ cfg, allStrings backslashFree e.2 = true) :
    hasBackslashR (parseConfigurations combine cfg).1 = false := by
  cases combine with
  | false =>
    exact (report_clean cfg ((report_ok_iff_renderable cfg).1 hok) hid hdoc).2
  | true =>
    rw [combined_of_renderable cfg ((combined_ok_iff_renderable cfg).1 hok)]
    have hl := replace_clean _
      (escaped_layout (.obj cfg) (allStrings_obj_of_entries _ cfg hid hdoc) (some 0))
    exact hasBackslashR_append _ _ rfl rfl
      (hasBackslashR_append _ _ hl.1 hl.2 rfl)

theorem sanitation_complete_witness :
    (parseConfigurations false [("a.yaml", .obj [("k", .str "x\r\ny")])]).2 = none ∧
    (∀ e ∈ [("a.yaml", Doc.obj [("k", .str "x\r\ny")])], backslashFree e.1.toList = true) ∧
    (∀ e ∈ [("a.yaml", Doc.obj [("k", .str "x\r\ny")])],
      allStrings backslashFree e.2 = true) ∧
    hasBackslashR (parseConfigurations false [("a.yaml", .obj [("k", .str "x\r\ny")])]).1 =
      false :=
  ⟨by decide, by simp [backslashFree], by simp [allStrings, allStringsMembers, backslashFree],
    sanitation_complete false [("a.yaml", .obj [("k", .str "x\r\ny")])] (by decide)
      (by simp [backslashFree]) (by simp [allStrings, allStringsMembers, backslashFree])⟩

/-- C5 (as stated, refuted): for the one-entry set whose document is the string
of the two characters backslash, `r`, the block of the per-source report and
the block of the combined report are not valid JSON: the sanitation pass leaves
a string literal that ends in an escaped quote. -/
theorem blocks_valid_counterexample :
    parseConfigurations false [("a", .str "\\r")] =
      ("a\n".toList ++ "\"\\\"".toList ++ ['\n'], none) ∧
    Valid "\"\\\"".toList = false ∧
    parseConfigurations true [("a", .str "\\r")] =
      ("Combined\n".toList ++ "\x7b\n\t\"a\": \"\\\"\n\x7d".toList ++ ['\n'], none) ∧
    Valid "\x7b\n\t\"a\": \"\\\"\n\x7d".toList = false := by
  decide

/-- C5 (amended): for a set whose documents contain no backslash in any string
value or key, the per-source report, when the run succeeds, is made of
sections (label, line break, block, line break) whose blocks are all valid
JSON; and if moreover no source identifier contains a backslash, the combined
report, when the run succeeds, is `Combined`, a line break, a block that is
valid JSON, and a line break. -/
theorem blocks_valid (cfg : List (String × Doc))
    (hdoc : ∀ e ∈ cfg, allStrings backslashFree e.2 = true) :
    ((parseConfigurations false cfg).2 = none →
      (parseConfigurations false cfg).1 = renderSections (perSourceSections cfg) ∧
        ∀ s ∈ perSourceSections cfg, Valid s.2 = true) ∧
    ((parseConfigurations true cfg).2 = none →
      (∀ e ∈ cfg, backslashFree e.1.toList = true) →
      ∃ block, (parseConfigurations true cfg).1 = "Combined\n".toList ++ block ++ ['\n'] ∧
        Valid block = true) := by
  constructor
  · intro hok
    have hs := (report_ok_iff_renderable cfg).1 hok
    exact ⟨report_eq_sections cfg hs, sections_valid cfg hs hdoc⟩
  · intro hok hid
    have hs := (combined_ok_iff_renderable cfg).1 hok
    have hs' : renderable (.obj cfg) = true := hs
    refine ⟨replaceBackslashR (layout (some 0) (.obj cfg)), ?_, ?_⟩
    · rw [combined_of_renderable cfg hs]
      simp
    · exact Valid_replace _ (escaped_layout _ (allStrings_obj_of_entries _ cfg hid hdoc) _)
        (Valid_layout _ hs' _)

theorem blocks_valid_witness :
    (∀ e ∈ [("a.yaml", Doc.obj [("k", .str "x\r\ny")]), ("b", Doc.arr [.num 1])],
      allStrings backslashFree e.2 = true) ∧
    (parseConfigurations false
      [("a.yaml", Doc.obj [("k", .str "x\r\ny")]), ("b", Doc.arr [.num 1])]).2 = none ∧
    (parseConfigurations true
      [("a.yaml", Doc.obj [("k", .str "x\r\ny")]), ("b", Doc.arr [.num 1])]).2 = none ∧
    (∀ e ∈ [("a.yaml", Doc.obj [("k", .str "x\r\ny")]), ("b", Doc.arr [.num 1])],
      backslashFree e.1.toList = true) ∧
    (((parseConfigurations false
          [("a.yaml", Doc.obj [("k", .str "x\r\ny")]), ("b", Doc.arr [.num 1])]).2 = none →
      (parseConfigurations false
          [("a.yaml", Doc.obj [("k", .str "x\r\ny")]), ("b", Doc.arr [.num 1])]).1 =
        renderSections (perSourceSections
          [("a.yaml", Doc.obj [("k", .str "x\r\ny")]), ("b", Doc.arr [.num 1])]) ∧
        ∀ s ∈ perSourceSections
          [("a.yaml", Doc.obj [("k", .str "x\r\ny")]), ("b", Doc.arr [.num 1])],
          Valid s.2 = true) ∧
    ((parseConfigurations true
          [("a.yaml", Doc.obj [("k", .str "x\r\ny")]), ("b", Doc.arr [.num 1])]).2 = none →
      (∀ e ∈ [("a.yaml", Doc.obj [("k", .str "x\r\ny")]), ("b", Doc.arr [.num 1])],
        backslashFree e.1.toList = true) →
      ∃ block, (parseConfigurations true
          [("a.yaml", Doc.obj [("k", .str "x\r\ny")]), ("b", Doc.arr [.num 1])]).1 =
          "Combined\n".toList ++ block ++ ['\n'] ∧
        Valid block = true)) :=
  ⟨by simp [allStrings, allStringsMembers, allStringsElems, backslashFree], by decide,
    by decide, by simp [backslashFree],
    blocks_valid [("a.yaml", Doc.obj [("k", .str "x\r\ny")]), ("b", Doc.arr [.num 1])]
      (by simp [allStrings, allStringsMembers, allStringsElems, backslashFree])⟩

/-- C9 (as stated, refuted): for the set of `a` holding the string backslash,
`r`, `r` and `b` holding null, the block of `a` in the per-source report is the
empty string literal, while the value of the member `a` of the combined report
is the string literal backslash, `r`: they differ, also after tabs are
inserted. -/
theorem mode_partition_counterexample :
    parseConfigurations false [("a", .str "\\rr"), ("b", .null)] =
      ("a\n".toList ++ "\"\"".toList ++ "\nb\nnull\n".toList, none) ∧
    parseConfigurations true [("a", .str "\\rr"), ("b", .null)] =
      ("Combined\n\x7b\n\t\"a\": ".toList ++ "\"\\r\"".toList ++
        ",\n\t\"b\": null\n\x7d\n".toList, none) ∧
    indentLines "\"\"".toList ≠ "\"\\r\"".toList := by
  decide

/-- C9 (amended): for a non-empty set on which the combined run succeeds, the
combined report is `Combined`, a line break and one JSON object whose members,
in ascending order of the source identifiers and separated by commas, are: a
line break, a tab, the quoted identifier, a colon, a space and the
pretty-printed document sanitized once and moved one tab in; the per-source
run succeeds too and its report consists of one section per entry whose block
is the pretty-printed document sanitized once for that entry and once more for
every later entry.  So the block of an entry, moved one tab in, is the value of
its member in the combined report whenever repeating the sanitation does not
change it, in particular for the entry enumerated last. -/
theorem mode_partition (cfg : List (String × Doc)) (hne : cfg ≠ [])
    (hok : (parseConfigurations true cfg).2 = none) :
    (parseConfigurations true cfg).1 =
      "Combined\n\x7b".toList ++ joinWith [','] ((sortMembers cfg).map combinedMember) ++
        "\n\x7d\n".toList ∧
    parseConfigurations false cfg = (renderSections (perSourceSections cfg), none) ∧
    (∀ d : Doc, ∀ n : Nat,
      hasBackslashR (replaceBackslashR ((prettyJSON? d).getD [])) = false →
        indentLines (replaceBackslashR^[n + 1] ((prettyJSON? d).getD [])) = combinedValue d) ∧
    (∀ d : Doc, indentLines (replaceBackslashR^[0 + 1] ((prettyJSON? d).getD [])) =
      combinedValue d) := by
  have hr := (combined_ok_iff_renderable cfg).1 hok
  have hs : ∀ e ∈ cfg, renderable e.2 = true := renderable_of_combined hr
  refine ⟨combined_eq_members cfg hne hr, ?_, ?_, fun d => rfl⟩
  · exact Prod.ext (report_eq_sections cfg hs) ((report_ok_iff_renderable cfg).2 hs)
  · intro d n h
    rw [combinedValue, Function.iterate_succ_apply, iterate_replace_of_not_has _ h]

theorem mode_partition_witness :
    ([("b.yaml", Doc.obj [("k", .str "x\r")]), ("a.yaml", Doc.arr [.num 1])] ≠ []) ∧
    (parseConfigurations true
      [("b.yaml", Doc.obj [("k", .str "x\r")]), ("a.yaml", Doc.arr [.num 1])]).2 = none ∧
    ((parseConfigurations true
        [("b.yaml", Doc.obj [("k", .str "x\r")]), ("a.yaml", Doc.arr [.num 1])]).1 =
      "Combined\n\x7b".toList ++ joinWith [','] ((sortMembers
        [("b.yaml", Doc.obj [("k", .str "x\r")]), ("a.yaml", Doc.arr [.num 1])]).map
          combinedMember) ++ "\n\x7d\n".toList ∧
    parseConfigurations false
        [("b.yaml", Doc.obj [("k", .str "x\r")]), ("a.yaml", Doc.arr [.num 1])] =
      (renderSections (perSourceSections
        [("b.yaml", Doc.obj [("k", .str "x\r")]), ("a.yaml", Doc.arr [.num 1])]), none) ∧
    (∀ d : Doc, ∀ n : Nat,
      hasBackslashR (replaceBackslashR ((prettyJSON? d).getD [])) = false →
        indentLines (replaceBackslashR^[n + 1] ((prettyJSON? d).getD [])) = combinedValue d) ∧
    (∀ d : Doc, indentLines (replaceBackslashR^[0 + 1] ((prettyJSON? d).getD [])) =
      combinedValue d)) :=
  ⟨by simp, by decide,
    mode_partition [("b.yaml", Doc.obj [("k", .str "x\r")]), ("a.yaml", Doc.arr [.num 1])]
      (by simp) (by decide)⟩

/-- C6 (as stated, refuted): the documents `"a<CR>b"` and `"ab"` differ and
produce the same result in both modes; so do, without combine, the string of
the three characters backslash, `r`, `n` and the string holding one line
break. -/
theorem injectivity_counterexample :
    Doc.str "a\rb" ≠ Doc.str "ab" ∧
    parseConfigurations false [("a", .str "a\rb")] =
      parseConfigurations false [("a", .str "ab")] ∧
    parseConfigurations true [("a", .str "a\rb")] =
      parseConfigurations true [("a", .str "ab")] ∧
    (parseConfigurations false [("a", .str "ab")]).2 = none ∧
    (parseConfigurations true [("a", .str "ab")]).2 = none ∧
    Doc.str "\\rn" ≠ Doc.str "\n" ∧
    parseConfigurations false [("a", .str "\\rn")] =
      parseConfigurations false [("a", .str "\n")] :=
  ⟨fun h => by injection h with h; revert h; decide, by decide, by decide, by decide,
    by decide, fun h => by injection h with h; revert h; decide, by decide⟩

/-- C6 (amended): in a fixed mode, on sets whose documents contain no carriage
return and no backslash in any string value or key, the report determines the
documents: two such sets with the same distinct source identifiers enumerated
in the same order, on which the run succeeds with equal reports, are equal.
The source identifiers themselves are arbitrary.  Documents are given with the
members of every object in ascending key order, the canonical enumeration of a
map. -/
theorem injective_on_clean (combine : Bool) (l1 l2 : List (String × Doc))
    (hkeys : l1.map Prod.fst = l2.map Prod.fst) (hnd : (l1.map Prod.fst).Nodup)
    (h1 : ∀ e ∈ l1, allStrings cleanString e.2 = true ∧ canonical e.2 = true)
    (h2 : ∀ e ∈ l2, allStrings cleanString e.2 = true ∧ canonical e.2 = true)
    (hok1 : (parseConfigurations combine l1).2 = none)
    (hok2 : (parseConfigurations combine l2).2 = none)
    (heq : (parseConfigurations combine l1).1 = (parseConfigurations combine l2).1) :
    l1 = l2 := by
  cases combine with
  | false =>
    exact perSource_injective l1 l2 hkeys ((report_ok_iff_renderable l1).1 hok1)
      ((report_ok_iff_renderable l2).1 hok2) h1 h2 heq
  | true =>
    exact combined_injective l1 l2 hkeys hnd
      ((combined_ok_iff_renderable l1).1 hok1) ((combined_ok_iff_renderable l2).1 hok2) h1 h2 heq

theorem injective_on_clean_witness :
    ([("c:\\rules\\b.yaml", Doc.arr [.float .oneAndHalf, .str "x"]),
        ("a.yaml", Doc.obj [("k", .str "v"), ("m", .num 1)])]
        : List (String × Doc)).map Prod.fst =
      ([("c:\\rules\\b.yaml", Doc.arr [.float .oneAndHalf, .str "x"]),
        ("a.yaml", Doc.obj [("k", .str "v"), ("m", .num 1)])] : List (String × Doc)).map
          Prod.fst ∧
    (([("c:\\rules\\b.yaml", Doc.arr [.float .oneAndHalf, .str "x"]),
        ("a.yaml", Doc.obj [("k", .str "v"), ("m", .num 1)])] : List (String × Doc)).map
          Prod.fst).Nodup ∧
    (∀ e ∈ ([("c:\\rules\\b.yaml", Doc.arr [.float .oneAndHalf, .str "x"]),
        ("a.yaml", Doc.obj [("k", .str "v"), ("m", .num 1)])] : List (String × Doc)),
      allStrings cleanString e.2 = true ∧ canonical e.2 = true) ∧
    (parseConfigurations true [("c:\\rules\\b.yaml", Doc.arr [.float .oneAndHalf, .str "x"]),
        ("a.yaml", Doc.obj [("k", .str "v"), ("m", .num 1)])]).2 = none ∧
    ([("c:\\rules\\b.yaml", Doc.arr [.float .oneAndHalf, .str "x"]),
        ("a.yaml", Doc.obj [("k", .str "v"), ("m", .num 1)])] : List (String × Doc)) =
      [("c:\\rules\\b.yaml", Doc.arr [.float .oneAndHalf, .str "x"]),
        ("a.yaml", Doc.obj [("k", .str "v"), ("m", .num 1)])] :=
  ⟨rfl, by decide, by decide, by decide,
    injective_on_clean true _ _ rfl (by decide) (by decide) (by decide)
      (by decide) (by decide) rfl⟩

/-! ## Further lemmas: one-entry reports, errors, the frame of the sanitation pass -/

theorem encodeChar_plain (c : Char) (h : needsNoEscape c = true)
    (h2 : isLineSeparator c = false) : encodeChar c = [c] := by
  simp only [needsNoEscape, isLineSeparator, Bool.and_eq_true, decide_eq_true_eq,
    Bool.or_eq_false_iff, beq_eq_false_iff_ne, ne_eq] at h h2
  unfold encodeChar
  by_cases hc : c.toNat < 128
  · have hs : htmlSafe c = true := by
      simp only [htmlSafe, Bool.and_eq_true, decide_eq_true_eq]
      exact ⟨⟨h.1, hc⟩, h.2⟩
    simp [hc, hs]
  · simp [hc, h2.1, h2.2]

theorem encodeBody_plain (s : Text)
    (h : ∀ c ∈ s, needsNoEscape c = true ∧ isLineSeparator c = false) : encodeBody s = s := by
  induction s with
  | nil => rfl
  | cons c cs ih =>
    have hc := h c (List.mem_cons_self _ _)
    simp only [encodeBody, encodeChar_plain c hc.1 hc.2]
    rw [ih fun x hx => h x (List.mem_cons_of_mem _ hx)]
    rfl

theorem needsNoEscape_ne_backslash {c : Char} (h : needsNoEscape c = true) : c ≠ '\\' := by
  intro hc
  subst hc
  simp [needsNoEscape] at h

/-- The report of a one-entry set without combine: the sanitized section. -/
theorem single_report (f : String) (d : Doc) (hs : renderable d = true) :
    parseConfigurations false [(f, d)] =
      (replaceBackslashR (rawSection f (layout (some 0) d)), none) := by
  have h := loop_cons f d [] [] (layout (some 0) d) (prettyJSON?_of_renderable d hs)
  simp only [parseConfigurations, Bool.false_eq_true, if_false]
  rw [h]
  simp [parseConfigurationsLoop]

theorem layout_single (k : String) (v : Doc) (sp : Option Nat) :
    layout sp (.obj [(k, v)]) =
      '{' :: (brk (deeper sp) ++ (encodeString k.toList ++ ':' :: (gap (deeper sp) ++
        layout (deeper sp) v)) ++ brk sp ++ ['}']) := by
  simp [layout, layoutMembers, sortMembers, insertMember, joinWith, layoutMember]

/-- An error of the loop is one of `json.Marshal` or the one of `json.Indent`
for a document nested too deep, and it comes with the empty text. -/
theorem loop_error_form (es : List (String × Doc)) (out : Text) :
    (parseConfigurationsLoop es out).2 = none ∨
      ∃ err, IsRenderError err ∧ parseConfigurationsLoop es out = ([], some err) := by
  induction es generalizing out with
  | nil => exact Or.inl rfl
  | cons x rest ih =>
    obtain ⟨f, d⟩ := x
    cases hs : supported d with
    | true =>
      by_cases hn : nesting d ≤ maxNestingDepth
      · rw [loop_cons f d rest out _
          (prettyJSON?_of_renderable d ((renderable_iff d).2 ⟨hs, hn⟩))]
        exact ih _
      · right
        obtain ⟨c, hc, e⟩ := Indent_deep d hs (by omega : maxNestingDepth < nesting d) none
        refine ⟨_, Or.inr ⟨c, hc, rfl⟩, ?_⟩
        simp only [parseConfigurationsLoop, Marshal_ok d hs, e]
    | false =>
      obtain ⟨e, he⟩ := Marshal_error d hs
      right
      exact ⟨_, Or.inl ⟨e, rfl⟩, by simp only [parseConfigurationsLoop, he]⟩

theorem result_error_form (combine : Bool) (cfg : List (String × Doc)) :
    (parseConfigurations combine cfg).2 = none ∨
      ∃ err, IsRenderError err ∧ parseConfigurations combine cfg = ([], some err) := by
  cases combine with
  | false =>
    simp only [parseConfigurations, Bool.false_eq_true, if_false]
    exact loop_error_form cfg []
  | true =>
    cases hs : supported (.obj cfg) with
    | true =>
      by_cases hn : nesting (.obj cfg) ≤ maxNestingDepth
      · exact Or.inl ((combined_ok_iff_renderable cfg).2 ((renderable_iff _).2 ⟨hs, hn⟩))
      · right
        obtain ⟨c, hc, e⟩ :=
          Indent_deep _ hs (by omega : maxNestingDepth < nesting (.obj cfg)) none
        refine ⟨_, Or.inr ⟨c, hc, rfl⟩, ?_⟩
        simp only [parseConfigurations, if_true, Marshal_ok _ hs, e]
    | false =>
      obtain ⟨e, he⟩ := Marshal_error (.obj cfg) hs
      right
      exact ⟨_, Or.inl ⟨e, rfl⟩, by simp only [parseConfigurations, if_true, he]⟩

theorem nestingMembers_le_iff (ms : List (String × Doc)) (n : Nat) :
    nestingMembers ms ≤ n ↔ ∀ e ∈ ms, nesting e.2 ≤ n := by
  induction ms with
  | nil => simp [nestingMembers]
  | cons x ms ih =>
    obtain ⟨k, v⟩ := x
    simp [nestingMembers, ih]

/-- A run succeeds exactly when every document is supported by the encoder and
nests no deeper than the scanner allows, the enclosing object of the combined
mode counted. -/
theorem result_ok_iff (combine : Bool) (cfg : List (String × Doc)) :
    (parseConfigurations combine cfg).2 = none ↔
      ∀ e ∈ cfg, supported e.2 = true ∧
        nesting e.2 + (if combine = true then 1 else 0) ≤ maxNestingDepth := by
  cases combine with
  | false =>
    rw [report_ok_iff_renderable]
    simp [renderable_iff]
  | true =>
    rw [combined_ok_iff_renderable, renderable_iff, supported, supportedMembers_iff, nesting]
    have h1 : nestingMembers cfg + 1 ≤ maxNestingDepth ↔
        ∀ e ∈ cfg, nesting e.2 + 1 ≤ maxNestingDepth := by
      have hm : 1 ≤ maxNestingDepth := by decide
      rw [show nestingMembers cfg + 1 ≤ maxNestingDepth ↔
        nestingMembers cfg ≤ maxNestingDepth - 1 from by omega, nestingMembers_le_iff]
      constructor
      · intro h e he; have := h e he; omega
      · intro h e he; have := h e he; omega
    rw [h1]
    simp only [if_true]
    exact ⟨fun h e he => ⟨h.1 e he, h.2 e he⟩, fun h => ⟨fun e he => (h e he).1,
      fun e he => (h e he).2⟩⟩

/-- The documents of a run that succeeds are renderable. -/
theorem renderable_of_ok {combine : Bool} {cfg : List (String × Doc)}
    (h : (parseConfigurations combine cfg).2 = none) : ∀ e ∈ cfg, renderable e.2 = true := by
  intro e he
  have := (result_ok_iff combine cfg).1 h e he
  exact (renderable_iff _).2 ⟨this.1, by omega⟩

theorem supported_nestedArrays (n : Nat) : supported (nestedArrays n) = true := by
  induction n with
  | zero => rfl
  | succ n ih => simp [nestedArrays, supported, supportedElems, ih]

theorem nesting_nestedArrays (n : Nat) : nesting (nestedArrays n) = n + 1 := by
  induction n with
  | zero => rfl
  | succ n ih => simp [nestedArrays, nesting, nestingElems, ih]

/-- The scanner stops on the array that `nestedArrays` opens past
`maxNestingDepth`. -/
theorem nestedArrays_stops (n : Nat) : ∀ (sp : Option Nat) {st : StepFn} (hst : ValueReady st)
    (et : Bool) (ps : List ParseState) (er : Option String) (ni : Bool) (k : Nat)
    (dst rest : Text), maxNestingDepth < ps.length + (n + 1) →
    (indentLoop [] ['\t'] ⟨st, et, ps, er⟩ ni (k : Int) dst
      (layout sp (nestedArrays n) ++ rest)).1.err = some (depthMessage '[') := by
  induction n with
  | zero =>
    intro sp st hst et ps er ni k dst rest hdeep
    obtain ⟨s1, _, herr, hrun⟩ := run_open_deep hst et ps er (by omega) (Or.inr rfl)
    have e : layout sp (nestedArrays 0) ++ rest = '[' :: ']' :: rest := rfl
    rw [e, indentLoop_error hrun]
    exact herr
  | succ n ih =>
    intro sp st hst et ps er ni k dst rest hdeep
    have e : layout sp (nestedArrays (n + 1)) ++ rest =
        '[' :: (brk (deeper sp) ++ (layout (deeper sp) (nestedArrays n) ++
          (brk sp ++ ']' :: rest))) := by
      rw [nestedArrays, layout_arr]
      simp [joinWith]
    rw [e]
    by_cases hfull : maxNestingDepth ≤ ps.length
    · obtain ⟨s1, _, herr, hrun⟩ := run_open_deep hst et ps er hfull (Or.inr rfl)
      rw [indentLoop_error hrun]
      exact herr
    · rw [indentLoop_open (run_open_arr hst _ _ _ (by omega)) (Or.inr rfl) (Or.inr rfl),
        indentLoop_begin_space (Or.inr (Or.inl rfl)) _ (allSpace_brk _)]
      exact ih (deeper sp) (Or.inr rfl) et (.parseArrayValue :: ps) er true _ _ _
        (by simp only [List.length_cons]; omega)

/-- The run on a one-entry set whose document is made of more than
`maxNestingDepth` arrays nested in one another returns the error of
`json.Indent` for the first array that is nested too deep. -/
theorem nestedArrays_deep (combine : Bool) (f : String) (n : Nat) (hn : maxNestingDepth ≤ n) :
    parseConfigurations combine [(f, nestedArrays n)] =
      ([], some (.wrap "indentation: " (.base (depthMessage '[')))) := by
  cases combine with
  | false =>
    have h := nestedArrays_stops n none (Or.inl rfl) false [] none false 0 [] []
      (by simp only [List.length_nil]; omega)
    simp only [List.append_nil, Nat.cast_zero] at h
    simp only [parseConfigurations, Bool.false_eq_true, if_false, parseConfigurationsLoop,
      Marshal_ok _ (supported_nestedArrays n), Indent_of_depthStop _ _ h]
  | true =>
    have hs' : supported (.obj [(f, nestedArrays n)]) = true := by
      simp [supported, supportedMembers, supported_nestedArrays]
    have e : layout none (.obj [(f, nestedArrays n)]) =
        '\x7b' :: (encodeString f.toList ++ ':' :: (layout none (nestedArrays n) ++ ['\x7d'])) := by
      rw [layout_obj]
      simp [sortMembers, insertMember, joinWith, layoutMember, brk, gap, deeper]
    have h : (indentLoop [] ['\t'] Scanner.reset false 0 []
        (layout none (.obj [(f, nestedArrays n)]))).1.err = some (depthMessage '[') := by
      rw [e, Scanner.reset,
        show ((0 : Int)) = ((0 : Nat) : Int) from rfl,
        indentLoop_open (run_open_obj (Or.inl rfl) _ _ _ (by decide)) (Or.inl rfl) (Or.inl rfl),
        indentLoop_encodeString (Or.inr (Or.inr (Or.inr rfl))),
        indentLoop_colon (run_key_colon ..)]
      exact nestedArrays_stops n none (Or.inl rfl) false [.parseObjectValue] none _ _ _ _
        (by simp only [List.length_cons, List.length_nil]; omega)
    simp only [parseConfigurations, if_true, Marshal_ok _ hs', Indent_of_depthStop _ _ h]

theorem replace_sublist (t : Text) : (replaceBackslashR t).Sublist t := by
  induction t using replaceBackslashR.induct with
  | case1 => exact List.Sublist.refl _
  | case2 c => exact List.Sublist.refl _
  | case3 c d cs h ih =>
    rw [replaceBackslashR, if_pos h]
    exact (ih.cons _).cons _
  | case4 c d cs h ih =>
    rw [replaceBackslashR, if_neg h]
    exact ih.cons₂ _

theorem replace_filter (t : Text) :
    (replaceBackslashR t).filter survives = t.filter survives := by
  induction t using replaceBackslashR.induct with
  | case1 => rfl
  | case2 c => rfl
  | case3 c d cs h ih =>
    rw [replaceBackslashR, if_pos h, ih]
    obtain ⟨rfl, rfl⟩ := h
    rfl
  | case4 c d cs h ih =>
    rw [replaceBackslashR, if_neg h, List.filter_cons, ih]
    conv_rhs => rw [List.filter_cons]

theorem loop_filter (es : List (String × Doc)) (out : Text)
    (h : (parseConfigurationsLoop es out).2 = none) :
    (parseConfigurationsLoop es out).1.filter survives =
      (out ++ rawReport false es).filter survives := by
  induction es generalizing out with
  | nil => simp [parseConfigurationsLoop, rawReport]
  | cons x rest ih =>
    obtain ⟨f, d⟩ := x
    obtain ⟨p, hp⟩ := (loop_ok_iff _ out).1 h (f, d) (List.mem_cons_self _ _)
    rw [loop_cons f d rest out p hp] at h ⊢
    rw [ih _ h]
    simp only [rawReport, Bool.false_eq_true, if_false, List.map_cons, List.flatten_cons, hp,
      Option.getD_some, List.filter_append, replace_filter, List.append_assoc]

theorem report_filter (combine : Bool) (cfg : List (String × Doc))
    (h : (parseConfigurations combine cfg).2 = none) :
    (parseConfigurations combine cfg).1.filter survives =
      (rawReport combine cfg).filter survives := by
  cases combine with
  | false =>
    simp only [parseConfigurations, Bool.false_eq_true, if_false] at h ⊢
    rw [loop_filter cfg [] h, List.nil_append]
  | true =>
    have hs := (combined_ok_iff_renderable cfg).1 h
    have hs' : renderable (.obj cfg) = true := hs
    rw [combined_of_renderable cfg hs]
    simp only [rawReport, if_true, prettyJSON?_of_renderable _ hs', Option.getD_some,
      List.filter_append, replace_filter]

theorem raw_untouched (f : String) (p : Text) (hf : cleanString f.toList = true)
    (hp : escaped p = true ∧ hasBackslashR p = false) :
    escaped (rawSection f p) = true ∧ hasBackslashR (rawSection f p) = false := by
  have hf' : ∀ c ∈ f.toList, c ≠ '\\' := fun c hc => ((cleanString_iff _).1 hf c hc).1
  have h1 : escaped f.toList = true ∧ hasBackslashR f.toList = false :=
    ⟨escaped_of_forall_ne _ hf', hasBackslashR_of_forall_ne _ hf'⟩
  have h2 : escaped ['\n'] = true ∧ hasBackslashR ['\n'] = false := by decide
  have e : rawSection f p = f.toList ++ (['\n'] ++ (p ++ ['\n'])) := by simp [rawSection]
  rw [e]
  exact untouched_append _ _ h1 (untouched_append _ _ h2 (untouched_append _ _ hp h2))

theorem rawReport_cons (f : String) (d : Doc) (rest : List (String × Doc))
    (hs : renderable d = true) :
    rawReport false ((f, d) :: rest) =
      rawSection f (layout (some 0) d) ++ rawReport false rest := by
  simp [rawReport, prettyJSON?_of_renderable d hs]

theorem report_noop (cfg : List (String × Doc)) (hs : ∀ e ∈ cfg, renderable e.2 = true)
    (hid : ∀ e ∈ cfg, cleanString e.1.toList = true)
    (hdoc : ∀ e ∈ cfg, allStrings cleanString e.2 = true) :
    (parseConfigurations false cfg).1 = rawReport false cfg := by
  induction cfg with
  | nil => rfl
  | cons x rest ih =>
    obtain ⟨f, d⟩ := x
    have hsd := hs (f, d) (List.mem_cons_self _ _)
    rw [report_cons f d rest _ (prettyJSON?_of_renderable d hsd) fun e he =>
      ⟨_, prettyJSON?_of_renderable _ (hs e (List.mem_cons_of_mem _ he))⟩]
    rw [ih (fun e he => hs e (List.mem_cons_of_mem _ he))
      (fun e he => hid e (List.mem_cons_of_mem _ he))
      (fun e he => hdoc e (List.mem_cons_of_mem _ he))]
    rw [iterate_replace_of_not_has _
      (raw_untouched f _ (hid (f, d) (List.mem_cons_self _ _))
        (untouched_layout d (hdoc (f, d) (List.mem_cons_self _ _)) (some 0))).2,
      rawReport_cons f d rest hsd]

theorem rawReport_untouched (cfg : List (String × Doc)) (hs : ∀ e ∈ cfg, renderable e.2 = true)
    (hid : ∀ e ∈ cfg, cleanString e.1.toList = true)
    (hdoc : ∀ e ∈ cfg, allStrings cleanString e.2 = true) :
    escaped (rawReport false cfg) = true ∧ hasBackslashR (rawReport false cfg) = false := by
  induction cfg with
  | nil => decide
  | cons x rest ih =>
    obtain ⟨f, d⟩ := x
    rw [rawReport_cons f d rest (hs (f, d) (List.mem_cons_self _ _))]
    exact untouched_append _ _
      (raw_untouched f _ (hid (f, d) (List.mem_cons_self _ _))
        (untouched_layout d (hdoc (f, d) (List.mem_cons_self _ _)) (some 0)))
      (ih (fun e he => hs e (List.mem_cons_of_mem _ he))
        (fun e he => hid e (List.mem_cons_of_mem _ he))
        (fun e he => hdoc e (List.mem_cons_of_mem _ he)))

/-! ## The indentation check on the pretty-printed block -/

theorem tabIndented_inert (t : Text) (h : ∀ c ∈ t, inert c = true) (k : Nat) (rest : Text) :
    tabIndented k .outside (t ++ rest) = tabIndented k .outside rest := by
  induction t with
  | nil => rfl
  | cons c cs ih =>
    have hc := h c (List.mem_cons_self _ _)
    simp only [inert, Bool.not_eq_true', Bool.or_eq_false_iff, beq_eq_false_iff_ne, ne_eq] at hc
    obtain ⟨⟨⟨⟨⟨h1, h2⟩, h3⟩, h4⟩, h5⟩, h6⟩ := hc
    rw [List.cons_append, tabIndented]
    simp only [h1, h2, h3, h4, h5, h6, or_self, if_false]
    exact ih fun x hx => h x (List.mem_cons_of_mem _ hx)

theorem tabIndented_tabs (n k : Nat) (rest : Text) :
    tabIndented k .outside (List.replicate n '\t' ++ rest) = tabIndented k .outside rest :=
  tabIndented_inert _ (fun c hc => by rw [List.eq_of_mem_replicate hc]; decide) k rest

theorem takeWhile_tabs (n : Nat) (c : Char) (rest : Text) (hct : (c == '\t') = false) :
    (List.replicate n '\t' ++ c :: rest).takeWhile (fun c => c == '\t') =
      List.replicate n '\t' := by
  induction n with
  | zero => simp [List.takeWhile, hct]
  | succ n ih =>
    rw [List.replicate_succ, List.cons_append, List.takeWhile_cons, ih]
    rfl

theorem dropWhile_tabs (n : Nat) (c : Char) (rest : Text) (hct : (c == '\t') = false) :
    (List.replicate n '\t' ++ c :: rest).dropWhile (fun c => c == '\t') = c :: rest := by
  induction n with
  | zero => simp [List.dropWhile, hct]
  | succ n ih =>
    rw [List.replicate_succ, List.cons_append, List.dropWhile_cons, ih]
    rfl

theorem lineStart_tabs (depth n : Nat) (c : Char) (rest : Text) (hc : isSpace c = false) :
    lineStart depth (List.replicate n '\t' ++ c :: rest) =
      (n == if c = '}' ∨ c = ']' then depth - 1 else depth) := by
  have hct : (c == '\t') = false := by
    rw [beq_eq_false_iff_ne]
    rintro rfl
    simp [isSpace] at hc
  simp only [lineStart, dropWhile_tabs n c rest hct, takeWhile_tabs n c rest hct, hc,
    Bool.not_false, Bool.true_and, List.length_replicate]

theorem tabIndented_nl (k n : Nat) (c : Char) (rest : Text) (hc : isSpace c = false) :
    tabIndented k .outside (nl n ++ c :: rest) =
      ((n == if c = '}' ∨ c = ']' then k - 1 else k) && tabIndented k .outside (c :: rest)) := by
  rw [nl, List.cons_append, tabIndented]
  simp only [show ('\n' : Char) ≠ '"' by decide, show ¬ (('\n' : Char) = '{' ∨ ('\n' : Char) = '[')
    by decide, show ¬ (('\n' : Char) = '}' ∨ ('\n' : Char) = ']') by decide, if_false, if_true]
  rw [lineStart_tabs _ _ _ _ hc, tabIndented_tabs]

theorem tabIndented_plain (k : Nat) (c : Char) (rest : Text) (h1 : c ≠ '"') (h2 : c ≠ '\\')
    (h3 : c ≠ '\n') : tabIndented k .inString (c :: rest) = tabIndented k .inString rest := by
  rw [tabIndented]
  simp only [h1, h2, h3, if_false]

theorem tabIndented_escape (k : Nat) (x : Char) (rest : Text) (h : x ≠ '\n') :
    tabIndented k .inString ('\\' :: x :: rest) = tabIndented k .inString rest := by
  rw [tabIndented, if_pos rfl, tabIndented, if_neg h]

theorem isHexDigit_plain {c : Char} (h : isHexDigit c = true) :
    c ≠ '"' ∧ c ≠ '\\' ∧ c ≠ '\n' :=
  ⟨by rintro rfl; exact absurd h (by decide), by rintro rfl; exact absurd h (by decide),
    by rintro rfl; exact absurd h (by decide)⟩

theorem tabIndented_encodeChar (k : Nat) (c : Char) (rest : Text) :
    tabIndented k .inString (encodeChar c ++ rest) = tabIndented k .inString rest := by
  unfold encodeChar
  split_ifs with h1 h2 h3 h4 h5 h6 h7
  · obtain ⟨a, b, e⟩ := htmlSafe_spec h2
    exact tabIndented_plain k c rest a b (by rintro rfl; exact absurd e (by decide))
  · exact tabIndented_escape k c rest (by rcases h3 with rfl | rfl <;> decide)
  · exact tabIndented_escape k _ rest (by decide)
  · exact tabIndented_escape k _ rest (by decide)
  · exact tabIndented_escape k _ rest (by decide)
  · obtain ⟨a1, a2, a3⟩ := isHexDigit_plain (isHexDigit_hexDigit (c.toNat / 16) (by omega))
    obtain ⟨b1, b2, b3⟩ :=
      isHexDigit_plain (isHexDigit_hexDigit (c.toNat % 16) (Nat.mod_lt _ (by decide)))
    simp only [List.cons_append, List.nil_append]
    rw [tabIndented_escape k _ _ (by decide),
      tabIndented_plain k '0' _ (by decide) (by decide) (by decide),
      tabIndented_plain k '0' _ (by decide) (by decide) (by decide),
      tabIndented_plain k _ _ a1 a2 a3, tabIndented_plain k _ _ b1 b2 b3]
  · obtain ⟨b1, b2, b3⟩ :=
      isHexDigit_plain (isHexDigit_hexDigit (c.toNat % 16) (Nat.mod_lt _ (by decide)))
    simp only [List.cons_append, List.nil_append]
    rw [tabIndented_escape k _ _ (by decide),
      tabIndented_plain k '2' _ (by decide) (by decide) (by decide),
      tabIndented_plain k '0' _ (by decide) (by decide) (by decide),
      tabIndented_plain k '2' _ (by decide) (by decide) (by decide),
      tabIndented_plain k _ _ b1 b2 b3]
  · exact tabIndented_plain k c rest (by rintro rfl; exact h1 (by decide))
      (by rintro rfl; exact h1 (by decide)) (by rintro rfl; exact h1 (by decide))

theorem tabIndented_encodeString (k : Nat) (s rest : Text) :
    tabIndented k .outside (encodeString s ++ rest) = tabIndented k .outside rest := by
  have hb : ∀ s : Text, tabIndented k .inString (encodeBody s ++ '"' :: rest) =
      tabIndented k .outside rest := by
    intro s
    induction s with
    | nil => rw [encodeBody, List.nil_append, tabIndented]; simp
    | cons c cs ih => rw [encodeBody, List.append_assoc, tabIndented_encodeChar, ih]
  rw [encodeString, List.cons_append, tabIndented, if_pos rfl, List.append_assoc]
  exact hb s

theorem inert_formatInt (n : Int) : ∀ c ∈ formatInt n, inert c = true := by
  intro c hc
  rcases formatInt_chars n c hc with h | rfl
  · rcases digitChar_cases c h with h | h | h | h | h | h | h | h | h | h <;> subst h <;> decide
  · decide

theorem inert_numberChar {c : Char} (h : numberChar c = true) : inert c = true := by
  rcases numberChar_cases h with h | rfl | rfl | rfl | rfl
  · rcases digitChar_cases c h with h | h | h | h | h | h | h | h | h | h <;> subst h <;> decide
  all_goals decide

/-- First character of a value: neither white space nor a closing bracket. -/
theorem charKind_spec {c : Char} (h : charKind c ≠ 7) :
    isSpace c = false ∧ ¬ (c = '}' ∨ c = ']') := by
  constructor
  · cases hs : isSpace c with
    | false => rfl
    | true =>
      exfalso
      rcases isSpace_cases hs with rfl | rfl | rfl | rfl <;> exact h (by decide)
  · rintro (rfl | rfl) <;> exact h (by decide)

theorem docKind_supported {d : Doc} (h : supported d = true) : docKind d ≠ 7 := by
  cases d with
  | unsupported t => simp [supported] at h
  | bool b => cases b <;> decide
  | _ => simp [docKind]

theorem tabIndented_items (K : Nat) (items : List Text) (hne : items ≠ [])
    (hpass : ∀ t ∈ items, ∀ rest, tabIndented K .outside (t ++ rest) = tabIndented K .outside rest)
    (hhead : ∀ t ∈ items, ∃ c t1, t = c :: t1 ∧ isSpace c = false ∧ ¬ (c = '}' ∨ c = ']'))
    (tail : Text) :
    tabIndented K .outside (nl K ++ joinWith (',' :: nl K) items ++ tail) =
      tabIndented K .outside tail := by
  induction items with
  | nil => exact absurd rfl hne
  | cons t ts ih =>
    obtain ⟨c, t1, rfl, hc, hcl⟩ := hhead _ (List.mem_cons_self _ _)
    have hp := hpass _ (List.mem_cons_self _ _)
    cases ts with
    | nil =>
      simp only [joinWith, List.append_assoc, List.cons_append]
      rw [tabIndented_nl K K c _ hc, if_neg hcl, beq_self_eq_true, Bool.true_and]
      exact hp tail
    | cons t2 ts =>
      have ih' := ih (List.cons_ne_nil _ _)
        (fun t ht => hpass t (List.mem_cons_of_mem _ ht))
        (fun t ht => hhead t (List.mem_cons_of_mem _ ht))
      simp only [joinWith, List.append_assoc, List.cons_append] at ih' ⊢
      rw [tabIndented_nl K K c _ hc, if_neg hcl, beq_self_eq_true, Bool.true_and]
      have hp' := hp (',' :: (nl K ++ (joinWith (',' :: nl K) (t2 :: ts) ++ tail)))
      simp only [List.cons_append] at hp'
      rw [hp', tabIndented]
      simp only [show (',' : Char) ≠ '"' by decide,
        show ¬ ((',' : Char) = '{' ∨ (',' : Char) = '[') by decide,
        show ¬ ((',' : Char) = '}' ∨ (',' : Char) = ']') by decide,
        show (',' : Char) ≠ '\n' by decide, if_false]
      exact ih'

theorem tabIndented_bracket (o c : Char) (ho : o = '{' ∨ o = '[') (hc : c = '}' ∨ c = ']')
    (k : Nat) (items : List Text) (hne : items ≠ [])
    (hpass : ∀ t ∈ items, ∀ rest,
      tabIndented (k + 1) .outside (t ++ rest) = tabIndented (k + 1) .outside rest)
    (hhead : ∀ t ∈ items, ∃ c t1, t = c :: t1 ∧ isSpace c = false ∧ ¬ (c = '}' ∨ c = ']'))
    (rest : Text) :
    tabIndented k .outside
        (o :: (nl (k + 1) ++ joinWith (',' :: nl (k + 1)) items ++ nl k ++ [c]) ++ rest) =
      tabIndented k .outside rest := by
  have ho1 : o ≠ '"' := by rcases ho with rfl | rfl <;> decide
  have hc1 : c ≠ '"' := by rcases hc with rfl | rfl <;> decide
  have hc2 : ¬ (c = '{' ∨ c = '[') := by rcases hc with rfl | rfl <;> decide
  have hc3 : isSpace c = false := by rcases hc with rfl | rfl <;> decide
  rw [List.cons_append, tabIndented, if_neg ho1, if_pos ho]
  have e : nl (k + 1) ++ joinWith (',' :: nl (k + 1)) items ++ nl k ++ [c] ++ rest =
      nl (k + 1) ++ joinWith (',' :: nl (k + 1)) items ++ (nl k ++ c :: rest) := by simp
  rw [e, tabIndented_items (k + 1) items hne hpass hhead, tabIndented_nl (k + 1) k c rest hc3,
    if_pos hc, Nat.add_sub_cancel, beq_self_eq_true, Bool.true_and, tabIndented, if_neg hc1,
    if_neg hc2, if_pos hc, Nat.add_sub_cancel]

theorem tabIndented_empty (o c : Char) (ho : o = '{' ∨ o = '[') (hc : c = '}' ∨ c = ']')
    (k : Nat) (rest : Text) :
    tabIndented k .outside ([o, c] ++ rest) = tabIndented k .outside rest := by
  have ho1 : o ≠ '"' := by rcases ho with rfl | rfl <;> decide
  have hc1 : c ≠ '"' := by rcases hc with rfl | rfl <;> decide
  have hc2 : ¬ (c = '{' ∨ c = '[') := by rcases hc with rfl | rfl <;> decide
  rw [List.cons_append, List.cons_append, List.nil_append, tabIndented, if_neg ho1, if_pos ho,
    tabIndented, if_neg hc1, if_neg hc2, if_pos hc, Nat.add_sub_cancel]

theorem passesCheck_of_supported (d : Doc) : supported d = true → PassesCheck d := by
  induction d using Doc.induct' with
  | hnull => intro _ k rest; exact tabIndented_inert ['n', 'u', 'l', 'l'] (by decide) k rest
  | hbool b =>
    intro _ k rest
    cases b
    · exact tabIndented_inert ['f', 'a', 'l', 's', 'e'] (by decide) k rest
    · exact tabIndented_inert ['t', 'r', 'u', 'e'] (by decide) k rest
  | hnum n => intro _ k rest; exact tabIndented_inert _ (inert_formatInt n) k rest
  | hfloat f =>
    intro _ k rest
    exact tabIndented_inert _ (fun c hc => inert_numberChar (text_numberChar f c hc)) k rest
  | hstr s => intro _ k rest; exact tabIndented_encodeString k _ rest
  | harr xs ih =>
    intro hs k rest
    have hsx : ∀ d ∈ xs, supported d = true := by
      simpa [supported] using (supportedElems_iff xs).1 (by simpa [supported] using hs)
    rw [layout_arr]
    cases xs with
    | nil => exact tabIndented_empty '[' ']' (Or.inr rfl) (Or.inr rfl) k rest
    | cons d ds =>
      refine tabIndented_bracket '[' ']' (Or.inr rfl) (Or.inr rfl) k
        ((d :: ds).map (layout (some (k + 1)))) (by simp) ?_ ?_ rest
      · intro t ht
        obtain ⟨x, hx, rfl⟩ := List.mem_map.1 ht
        exact fun r => ih x hx (hsx x hx) (k + 1) r
      · intro t ht
        obtain ⟨x, hx, rfl⟩ := List.mem_map.1 ht
        obtain ⟨c, t1, e, hk⟩ := layout_head x (hsx x hx) (some (k + 1))
        have h7 := charKind_spec (hk ▸ docKind_supported (hsx x hx))
        exact ⟨c, t1, e, h7.1, h7.2⟩
  | hobj ms ih =>
    intro hs k rest
    have hsx : ∀ e ∈ ms, supported e.2 = true := by
      simpa [supported] using (supportedMembers_iff ms).1 (by simpa [supported] using hs)
    rw [layout_obj]
    have hmem : ∀ e ∈ sortMembers ms, e ∈ ms := fun e he => (sortMembers_perm ms).mem_iff.1 he
    generalize sortMembers ms = l at hmem
    cases l with
    | nil => exact tabIndented_empty '{' '}' (Or.inl rfl) (Or.inl rfl) k rest
    | cons m l =>
      refine tabIndented_bracket '{' '}' (Or.inl rfl) (Or.inl rfl) k
        (((m :: l).map fun x => (x.1, layout (some (k + 1)) x.2)).map
          (layoutMember (some (k + 1)))) (by simp) ?_ ?_ rest
      · intro t ht
        obtain ⟨y, hy, rfl⟩ := List.mem_map.1 ht
        obtain ⟨x, hx, rfl⟩ := List.mem_map.1 hy
        intro r
        simp only [layoutMember, gap, List.append_assoc, List.cons_append, List.nil_append]
        rw [tabIndented_encodeString]
        exact (tabIndented_inert [':', ' '] (by decide) (k + 1) _).trans
          (ih x (hmem x hx) (hsx x (hmem x hx)) (k + 1) r)
      · intro t ht
        obtain ⟨y, hy, rfl⟩ := List.mem_map.1 ht
        exact ⟨'"', _, rfl, by decide, by decide⟩
  | huns t => intro hs; simp [supported] at hs

/-! ## The order of the members of an object -/

theorem layout_objectText (sp : Option Nat) (ms : List (String × Doc)) :
    layout sp (.obj ms) = objectText sp (sortMembers ms) := by
  rw [layout_obj]
  cases sortMembers ms with
  | nil => rfl
  | cons e es =>
    simp only [objectText, List.map_cons, List.map_map, Function.comp_def]

theorem insertMember_pairwise {α : Type} (e : String × α) (l : List (String × α))
    (hne : ∀ x ∈ l, x.1 ≠ e.1)
    (hl : l.Pairwise fun a b => keyLess a.1.toList b.1.toList = true) :
    (insertMember e l).Pairwise fun a b => keyLess a.1.toList b.1.toList = true := by
  induction l with
  | nil => simp [insertMember]
  | cons f fs ih =>
    rw [List.pairwise_cons] at hl
    cases hk : keyLess f.1.toList e.1.toList with
    | true =>
      simp only [insertMember, hk, if_true]
      rw [List.pairwise_cons]
      refine ⟨fun x hx => ?_, ih (fun x hx => hne x (List.mem_cons_of_mem _ hx)) hl.2⟩
      rcases List.mem_cons.1 ((insertMember_perm e fs).mem_iff.1 hx) with rfl | hx
      · exact hk
      · exact hl.1 x hx
    | false =>
      simp only [insertMember, hk, Bool.false_eq_true, if_false]
      have hef : keyLess e.1.toList f.1.toList = true :=
        keyLess_of_not hk (hne f (List.mem_cons_self _ _))
      rw [List.pairwise_cons, List.pairwise_cons]
      refine ⟨fun x hx => ?_, hl⟩
      rcases List.mem_cons.1 hx with rfl | hx
      · exact hef
      · exact keyLess_trans hef (hl.1 x hx)

theorem sortMembers_pairwise {α : Type} (l : List (String × α)) (hnd : (l.map Prod.fst).Nodup) :
    (sortMembers l).Pairwise fun a b => keyLess a.1.toList b.1.toList = true := by
  induction l with
  | nil => simp [sortMembers]
  | cons e es ih =>
    rw [List.map_cons, List.nodup_cons] at hnd
    rw [sortMembers]
    refine insertMember_pairwise e _ (fun x hx h => hnd.1 ?_) (ih hnd.2)
    rw [← h]
    exact List.mem_map_of_mem _ ((sortMembers_perm es).mem_iff.1 hx)

theorem ascending_of_pairwise (ks : List Text)
    (h : ks.Pairwise fun a b => keyLess a b = true) : ascending ks = true := by
  induction ks with
  | nil => rfl
  | cons a rest ih =>
    rw [List.pairwise_cons] at h
    cases rest with
    | nil => rfl
    | cons b rest =>
      rw [ascending, h.1 b (List.mem_cons_self _ _), ih h.2]
      rfl

theorem sortMembers_ascending {α : Type} (l : List (String × α))
    (hnd : (l.map Prod.fst).Nodup) :
    ascending ((sortMembers l).map fun e => e.1.toList) = true := by
  apply ascending_of_pairwise
  rw [List.pairwise_map]
  exact sortMembers_pairwise l hnd

/-! ## The sanitation pass and the carriage returns of a document -/

theorem stripCR_toList (s : String) :
    (stripCR s).toList = s.toList.filter fun c => c != '\r' := rfl

theorem deleteCRElems_eq_map (xs : List Doc) : deleteCRElems xs = xs.map deleteCR := by
  induction xs with
  | nil => rfl
  | cons d ds ih => rw [deleteCRElems, ih]; rfl

theorem deleteCRMembers_eq_map (ms : List (String × Doc)) :
    deleteCRMembers ms = ms.map fun e => (stripCR e.1, deleteCR e.2) := by
  induction ms with
  | nil => rfl
  | cons e es ih => obtain ⟨k, d⟩ := e; rw [deleteCRMembers, ih]; rfl

theorem keyOrderKeptElems_iff (xs : List Doc) :
    keyOrderKeptElems xs = true ↔ ∀ d ∈ xs, keyOrderKept d = true := by
  induction xs with
  | nil => simp [keyOrderKeptElems]
  | cons d ds ih => simp [keyOrderKeptElems, ih]

theorem keyOrderKeptMembers_iff (ms : List (String × Doc)) :
    keyOrderKeptMembers ms = true ↔ ∀ e ∈ ms, keyOrderKept e.2 = true := by
  induction ms with
  | nil => simp [keyOrderKeptMembers]
  | cons e es ih => obtain ⟨k, d⟩ := e; simp [keyOrderKeptMembers, ih]

theorem replace_encodeChar (c : Char) (hc : c ≠ '\\') :
    replaceBackslashR (encodeChar c) = if c = '\r' then [] else encodeChar c := by
  by_cases h : c = '\r'
  · subst h
    rfl
  · rw [if_neg h]
    exact replaceBackslashR_of_not_has _ (untouched_encodeChar c hc h).2

theorem replace_encodeBody (s : Text) (hs : ∀ c ∈ s, c ≠ '\\') (rest : Text) :
    replaceBackslashR (encodeBody s ++ rest) =
      encodeBody (s.filter fun c => c != '\r') ++ replaceBackslashR rest := by
  induction s with
  | nil => rfl
  | cons c cs ih =>
    have hc := hs c (List.mem_cons_self _ _)
    rw [encodeBody, List.append_assoc, replace_append_of_escaped _ _ (escaped_encodeChar c hc),
      replace_encodeChar c hc, ih fun x hx => hs x (List.mem_cons_of_mem _ hx)]
    by_cases h : c = '\r'
    · subst h
      rfl
    · rw [if_neg h, List.filter_cons_of_pos (by simpa using h), encodeBody, List.append_assoc]

theorem replace_encodeString (s : Text) (hs : backslashFree s = true) (rest : Text) :
    replaceBackslashR (encodeString s ++ rest) =
      encodeString (s.filter fun c => c != '\r') ++ replaceBackslashR rest := by
  have hs' := (backslashFree_iff s).1 hs
  rw [encodeString, List.cons_append, replaceBackslashR_cons_of_ne _ _ (by decide),
    List.append_assoc, replace_encodeBody s hs', List.singleton_append,
    replaceBackslashR_cons_of_ne _ _ (by decide)]
  simp [encodeString]

theorem replace_of_forall_ne (t : Text) (h : ∀ c ∈ t, c ≠ '\\') : replaceBackslashR t = t :=
  replaceBackslashR_of_not_has _ (hasBackslashR_of_forall_ne t h)

theorem replace_joinWith (sep : Text) (hsep : ∀ c ∈ sep, c ≠ '\\') (ts : List Text)
    (hts : ∀ t ∈ ts, escaped t = true) :
    escaped (joinWith sep ts) = true ∧
      replaceBackslashR (joinWith sep ts) = joinWith sep (ts.map replaceBackslashR) := by
  induction ts with
  | nil => exact ⟨rfl, rfl⟩
  | cons t ts ih =>
    have ht := hts t (List.mem_cons_self _ _)
    have ih' := ih fun x hx => hts x (List.mem_cons_of_mem _ hx)
    cases ts with
    | nil => exact ⟨ht, rfl⟩
    | cons t2 ts =>
      have hse := escaped_of_forall_ne sep hsep
      refine ⟨(escaped_append _ _ (escaped_append _ _ ht hse) ih'.1 :), ?_⟩
      have ej : joinWith sep (t :: t2 :: ts) = t ++ sep ++ joinWith sep (t2 :: ts) := rfl
      rw [ej, replace_append_of_escaped _ _ (escaped_append _ _ ht hse),
        replace_append_of_escaped _ _ ht, replace_of_forall_ne sep hsep, ih'.2]
      rfl

theorem replace_bracket (o c : Char) (ho : o ≠ '\\') (hc : c ≠ '\\') (w1 w2 : Text)
    (hw1 : ∀ x ∈ w1, x ≠ '\\') (hw2 : ∀ x ∈ w2, x ≠ '\\') (items : List Text)
    (hit : ∀ t ∈ items, escaped t = true) :
    replaceBackslashR (o :: (w1 ++ joinWith (',' :: w1) items ++ w2 ++ [c])) =
      o :: (w1 ++ joinWith (',' :: w1) (items.map replaceBackslashR) ++ w2 ++ [c]) := by
  have hsep : ∀ x ∈ ',' :: w1, x ≠ '\\' := by
    intro x hx
    rcases List.mem_cons.1 hx with rfl | hx
    · decide
    · exact hw1 x hx
  obtain ⟨hj, hr⟩ := replace_joinWith (',' :: w1) hsep items hit
  have e1 := escaped_of_forall_ne w1 hw1
  have e2 := escaped_of_forall_ne w2 hw2
  rw [replaceBackslashR_cons_of_ne _ _ ho, List.append_assoc, List.append_assoc,
    replace_append_of_escaped _ _ e1, replace_append_of_escaped _ _ hj,
    replace_append_of_escaped _ _ e2, replace_of_forall_ne w1 hw1, replace_of_forall_ne w2 hw2,
    hr, replace_of_forall_ne [c] (by simpa using hc)]
  simp

theorem brk_no_backslash (sp : Option Nat) : ∀ x ∈ brk sp, x ≠ '\\' := by
  intro x hx
  have := allSpace_brk sp x hx
  rintro rfl
  exact absurd this (by decide)

theorem gap_no_backslash (sp : Option Nat) : ∀ x ∈ gap sp, x ≠ '\\' := by
  intro x hx
  have := allSpace_gap sp x hx
  rintro rfl
  exact absurd this (by decide)

theorem insertMember_map_of_order {α β : Type} (g : String × α → String × β)
    (e : String × α) (l : List (String × α))
    (h : ∀ x ∈ l, keyLess (g x).1.toList (g e).1.toList = keyLess x.1.toList e.1.toList) :
    insertMember (g e) (l.map g) = (insertMember e l).map g := by
  induction l with
  | nil => rfl
  | cons f fs ih =>
    have hf := h f (List.mem_cons_self _ _)
    have ih' := ih fun x hx => h x (List.mem_cons_of_mem _ hx)
    cases hk : keyLess f.1.toList e.1.toList with
    | true =>
      simp only [List.map_cons, insertMember, hf, hk, if_true]
      rw [ih']
    | false =>
      simp only [List.map_cons, insertMember, hf, hk, Bool.false_eq_true, if_false]

theorem sortMembers_map_of_order {α β : Type} (g : String × α → String × β)
    (l : List (String × α))
    (h : ∀ x ∈ l, ∀ y ∈ l,
      keyLess (g x).1.toList (g y).1.toList = keyLess x.1.toList y.1.toList) :
    sortMembers (l.map g) = (sortMembers l).map g := by
  induction l with
  | nil => rfl
  | cons e es ih =>
    rw [List.map_cons, sortMembers, sortMembers,
      ih fun x hx y hy => h x (List.mem_cons_of_mem _ hx) y (List.mem_cons_of_mem _ hy)]
    refine insertMember_map_of_order g e _ fun x hx => ?_
    exact h x (List.mem_cons_of_mem _ ((sortMembers_perm es).mem_iff.1 hx)) e
      (List.mem_cons_self _ _)

theorem keysKeepOrder_iff (ms : List (String × Doc)) :
    keysKeepOrder ms = true ↔ ∀ x ∈ ms, ∀ y ∈ ms,
      keyLess (stripCR x.1).toList (stripCR y.1).toList = keyLess x.1.toList y.1.toList := by
  simp [keysKeepOrder, List.all_eq_true]

theorem formatInt_no_backslash (n : Int) : ∀ c ∈ formatInt n, c ≠ '\\' := by
  intro c hc
  rcases formatInt_chars n c hc with h | rfl
  · rintro rfl
    exact absurd h (by decide)
  · decide

/-- On a document without backslashes whose keys keep their order, the
sanitation pass turns the text of the document into the text of the document
without carriage returns. -/
theorem replace_layout (d : Doc) :
    allStrings backslashFree d = true → keyOrderKept d = true →
      ∀ sp, replaceBackslashR (layout sp d) = layout sp (deleteCR d) := by
  induction d using Doc.induct' with
  | hnull => intro _ _ sp; rfl
  | hbool b => intro _ _ sp; cases b <;> rfl
  | hnum n => intro _ _ sp; exact replace_of_forall_ne _ (formatInt_no_backslash n)
  | hfloat f =>
    intro _ _ sp
    exact replace_of_forall_ne _ fun c hc => numberChar_ne_backslash (text_numberChar f c hc)
  | hstr s =>
    intro hb _ sp
    have h := replace_encodeString s.toList (by simpa [allStrings] using hb) []
    rw [List.append_nil, replaceBackslashR_nil, List.append_nil] at h
    rw [layout, h, deleteCR, layout, stripCR_toList]
  | harr xs ih =>
    intro hb hk sp
    have hbx : ∀ d ∈ xs, allStrings backslashFree d = true :=
      (allStringsElems_iff _ xs).1 (by simpa [allStrings] using hb)
    have hkx : ∀ d ∈ xs, keyOrderKept d = true :=
      (keyOrderKeptElems_iff xs).1 (by simpa [keyOrderKept] using hk)
    rw [deleteCR, deleteCRElems_eq_map, layout_arr, layout_arr, List.map_map]
    cases xs with
    | nil => rfl
    | cons d ds =>
      have hm : ((d :: ds).map (layout (deeper sp))).map replaceBackslashR =
          (d :: ds).map (layout (deeper sp) ∘ deleteCR) := by
        rw [List.map_map]
        exact List.map_congr_left fun x hx => ih x hx (hbx x hx) (hkx x hx) (deeper sp)
      have hr := replace_bracket '[' ']' (by decide) (by decide) (brk (deeper sp)) (brk sp)
        (brk_no_backslash _) (brk_no_backslash _) ((d :: ds).map (layout (deeper sp)))
        (fun t ht => by
          obtain ⟨x, hx, rfl⟩ := List.mem_map.1 ht
          exact escaped_layout x (hbx x hx) _)
      rw [hm] at hr
      exact hr
  | hobj ms ih =>
    intro hb hk sp
    have hbx : ∀ e ∈ ms, backslashFree e.1.toList = true ∧ allStrings backslashFree e.2 = true :=
      (allStringsMembers_iff _ ms).1 (by simpa [allStrings] using hb)
    have hk' : keysKeepOrder ms = true ∧ keyOrderKeptMembers ms = true := by
      simpa [keyOrderKept] using hk
    have hkx : ∀ e ∈ ms, keyOrderKept e.2 = true := (keyOrderKeptMembers_iff ms).1 hk'.2
    rw [deleteCR, deleteCRMembers_eq_map, layout_obj, layout_obj,
      sortMembers_map_of_order (fun e => (stripCR e.1, deleteCR e.2)) ms
        ((keysKeepOrder_iff ms).1 hk'.1), List.map_map]
    have hmem : ∀ e ∈ sortMembers ms, e ∈ ms := fun e he => (sortMembers_perm ms).mem_iff.1 he
    generalize sortMembers ms = l at hmem
    cases l with
    | nil => rfl
    | cons m l =>
      have hm : (((m :: l).map fun x => (x.1, layout (deeper sp) x.2)).map
            (layoutMember (deeper sp))).map replaceBackslashR =
          ((m :: l).map ((fun x => (x.1, layout (deeper sp) x.2)) ∘
            fun e => (stripCR e.1, deleteCR e.2))).map (layoutMember (deeper sp)) := by
        rw [List.map_map, List.map_map, List.map_map]
        refine List.map_congr_left fun x hx => ?_
        have hx' := hbx x (hmem x hx)
        simp only [Function.comp, layoutMember]
        rw [replace_encodeString _ hx'.1,
          replaceBackslashR_cons_of_ne _ _ (by decide),
          replace_append_of_escaped _ _ (escaped_of_forall_ne _ (gap_no_backslash _)),
          replace_of_forall_ne _ (gap_no_backslash _),
          ih x (hmem x hx) hx'.2 (hkx x (hmem x hx)) (deeper sp)]
        rfl
      have hr := replace_bracket '{' '}' (by decide) (by decide) (brk (deeper sp)) (brk sp)
        (brk_no_backslash _) (brk_no_backslash _)
        (((m :: l).map fun x => (x.1, layout (deeper sp) x.2)).map (layoutMember (deeper sp)))
        (fun t ht => by
          obtain ⟨y, hy, rfl⟩ := List.mem_map.1 ht
          obtain ⟨x, hx, rfl⟩ := List.mem_map.1 hy
          have hx' := hbx x (hmem x hx)
          have e1 := escaped_encodeString _ hx'.1
          have e2 : escaped [':'] = true := rfl
          have e3 := escaped_of_forall_ne _ (gap_no_backslash (deeper sp))
          have e4 := escaped_layout x.2 hx'.2 (deeper sp)
          exact escaped_append _ _ e1 (escaped_append _ _ e2 (escaped_append _ _ e3 e4)))
      rw [hm] at hr
      exact hr
  | huns t => intro _ _ sp; rfl

theorem supported_deleteCR (d : Doc) : supported (deleteCR d) = true ↔ supported d = true := by
  induction d using Doc.induct' with
  | hnull => exact Iff.rfl
  | hbool b => exact Iff.rfl
  | hnum n => exact Iff.rfl
  | hfloat f => exact Iff.rfl
  | hstr s => exact Iff.rfl
  | harr xs ih =>
    rw [deleteCR, deleteCRElems_eq_map, supported, supported, supportedElems_iff,
      supportedElems_iff]
    constructor
    · intro h d hd
      exact (ih d hd).1 (h _ (List.mem_map_of_mem _ hd))
    · intro h y hy
      obtain ⟨x, hx, rfl⟩ := List.mem_map.1 hy
      exact (ih x hx).2 (h x hx)
  | hobj ms ih =>
    rw [deleteCR, deleteCRMembers_eq_map, supported, supported, supportedMembers_iff,
      supportedMembers_iff]
    constructor
    · intro h e he
      exact (ih e he).1 (h _ (List.mem_map_of_mem _ he))
    · intro h y hy
      obtain ⟨x, hx, rfl⟩ := List.mem_map.1 hy
      exact (ih x hx).2 (h x hx)
  | huns t => exact Iff.rfl

theorem nesting_deleteCR (d : Doc) : nesting (deleteCR d) = nesting d := by
  induction d using Doc.induct' with
  | hnull => rfl
  | hbool b => rfl
  | hnum n => rfl
  | hfloat f => rfl
  | hstr s => rfl
  | harr xs ih =>
    rw [deleteCR, deleteCRElems_eq_map, nesting, nesting]
    congr 1
    induction xs with
    | nil => rfl
    | cons x xs ihx =>
      rw [List.map_cons, nestingElems, nestingElems, ih x (List.mem_cons_self _ _),
        ihx fun d hd => ih d (List.mem_cons_of_mem _ hd)]
  | hobj ms ih =>
    rw [deleteCR, deleteCRMembers_eq_map, nesting, nesting]
    congr 1
    induction ms with
    | nil => rfl
    | cons x ms ihx =>
      obtain ⟨k, v⟩ := x
      rw [List.map_cons, nestingMembers, nestingMembers, ih (k, v) (List.mem_cons_self _ _),
        ihx fun d hd => ih d (List.mem_cons_of_mem _ hd)]
  | huns t => rfl

/-- The text of the document without carriage returns is left as it is by the
sanitation pass. -/
theorem layout_deleteCR_clean (d : Doc) (hb : allStrings backslashFree d = true)
    (hk : keyOrderKept d = true) (sp : Option Nat) :
    escaped (layout sp (deleteCR d)) = true ∧
      replaceBackslashR (layout sp (deleteCR d)) = layout sp (deleteCR d) := by
  rw [← replace_layout d hb hk sp]
  have h := replace_clean _ (escaped_layout d hb sp)
  exact ⟨h.1, replaceBackslashR_of_not_has _ h.2⟩

theorem replace_rawSection (f : String) (hf : backslashFree f.toList = true) (p : Text) :
    replaceBackslashR (rawSection f p) = f.toList ++ '\n' :: (replaceBackslashR p ++ ['\n']) := by
  rw [rawSection, replaceBackslashR_append_newline, replaceBackslashR_snoc_newline,
    replace_of_forall_ne _ ((backslashFree_iff _).1 hf)]

theorem replace_single (id : String) (hid : backslashFree id.toList = true) (x : Doc)
    (hx : escaped (layout (some 1) x) = true) :
    replaceBackslashR (layout (some 0) (.obj [(id, x)])) =
      '{' :: (nl 1 ++ (encodeString (id.toList.filter fun c => c != '\r') ++
        ':' :: ' ' :: replaceBackslashR (layout (some 1) x)) ++ nl 0 ++ ['}']) := by
  have e1 := escaped_encodeString _ hid
  have e2 : escaped [':'] = true := rfl
  have e3 : escaped [' '] = true := rfl
  have hitem : escaped (encodeString id.toList ++ ':' :: (' ' :: layout (some 1) x)) = true :=
    escaped_append _ _ e1 (escaped_append _ _ e2 (escaped_append _ _ e3 hx))
  have hr := replace_bracket '{' '}' (by decide) (by decide) (nl 1) (nl 0)
    (brk_no_backslash (some 1)) (brk_no_backslash (some 0))
    [encodeString id.toList ++ ':' :: (' ' :: layout (some 1) x)]
    (fun t ht => by rw [List.mem_singleton.1 ht]; exact hitem)
  rw [layout_single]
  simp only [deeper, brk, gap, joinWith, List.map_cons, List.map_nil, List.singleton_append]
    at hr ⊢
  rw [hr, replace_encodeString _ hid, replaceBackslashR_cons_of_ne _ _ (by decide),
    replaceBackslashR_cons_of_ne _ _ (by decide)]

/-! ## The claims on shapes, errors, frame, indentation and order -/

/-- C11 (as stated, refuted): for the one-entry set with identifier `a` whose
document is the object with the one member `k` holding the string of the single
character U+2028, none of the three strings has a quote, backslash, control
character, `<`, `>` or `&`, and yet the report is not the identifier, a line
break and the object with `k` and the string quoted as they are: the encoder
writes U+2028 as the six characters of its `\u` escape. -/
theorem flat_object_counterexample :
    ("a".toList.all needsNoEscape = true ∧ "k".toList.all needsNoEscape = true ∧
      "\u2028".toList.all needsNoEscape = true) ∧
    parseConfigurations false [("a", .obj [("k", .str "\u2028")])] =
      ("a\n\x7b\n\t\"k\": \"\\u2028\"\n\x7d\n".toList, none) ∧
    parseConfigurations false [("a", .obj [("k", .str "\u2028")])] ≠
      (flatObjectReport "a".toList "k".toList "\u2028".toList, none) := by
  decide

/-- C11 (amended): for a one-entry set whose document is an object with one
string-valued member, where the identifier, the key and the value have no
quote, backslash, control character, `<`, `>` or `&`, and the key and the value
moreover no U+2028 and no U+2029, the run without combine succeeds and the
report is the identifier, a line break, an opening brace, a line break, a tab,
the quoted key, a colon, a space, the quoted value, a line break, a closing
brace and a line break. -/
theorem flat_object_shape (id k v : String)
    (hid : id.toList.all needsNoEscape = true)
    (hk : k.toList.all (fun c => needsNoEscape c && !isLineSeparator c) = true)
    (hv : v.toList.all (fun c => needsNoEscape c && !isLineSeparator c) = true) :
    parseConfigurations false [(id, .obj [(k, .str v)])] =
      (flatObjectReport id.toList k.toList v.toList, none) := by
  simp only [List.all_eq_true, Bool.and_eq_true, Bool.not_eq_true'] at hid hk hv
  rw [single_report id _ (by simp [renderable, supported, supportedMembers, nesting,
    nestingMembers, maxNestingDepth]), layout_single]
  simp only [layout, encodeString, encodeBody_plain _ hk, encodeBody_plain _ hv]
  have e : rawSection id ('{' :: (brk (deeper (some 0)) ++ ('"' :: (k.toList ++ ['"']) ++
      ':' :: (gap (deeper (some 0)) ++ '"' :: (v.toList ++ ['"']))) ++ brk (some 0) ++ ['}'])) =
      flatObjectReport id.toList k.toList v.toList := by
    simp [rawSection, flatObjectReport, brk, deeper, gap, nl]
  rw [e]
  congr 1
  apply replaceBackslashR_of_not_has
  apply hasBackslashR_of_forall_ne
  intro c hc
  simp only [flatObjectReport, List.mem_append] at hc
  rcases hc with ((((hc | hc) | hc) | hc) | hc) | hc
  · exact needsNoEscape_ne_backslash (hid c hc)
  · revert hc; revert c; decide
  · exact needsNoEscape_ne_backslash (hk c hc).1
  · revert hc; revert c; decide
  · exact needsNoEscape_ne_backslash (hv c hc).1
  · revert hc; revert c; decide

theorem flat_object_shape_witness :
    ("a.yaml".toList.all needsNoEscape = true ∧
      "name".toList.all (fun c => needsNoEscape c && !isLineSeparator c) = true ∧
      "x".toList.all (fun c => needsNoEscape c && !isLineSeparator c) = true) ∧
    parseConfigurations false [("a.yaml", .obj [("name", .str "x")])] =
      ("a.yaml\n\x7b\n\t\"name\": \"x\"\n\x7d\n".toList, none) :=
  ⟨by decide, flat_object_shape "a.yaml" "name" "x" (by decide) (by decide) (by decide)⟩

/-- C12 (as stated, refuted): the document made of 10001 arrays nested in one
another is built from sequences only, every value in it has an encoding, and
yet the run on the one-entry set holding it returns an error in both modes:
`json.Marshal` succeeds and `json.Indent` stops on the array that is nested
too deep, with the error `invalid character '[' exceeded max depth`. -/
theorem failure_counterexample :
    supported (nestedArrays 10000) = true ∧
    parseConfigurations false [("a.yaml", nestedArrays 10000)] =
      ([], some (.wrap "indentation: " (.base "invalid character '[' exceeded max depth"))) ∧
    parseConfigurations true [("a.yaml", nestedArrays 10000)] =
      ([], some (.wrap "indentation: " (.base "invalid character '[' exceeded max depth"))) ∧
    (GoError.wrap "indentation: " (.base "invalid character '[' exceeded max depth")).message =
      "indentation: invalid character '[' exceeded max depth" :=
  ⟨supported_nestedArrays _, nestedArrays_deep false _ _ (by decide),
    nestedArrays_deep true _ _ (by decide), by decide⟩

/-- C12 (amended): in either mode `parseConfigurations` returns an error
exactly when some document of the set contains a value that `json.Marshal` has
no encoding for (a value of an unsupported type, NaN or an infinity), or nests
arrays and objects deeper than the scanner of `json.Indent` allows
(`maxNestingDepth`, the enclosing object of the combined mode counted); a set
of documents built from null, booleans, finite numbers, strings, sequences and
string-keyed mappings only, nested within that bound, therefore succeeds; and
the error, when there is one, is the error of `json.Marshal` wrapped, or the
error of `json.Indent` for the array or the object that is nested too deep,
wrapped, returned with the empty text. -/
theorem failure_iff_unrenderable (combine : Bool) (cfg : List (String × Doc)) :
    ((parseConfigurations combine cfg).2 ≠ none ↔
      ∃ e ∈ cfg, supported e.2 = false ∨
        maxNestingDepth < nesting e.2 + (if combine = true then 1 else 0)) ∧
    ((parseConfigurations combine cfg).2 = none ↔
      ∀ e ∈ cfg, supported e.2 = true ∧
        nesting e.2 + (if combine = true then 1 else 0) ≤ maxNestingDepth) ∧
    ((parseConfigurations combine cfg).2 = none ∨
      (∃ err, parseConfigurations combine cfg =
        ([], some (.wrap "marshal output to json: " err))) ∨
      parseConfigurations combine cfg =
        ([], some (.wrap "indentation: " (.base "invalid character '[' exceeded max depth"))) ∨
      parseConfigurations combine cfg =
        ([], some (.wrap "indentation: "
          (.base "invalid character '\x7b' exceeded max depth")))) := by
  refine ⟨?_, result_ok_iff combine cfg, ?_⟩
  · rw [Ne, result_ok_iff]
    constructor
    · intro h
      by_contra hc
      push_neg at hc
      refine h fun e he => ⟨?_, ?_⟩
      · have := (hc e he).1
        simpa using this
      · exact (hc e he).2
    · rintro ⟨e, he, h | h⟩ hall
      · rw [(hall e he).1] at h
        cases h
      · exact absurd (hall e he).2 (by omega)
  · rcases result_error_form combine cfg with h | ⟨err, (⟨e, rfl⟩ | ⟨c, rfl | rfl, rfl⟩), he⟩
    · exact Or.inl h
    · exact Or.inr (Or.inl ⟨e, he⟩)
    · exact Or.inr (Or.inr (Or.inl he))
    · exact Or.inr (Or.inr (Or.inr he))

theorem failure_iff_unrenderable_witness :
    ((parseConfigurations false
        [("a.yaml", .obj [("k", .arr [.num 1, .float .oneAndHalf, .null])]),
          ("b.yaml", .float .nan)]).2 ≠ none ↔
      ∃ e ∈ [("a.yaml", Doc.obj [("k", .arr [.num 1, .float .oneAndHalf, .null])]),
          ("b.yaml", Doc.float .nan)],
        supported e.2 = false ∨
          maxNestingDepth < nesting e.2 + (if false = true then 1 else 0)) ∧
    parseConfigurations false
        [("a.yaml", .obj [("k", .arr [.num 1, .float .oneAndHalf, .null])]),
          ("b.yaml", .float .nan)] =
      ([], some (.wrap "marshal output to json: " (.base "json: unsupported value: NaN"))) ∧
    parseConfigurations true
        [("a.yaml", .obj [("k", .arr [.num 1, .float .oneAndHalf, .float .tiny])])] =
      ("Combined\n\x7b\n\t\"a.yaml\": \x7b\n\t\t\"k\": [\n\t\t\t1,\n\t\t\t1.5,\n\t\t\t-2.5e-7\n\t\t]\n\t\x7d\n\x7d\n".toList,
        none) :=
  ⟨(failure_iff_unrenderable false
      [("a.yaml", .obj [("k", .arr [.num 1, .float .oneAndHalf, .null])]),
        ("b.yaml", .float .nan)]).1,
    by decide, by decide⟩

/-- C13: in either mode, whenever `parseConfigurations` returns an error the
returned text is empty, whatever had been rendered before the failing
document. -/
theorem no_partial_report (combine : Bool) (cfg : List (String × Doc))
    (h : (parseConfigurations combine cfg).2 ≠ none) :
    (parseConfigurations combine cfg).1 = [] := by
  rcases result_error_form combine cfg with h1 | ⟨e, _, he⟩
  · exact absurd h1 h
  · rw [he]

theorem no_partial_report_witness :
    (parseConfigurations false [("a.yaml", .null)]).1 = "a.yaml\nnull\n".toList ∧
    (parseConfigurations false [("a.yaml", .null), ("b.yaml", .unsupported "chan int")]).2 ≠
      none ∧
    (parseConfigurations false [("a.yaml", .null), ("b.yaml", .unsupported "chan int")]).1 = [] :=
  ⟨by decide, by decide,
    no_partial_report false [("a.yaml", .null), ("b.yaml", .unsupported "chan int")] (by decide)⟩

/-- C14: when the resolver fails with `e`, `parseInput` returns the empty text
and the error `e` wrapped with the context `calling the parser method: `, whose
message is that context followed by the message of `e` and whose cause is `e`;
the result does not depend on the combine flag or on anything the aggregation
would compute.  When the resolver returns the set `c`, `parseInput` returns the
text of `parseConfigurations` on `c`, or the empty text and its error wrapped
with the context `parsing configs: `. -/
theorem resolution_short_circuit
    (getConfigurations : String → List String → Except GoError (List (String × Doc)))
    (combine : Bool) (input : String) (fileList : List String) :
    (∀ e, getConfigurations input fileList = .error e →
      parseInput getConfigurations combine input fileList =
        ([], some (.wrap "calling the parser method: " e)) ∧
      (GoError.wrap "calling the parser method: " e).message =
        "calling the parser method: " ++ e.message ∧
      (GoError.wrap "calling the parser method: " e).unwrap = some e) ∧
    (∀ c, getConfigurations input fileList = .ok c →
      ((parseConfigurations combine c).2 = none →
        parseInput getConfigurations combine input fileList =
          ((parseConfigurations combine c).1, none)) ∧
      (∀ err, (parseConfigurations combine c).2 = some err →
        parseInput getConfigurations combine input fileList =
          ([], some (.wrap "parsing configs: " err)))) := by
  refine ⟨fun e he => ⟨?_, rfl, rfl⟩, fun c hc => ⟨fun h => ?_, fun err h => ?_⟩⟩
  · simp only [parseInput, he]
  · simp only [parseInput, hc]
    rcases hp : parseConfigurations combine c with ⟨t, _ | e⟩
    · rfl
    · rw [hp] at h
      cases h
  · simp only [parseInput, hc]
    rcases hp : parseConfigurations combine c with ⟨t, _ | e⟩
    · rw [hp] at h
      cases h
    · rw [hp] at h
      cases h
      rfl

theorem resolution_short_circuit_witness :
    parseInput (fun _ _ => .error (.base "open x.yaml: no such file or directory")) true ""
        ["x.yaml"] =
      ([], some (.wrap "calling the parser method: "
        (.base "open x.yaml: no such file or directory"))) ∧
    parseInput (fun _ _ => .ok [("a.yaml", .null)]) false "" ["a.yaml"] =
      ("a.yaml\nnull\n".toList, none) ∧
    parseInput (fun _ _ => .ok [("a.yaml", .unsupported "chan int")]) false "" ["a.yaml"] =
      ([], some (.wrap "parsing configs: "
        (.wrap "marshal output to json: " (.base "json: unsupported type: chan int")))) :=
  ⟨((resolution_short_circuit
      (fun _ _ => .error (.base "open x.yaml: no such file or directory")) true ""
      ["x.yaml"]).1 _ rfl).1,
    ((resolution_short_circuit (fun _ _ => .ok [("a.yaml", .null)]) false ""
      ["a.yaml"]).2 _ rfl).1 (by decide),
    ((resolution_short_circuit (fun _ _ => .ok [("a.yaml", .unsupported "chan int")]) false ""
      ["a.yaml"]).2 _ rfl).2 _ (by decide)⟩

/-- C15: for every text the sanitation pass only deletes characters (its
result is a subsequence of the text) and the characters other than the
backslash and the letter `r` are the same, in the same order, before and after;
braces, brackets, comma, colon, double quote, line break and tab are among
them; and in either mode the report of a run that succeeds has the same such
characters as the unsanitized text of the labels and pretty-printed blocks. -/
theorem structure_survives :
    (∀ t : Text, (replaceBackslashR t).Sublist t ∧
      (replaceBackslashR t).filter survives = t.filter survives) ∧
    (∀ c ∈ ['{', '}', '[', ']', ',', ':', '"', '\n', '\t'], survives c = true) ∧
    (∀ (combine : Bool) (cfg : List (String × Doc)), (parseConfigurations combine cfg).2 = none →
      (parseConfigurations combine cfg).1.filter survives =
        (rawReport combine cfg).filter survives) :=
  ⟨fun t => ⟨replace_sublist t, replace_filter t⟩, by decide, report_filter⟩

theorem structure_survives_witness :
    (parseConfigurations false [("r\\r.yaml", .arr [.str "a\rb", .str "\\r"])]).1 =
      "r.yaml\n[\n\t\"ab\",\n\t\"\\\"\n]\n".toList ∧
    rawReport false [("r\\r.yaml", .arr [.str "a\rb", .str "\\r"])] =
      "r\\r.yaml\n[\n\t\"a\\rb\",\n\t\"\\\\r\"\n]\n".toList ∧
    (parseConfigurations false [("r\\r.yaml", .arr [.str "a\rb", .str "\\r"])]).1.filter
        survives =
      (rawReport false [("r\\r.yaml", .arr [.str "a\rb", .str "\\r"])]).filter survives :=
  ⟨by decide, by decide,
    structure_survives.2.2 false [("r\\r.yaml", .arr [.str "a\rb", .str "\\r"])] (by decide)⟩

/-- C16: the pretty-printed block of a document is the document written in the
output format; its first line starts at depth 0 and every later line starts
with exactly as many tabs as arrays and objects are open where its first token
stands (one less for a closing bracket), followed by a character that is not
white space; an empty object is written `{}` and an empty array `[]`, at any
depth. -/
theorem tab_indentation (d : Doc) (p : Text) (h : prettyJSON? d = some p) :
    p = layout (some 0) d ∧ lineStart 0 p = true ∧ tabIndented 0 .outside p = true ∧
    (∀ sp, layout sp (.obj []) = ['{', '}'] ∧ layout sp (.arr []) = ['[', ']']) ∧
    prettyJSON? (.obj []) = some ['{', '}'] ∧ prettyJSON? (.arr []) = some ['[', ']'] := by
  obtain ⟨hr, rfl⟩ := (prettyJSON?_eq_some_iff d p).1 h
  have hs := renderable_supported hr
  refine ⟨rfl, ?_, ?_, fun sp => ⟨rfl, rfl⟩, by decide, by decide⟩
  · obtain ⟨c, t1, e, hk⟩ := layout_head d hs (some 0)
    have h7 := charKind_spec (hk ▸ docKind_supported hs)
    rw [e]
    have := lineStart_tabs 0 0 c t1 h7.1
    simp only [List.replicate_zero, List.nil_append] at this
    rw [this, if_neg h7.2]
    rfl
  · have := passesCheck_of_supported d hs 0 []
    simpa [tabIndented] using this

theorem tab_indentation_witness :
    prettyJSON? (.obj [("a", .arr [.num 1, .obj []]), ("b", .str "x")]) =
      some "\x7b\n\t\"a\": [\n\t\t1,\n\t\t\x7b\x7d\n\t],\n\t\"b\": \"x\"\n\x7d".toList ∧
    lineStart 0 "\x7b\n\t\"a\": [\n\t\t1,\n\t\t\x7b\x7d\n\t],\n\t\"b\": \"x\"\n\x7d".toList = true ∧
    tabIndented 0 .outside
      "\x7b\n\t\"a\": [\n\t\t1,\n\t\t\x7b\x7d\n\t],\n\t\"b\": \"x\"\n\x7d".toList = true :=
  have h := tab_indentation (.obj [("a", .arr [.num 1, .obj []]), ("b", .str "x")])
    "\x7b\n\t\"a\": [\n\t\t1,\n\t\t\x7b\x7d\n\t],\n\t\"b\": \"x\"\n\x7d".toList (by decide)
  ⟨by decide, h.2.1, h.2.2.1⟩

/-- C17 (as stated, refuted): the one-entry set with identifier `a` whose
document is the object with the keys carriage return followed by `b`, and `a`,
has no backslash anywhere; its report lists `b` before `a`, the order of the
keys with the carriage return, while the report of the set without the
carriage returns lists `a` before `b`, in both modes. -/
theorem cr_normalized_counterexample :
    (backslashFree "a".toList = true ∧
      allStrings backslashFree (.obj [("\rb", .num 1), ("a", .num 2)]) = true) ∧
    deleteCR (.obj [("\rb", .num 1), ("a", .num 2)]) = .obj [("b", .num 1), ("a", .num 2)] ∧
    parseConfigurations false [("a", .obj [("\rb", .num 1), ("a", .num 2)])] =
      ("a\n\x7b\n\t\"b\": 1,\n\t\"a\": 2\n\x7d\n".toList, none) ∧
    parseConfigurations false [("a", deleteCR (.obj [("\rb", .num 1), ("a", .num 2)]))] =
      ("a\n\x7b\n\t\"a\": 2,\n\t\"b\": 1\n\x7d\n".toList, none) ∧
    (parseConfigurations true [("a", .obj [("\rb", .num 1), ("a", .num 2)])]).1 ≠
      (parseConfigurations true [("a", deleteCR (.obj [("\rb", .num 1), ("a", .num 2)]))]).1 :=
  ⟨by decide, rfl, by decide, by decide, by decide⟩

/-- C17 (amended): for a one-entry set whose source identifier and document
contain no backslash in any string value or key, and in which deleting the
carriage returns keeps the byte-wise order of any two keys of every mapping of
the document, the report in either mode equals the report of the same set with
every carriage return deleted from every string value and key of the document,
and the two runs succeed or fail together. -/
theorem cr_normalized (combine : Bool) (id : String) (d : Doc)
    (hid : backslashFree id.toList = true) (hd : allStrings backslashFree d = true)
    (hk : keyOrderKept d = true) :
    (parseConfigurations combine [(id, d)]).1 =
      (parseConfigurations combine [(id, deleteCR d)]).1 ∧
    ((parseConfigurations combine [(id, d)]).2 = none ↔
      (parseConfigurations combine [(id, deleteCR d)]).2 = none) := by
  have hiff : (parseConfigurations combine [(id, d)]).2 = none ↔
      (parseConfigurations combine [(id, deleteCR d)]).2 = none := by
    rw [result_ok_iff, result_ok_iff]
    simp [supported_deleteCR, nesting_deleteCR]
  refine ⟨?_, hiff⟩
  by_cases hok : (parseConfigurations combine [(id, d)]).2 = none
  · have hok2 := hiff.1 hok
    have hs := renderable_of_ok hok (id, d) (List.mem_singleton.2 rfl)
    have hs2 := renderable_of_ok hok2 (id, deleteCR d) (List.mem_singleton.2 rfl)
    cases combine with
    | false =>
      rw [single_report id d hs, single_report id _ hs2, replace_rawSection id hid,
        replace_rawSection id hid, replace_layout d hd hk, (layout_deleteCR_clean d hd hk _).2]
    | true =>
      rw [combined_of_renderable _ ((combined_ok_iff_renderable _).1 hok),
        combined_of_renderable _ ((combined_ok_iff_renderable _).1 hok2),
        replace_single id hid d (escaped_layout d hd _),
        replace_single id hid _ (layout_deleteCR_clean d hd hk _).1,
        replace_layout d hd hk, (layout_deleteCR_clean d hd hk _).2]
  · have h2 : (parseConfigurations combine [(id, deleteCR d)]).2 ≠ none :=
      fun h => hok (hiff.2 h)
    rcases result_error_form combine [(id, d)] with h | ⟨e, _, he⟩
    · exact absurd h hok
    · rcases result_error_form combine [(id, deleteCR d)] with h | ⟨e2, _, he2⟩
      · exact absurd h h2
      · rw [he, he2]

theorem cr_normalized_witness :
    (backslashFree "a\r.yaml".toList = true ∧
      allStrings backslashFree (.obj [("k\r", .str "x\r\ny"), ("a", .arr [.str "\r"])]) = true ∧
      keyOrderKept (.obj [("k\r", .str "x\r\ny"), ("a", .arr [.str "\r"])]) = true) ∧
    deleteCR (.obj [("k\r", .str "x\r\ny"), ("a", .arr [.str "\r"])]) =
      .obj [("k", .str "x\ny"), ("a", .arr [.str ""])] ∧
    (parseConfigurations true
        [("a\r.yaml", .obj [("k\r", .str "x\r\ny"), ("a", .arr [.str "\r"])])]).1 =
      (parseConfigurations true
        [("a\r.yaml", deleteCR (.obj [("k\r", .str "x\r\ny"), ("a", .arr [.str "\r"])]))]).1 :=
  ⟨by decide, rfl,
    (cr_normalized true "a\r.yaml" (.obj [("k\r", .str "x\r\ny"), ("a", .arr [.str "\r"])])
      (by decide) (by decide) (by decide)).1⟩

/-- C18: for a set that serializes (source identifiers distinct, as in a map),
any enumeration of the same entries gives the same combined result; the
encoding of the set is the compact form of the output format, the report is
`Combined`, a line break, the sanitized indented form and a line break; and in
that format every object with distinct keys, the top-level one or a nested one,
has its members written in ascending byte-wise order of their keys. -/
theorem combined_order_independent (l1 l2 : List (String × Doc)) (hperm : l1.Perm l2)
    (hnd : (l1.map Prod.fst).Nodup) (hok : (parseConfigurations true l1).2 = none) :
    parseConfigurations true l1 = parseConfigurations true l2 ∧
    Marshal (.obj l1) = .ok (layout none (.obj l1)) ∧
    parseConfigurations true l1 =
      ("Combined\n".toList ++ (replaceBackslashR (layout (some 0) (.obj l1)) ++ ['\n']), none) ∧
    (∀ (sp : Option Nat) (ms : List (String × Doc)), (ms.map Prod.fst).Nodup →
      layout sp (.obj ms) = objectText sp (sortMembers ms) ∧ (sortMembers ms).Perm ms ∧
        ascending ((sortMembers ms).map fun e => e.1.toList) = true) := by
  have hs := (combined_ok_iff_renderable l1).1 hok
  refine ⟨?_, Marshal_ok _ (renderable_supported hs), combined_of_renderable l1 hs,
    fun sp ms h => ⟨layout_objectText sp ms, sortMembers_perm ms, sortMembers_ascending ms h⟩⟩
  simp only [parseConfigurations, if_true]
  rw [Marshal_obj_perm hperm hnd]

theorem combined_order_independent_witness :
    parseConfigurations true
        [("b.yaml", .obj [("z", .num 1), ("a", .num 2)]), ("a.yaml", .null)] =
      ("Combined\n\x7b\n\t\"a.yaml\": null,\n\t\"b.yaml\": \x7b\n\t\t\"a\": 2,\n\t\t\"z\": 1\n\t\x7d\n\x7d\n".toList,
        none) ∧
    parseConfigurations true
        [("b.yaml", .obj [("z", .num 1), ("a", .num 2)]), ("a.yaml", .null)] =
      parseConfigurations true
        [("a.yaml", .null), ("b.yaml", .obj [("z", .num 1), ("a", .num 2)])] :=
  ⟨by decide,
    (combined_order_independent
      [("b.yaml", .obj [("z", .num 1), ("a", .num 2)]), ("a.yaml", .null)]
      [("a.yaml", .null), ("b.yaml", .obj [("z", .num 1), ("a", .num 2)])]
      (List.Perm.swap _ _ _) (by decide) (by decide)).1⟩

/-- C19: in either mode, when the run succeeds on a set in which no source
identifier, string value or key contains a backslash or a carriage return, the
report is exactly the unsanitized text (per source: for every entry the
identifier, a line break, the pretty-printed encoding of the document and a
line break; combined: `Combined`, a line break, the pretty-printed encoding of
the set and a line break), and the sanitation pass leaves that text as it
is. -/
theorem sanitation_noop (combine : Bool) (cfg : List (String × Doc))
    (hok : (parseConfigurations combine cfg).2 = none)
    (hid : ∀ e ∈ cfg, cleanString e.1.toList = true)
    (hdoc : ∀ e ∈ cfg, allStrings cleanString e.2 = true) :
    parseConfigurations combine cfg = (rawReport combine cfg, none) ∧
    replaceBackslashR (rawReport combine cfg) = rawReport combine cfg := by
  have hs := renderable_of_ok hok
  cases combine with
  | false =>
    refine ⟨Prod.ext (report_noop cfg hs hid hdoc) hok, ?_⟩
    exact replaceBackslashR_of_not_has _ (rawReport_untouched cfg hs hid hdoc).2
  | true =>
    have hs' : renderable (.obj cfg) = true := (combined_ok_iff_renderable cfg).1 hok
    have hu := untouched_layout (.obj cfg) (allStrings_obj_of_entries _ cfg hid hdoc) (some 0)
    have hr : rawReport true cfg =
        "Combined\n".toList ++ (layout (some 0) (.obj cfg) ++ ['\n']) := by
      simp [rawReport, prettyJSON?_of_renderable _ hs']
    have h2 : escaped ['\n'] = true ∧ hasBackslashR ['\n'] = false := by decide
    have h3 : escaped "Combined\n".toList = true ∧
        hasBackslashR "Combined\n".toList = false := by
      decide
    refine ⟨?_, ?_⟩
    · rw [combined_of_renderable cfg hs', hr,
        replaceBackslashR_of_not_has _ hu.2]
    · rw [hr]
      exact replaceBackslashR_of_not_has _
        (untouched_append _ _ h3 (untouched_append _ _ hu h2)).2

theorem sanitation_noop_witness :
    rawReport false [("a.yaml", .obj [("name", .str "x")]), ("b.yaml", .arr [])] =
      "a.yaml\n\x7b\n\t\"name\": \"x\"\n\x7d\nb.yaml\n[]\n".toList ∧
    parseConfigurations false [("a.yaml", .obj [("name", .str "x")]), ("b.yaml", .arr [])] =
      (rawReport false [("a.yaml", .obj [("name", .str "x")]), ("b.yaml", .arr [])], none) :=
  ⟨by decide,
    (sanitation_noop false [("a.yaml", .obj [("name", .str "x")]), ("b.yaml", .arr [])]
      (by decide) (by decide) (by decide)).1⟩

end Conftest
